import Mathlib

/-!
PintOS file-system storage engine: buffer cache and indexed inodes

A shallow embedding of `src/filesys/cache.c` and `src/filesys/inode.c`.

* Global variables of the C program become fields of explicit state records that
  every operation takes and returns.
* Sector numbers (`block_sector_t`) are natural numbers, byte offsets (`off_t`)
  are integers; a sector's content is the list of its bytes.
* Locks are omitted: the model is the sequential behaviour of one thread.
* A kernel panic (failed `ASSERT`), an array access outside its bounds and a loop
  that does not finish within its fuel are reported as an explicit `Fault`.
-/

namespace PintOS

/-! ## Basic types and constants -/

/-- Content of one sector, or of any byte buffer: the list of its bytes. -/
abbrev Block := List Nat

/-- Size of a device sector in bytes (`devices/block.h`). -/
def BLOCK_SECTOR_SIZE : Nat := 512

/-- Number of entries of the buffer cache. -/
def MAX_CACHE_CAPACITY : Nat := 64

/-- Ways in which a run of the C code fails to return. -/
inductive Fault where
  | assertion
  | out_of_bounds
  | timeout
deriving DecidableEq

/-- Pointwise update of a total map on natural numbers. -/
def upd {α : Type} (f : Nat → α) (a : Nat) (v : α) : Nat → α :=
  fun x => if x = a then v else f x

/-- The bytes `memcpy (dst, src, BLOCK_SECTOR_SIZE)` stores in a sector-sized destination. -/
def sector_copy (src : Block) : Block := src.take BLOCK_SECTOR_SIZE

/-- A sector of zero bytes (`static char zeros[BLOCK_SECTOR_SIZE]`). -/
def zeros : Block := List.replicate BLOCK_SECTOR_SIZE 0

/-! ## Block device -/

/-- Modelled from the spec: the raw block device (`devices/block.c` is not part of the
sources). Reads and writes of one sector are synchronous, never fail, and each call
increments a device-wide read or write counter. -/
structure Device where
  data : Nat → Block
  read_cnt : Nat
  write_cnt : Nat

/-- Modelled from the spec: `block_read (fs_device, sector, buffer)`. -/
def block_read (d : Device) (sector : Nat) : Block × Device :=
  (d.data sector, { d with read_cnt := d.read_cnt + 1 })

/-- Modelled from the spec: `block_write (fs_device, sector, buffer)`. -/
def block_write (d : Device) (sector : Nat) (buf : Block) : Device :=
  { d with data := upd d.data sector buf, write_cnt := d.write_cnt + 1 }

/-! ## Buffer cache (`cache.c`) -/

/-- One cache entry (`struct entry`), without its lock. -/
structure entry where
  valid : Bool
  dirty : Bool
  sector : Nat
  r_bit : Bool
  disk : Block

/-- The global variables of `cache.c` together with the device `fs_device`.
Only indices below `MAX_CACHE_CAPACITY` of `cache_array` are part of the C array.
The counters `misses` and `hits` are `size_t` (32 bits): an increment wraps at `2 ^ 32`. -/
structure Cache where
  cache_array : Nat → entry
  clock_hand : Nat
  misses : Nat
  hits : Nat
  fs_device : Device

/-- Initialisation `cache_init`: every entry becomes invalid and clean, the clock hand
and both counters become zero. -/
def cache_init (c : Cache) : Cache :=
  { cache_array := fun i =>
      if i < MAX_CACHE_CAPACITY then { c.cache_array i with valid := false, dirty := false }
      else c.cache_array i
    clock_hand := 0
    misses := 0
    hits := 0
    fs_device := c.fs_device }

/-- One iteration of the loop of `cache_flush` on entry `i`. -/
def cache_flush_entry (c : Cache) (i : Nat) : Cache :=
  let e := c.cache_array i
  if e.valid && e.dirty then
    { c with fs_device := block_write c.fs_device e.sector e.disk,
             cache_array := upd c.cache_array i { e with dirty := false } }
  else c

/-- Write-back `cache_flush`: entries `0 .. MAX_CACHE_CAPACITY - 1` in order. -/
def cache_flush (c : Cache) : Cache :=
  (List.range MAX_CACHE_CAPACITY).foldl cache_flush_entry c

/-- The `while (true)` loop of `cache_access`, with `fuel` bounding the number of
iterations. Returns the index of the entry handed to the caller. -/
def cache_access_loop : Nat → Cache → Except Fault (Nat × Cache)
  | 0, _ => .error .timeout
  | fuel + 1, c =>
    if MAX_CACHE_CAPACITY ≤ c.clock_hand then .error .out_of_bounds
    else
      let curr := c.cache_array c.clock_hand
      if !curr.valid then .ok (c.clock_hand, c)
      else if curr.r_bit then
        let c1 := { c with cache_array := upd c.cache_array c.clock_hand { curr with r_bit := false } }
        -- clock_hand = clock_hand == MAX_CACHE_CAPACITY ? clock_hand++ : 0;
        cache_access_loop fuel
          { c1 with clock_hand := if c1.clock_hand = MAX_CACHE_CAPACITY then c1.clock_hand else 0 }
      else
        let c1 :=
          if curr.dirty then
            { c with fs_device := block_write c.fs_device curr.sector curr.disk,
                     cache_array := upd c.cache_array c.clock_hand { curr with dirty := false } }
          else c
        .ok (c.clock_hand,
          { c1 with
            cache_array :=
              upd c1.cache_array c.clock_hand
                { c1.cache_array c.clock_hand with valid := false } })

/-- Eviction `cache_access`; two sweeps over the array bound the scan. -/
def cache_access (c : Cache) : Except Fault (Nat × Cache) :=
  cache_access_loop (2 * MAX_CACHE_CAPACITY) c

/-- The lookup loop shared by `cache_read` and `cache_write`: the first index whose
entry is valid and tagged `sector`. -/
def cache_lookup (c : Cache) (sector : Nat) : Option Nat :=
  (List.range MAX_CACHE_CAPACITY).find?
    (fun i => (c.cache_array i).valid && (c.cache_array i).sector == sector)

/-- Cache write `cache_write (sector, buf)`. -/
def cache_write (c : Cache) (sector : Nat) (buf : Block) : Except Fault Cache :=
  match cache_lookup c sector with
  | some i =>
    .ok { c with hits := (c.hits + 1) % 4294967296,
                 cache_array := upd c.cache_array i
                   { c.cache_array i with r_bit := true, dirty := true, disk := sector_copy buf } }
  | none =>
    match cache_access { c with misses := (c.misses + 1) % 4294967296 } with
    | .error f => .error f
    | .ok (i, c1) =>
      .ok { c1 with
            cache_array := upd c1.cache_array i
              { valid := true, dirty := true, sector := sector, r_bit := true,
                disk := sector_copy buf } }

/-- Cache read `cache_read (sector, buf)`; returns the bytes stored into `buf`. -/
def cache_read (c : Cache) (sector : Nat) : Except Fault (Block × Cache) :=
  match cache_lookup c sector with
  | some i =>
    .ok ((c.cache_array i).disk,
      { c with hits := (c.hits + 1) % 4294967296,
               cache_array := upd c.cache_array i { c.cache_array i with r_bit := true } })
  | none =>
    match cache_access { c with misses := (c.misses + 1) % 4294967296 } with
    | .error f => .error f
    | .ok (i, c1) =>
      let (payload, dev) := block_read c1.fs_device sector
      .ok (payload,
        { c1 with fs_device := dev,
                  cache_array := upd c1.cache_array i
                    { valid := true, dirty := false, sector := sector, r_bit := true,
                      disk := payload } })

/-- Reset `cache_reset`: flush, then clear the hand, the counters and every valid bit. -/
def cache_reset (c : Cache) : Cache :=
  let c1 := cache_flush c
  { c1 with clock_hand := 0, misses := 0, hits := 0,
            cache_array := fun i =>
              if i < MAX_CACHE_CAPACITY then { c1.cache_array i with valid := false }
              else c1.cache_array i }

/-- Hit counter `get_cache_hit`; the `size_t` counter is returned as an `int`. -/
def get_cache_hit (c : Cache) : Int :=
  if c.hits < 2147483648 then (c.hits : Int) else (c.hits : Int) - 4294967296

/-- Miss counter `get_cache_miss`; the `size_t` counter is returned as an `int`. -/
def get_cache_miss (c : Cache) : Int :=
  if c.misses < 2147483648 then (c.misses : Int) else (c.misses : Int) - 4294967296

/-- Logical content of a sector: the payload of the valid entry tagged with it when
there is one, the device content otherwise. -/
def logical (c : Cache) (s : Nat) : Block :=
  match cache_lookup c s with
  | some i => (c.cache_array i).disk
  | none => c.fs_device.data s

/-- Cache states reachable from `cache_init` through the public operations. -/
inductive Reachable : Cache → Prop where
  | init (c : Cache) : Reachable (cache_init c)
  | read {c c1 : Cache} {s : Nat} {b : Block} :
      Reachable c → cache_read c s = .ok (b, c1) → Reachable c1
  | write {c c1 : Cache} {s : Nat} {b : Block} :
      Reachable c → cache_write c s b = .ok c1 → Reachable c1
  | flush {c : Cache} : Reachable c → Reachable (cache_flush c)
  | reset {c : Cache} : Reachable c → Reachable (cache_reset c)

/-- Invariant of the reachable cache states: the hand is in range, no two valid
entries share a tag, and a valid clean entry mirrors the device. -/
structure CacheInv (c : Cache) : Prop where
  hand : c.clock_hand < MAX_CACHE_CAPACITY
  noalias : ∀ i j, i < MAX_CACHE_CAPACITY → j < MAX_CACHE_CAPACITY →
    (c.cache_array i).valid = true → (c.cache_array j).valid = true →
    (c.cache_array i).sector = (c.cache_array j).sector → i = j
  clean : ∀ i, i < MAX_CACHE_CAPACITY → (c.cache_array i).valid = true →
    (c.cache_array i).dirty = false →
    (c.cache_array i).disk = c.fs_device.data (c.cache_array i).sector

/-! ## Words, index blocks and the on-disk inode -/

/-- The four bytes of a 32-bit word, least significant first (x86 byte order). -/
def word_bytes (w : Nat) : List Nat :=
  [w % 256, w / 256 % 256, w / 65536 % 256, w / 16777216 % 256]

/-- The bytes of an array of 32-bit words, as `cache_write` sees the array. -/
def bytes_of_words (ws : List Nat) : Block :=
  match ws with
  | [] => []
  | w :: rest => word_bytes w ++ bytes_of_words rest

/-- The complete 32-bit words at the start of a byte sequence. -/
def words_chunk : List Nat → List Nat
  | a :: b :: c :: d :: rest =>
    (a % 256 + 256 * (b % 256) + 65536 * (c % 256) + 16777216 * (d % 256)) :: words_chunk rest
  | _ => []

/-- The 128 words (`block_sector_t [128]`) a sector is read into; bytes a short sector
lacks read as zero. -/
def words_of_bytes (b : Block) : List Nat :=
  (words_chunk b ++ List.replicate 128 0).take 128

/-- Entry `i` of an in-memory array of words. -/
def word_at (ws : List Nat) (i : Nat) : Nat := ws.getD i 0

/-- Identifies an inode. -/
def INODE_MAGIC : Nat := 0x494e4f44

/-- Largest file size, in bytes. -/
def MAX_FILE_SIZE : Int := 512 * 128 * 128

/-- Sector of the free-map inode (`FREE_MAP_SECTOR` of `filesys/filesys.h`, which is not
among the sources; the value is that of the PintOS headers). -/
def FREE_MAP_SECTOR : Nat := 0

/-- The value `(block_sector_t) -1` that `byte_to_sector` returns for "no data". -/
def NO_SECTOR : Nat := 4294967295

/-- On-disk inode (`struct inode_disk`), exactly one sector long. -/
structure inode_disk where
  dbl_sect : Nat
  length : Int
  isdir : Bool
  parent : Nat
  magic : Nat
  unused : List Nat
deriving DecidableEq

/-- The 32-bit word that holds an `off_t`. -/
def word_of_off (n : Int) : Nat := (n % 4294967296).toNat

/-- The `off_t` held by a 32-bit word (two's complement). -/
def off_of_word (w : Nat) : Int :=
  if w < 2147483648 then (w : Int) else (w : Int) - 4294967296

/-- The sector image of an on-disk inode; the padding after `isdir` is zero. -/
def inode_disk.encode (d : inode_disk) : Block :=
  bytes_of_words
    ([d.dbl_sect, word_of_off d.length, if d.isdir then 1 else 0, d.parent, d.magic] ++ d.unused)

/-- The on-disk inode read from a sector image. -/
def inode_disk.decode (b : Block) : inode_disk :=
  let ws := words_of_bytes b
  { dbl_sect := word_at ws 0
    length := off_of_word (word_at ws 1)
    isdir := word_at ws 2 % 256 != 0
    parent := word_at ws 3
    magic := word_at ws 4
    unused := ws.drop 5 }

/-- The zeroed on-disk inode `calloc` returns. -/
def inode_disk.zero : inode_disk :=
  { dbl_sect := 0, length := 0, isdir := false, parent := 0, magic := 0,
    unused := List.replicate 123 0 }

/-- In-memory inode (`struct inode`), without its list element and lock. -/
structure inode where
  sector : Nat
  length : Int
  open_cnt : Int
  removed : Bool
  deny_write_cnt : Int
  data : inode_disk

/-! ## Free-space allocator -/

/-- Modelled from the spec: the free-space allocator (`filesys/free-map.c` is not part of
the sources), which offers `allocate (count) → SectorId | failure` and
`release (sector, count)`. The allocator is a black box: `supply k` is its answer to the
`k`-th allocation request (`none` for failure), `calls` counts the requests made so far,
`bits` marks the sectors currently allocated and `released` logs the release calls, the
most recent first. -/
structure FreeMap where
  supply : Nat → Option Nat
  calls : Nat
  bits : Nat → Bool
  released : List Nat

/-- Modelled from the spec: `free_map_allocate (1, &sector)`. -/
def free_map_allocate (fm : FreeMap) : Option Nat × FreeMap :=
  match fm.supply fm.calls with
  | some s => (some s, { fm with calls := fm.calls + 1, bits := upd fm.bits s true })
  | none => (none, { fm with calls := fm.calls + 1 })

/-- Modelled from the spec: `free_map_release (sector, 1)`. -/
def free_map_release (fm : FreeMap) (sector : Nat) : FreeMap :=
  { fm with bits := upd fm.bits sector false, released := sector :: fm.released }

/-- The state of the file system: the buffer cache (with the device) and the allocator. -/
structure FS where
  cache : Cache
  free_map : FreeMap

/-! ## Inode layer (`inode.c`) -/

/-- The destination after `memcpy (dst + pos, src, n)`. -/
def buf_copy (dst : Block) (pos : Nat) (src : Block) (n : Nat) : Block :=
  dst.take pos ++ src.take n ++ dst.drop (pos + n)

/-- Offset translation `byte_to_sector (inode, pos)`: the sector that holds byte `pos`. -/
def byte_to_sector (c : Cache) (inode : inode) (pos : Int) : Except Fault (Nat × Cache) :=
  if pos ≤ inode.length then
    let indirect_offset := pos.tdiv (512 * 128)
    let direct_offset := (pos.tmod (512 * 128)).tdiv 512
    match cache_read c inode.data.dbl_sect with
    | .error f => .error f
    | .ok (blk, c1) =>
      let dbl_block := words_of_bytes blk
      if indirect_offset < 0 ∨ 128 ≤ indirect_offset then .error .out_of_bounds
      else
        let indir_sect := word_at dbl_block indirect_offset.toNat
        match cache_read c1 indir_sect with
        | .error f => .error f
        | .ok (blk2, c2) =>
          let indir_block := words_of_bytes blk2
          if direct_offset < 0 ∨ 128 ≤ direct_offset then .error .out_of_bounds
          else .ok (word_at indir_block direct_offset.toNat, c2)
  else .ok (NO_SECTOR, c)

/-- The inner `for` loop of `inode_resize` over the entries `j, j + 1, ...` of one
indirect block (`n` entries remain). The flag is false when an allocation failed. -/
def resize_direct (size base : Int) : Nat → Nat → FreeMap → List Nat → Bool × FreeMap × List Nat
  | 0, _, fm, indir_block => (true, fm, indir_block)
  | n + 1, j, fm, indir_block =>
    if size ≤ base + j * 512 ∧ word_at indir_block j ≠ 0 then
      resize_direct size base n (j + 1) (free_map_release fm (word_at indir_block j))
        (indir_block.set j 0)
    else if size > base + j * 512 ∧ word_at indir_block j = 0 then
      match free_map_allocate fm with
      | (none, fm1) => (false, fm1, indir_block)
      | (some dir_sect, fm1) => resize_direct size base n (j + 1) fm1 (indir_block.set j dir_sect)
    else resize_direct size base n (j + 1) fm indir_block

/-- The part of the body of the outer `for` loop of `inode_resize` that follows the
allocation of the indirect block, for entry `i` with `indir_sect` as in the C code.
The flag is false when an allocation failed. -/
def resize_indirect_body (size : Int) (i indir_sect : Nat) (fs : FS) (dbl_block : List Nat) :
    Except Fault (Bool × FS × List Nat) :=
  let indir_block_base : Int := i * 128 * 512
  if word_at dbl_block i ≠ 0 then
    match cache_read fs.cache (word_at dbl_block i) with
    | .error f => .error f
    | .ok (blk, c1) =>
      match resize_direct size indir_block_base 128 0 fs.free_map (words_of_bytes blk) with
      | (false, fm2, _) => .ok (false, { cache := c1, free_map := fm2 }, dbl_block)
      | (true, fm2, indir_block) =>
        let shrink := decide (size ≤ indir_block_base ∧ indir_sect ≠ 0)
        let fm3 := if shrink then free_map_release fm2 (word_at dbl_block i) else fm2
        let dbl1 := if shrink then dbl_block.set i 0 else dbl_block
        match cache_write c1 indir_sect (bytes_of_words indir_block) with
        | .error f => .error f
        | .ok c2 => .ok (true, { cache := c2, free_map := fm3 }, dbl1)
  else .ok (true, fs, dbl_block)

/-- One iteration of the outer `for` loop of `inode_resize`, for entry `i` of the doubly
indirect block. The flag is false when an allocation failed. -/
def resize_indirect_step (size : Int) (i : Nat) (fs : FS) (dbl_block : List Nat) :
    Except Fault (Bool × FS × List Nat) :=
  let indir_block_base : Int := i * 128 * 512
  if size > indir_block_base ∧ word_at dbl_block i = 0 then
    match free_map_allocate fs.free_map with
    | (none, fm1) => .ok (false, { fs with free_map := fm1 }, dbl_block)
    | (some indir_sect, fm1) =>
      resize_indirect_body size i indir_sect { fs with free_map := fm1 }
        (dbl_block.set i indir_sect)
  else resize_indirect_body size i (word_at dbl_block i) fs dbl_block

/-- The outer `for` loop of `inode_resize` over the entries `i, i + 1, ...` of the doubly
indirect block (`n` entries remain). -/
def resize_indirect (size : Int) : Nat → Nat → FS → List Nat → Except Fault (Bool × FS × List Nat)
  | 0, _, fs, dbl_block => .ok (true, fs, dbl_block)
  | n + 1, i, fs, dbl_block =>
    match resize_indirect_step size i fs dbl_block with
    | .error f => .error f
    | .ok (false, fs1, dbl1) => .ok (false, fs1, dbl1)
    | .ok (true, fs1, dbl1) => resize_indirect size n (i + 1) fs1 dbl1

/-- Resize `inode_resize (id, size)`. `fuel` bounds the depth of the compensating
recursive calls; the result carries the updated `*id`. -/
def inode_resize : Nat → FS → inode_disk → Int → Except Fault (Bool × inode_disk × FS)
  | 0, _, _, _ => .error .timeout
  | fuel + 1, fs, id, size =>
    if ¬ size ≤ MAX_FILE_SIZE then .error .assertion
    else if id.dbl_sect = 0 ∧ size = 0 then .ok (true, id, fs)
    else
      -- Allocate doubly indirect block if it has not been allocated.
      let alloc : Bool × inode_disk × FreeMap :=
        if id.dbl_sect = 0 then
          match free_map_allocate fs.free_map with
          | (none, fm1) => (false, id, fm1)
          | (some s, fm1) => (true, { id with dbl_sect := s }, fm1)
        else (true, id, fs.free_map)
      match alloc with
      | (false, _, fm1) => .ok (false, id, { fs with free_map := fm1 })
      | (true, id1, fm1) =>
        match cache_read fs.cache id1.dbl_sect with
        | .error f => .error f
        | .ok (blk, c1) =>
          match resize_indirect size 128 0 { cache := c1, free_map := fm1 } (words_of_bytes blk) with
          | .error f => .error f
          | .ok (false, fs2, _) =>
            -- inode_resize(id, id->length); return false;
            match inode_resize fuel fs2 id1 id1.length with
            | .error f => .error f
            | .ok (_, id2, fs3) => .ok (false, id2, fs3)
          | .ok (true, fs2, dbl_block) =>
            match cache_write fs2.cache id1.dbl_sect (bytes_of_words dbl_block) with
            | .error f => .error f
            | .ok c3 => .ok (true, { id1 with length := size }, { fs2 with cache := c3 })

/-- The inner `for` loop of `inode_create` over the entries `j, j + 1, ...` of one
indirect block (`n` entries remain). The flag is `inner_success`. -/
def create_direct (length base : Int) : Nat → Nat → FS → List Nat → Except Fault (Bool × FS × List Nat)
  | 0, _, fs, indir_block => .ok (true, fs, indir_block)
  | n + 1, j, fs, indir_block =>
    if base + j * 512 < length then
      match free_map_allocate fs.free_map with
      | (none, fm1) => .ok (false, { fs with free_map := fm1 }, indir_block)
      | (some s, fm1) =>
        match cache_write fs.cache s zeros with
        | .error f => .error f
        | .ok c1 =>
          create_direct length base n (j + 1) { cache := c1, free_map := fm1 } (indir_block.set j s)
    else .ok (true, fs, indir_block)

/-- The outer `for` loop of `inode_create` over the entries `i, i + 1, ...` of the doubly
indirect block (`n` entries remain), entered with the current `inner_success`. The flag
returned is `outer_success`. -/
def create_indirect (length : Int) :
    Nat → Nat → Bool → FS → List Nat → Except Fault (Bool × FS × List Nat)
  | 0, _, _, fs, dbl_block => .ok (true, fs, dbl_block)
  | n + 1, i, inner_success, fs, dbl_block =>
    if !inner_success then .ok (false, fs, dbl_block)
    else
      let indir_block_base : Int := i * 128 * 512
      if indir_block_base < length then
        match free_map_allocate fs.free_map with
        | (none, fm1) => .ok (false, { fs with free_map := fm1 }, dbl_block)
        | (some s, fm1) =>
          match create_direct length indir_block_base 128 0 { fs with free_map := fm1 }
              (List.replicate 128 0) with
          | .error f => .error f
          | .ok (inner, fs1, indir_block) =>
            match cache_write fs1.cache s (bytes_of_words indir_block) with
            | .error f => .error f
            | .ok c2 => create_indirect length n (i + 1) inner { fs1 with cache := c2 } (dbl_block.set i s)
      else .ok (true, fs, dbl_block)

/-- The loop `while (indir_block[j] != 0)` of the failure path of `inode_create`; with no
entries left (`j = 128`) the next test reads past the array. -/
def create_revert_direct : Nat → Nat → FreeMap → List Nat → Except Fault FreeMap
  | 0, _, _, _ => .error .out_of_bounds
  | n + 1, j, fm, indir_block =>
    if word_at indir_block j ≠ 0 then
      create_revert_direct n (j + 1) (free_map_release fm (word_at indir_block j)) indir_block
    else .ok fm

/-- The loop `while (dbl_block[i] != 0)` of the failure path of `inode_create`, in which
`i` stays `0`; `fuel` bounds the number of iterations. -/
def create_revert : Nat → FS → List Nat → Except Fault FS
  | 0, _, _ => .error .timeout
  | fuel + 1, fs, dbl_block =>
    if word_at dbl_block 0 ≠ 0 then
      match cache_read fs.cache (word_at dbl_block 0) with
      | .error f => .error f
      | .ok (blk, c1) =>
        match create_revert_direct 128 0 fs.free_map (words_of_bytes blk) with
        | .error f => .error f
        | .ok fm1 =>
          create_revert fuel { cache := c1, free_map := free_map_release fm1 (word_at dbl_block 0) }
            dbl_block
    else .ok fs

/-- Creation `inode_create (sector, length, directory)`; `fuel` bounds the loop of the
failure path. Memory allocation (`calloc`) is taken to succeed. -/
def inode_create (fuel : Nat) (fs : FS) (sector : Nat) (length : Int) (directory : Bool) :
    Except Fault (Bool × FS) :=
  if ¬ length ≥ 0 then .error .assertion
  else
    let disk_inode : inode_disk :=
      { inode_disk.zero with length := length, magic := INODE_MAGIC, parent := sector,
                             isdir := directory }
    if sector = FREE_MAP_SECTOR then
      match free_map_allocate fs.free_map with
      | (none, fm1) => .ok (false, { fs with free_map := fm1 })
      | (some s, fm1) =>
        match cache_write fs.cache sector ({ disk_inode with dbl_sect := s }).encode with
        | .error f => .error f
        | .ok c1 =>
          match cache_write c1 s zeros with
          | .error f => .error f
          | .ok c2 => .ok (true, { cache := c2, free_map := fm1 })
    else if length = 0 then
      match cache_write fs.cache sector disk_inode.encode with
      | .error f => .error f
      | .ok c1 => .ok (true, { fs with cache := c1 })
    else
      match free_map_allocate fs.free_map with
      | (none, fm1) => .ok (false, { fs with free_map := fm1 })
      | (some s, fm1) =>
        match create_indirect length 128 0 true { fs with free_map := fm1 }
            (List.replicate 128 0) with
        | .error f => .error f
        | .ok (false, fs1, dbl_block) =>
          match create_revert fuel fs1 dbl_block with
          | .error f => .error f
          | .ok fs2 => .ok (false, { fs2 with free_map := free_map_release fs2.free_map s })
        | .ok (true, fs1, dbl_block) =>
          match cache_write fs1.cache s (bytes_of_words dbl_block) with
          | .error f => .error f
          | .ok c1 =>
            match cache_write c1 sector
                ({ disk_inode with dbl_sect := s, length := length }).encode with
            | .error f => .error f
            | .ok c2 => .ok (true, { fs1 with cache := c2 })

/-- Length `inode_length (inode)`. -/
def inode_length (inode : inode) : Int := inode.length

/-- The loop `while (size > 0)` of `inode_read_at`; every iteration that continues
transfers at least one byte, `fuel` bounds the number of iterations. Memory allocation
of the bounce buffer is taken to succeed. -/
def inode_read_loop (inode : inode) :
    Nat → Cache → Block → Int → Int → Int → Except Fault (Int × Block × Cache)
  | 0, c, buffer, size, _, bytes_read =>
    if size > 0 then .error .timeout else .ok (bytes_read, buffer, c)
  | fuel + 1, c, buffer, size, offset, bytes_read =>
    if size > 0 then
      match byte_to_sector c inode offset with
      | .error f => .error f
      | .ok (sector_idx, c1) =>
        let sector_ofs := offset.tmod 512
        let inode_left := inode_length inode - offset
        let sector_left := 512 - sector_ofs
        let min_left := if inode_left < sector_left then inode_left else sector_left
        let chunk_size := if size < min_left then size else min_left
        if chunk_size ≤ 0 then .ok (bytes_read, buffer, c1)
        else
          match cache_read c1 sector_idx with
          | .error f => .error f
          | .ok (blk, c2) =>
            let buffer1 :=
              if sector_ofs = 0 ∧ chunk_size = 512 then
                buf_copy buffer bytes_read.toNat blk BLOCK_SECTOR_SIZE
              else buf_copy buffer bytes_read.toNat (blk.drop sector_ofs.toNat) chunk_size.toNat
            inode_read_loop inode fuel c2 buffer1 (size - chunk_size) (offset + chunk_size)
              (bytes_read + chunk_size)
    else .ok (bytes_read, buffer, c)

/-- Read `inode_read_at (inode, buffer, size, offset)`: the number of bytes read and the
caller's buffer afterwards. -/
def inode_read_at (c : Cache) (inode : inode) (buffer : Block) (size offset : Int) :
    Except Fault (Int × Block × Cache) :=
  if inode.sector = FREE_MAP_SECTOR then
    match cache_read c inode.data.dbl_sect with
    | .error f => .error f
    | .ok (blk, c1) => .ok (512, buf_copy buffer 0 blk BLOCK_SECTOR_SIZE, c1)
  else inode_read_loop inode size.toNat c buffer size offset 0

/-- The loop `while (size > 0)` of `inode_write_at`; `fuel` bounds the number of
iterations. Memory allocation of the bounce buffer is taken to succeed. -/
def inode_write_loop (inode : inode) (buffer : Block) :
    Nat → Cache → Int → Int → Int → Except Fault (Int × Cache)
  | 0, c, size, _, bytes_written =>
    if size > 0 then .error .timeout else .ok (bytes_written, c)
  | fuel + 1, c, size, offset, bytes_written =>
    if size > 0 then
      match byte_to_sector c inode offset with
      | .error f => .error f
      | .ok (sector_idx, c1) =>
        let sector_ofs := offset.tmod 512
        let inode_left := inode_length inode - offset
        let sector_left := 512 - sector_ofs
        let min_left := if inode_left < sector_left then inode_left else sector_left
        let chunk_size := if size < min_left then size else min_left
        if chunk_size ≤ 0 then .ok (bytes_written, c1)
        else if sector_ofs = 0 ∧ chunk_size = 512 then
          match cache_write c1 sector_idx (buffer.drop bytes_written.toNat) with
          | .error f => .error f
          | .ok c2 =>
            inode_write_loop inode buffer fuel c2 (size - chunk_size) (offset + chunk_size)
              (bytes_written + chunk_size)
        else
          let start : Except Fault (Block × Cache) :=
            if sector_ofs > 0 ∨ chunk_size < sector_left then cache_read c1 sector_idx
            else .ok (zeros, c1)
          match start with
          | .error f => .error f
          | .ok (bounce, c2) =>
            match cache_write c2 sector_idx
                (buf_copy bounce sector_ofs.toNat (buffer.drop bytes_written.toNat)
                  chunk_size.toNat) with
            | .error f => .error f
            | .ok c3 =>
              inode_write_loop inode buffer fuel c3 (size - chunk_size) (offset + chunk_size)
                (bytes_written + chunk_size)
    else .ok (bytes_written, c)

/-- Write `inode_write_at (inode, buffer, size, offset)`: the number of bytes written and
the in-memory inode afterwards. `fuel` bounds the recursion of `inode_resize`. -/
def inode_write_at (fuel : Nat) (fs : FS) (inode : PintOS.inode) (buffer : Block)
    (size offset : Int) : Except Fault (Int × PintOS.inode × FS) :=
  if inode.deny_write_cnt ≠ 0 then .ok (0, inode, fs)
  else if inode.sector = FREE_MAP_SECTOR then
    match cache_write fs.cache inode.data.dbl_sect buffer with
    | .error f => .error f
    | .ok c1 => .ok (512, inode, { fs with cache := c1 })
  else
    -- retrieve inode disk of this inode
    match cache_read fs.cache inode.sector with
    | .error f => .error f
    | .ok (blk, c1) =>
      let id := inode_disk.decode blk
      -- Resize if new length greater than current length.
      let resized : Except Fault (Bool × PintOS.inode × inode_disk × FS) :=
        if offset + size > inode.length then
          match inode_resize fuel { fs with cache := c1 } id (offset + size) with
          | .error f => .error f
          | .ok (false, id1, fs1) => .ok (false, inode, id1, fs1)
          | .ok (true, id1, fs1) =>
            match cache_write fs1.cache inode.sector id1.encode with
            | .error f => .error f
            | .ok c2 => .ok (true, { inode with length := id1.length }, id1, { fs1 with cache := c2 })
        else .ok (true, inode, id, { fs with cache := c1 })
      match resized with
      | .error f => .error f
      | .ok (false, inode1, _, fs1) => .ok (0, inode1, fs1)
      | .ok (true, inode1, id1, fs1) =>
        let inode2 := { inode1 with data := id1 }
        match inode_write_loop inode2 buffer size.toNat fs1.cache size offset 0 with
        | .error f => .error f
        | .ok (bytes_written, c3) => .ok (bytes_written, inode2, { fs1 with cache := c3 })

/-! ## Open inodes (`inode.c`) -/

/-- The list `open_inodes` together with the file system. Every element of the list is a
live `struct inode`, given with its address, front of the list first; a pointer to a
`struct inode` is `some` address, and `none` is the null pointer. An access through a
pointer that is not the address of an element is reported as `out_of_bounds`. The
counters of an inode are integers without a bound. -/
structure Sys where
  fs : FS
  open_inodes : List (Nat × inode)

/-- Initialisation `inode_init`: the list of open inodes is empty. -/
def inode_init (fs : FS) : Sys := { fs := fs, open_inodes := [] }

/-- The `struct inode` at address `a`, when `a` is the address of an open inode. -/
def inode_at (sys : Sys) (a : Nat) : Option inode :=
  (sys.open_inodes.find? (fun e => e.1 == a)).map (fun e => e.2)

/-- The list after an assignment to fields of the `struct inode` at address `a`. -/
def set_inode (l : List (Nat × inode)) (a : Nat) (v : inode) : List (Nat × inode) :=
  l.map (fun e => if e.1 = a then (a, v) else e)

/-- The list after `list_remove (&inode->elem)` for the inode at address `a`. -/
def drop_inode (l : List (Nat × inode)) (a : Nat) : List (Nat × inode) :=
  l.filter (fun e => e.1 != a)

/-- Reopen `inode_reopen (inode)`; the pointer returned is the argument. -/
def inode_reopen (sys : Sys) (inode : Option Nat) : Except Fault Sys :=
  match inode with
  | none => .ok sys
  | some a =>
    match inode_at sys a with
    | none => .error .out_of_bounds
    | some h =>
      .ok { sys with open_inodes := set_inode sys.open_inodes a { h with open_cnt := h.open_cnt + 1 } }

/-- Open `inode_open (sector)`; `mem` is what `malloc (sizeof *inode)` returns when it is
called. The result is the pointer returned. -/
def inode_open (sys : Sys) (sector : Nat) (mem : Option Nat) : Except Fault (Option Nat × Sys) :=
  -- Check whether this inode is already open.
  match sys.open_inodes.find? (fun e => e.2.sector == sector) with
  | some e =>
    match inode_reopen sys (some e.1) with
    | .error f => .error f
    | .ok sys1 => .ok (some e.1, sys1)
  | none =>
    match mem with
    | none => .ok (none, sys)
    | some a =>
      match cache_read sys.fs.cache sector with
      | .error f => .error f
      | .ok (blk, c1) =>
        .ok (some a,
          { fs := { sys.fs with cache := c1 }
            open_inodes :=
              (a, { sector := sector
                    length := (inode_disk.decode blk).length
                    open_cnt := 1
                    removed := false
                    deny_write_cnt := 0
                    data := inode_disk.decode blk }) :: sys.open_inodes })

/-- Inode number `inode_get_inumber (inode)`. -/
def inode_get_inumber (inode : inode) : Nat := inode.sector

/-- The loop of `inode_free` that releases the direct sectors `j, j + 1, ...` of one
indirect block (`n` entries remain). -/
def free_direct : Nat → Nat → FreeMap → List Nat → FreeMap
  | 0, _, fm, _ => fm
  | n + 1, j, fm, indir_block =>
    if word_at indir_block j ≠ 0 then
      free_direct n (j + 1) (free_map_release fm (word_at indir_block j)) (indir_block.set j 0)
    else free_direct n (j + 1) fm indir_block

/-- The outer loop of `inode_free` over the entries `i, i + 1, ...` of the doubly indirect
block (`n` entries remain). -/
def free_indirect : Nat → Nat → FS → List Nat → Except Fault FS
  | 0, _, fs, _ => .ok fs
  | n + 1, i, fs, dbl_block =>
    if word_at dbl_block i ≠ 0 then
      match cache_read fs.cache (word_at dbl_block i) with
      | .error f => .error f
      | .ok (blk, c1) =>
        free_indirect n (i + 1)
          { cache := c1
            free_map :=
              free_map_release (free_direct 128 0 fs.free_map (words_of_bytes blk))
                (word_at dbl_block i) }
          dbl_block
    else free_indirect n (i + 1) fs dbl_block

/-- Deallocation `inode_free (inode)` of the sectors of an inode. -/
def inode_free (fs : FS) (inode : inode) : Except Fault FS :=
  match cache_read fs.cache inode.data.dbl_sect with
  | .error f => .error f
  | .ok (blk, c1) =>
    match free_indirect 128 0 { fs with cache := c1 } (words_of_bytes blk) with
    | .error f => .error f
    | .ok fs1 =>
      .ok { fs1 with
            free_map :=
              -- Release the double block, then the inode_disk block.
              free_map_release (free_map_release fs1.free_map inode.data.dbl_sect) inode.sector }

/-- Close `inode_close (inode)`. -/
def inode_close (sys : Sys) (inode : Option Nat) : Except Fault Sys :=
  match inode with
  | none => .ok sys
  | some a =>
    match inode_at sys a with
    | none => .error .out_of_bounds
    | some h =>
      -- Release resources if this was the last opener.
      if h.open_cnt - 1 = 0 then
        if h.removed then
          match inode_free { sys.fs with free_map := free_map_release sys.fs.free_map h.sector }
              { h with open_cnt := h.open_cnt - 1 } with
          | .error f => .error f
          | .ok fs1 => .ok { fs := fs1, open_inodes := drop_inode sys.open_inodes a }
        else .ok { sys with open_inodes := drop_inode sys.open_inodes a }
      else
        .ok { sys with
              open_inodes := set_inode sys.open_inodes a { h with open_cnt := h.open_cnt - 1 } }

/-- Removal `inode_remove (inode)`. -/
def inode_remove (sys : Sys) (inode : Option Nat) : Except Fault Sys :=
  match inode with
  | none => .error .assertion
  | some a =>
    match inode_at sys a with
    | none => .error .out_of_bounds
    | some h => .ok { sys with open_inodes := set_inode sys.open_inodes a { h with removed := true } }

/-- Write denial `inode_deny_write (inode)`. -/
def inode_deny_write (sys : Sys) (inode : Option Nat) : Except Fault Sys :=
  match inode with
  | none => .error .out_of_bounds
  | some a =>
    match inode_at sys a with
    | none => .error .out_of_bounds
    | some h =>
      if h.deny_write_cnt + 1 ≤ h.open_cnt then
        .ok { sys with
              open_inodes :=
                set_inode sys.open_inodes a { h with deny_write_cnt := h.deny_write_cnt + 1 } }
      else .error .assertion

/-- Write permission `inode_allow_write (inode)`. -/
def inode_allow_write (sys : Sys) (inode : Option Nat) : Except Fault Sys :=
  match inode with
  | none => .error .out_of_bounds
  | some a =>
    match inode_at sys a with
    | none => .error .out_of_bounds
    | some h =>
      if ¬ h.deny_write_cnt > 0 then .error .assertion
      else if ¬ h.deny_write_cnt ≤ h.open_cnt then .error .assertion
      else
        .ok { sys with
              open_inodes :=
                set_inode sys.open_inodes a { h with deny_write_cnt := h.deny_write_cnt - 1 } }

/-- Whether an inode represents a directory: `inode_directory (inode)`. -/
def inode_directory (inode : inode) : Bool := inode.data.isdir

/-- Whether an inode is removed: `inode_removed (inode)`. -/
def inode_removed (inode : inode) : Bool := inode.removed

/-! ## Auxiliary definitions for the proofs and the examples -/

/-- Two cache states whose entries carry the same valid bits and tags. -/
def SameTags (c c1 : Cache) : Prop :=
  ∀ i, i < MAX_CACHE_CAPACITY →
    (c1.cache_array i).valid = (c.cache_array i).valid ∧
    (c1.cache_array i).sector = (c.cache_array i).sector

/-- What the eviction scan guarantees about the entry `i` it returns in state `c1`. -/
structure AccessPost (c : Cache) (i : Nat) (c1 : Cache) : Prop where
  lt : i < MAX_CACHE_CAPACITY
  invalid : (c1.cache_array i).valid = false
  others : ∀ j, j ≠ i →
    (c1.cache_array j).valid = (c.cache_array j).valid ∧
    (c1.cache_array j).sector = (c.cache_array j).sector ∧
    (c1.cache_array j).disk = (c.cache_array j).disk ∧
    (c1.cache_array j).dirty = (c.cache_array j).dirty
  inv : CacheInv c1
  same : ∀ t, logical c1 t = logical c t
  hits : c1.hits = c.hits
  misses : c1.misses = c.misses
  reads : c1.fs_device.read_cnt = c.fs_device.read_cnt

/-- The state after the scan has cleared the recency bit under the hand and moved on. -/
def clock_clear (c : Cache) : Cache :=
  { c with
    cache_array := upd c.cache_array c.clock_hand { c.cache_array c.clock_hand with r_bit := false },
    clock_hand := if c.clock_hand = MAX_CACHE_CAPACITY then c.clock_hand else 0 }

/-- The state in which the scan hands out the valid, not recently used entry under the hand. -/
def clock_evict (c : Cache) : Cache :=
  let curr := c.cache_array c.clock_hand
  let c1 : Cache :=
    if curr.dirty then
      { c with fs_device := block_write c.fs_device curr.sector curr.disk,
               cache_array := upd c.cache_array c.clock_hand { curr with dirty := false } }
    else c
  { c1 with
    cache_array :=
      upd c1.cache_array c.clock_hand { c1.cache_array c.clock_hand with valid := false } }

/-- A cache whose statics are all zero, in front of a device with the given content. -/
def boot_cache (d : Nat → Block) : Cache :=
  { cache_array := fun _ =>
      { valid := false, dirty := false, sector := 0, r_bit := false, disk := zeros }
    clock_hand := 0
    misses := 0
    hits := 0
    fs_device := { data := d, read_cnt := 0, write_cnt := 0 } }

/-- The final state of a cache operation, or the given state when it faults. -/
def state_or (c : Cache) (r : Except Fault Cache) : Cache :=
  match r with
  | .ok c1 => c1
  | .error _ => c

/-- A small reachable state: sector 7 has been written once after initialisation, so the
only entry the scan ever reuses holds a dirty block. -/
def demo_cache : Cache :=
  state_or (cache_init (boot_cache (fun _ => zeros)))
    (cache_write (cache_init (boot_cache (fun _ => zeros))) 7 (List.replicate 512 1))

/-- The fault a run ended with, if any. -/
def fault_of {α : Type} (r : Except Fault α) : Option Fault :=
  match r with
  | .ok _ => none
  | .error f => some f

/-- The fields `inode_open` gives the in-memory inode of a sector that was not yet open,
read from the logical content of the sector. -/
def handle_of (c : Cache) (sector : Nat) : inode :=
  { sector := sector
    length := (inode_disk.decode (logical c sector)).length
    open_cnt := 1
    removed := false
    deny_write_cnt := 0
    data := inode_disk.decode (logical c sector) }

/-- An allocator in which sectors 0 to 9 are in use and whose `k`-th answer from now on
is sector `10 + k` as long as `k < avail`, and failure afterwards. -/
def demo_free_map (avail : Nat) : FreeMap :=
  { supply := fun k => if k < avail then some (10 + k) else none
    calls := 0
    bits := fun s => decide (s < 10)
    released := [] }

/-- A freshly initialised file system on a device with the given content. -/
def demo_fs (d : Nat → Block) (avail : Nat) : FS :=
  { cache := cache_init (boot_cache d), free_map := demo_free_map avail }

/-- The state a creation leaves, or `fs` itself when the creation faults. -/
def fs_after (fs : FS) (r : Except Fault (Bool × FS)) : FS :=
  match r with
  | .ok (_, fs1) => fs1
  | .error _ => fs

/-- A file system on a zeroed device in which `inode_create (5, 1000, false)` has run. -/
def file_fs : FS :=
  fs_after (demo_fs (fun _ => zeros) 100) (inode_create 1 (demo_fs (fun _ => zeros) 100) 5 1000 false)

/-- The open handle of the 1000-byte file of `file_fs`. -/
def file_handle : inode := handle_of file_fs.cache 5

/-- A handle whose file has the maximum length; the tree it names is never reached by
the runs that use it. -/
def full_handle : inode :=
  { sector := 5
    length := MAX_FILE_SIZE
    open_cnt := 1
    removed := false
    deny_write_cnt := 0
    data := { inode_disk.zero with dbl_sect := 10, length := MAX_FILE_SIZE, magic := INODE_MAGIC,
                                   parent := 1 } }

/-- A device on which the free sector 10 still holds the bytes `0A 00 00 00 00 ...` of
an earlier use, every other sector being zero. -/
def stale_device (s : Nat) : Block :=
  if s = 10 then bytes_of_words (10 :: List.replicate 127 0) else zeros

/-- A file system on `stale_device` in which `inode_create (5, 0, false)` has run. -/
def stale_fs : FS :=
  fs_after (demo_fs stale_device 100) (inode_create 1 (demo_fs stale_device 100) 5 0 false)

/-- The state and handle after a write, or the given ones when the write faults. -/
def after_write (fs : FS) (h : inode) (r : Except Fault (Int × inode × FS)) : inode × FS :=
  match r with
  | .ok (_, h1, fs1) => (h1, fs1)
  | .error _ => (h, fs)

/-- The byte count of a read or write, when it returns. -/
def count_of {α : Type} (r : Except Fault (Int × α)) : Option Int :=
  match r with
  | .ok (n, _) => some n
  | .error _ => none

/-- The block a cache read returned (empty when it faulted). -/
def read_block (r : Except Fault (Block × Cache)) : Block :=
  match r with
  | .ok (b, _) => b
  | .error _ => []

/-- The cache a cache read left, or `c` when it faulted. -/
def read_cache (c : Cache) (r : Except Fault (Block × Cache)) : Cache :=
  match r with
  | .ok (_, c1) => c1
  | .error _ => c

/-- The flag a resize returned, when it returned. -/
def resize_flag (r : Except Fault (Bool × inode_disk × FS)) : Option Bool :=
  match r with
  | .ok (b, _, _) => some b
  | .error _ => none

/-- The on-disk inode a resize left in `*id`, or `id` when it faulted. -/
def resize_id (id : inode_disk) (r : Except Fault (Bool × inode_disk × FS)) : inode_disk :=
  match r with
  | .ok (_, id1, _) => id1
  | .error _ => id

/-- The state a resize left, or `fs` when it faulted. -/
def resize_fs (fs : FS) (r : Except Fault (Bool × inode_disk × FS)) : FS :=
  match r with
  | .ok (_, _, fs1) => fs1
  | .error _ => fs

/-- A file system on a zeroed device whose allocator fails from its third request on and
in which `inode_create (5, 0, false)` has run. -/
def tight_fs : FS :=
  fs_after (demo_fs (fun _ => zeros) 2) (inode_create 1 (demo_fs (fun _ => zeros) 2) 5 0 false)

/-- The resize that `inode_write_at (inode, buffer, size, offset)` triggers when the write
reaches past the length: it works on the on-disk inode just read from the inode's sector. -/
def write_resize (fuel : Nat) (fs : FS) (h : inode) (size offset : Int) :
    Except Fault (Bool × inode_disk × FS) :=
  inode_resize fuel
    { fs with cache := read_cache fs.cache (cache_read fs.cache h.sector) }
    (inode_disk.decode (read_block (cache_read fs.cache h.sector))) (offset + size)

/-- An allocator that answers every request from now on with a sector. -/
def AllocOk (fm : FreeMap) : Prop :=
  ∀ k, fm.calls ≤ k → (fm.supply k).isSome = true

/-- The allocator after a request that was answered with sector `s`. -/
def fm_alloc (fm : FreeMap) (s : Nat) : FreeMap :=
  { fm with calls := fm.calls + 1, bits := upd fm.bits s true }

/-- The number of bytes one iteration of the read or write loop transfers: the least of
the bytes left in the request, in the inode and in the sector. -/
def chunk_of (len size offset : Int) : Int :=
  if size < (if len - offset < 512 - offset.tmod 512 then len - offset
      else 512 - offset.tmod 512) then size
  else (if len - offset < 512 - offset.tmod 512 then len - offset else 512 - offset.tmod 512)

/-- An allocator in which sectors 0 to 9 are in use and that never fails: its `k`-th
answer from now on is sector `10 + k`. -/
def endless_free_map : FreeMap :=
  { supply := fun k => some (10 + k)
    calls := 0
    bits := fun s => decide (s < 10)
    released := [] }

/-- A freshly initialised file system on a zeroed device with the endless allocator, in
which the on-disk inode of an empty file has been written to sector 5. -/
def endless_fs : FS :=
  { cache := state_or (cache_init (boot_cache (fun _ => zeros)))
      (cache_write (cache_init (boot_cache (fun _ => zeros))) 5
        ({ inode_disk.zero with magic := INODE_MAGIC, parent := 5 }).encode)
    free_map := endless_free_map }

/-- The sector with which the allocator answers request number `k` (0 when it fails). -/
def answer (fm : FreeMap) (k : Nat) : Nat := (fm.supply k).getD 0

/-- The sectors the allocator hands out from now on, up to request number `last`
(excluded), are fresh: none is 0, each fits a `block_sector_t`, no sector is handed out
twice, and none is one of the sectors `used`. -/
structure FreshSupply (fm : FreeMap) (last : Nat) (used : Nat → Prop) : Prop where
  nz : ∀ k s, fm.calls ≤ k → k < last → fm.supply k = some s → s ≠ 0
  lt : ∀ k s, fm.calls ≤ k → k < last → fm.supply k = some s → s < 4294967296
  inj : ∀ a b s, fm.calls ≤ a → a < last → fm.calls ≤ b → b < last →
    fm.supply a = some s → fm.supply b = some s → a = b
  unused : ∀ k s, fm.calls ≤ k → k < last → fm.supply k = some s → ¬ used s

/-- Entry `i` of the doubly indirect block stored in sector `dbl_sect`. -/
def root_entry (c : Cache) (dbl_sect i : Nat) : Nat :=
  word_at (words_of_bytes (logical c dbl_sect)) i

/-- Entry `j` of the indirect block that entry `i` of the doubly indirect block names;
0 when that entry is 0 and there is no such block. -/
def data_entry (c : Cache) (dbl_sect i j : Nat) : Nat :=
  if root_entry c dbl_sect i = 0 then 0
  else word_at (words_of_bytes (logical c (root_entry c dbl_sect i))) j

/-- A freshly initialised file system on a zeroed device with the endless allocator. -/
def blank_fs : FS :=
  { cache := cache_init (boot_cache (fun _ => zeros)), free_map := endless_free_map }

/-- The index sectors of the tree under root `R` as the array `dbl` names them. -/
def IndexSector (R : Nat) (dbl : List Nat) (s : Nat) : Prop :=
  s = R ∨ ∃ x, x < 128 ∧ s = word_at dbl x

/-- What holds before the outer loop of `inode_resize` handles entry `i`: `R` is the
root sector, `orig` the doubly indirect block as the loop found it, `old` the logical
content of the sectors at that time, `dbl` the block now. -/
structure ResizeInv (size : Int) (R last : Nat) (orig : List Nat) (old : Nat → Block)
    (i : Nat) (fs : FS) (dbl : List Nat) : Prop where
  inv : CacheInv fs.cache
  len : dbl.length = 128
  lt : ∀ w ∈ dbl, w < 4294967296
  rest : ∀ x, i ≤ x → x < 128 → word_at dbl x = word_at orig x
  done : ∀ x, x < i →
    (word_at dbl x ≠ 0 ↔ size > (x : Int) * 65536) ∧
    (word_at dbl x ≠ 0 → ∀ j : Nat, j < 128 →
      (word_at (words_of_bytes (logical fs.cache (word_at dbl x))) j ≠ 0 ↔
        size > (x : Int) * 65536 + (j : Int) * 512))
  not_root : ∀ x, x < 128 → word_at dbl x ≠ 0 → word_at dbl x ≠ R
  distinct : ∀ x y, x < 128 → y < 128 → x ≠ y → word_at dbl x ≠ 0 →
    word_at dbl x ≠ word_at dbl y
  fresh : FreshSupply fs.free_map last (IndexSector R dbl)
  zero : ∀ k s, fs.free_map.calls ≤ k → k < last → fs.free_map.supply k = some s →
    logical fs.cache s = zeros
  room : fs.free_map.calls + 129 * (128 - i) ≤ last
  kept : ∀ x, i ≤ x → x < 128 → word_at orig x ≠ 0 →
    logical fs.cache (word_at orig x) = old (word_at orig x)
  freed : ∀ x, x < i → word_at orig x ≠ 0 →
    (size ≤ (x : Int) * 65536 → word_at orig x ∈ fs.free_map.released) ∧
    (∀ j : Nat, j < 128 → word_at (words_of_bytes (old (word_at orig x))) j ≠ 0 →
      size ≤ (x : Int) * 65536 + (j : Int) * 512 →
      word_at (words_of_bytes (old (word_at orig x))) j ∈ fs.free_map.released)

/-- What holds when the outer loop of `inode_resize` has settled which sector
`indir_sect` is the indirect block of entry `i`, before it reads that block. -/
structure ResizeBody (size : Int) (R last : Nat) (orig : List Nat) (old : Nat → Block)
    (i indir_sect : Nat) (fs : FS) (dbl : List Nat) : Prop where
  inv : CacheInv fs.cache
  len : dbl.length = 128
  lt : ∀ w ∈ dbl, w < 4294967296
  here : word_at dbl i = indir_sect
  rest : ∀ x, i < x → x < 128 → word_at dbl x = word_at orig x
  done : ∀ x, x < i →
    (word_at dbl x ≠ 0 ↔ size > (x : Int) * 65536) ∧
    (word_at dbl x ≠ 0 → ∀ j : Nat, j < 128 →
      (word_at (words_of_bytes (logical fs.cache (word_at dbl x))) j ≠ 0 ↔
        size > (x : Int) * 65536 + (j : Int) * 512))
  not_root : ∀ x, x < 128 → word_at dbl x ≠ 0 → word_at dbl x ≠ R
  distinct : ∀ x y, x < 128 → y < 128 → x ≠ y → word_at dbl x ≠ 0 →
    word_at dbl x ≠ word_at dbl y
  fresh : FreshSupply fs.free_map last (IndexSector R dbl)
  zero : ∀ k s, fs.free_map.calls ≤ k → k < last → fs.free_map.supply k = some s →
    logical fs.cache s = zeros
  room : fs.free_map.calls + 128 + 129 * (127 - i) ≤ last
  kept : ∀ x, i < x → x < 128 → word_at orig x ≠ 0 →
    logical fs.cache (word_at orig x) = old (word_at orig x)
  freed : ∀ x, x < i → word_at orig x ≠ 0 →
    (size ≤ (x : Int) * 65536 → word_at orig x ∈ fs.free_map.released) ∧
    (∀ j : Nat, j < 128 → word_at (words_of_bytes (old (word_at orig x))) j ≠ 0 →
      size ≤ (x : Int) * 65536 + (j : Int) * 512 →
      word_at (words_of_bytes (old (word_at orig x))) j ∈ fs.free_map.released)
  block :
    (word_at orig i = 0 ∧ (indir_sect = 0 → size ≤ (i : Int) * 65536) ∧
      (indir_sect ≠ 0 → size > (i : Int) * 65536 ∧ logical fs.cache indir_sect = zeros)) ∨
    (word_at orig i = indir_sect ∧ indir_sect ≠ 0 ∧
      logical fs.cache indir_sect = old indir_sect)

/-- The index sectors of a tree are a tree: no entry of the root names the root itself
and no two entries of the root name the same indirect block. -/
def TreeShape (c : Cache) (R : Nat) : Prop :=
  (∀ i, i < 128 → root_entry c R i ≠ 0 → root_entry c R i ≠ R) ∧
  (∀ i j, i < 128 → j < 128 → i ≠ j → root_entry c R i ≠ 0 →
    root_entry c R i ≠ root_entry c R j)

/-- A device that holds the index blocks of a 1000-byte file: the doubly indirect block
in sector 3 names the indirect block in sector 4, which names the data blocks 6 and 7;
every other sector is zeroed. -/
def tree_device : Nat → Block := fun s =>
  if s = 3 then bytes_of_words (4 :: List.replicate 127 0)
  else if s = 4 then bytes_of_words (6 :: 7 :: List.replicate 126 0)
  else zeros

/-- A freshly initialised file system on `tree_device` with the endless allocator. -/
def tree_fs : FS :=
  { cache := cache_init (boot_cache tree_device), free_map := endless_free_map }

/-- The on-disk inode of the 1000-byte file whose tree `tree_device` holds. -/
def tree_id : inode_disk :=
  { inode_disk.zero with dbl_sect := 3, length := 1000, magic := INODE_MAGIC, parent := 5 }
/-- A file system on a zeroed device in which `inode_create (5, 10, false)` has run: the
10-byte file of the test `seek-simple`. -/
def seek_fs : FS :=
  fs_after (demo_fs (fun _ => zeros) 100) (inode_create 1 (demo_fs (fun _ => zeros) 100) 5 10 false)

/-- The number of non-zero data entries of the tree under root `R`: the data blocks the
tree references. -/
def referenced_blocks (c : Cache) (R : Nat) : Nat :=
  ((List.range 128).map (fun i =>
    ((List.range 128).filter (fun j => data_entry c R i j != 0)).length)).sum

/-- The population loop of `inode_create (5, 1, false)` on a zeroed device whose allocator
has two free sectors left, after the first of them (sector 10) became the root. -/
def scarce_run : Except Fault (Bool × FS × List Nat) :=
  create_indirect 1 128 0 true
    { demo_fs (fun _ => zeros) 2 with free_map := fm_alloc (demo_free_map 2) 10 }
    (List.replicate 128 0)
/-- An allocator that answers every request before request number `last` with a sector
that fits a `block_sector_t`. -/
def AllocUntil (fm : FreeMap) (last : Nat) : Prop :=
  ∀ k, fm.calls ≤ k → k < last → ∃ s, fm.supply k = some s ∧ s < 4294967296

/-- Invariant of the list of open inodes: no two elements share an address, no two
elements share a sector, and the cache satisfies its invariant. -/
structure OpenInv (sys : Sys) : Prop where
  addrs : (sys.open_inodes.map (fun e => e.1)).Nodup
  sectors : (sys.open_inodes.map (fun e => e.2.sector)).Nodup
  cache : CacheInv sys.fs.cache

/-- The states reachable from `inode_init` through `inode_open`, `inode_reopen`,
`inode_close`, `inode_remove`, `inode_deny_write` and `inode_allow_write`; what `malloc`
returns to `inode_open` is not the address of an open inode. -/
inductive SysReach : Sys → Prop where
  | init (fs : FS) : CacheInv fs.cache → SysReach (inode_init fs)
  | opened {sys sys1 : Sys} {sector : Nat} {mem p : Option Nat} :
      SysReach sys → (∀ a, mem = some a → inode_at sys a = none) →
      inode_open sys sector mem = .ok (p, sys1) → SysReach sys1
  | reopened {sys sys1 : Sys} {p : Option Nat} :
      SysReach sys → inode_reopen sys p = .ok sys1 → SysReach sys1
  | closed {sys sys1 : Sys} {p : Option Nat} :
      SysReach sys → inode_close sys p = .ok sys1 → SysReach sys1
  | removed {sys sys1 : Sys} {p : Option Nat} :
      SysReach sys → inode_remove sys p = .ok sys1 → SysReach sys1
  | denied {sys sys1 : Sys} {p : Option Nat} :
      SysReach sys → inode_deny_write sys p = .ok sys1 → SysReach sys1
  | allowed {sys sys1 : Sys} {p : Option Nat} :
      SysReach sys → inode_allow_write sys p = .ok sys1 → SysReach sys1
/-- The state an operation that returns a pointer left, or `sys` when it faulted. -/
def sys_of {α : Type} (sys : Sys) (r : Except Fault (α × Sys)) : Sys :=
  match r with
  | .ok (_, s) => s
  | .error _ => sys

/-- The state an operation left, or `sys` when it faulted. -/
def st_of (sys : Sys) (r : Except Fault Sys) : Sys :=
  match r with
  | .ok s => s
  | .error _ => sys

/-- The state in which the empty file at sector 5 of `endless_fs` has been opened once;
its `struct inode` is at address 100. -/
def open_sys : Sys :=
  sys_of (inode_init endless_fs) (inode_open (inode_init endless_fs) 5 (some 100))
/-- The state in which the 1000-byte file at sector 5 of `file_fs` has been opened once
(its `struct inode` is at address 100) and then removed. -/
def removed_sys : Sys :=
  st_of (sys_of (inode_init file_fs) (inode_open (inode_init file_fs) 5 (some 100)))
    (inode_remove (sys_of (inode_init file_fs) (inode_open (inode_init file_fs) 5 (some 100)))
      (some 100))

/-- The state in which the file at sector 5 of `endless_fs` has been opened twice and
then removed. -/
def shared_sys : Sys :=
  st_of (st_of open_sys (inode_reopen open_sys (some 100)))
    (inode_remove (st_of open_sys (inode_reopen open_sys (some 100))) (some 100))

/-- The state in which the 10-byte file of `seek_fs` has been opened (its `struct inode`
is at address 100) and then removed: the test `read-removed`. -/
def read_removed_sys : Sys :=
  st_of (sys_of (inode_init seek_fs) (inode_open (inode_init seek_fs) 5 (some 100)))
    (inode_remove (sys_of (inode_init seek_fs) (inode_open (inode_init seek_fs) 5 (some 100)))
      (some 100))

/-- The `struct inode` of the file of `shared_sys`. -/
def shared_handle : inode :=
  { handle_of endless_fs.cache 5 with open_cnt := 2, removed := true }
/-- The states reachable from `sys0` through calls of `inode_reopen`, `inode_close`,
`inode_deny_write` and `inode_allow_write` on the inode at address `a` that return (their
assertions pass); `inode_close` is called only on an inode of which `may_close` holds. -/
inductive HandleReach (may_close : inode → Prop) (a : Nat) (sys0 : Sys) : Sys → Prop where
  | start : HandleReach may_close a sys0 sys0
  | reopened {sys sys1 : Sys} :
      HandleReach may_close a sys0 sys → inode_reopen sys (some a) = .ok sys1 →
      HandleReach may_close a sys0 sys1
  | closed {sys sys1 : Sys} {h : inode} :
      HandleReach may_close a sys0 sys → inode_at sys a = some h → may_close h →
      inode_close sys (some a) = .ok sys1 → HandleReach may_close a sys0 sys1
  | denied {sys sys1 : Sys} :
      HandleReach may_close a sys0 sys → inode_deny_write sys (some a) = .ok sys1 →
      HandleReach may_close a sys0 sys1
  | allowed {sys sys1 : Sys} :
      HandleReach may_close a sys0 sys → inode_allow_write sys (some a) = .ok sys1 →
      HandleReach may_close a sys0 sys1

/-- The state after a second opener has reopened the inode of `open_sys`. -/
def reopened_sys : Sys := st_of open_sys (inode_reopen open_sys (some 100))

/-- The state after one of the two openers of `reopened_sys` has denied writes. -/
def denied_once_sys : Sys := st_of reopened_sys (inode_deny_write reopened_sys (some 100))

/-- The state after both openers have denied writes. -/
def denied_sys : Sys := st_of denied_once_sys (inode_deny_write denied_once_sys (some 100))

/-- The state after one of the two openers of `denied_sys` has closed the inode without
allowing writes again. -/
def closed_sys : Sys := st_of denied_sys (inode_close denied_sys (some 100))

/-- The state after the opener of `denied_once_sys` that has not denied writes has closed
the inode. -/
def kept_sys : Sys := st_of denied_once_sys (inode_close denied_once_sys (some 100))

/-- What a successful `inode_resize` to `size` leaves, as the next resize needs it: `R`
is the root sector, the index sectors form a tree whose non-zero entries are those below
`size`, and the sectors the allocator hands out up to request number `last` are fresh,
are no index sectors of the tree and read back as zeros. -/
structure TreeOk (last : Nat) (fs : FS) (R : Nat) (size : Int) : Prop where
  inv : CacheInv fs.cache
  root : R ≠ 0
  shape : TreeShape fs.cache R
  roots : ∀ i : Nat, i < 128 → (root_entry fs.cache R i ≠ 0 ↔ size > (i : Int) * 128 * 512)
  datas : ∀ i j : Nat, i < 128 → j < 128 →
    (data_entry fs.cache R i j ≠ 0 ↔ size > (i : Int) * 128 * 512 + (j : Int) * 512)
  fresh : FreshSupply fs.free_map last
    (IndexSector R (words_of_bytes (logical fs.cache R)))
  zero : ∀ k s, fs.free_map.calls ≤ k → k < last → fs.free_map.supply k = some s →
    logical fs.cache s = zeros
  calls : fs.free_map.calls ≤ last
/-- The first call of the round trip 1000, 100, 1000 on the empty on-disk inode, in a
freshly initialised file system on a zeroed device. -/
def trip_first : Except Fault (Bool × inode_disk × FS) :=
  inode_resize 1 blank_fs inode_disk.zero 1000

/-- The second call of the round trip 1000, 100, 1000. -/
def trip_second : Except Fault (Bool × inode_disk × FS) :=
  inode_resize 1 (resize_fs blank_fs trip_first) (resize_id inode_disk.zero trip_first) 100

/-- The third call of the round trip 1000, 100, 1000. -/
def trip_third : Except Fault (Bool × inode_disk × FS) :=
  inode_resize 1 (resize_fs blank_fs trip_second) (resize_id inode_disk.zero trip_second) 1000

/-- No aliasing: each sector number is the tag of at most one valid entry of the array. -/
def NoAlias (c : Cache) : Prop :=
  ∀ i j, i < MAX_CACHE_CAPACITY → j < MAX_CACHE_CAPACITY →
    (c.cache_array i).valid = true → (c.cache_array j).valid = true →
    (c.cache_array i).sector = (c.cache_array j).sector → i = j

/-- What the eviction scan guarantees from every state whose hand is in range: the entry
handed out is invalid, and dirty only if it was invalid and dirty before; the other
entries keep their valid bit, tag, payload and dirty bit; the counters are untouched; the
device has received nothing, or the write-back of the valid dirty entry handed out; the
hand rests on the entry handed out, where it was before or at position 0. -/
structure ScanPost (c : Cache) (i : Nat) (c1 : Cache) : Prop where
  lt : i < MAX_CACHE_CAPACITY
  invalid : (c1.cache_array i).valid = false
  others : ∀ j, j ≠ i →
    (c1.cache_array j).valid = (c.cache_array j).valid ∧
    (c1.cache_array j).sector = (c.cache_array j).sector ∧
    (c1.cache_array j).disk = (c.cache_array j).disk ∧
    (c1.cache_array j).dirty = (c.cache_array j).dirty
  dirty : (c1.cache_array i).dirty = true →
    (c.cache_array i).valid = false ∧ (c.cache_array i).dirty = true
  device : c1.fs_device = c.fs_device ∨
    ((c.cache_array i).valid = true ∧ (c.cache_array i).dirty = true ∧
      c1.fs_device = block_write c.fs_device (c.cache_array i).sector (c.cache_array i).disk)
  hand : c1.clock_hand < MAX_CACHE_CAPACITY
  index : i = c1.clock_hand
  moved : c1.clock_hand = c.clock_hand ∨ c1.clock_hand = 0
  hits : c1.hits = c.hits
  misses : c1.misses = c.misses
/-- A state that no run reaches: entry 0 is invalid but still marked dirty, the hand is on it. -/
def stale_cache : Cache :=
  { boot_cache (fun _ => zeros) with
    cache_array := fun i =>
      if i = 0 then { valid := false, dirty := true, sector := 0, r_bit := false, disk := zeros }
      else (boot_cache (fun _ => zeros)).cache_array i }

/-- The entries of the array that are valid and dirty, in array order. -/
def dirty_slots (c : Cache) : List Nat :=
  (List.range MAX_CACHE_CAPACITY).filter
    (fun i => (c.cache_array i).valid && (c.cache_array i).dirty)
/-- A call of the cache interface that leaves the counters in place (no reset). -/
inductive CacheOp where
  | read (sector : Nat)
  | write (sector : Nat) (buf : Block)
  | flush

/-- The state after one call. -/
def run_op (c : Cache) : CacheOp → Except Fault Cache
  | .read s =>
    match cache_read c s with
    | .error f => .error f
    | .ok (_, c1) => .ok c1
  | .write s b => cache_write c s b
  | .flush => .ok (cache_flush c)

/-- The state after a sequence of calls. -/
def run_ops : Cache → List CacheOp → Except Fault Cache
  | c, [] => .ok c
  | c, op :: ops =>
    match run_op c op with
    | .error f => .error f
    | .ok c1 => run_ops c1 ops

/-- The number of `cache_read` and `cache_write` calls in a sequence. -/
def access_count : List CacheOp → Nat
  | [] => 0
  | .flush :: ops => access_count ops
  | .read _ :: ops => access_count ops + 1
  | .write _ _ :: ops => access_count ops + 1

/-- Some valid entry of the array is tagged with the sector. -/
def Hit (c : Cache) (s : Nat) : Prop :=
  ∃ i, i < MAX_CACHE_CAPACITY ∧ (c.cache_array i).valid = true ∧ (c.cache_array i).sector = s

/-- One access to sector `s` moved the counters from `c` to `c1`: the hit counter is
incremented when some valid entry was tagged `s`, the miss counter otherwise; the counters
are `size_t`. -/
def CounterStep (c : Cache) (s : Nat) (c1 : Cache) : Prop :=
  (Hit c s → c1.hits = (c.hits + 1) % 4294967296 ∧ c1.misses = c.misses) ∧
  (¬ Hit c s → c1.hits = c.hits ∧ c1.misses = (c.misses + 1) % 4294967296)
/-- A sequence of calls from a state holding one dirty sector: a hit, a write that evicts,
a flush, a hit and a miss. -/
def demo_ops : List CacheOp :=
  [.read 7, .write 9 (List.replicate 512 2), .flush, .read 9, .read 7]
/-- Reading the sectors of a list in order. -/
def read_all (c : Cache) (l : List Nat) : Except Fault Cache :=
  run_ops c (l.map CacheOp.read)

/-- The tag of entry 0 when that entry is valid. -/
def last_tag (c : Cache) : Option Nat :=
  if (c.cache_array 0).valid then some (c.cache_array 0).sector else none

/-- States in which the hand is at 0 and no entry other than entry 0 is valid. -/
def Single (c : Cache) : Prop :=
  c.clock_hand = 0 ∧ ∀ i, 0 < i → i < MAX_CACHE_CAPACITY → (c.cache_array i).valid = false
/-- The sectors of the 50 blocks read by the cold and warm passes of the example. -/
def pass_sectors : List Nat := List.range' 100 50

/-- A device with a hole below the length of its file: the doubly indirect block in
sector 3 names the indirect block in sector 4, whose entry 0 is zero and whose entry 1
names the data block 7; sector 0 holds the byte 9 throughout. -/
def hole_device : Nat → Block := fun s =>
  if s = 0 then List.replicate 512 9
  else if s = 3 then bytes_of_words (4 :: List.replicate 127 0)
  else if s = 4 then bytes_of_words (0 :: 7 :: List.replicate 126 0)
  else zeros

/-- A freshly initialised cache in front of `hole_device`. -/
def hole_cache : Cache := cache_init (boot_cache hole_device)

/-- An open handle of the 1000-byte file whose tree `hole_device` holds. -/
def hole_handle : inode :=
  { sector := 5, length := 1000, open_cnt := 1, removed := false, deny_write_cnt := 0,
    data := tree_id }

/-- A device on which the free sector 12 still holds the byte 9 throughout, every other
sector being zero. -/
def gap_device (s : Nat) : Block :=
  if s = 12 then List.replicate 512 9 else zeros

/-- A file system on `gap_device` in which `inode_create (5, 0, false)` has run; the
allocator hands out the sectors 10, 11, 12 next. -/
def gap_fs : FS :=
  fs_after (demo_fs gap_device 100) (inode_create 1 (demo_fs gap_device 100) 5 0 false)

/-- The handle and state after one byte has been written at offset 5 of the empty file of
`gap_fs`. -/
def gap_written : inode × FS :=
  after_write gap_fs (handle_of gap_fs.cache 5)
    (inode_write_at 2 gap_fs (handle_of gap_fs.cache 5) [7] 1 5)

/-- A device on which sector 0 names sector 4 in its first word, sector 4 names the sectors
6 and 7, and sector 5 holds the on-disk inode of an empty file that never grew. -/
def busy_device (s : Nat) : Block :=
  if s = 0 then bytes_of_words (4 :: List.replicate 127 0)
  else if s = 4 then bytes_of_words (6 :: 7 :: List.replicate 126 0)
  else if s = 5 then ({ inode_disk.zero with magic := INODE_MAGIC, parent := 1 }).encode
  else zeros

/-- The state in which the empty file at sector 5 of `busy_device` has been opened once
(its `struct inode` is at address 100) and then removed. -/
def busy_sys : Sys :=
  st_of
    (sys_of (inode_init (demo_fs busy_device 100))
      (inode_open (inode_init (demo_fs busy_device 100)) 5 (some 100)))
    (inode_remove
      (sys_of (inode_init (demo_fs busy_device 100))
        (inode_open (inode_init (demo_fs busy_device 100)) 5 (some 100)))
      (some 100))
/-- Entry `x` of the index block stored in sector `t`. -/
def block_entry (c : Cache) (t x : Nat) : Nat :=
  word_at (words_of_bytes (logical c t)) x

/-- The tree under root `R` has no hole below `size`: the root exists when `size` is
positive, and every root entry and every level-1 entry that a byte below `size` needs is
non-zero. -/
structure NoHoles (c : Cache) (R : Nat) (size : Int) : Prop where
  root : 0 < size → R ≠ 0
  roots : ∀ i : Nat, i < 128 → size > (i : Int) * 128 * 512 → block_entry c R i ≠ 0
  datas : ∀ i j : Nat, i < 128 → j < 128 → size > (i : Int) * 128 * 512 + (j : Int) * 512 →
    block_entry c (block_entry c R i) j ≠ 0

/-- An open handle of the 1000-byte file whose tree `tree_device` holds. -/
def tree_handle : inode :=
  { sector := 5, length := 1000, open_cnt := 1, removed := false, deny_write_cnt := 0,
    data := tree_id }

/-- The file system on `tree_device` with an allocator that has one free sector left. -/
def scarce_tree_fs : FS :=
  { cache := tree_fs.cache, free_map := demo_free_map 1 }

theorem upd_same {α : Type} (f : Nat → α) (a : Nat) (v : α) : upd f a v a = v := by
  simp [upd]

theorem upd_other {α : Type} (f : Nat → α) (a : Nat) (v : α) (x : Nat) (h : x ≠ a) :
    upd f a v x = f x := by
  simp [upd, h]

/-- Two predicates that agree on the indices of a scan find the same first index. -/
theorem scan_agree (l : List Nat) (p q : Nat → Bool) (h : ∀ i, i ∈ l → p i = q i) :
    List.find? p l = List.find? q l := by
  induction l with
  | nil => rfl
  | cons a l ih =>
    have ha : p a = q a := h a (List.mem_cons_self a l)
    have ht : List.find? p l = List.find? q l :=
      ih (fun i hi => h i (List.mem_cons_of_mem a hi))
    rw [List.find?_cons, List.find?_cons, ha, ht]

theorem cache_lookup_congr {c c1 : Cache} (h : SameTags c c1) (s : Nat) :
    cache_lookup c1 s = cache_lookup c s := by
  unfold cache_lookup
  apply scan_agree
  intro i hi
  have hi2 : i < MAX_CACHE_CAPACITY := List.mem_range.mp hi
  rw [(h i hi2).1, (h i hi2).2]

theorem cache_lookup_some {c : Cache} {s i : Nat} (h : cache_lookup c s = some i) :
    i < MAX_CACHE_CAPACITY ∧ (c.cache_array i).valid = true ∧ (c.cache_array i).sector = s := by
  unfold cache_lookup at h
  have hp := List.find?_some h
  have hm := List.mem_range.mp (List.mem_of_find?_eq_some h)
  simp at hp
  exact ⟨hm, hp.1, hp.2⟩

theorem cache_lookup_none {c : Cache} {s : Nat} (h : cache_lookup c s = none) (i : Nat)
    (hi : i < MAX_CACHE_CAPACITY) (hv : (c.cache_array i).valid = true) :
    (c.cache_array i).sector ≠ s := by
  unfold cache_lookup at h
  rw [List.find?_range_eq_none] at h
  have := h i hi
  simp [hv] at this
  exact this

theorem cache_lookup_none_of {c : Cache} {s : Nat}
    (h : ∀ i, i < MAX_CACHE_CAPACITY → (c.cache_array i).valid = true →
      (c.cache_array i).sector ≠ s) : cache_lookup c s = none := by
  unfold cache_lookup
  rw [List.find?_range_eq_none]
  intro i hi
  cases hv : (c.cache_array i).valid
  · simp
  · simp [h i hi hv]

theorem cache_lookup_of_valid {c : Cache} (inv : CacheInv c) {s i : Nat}
    (hi : i < MAX_CACHE_CAPACITY) (hv : (c.cache_array i).valid = true)
    (hs : (c.cache_array i).sector = s) : cache_lookup c s = some i := by
  cases hl : cache_lookup c s with
  | none => exact absurd hs (cache_lookup_none hl i hi hv)
  | some j =>
    obtain ⟨hj, hjv, hjs⟩ := cache_lookup_some hl
    rw [inv.noalias i j hi hj hv hjv (hs.trans hjs.symm)]

theorem logical_of_hit {c : Cache} {s i : Nat} (h : cache_lookup c s = some i) :
    logical c s = (c.cache_array i).disk := by
  simp [logical, h]

theorem logical_of_miss {c : Cache} {s : Nat} (h : cache_lookup c s = none) :
    logical c s = c.fs_device.data s := by
  simp [logical, h]

/-! ## Cache: the eviction scan -/

theorem clock_clear_entry (c : Cache) (j : Nat) :
    ((clock_clear c).cache_array j).valid = (c.cache_array j).valid ∧
    ((clock_clear c).cache_array j).sector = (c.cache_array j).sector ∧
    ((clock_clear c).cache_array j).disk = (c.cache_array j).disk ∧
    ((clock_clear c).cache_array j).dirty = (c.cache_array j).dirty := by
  by_cases h : j = c.clock_hand
  · subst h; simp [clock_clear, upd]
  · simp [clock_clear, upd, h]

theorem clock_clear_hand (c : Cache) (h : c.clock_hand < MAX_CACHE_CAPACITY) :
    (clock_clear c).clock_hand = 0 := by
  have : c.clock_hand ≠ MAX_CACHE_CAPACITY := Nat.ne_of_lt h
  simp [clock_clear, this]

theorem clock_clear_rbit (c : Cache) (h : c.clock_hand = 0) :
    ((clock_clear c).cache_array 0).r_bit = false := by
  simp [clock_clear, upd, h]

theorem clock_clear_logical (c : Cache) (t : Nat) : logical (clock_clear c) t = logical c t := by
  have hl : cache_lookup (clock_clear c) t = cache_lookup c t :=
    cache_lookup_congr (fun i _ => ⟨(clock_clear_entry c i).1, (clock_clear_entry c i).2.1⟩) t
  unfold logical
  rw [hl]
  cases cache_lookup c t with
  | none => rfl
  | some i => exact (clock_clear_entry c i).2.2.1

theorem clock_clear_inv {c : Cache} (inv : CacheInv c) : CacheInv (clock_clear c) := by
  refine ⟨?_, ?_, ?_⟩
  · rw [clock_clear_hand c inv.hand]; decide
  · intro i j hi hj hvi hvj hs
    rw [(clock_clear_entry c i).1] at hvi
    rw [(clock_clear_entry c j).1] at hvj
    rw [(clock_clear_entry c i).2.1, (clock_clear_entry c j).2.1] at hs
    exact inv.noalias i j hi hj hvi hvj hs
  · intro i hi hv hd
    rw [(clock_clear_entry c i).1] at hv
    rw [(clock_clear_entry c i).2.2.2] at hd
    rw [(clock_clear_entry c i).2.2.1, (clock_clear_entry c i).2.1]
    exact inv.clean i hi hv hd

theorem AccessPost.of_clear {c c1 : Cache} {i : Nat} (h : AccessPost (clock_clear c) i c1) :
    AccessPost c i c1 where
  lt := h.lt
  invalid := h.invalid
  others := fun j hj => by
    obtain ⟨a, b, d, e⟩ := h.others j hj
    obtain ⟨a1, b1, d1, e1⟩ := clock_clear_entry c j
    exact ⟨a.trans a1, b.trans b1, d.trans d1, e.trans e1⟩
  inv := h.inv
  same := fun t => (h.same t).trans (clock_clear_logical c t)
  hits := h.hits
  misses := h.misses
  reads := h.reads

theorem cache_access_loop_clear (n : Nat) (c : Cache) (hh : c.clock_hand < MAX_CACHE_CAPACITY)
    (hv : (c.cache_array c.clock_hand).valid = true)
    (hr : (c.cache_array c.clock_hand).r_bit = true) :
    cache_access_loop (n + 1) c = cache_access_loop n (clock_clear c) := by
  have h1 : ¬ MAX_CACHE_CAPACITY ≤ c.clock_hand := Nat.not_le.mpr hh
  simp [cache_access_loop, h1, hv, hr, clock_clear]

theorem clock_evict_other (c : Cache) (j : Nat) (h : j ≠ c.clock_hand) :
    (clock_evict c).cache_array j = c.cache_array j := by
  cases hd : (c.cache_array c.clock_hand).dirty <;> simp [clock_evict, hd, upd, h]

theorem clock_evict_hand (c : Cache) :
    ((clock_evict c).cache_array c.clock_hand).valid = false := by
  cases hd : (c.cache_array c.clock_hand).dirty <;> simp [clock_evict, hd, upd]

theorem clock_evict_data (c : Cache) :
    (clock_evict c).fs_device.data =
      if (c.cache_array c.clock_hand).dirty then
        upd c.fs_device.data (c.cache_array c.clock_hand).sector (c.cache_array c.clock_hand).disk
      else c.fs_device.data := by
  cases hd : (c.cache_array c.clock_hand).dirty <;> simp [clock_evict, hd, block_write]

theorem clock_evict_fields (c : Cache) :
    (clock_evict c).clock_hand = c.clock_hand ∧ (clock_evict c).hits = c.hits ∧
    (clock_evict c).misses = c.misses ∧
    (clock_evict c).fs_device.read_cnt = c.fs_device.read_cnt := by
  cases hd : (c.cache_array c.clock_hand).dirty <;> simp [clock_evict, hd, block_write]

theorem clock_evict_lookup_tag {c : Cache} (inv : CacheInv c)
    (hv : (c.cache_array c.clock_hand).valid = true) :
    cache_lookup (clock_evict c) (c.cache_array c.clock_hand).sector = none := by
  apply cache_lookup_none_of
  intro i hi hvi
  by_cases h : i = c.clock_hand
  · subst h; rw [clock_evict_hand] at hvi; exact absurd hvi (by simp)
  · rw [clock_evict_other c i h] at hvi ⊢
    intro hs
    exact h (inv.noalias i c.clock_hand hi inv.hand hvi hv hs)

theorem clock_evict_lookup_other (c : Cache) (t : Nat)
    (ht : t ≠ (c.cache_array c.clock_hand).sector) :
    cache_lookup (clock_evict c) t = cache_lookup c t := by
  unfold cache_lookup
  apply scan_agree
  intro i _
  by_cases h : i = c.clock_hand
  · subst h
    rw [clock_evict_hand]
    have : ¬ (c.cache_array c.clock_hand).sector = t := fun e => ht e.symm
    simp [this]
  · rw [clock_evict_other c i h]

theorem clock_evict_post {c : Cache} (inv : CacheInv c)
    (hv : (c.cache_array c.clock_hand).valid = true) :
    AccessPost c c.clock_hand (clock_evict c) where
  lt := inv.hand
  invalid := clock_evict_hand c
  others := fun j hj => by rw [clock_evict_other c j hj]; exact ⟨rfl, rfl, rfl, rfl⟩
  inv := by
    refine ⟨?_, ?_, ?_⟩
    · rw [(clock_evict_fields c).1]; exact inv.hand
    · intro i j hi hj hvi hvj hs
      have h1 : i ≠ c.clock_hand := by
        intro e; subst e; rw [clock_evict_hand] at hvi; exact absurd hvi (by simp)
      have h2 : j ≠ c.clock_hand := by
        intro e; subst e; rw [clock_evict_hand] at hvj; exact absurd hvj (by simp)
      rw [clock_evict_other c i h1] at hvi hs
      rw [clock_evict_other c j h2] at hvj hs
      exact inv.noalias i j hi hj hvi hvj hs
    · intro i hi hvi hd
      have h1 : i ≠ c.clock_hand := by
        intro e; subst e; rw [clock_evict_hand] at hvi; exact absurd hvi (by simp)
      rw [clock_evict_other c i h1] at hvi hd ⊢
      rw [clock_evict_data]
      have hne : (c.cache_array i).sector ≠ (c.cache_array c.clock_hand).sector :=
        fun e => h1 (inv.noalias i c.clock_hand hi inv.hand hvi hv e)
      cases (c.cache_array c.clock_hand).dirty
      · simpa using inv.clean i hi hvi hd
      · simp only [if_true]
        rw [upd_other _ _ _ _ hne]
        exact inv.clean i hi hvi hd
  same := fun t => by
    by_cases ht : t = (c.cache_array c.clock_hand).sector
    · subst ht
      rw [logical_of_miss (clock_evict_lookup_tag inv hv),
        logical_of_hit (cache_lookup_of_valid inv inv.hand hv rfl), clock_evict_data]
      cases hd : (c.cache_array c.clock_hand).dirty
      · simpa using (inv.clean c.clock_hand inv.hand hv hd).symm
      · simp [upd]
    · have hl := clock_evict_lookup_other c t ht
      unfold logical
      rw [hl]
      cases hc : cache_lookup c t with
      | none =>
        simp only []
        rw [clock_evict_data]
        cases (c.cache_array c.clock_hand).dirty
        · simp
        · simp only [if_true]; rw [upd_other _ _ _ _ ht]
      | some j =>
        simp only []
        have hj : j ≠ c.clock_hand := by
          intro e; subst e; exact ht (cache_lookup_some hc).2.2.symm
        rw [clock_evict_other c j hj]
  hits := (clock_evict_fields c).2.1
  misses := (clock_evict_fields c).2.2.1
  reads := (clock_evict_fields c).2.2.2

theorem access_post_refl {c : Cache} (inv : CacheInv c)
    (hv : (c.cache_array c.clock_hand).valid = false) : AccessPost c c.clock_hand c where
  lt := inv.hand
  invalid := hv
  others := fun _ _ => ⟨rfl, rfl, rfl, rfl⟩
  inv := inv
  same := fun _ => rfl
  hits := rfl
  misses := rfl
  reads := rfl

/-- When the entry under the hand is invalid or not recently used the scan returns at once. -/
theorem cache_access_loop_return (n : Nat) {c : Cache} (inv : CacheInv c)
    (h : (c.cache_array c.clock_hand).valid = false ∨ (c.cache_array c.clock_hand).r_bit = false) :
    ∃ c1, cache_access_loop (n + 1) c = .ok (c.clock_hand, c1) ∧ AccessPost c c.clock_hand c1 := by
  have h1 : ¬ MAX_CACHE_CAPACITY ≤ c.clock_hand := Nat.not_le.mpr inv.hand
  cases hv : (c.cache_array c.clock_hand).valid with
  | false =>
    exact ⟨c, by simp [cache_access_loop, h1, hv], access_post_refl inv hv⟩
  | true =>
    have hr : (c.cache_array c.clock_hand).r_bit = false := by
      rcases h with h | h
      · rw [hv] at h; exact absurd h (by simp)
      · exact h
    refine ⟨clock_evict c, ?_, clock_evict_post inv hv⟩
    simp [cache_access_loop, h1, hv, hr, clock_evict]

/-- From a state that satisfies the invariant the scan returns within three iterations. -/
theorem cache_access_loop_ok (n : Nat) {c : Cache} (inv : CacheInv c) :
    ∃ i c1, cache_access_loop (n + 3) c = .ok (i, c1) ∧ AccessPost c i c1 := by
  by_cases h : (c.cache_array c.clock_hand).valid = false ∨
      (c.cache_array c.clock_hand).r_bit = false
  · obtain ⟨c1, e, p⟩ := cache_access_loop_return (n + 2) inv h
    exact ⟨_, c1, e, p⟩
  · have hv : (c.cache_array c.clock_hand).valid = true := by
      cases hb : (c.cache_array c.clock_hand).valid
      · exact absurd (Or.inl hb) h
      · rfl
    have hr : (c.cache_array c.clock_hand).r_bit = true := by
      cases hb : (c.cache_array c.clock_hand).r_bit
      · exact absurd (Or.inr hb) h
      · rfl
    rw [cache_access_loop_clear (n + 2) c inv.hand hv hr]
    have inv1 := clock_clear_inv inv
    by_cases h2 : ((clock_clear c).cache_array (clock_clear c).clock_hand).valid = false ∨
        ((clock_clear c).cache_array (clock_clear c).clock_hand).r_bit = false
    · obtain ⟨c1, e, p⟩ := cache_access_loop_return (n + 1) inv1 h2
      exact ⟨_, c1, e, p.of_clear⟩
    · have hv2 : ((clock_clear c).cache_array (clock_clear c).clock_hand).valid = true := by
        cases hb : ((clock_clear c).cache_array (clock_clear c).clock_hand).valid
        · exact absurd (Or.inl hb) h2
        · rfl
      have hr2 : ((clock_clear c).cache_array (clock_clear c).clock_hand).r_bit = true := by
        cases hb : ((clock_clear c).cache_array (clock_clear c).clock_hand).r_bit
        · exact absurd (Or.inr hb) h2
        · rfl
      rw [cache_access_loop_clear (n + 1) _ inv1.hand hv2 hr2]
      have inv2 := clock_clear_inv inv1
      have h3 : ((clock_clear (clock_clear c)).cache_array
          (clock_clear (clock_clear c)).clock_hand).r_bit = false := by
        rw [clock_clear_hand _ inv1.hand]
        exact clock_clear_rbit _ (clock_clear_hand c inv.hand)
      obtain ⟨c1, e, p⟩ := cache_access_loop_return n inv2 (Or.inr h3)
      exact ⟨_, c1, e, p.of_clear.of_clear⟩

theorem cache_access_ok {c : Cache} (inv : CacheInv c) :
    ∃ i c1, cache_access c = .ok (i, c1) ∧ AccessPost c i c1 :=
  cache_access_loop_ok 125 inv

/-! ## Cache: reads and writes preserve the logical content -/

/-- Replacing entry `i` by a valid entry tagged `s`, when no other valid entry is tagged
`s`: the invariant is kept, `s` now reads as the new payload, other sectors are untouched. -/
theorem slot_replace {c k : Cache} {i s : Nat} {e : entry} (inv : CacheInv c)
    (hi : i < MAX_CACHE_CAPACITY)
    (hslot : (c.cache_array i).valid = true → (c.cache_array i).sector = s)
    (hothers : ∀ j, j < MAX_CACHE_CAPACITY → j ≠ i → (c.cache_array j).valid = true →
      (c.cache_array j).sector ≠ s)
    (hv : e.valid = true) (hs : e.sector = s)
    (hclean : e.dirty = false → e.disk = c.fs_device.data s)
    (ha : k.cache_array = upd c.cache_array i e)
    (hd : k.fs_device.data = c.fs_device.data) (hh : k.clock_hand = c.clock_hand) :
    CacheInv k ∧ logical k s = e.disk ∧ ∀ t, t ≠ s → logical k t = logical c t := by
  have hsame : (k.cache_array i) = e := by rw [ha, upd_same]
  have hoth : ∀ j, j ≠ i → k.cache_array j = c.cache_array j := by
    intro j hj; rw [ha, upd_other _ _ _ _ hj]
  have inv2 : CacheInv k := by
    refine ⟨by rw [hh]; exact inv.hand, ?_, ?_⟩
    · intro a b hA hB hva hvb hab
      by_cases ea : a = i
      · by_cases eb : b = i
        · rw [ea, eb]
        · exfalso
          rw [hoth b eb] at hvb hab
          rw [ea, hsame, hs] at hab
          exact hothers b hB eb hvb hab.symm
      · by_cases eb : b = i
        · exfalso
          rw [hoth a ea] at hva hab
          rw [eb, hsame, hs] at hab
          exact hothers a hA ea hva hab
        · rw [hoth a ea] at hva hab
          rw [hoth b eb] at hvb hab
          exact inv.noalias a b hA hB hva hvb hab
    · intro a hA hva hda
      by_cases ea : a = i
      · rw [ea, hsame] at hda ⊢
        rw [hs, hd]; exact hclean hda
      · rw [hoth a ea] at hva hda ⊢
        rw [hd]; exact inv.clean a hA hva hda
  refine ⟨inv2, ?_, ?_⟩
  · have hl : cache_lookup k s = some i :=
      cache_lookup_of_valid inv2 hi (by rw [hsame]; exact hv) (by rw [hsame]; exact hs)
    rw [logical_of_hit hl, hsame]
  · intro t ht
    have hl : cache_lookup k t = cache_lookup c t := by
      unfold cache_lookup
      apply scan_agree
      intro j _
      by_cases ej : j = i
      · rw [ej, hsame, hs]
        have h1 : ¬ s = t := fun e => ht e.symm
        cases hvi : (c.cache_array i).valid
        · simp [h1]
        · have := hslot hvi
          simp [h1, this]
      · rw [hoth j ej]
    unfold logical
    rw [hl]
    cases hc : cache_lookup c t with
    | none => simp only []; rw [hd]
    | some j =>
      simp only []
      have hj : j ≠ i := by
        intro ej
        obtain ⟨_, hvj, hsj⟩ := cache_lookup_some hc
        rw [ej] at hvj hsj
        exact ht ((hslot hvj).symm.trans hsj).symm
      rw [hoth j hj]

theorem cache_lookup_misses (c : Cache) (n s : Nat) :
    cache_lookup { c with misses := n } s = cache_lookup c s := rfl

theorem logical_misses (c : Cache) (n s : Nat) :
    logical { c with misses := n } s = logical c s := rfl

theorem cache_inv_misses {c : Cache} (inv : CacheInv c) (n : Nat) :
    CacheInv { c with misses := n } :=
  ⟨inv.hand, inv.noalias, inv.clean⟩

/-- A write through the cache succeeds, stores the buffer as the logical content of its
sector, and leaves the logical content of every other sector alone. -/
theorem cache_write_ok {c : Cache} (inv : CacheInv c) (s : Nat) (b : Block) :
    ∃ c1, cache_write c s b = .ok c1 ∧ CacheInv c1 ∧ logical c1 s = sector_copy b ∧
      ∀ t, t ≠ s → logical c1 t = logical c t := by
  cases hl : cache_lookup c s with
  | some i =>
    obtain ⟨hi, hvi, hsi⟩ := cache_lookup_some hl
    have e : cache_write c s b = .ok { c with
        hits := (c.hits + 1) % 4294967296,
        cache_array := upd c.cache_array i
          { c.cache_array i with r_bit := true, dirty := true, disk := sector_copy b } } := by
      simp only [cache_write, hl]
    refine ⟨_, e, ?_⟩
    exact slot_replace inv hi (fun _ => hsi)
      (fun j hj hne hvj hsj => hne (inv.noalias j i hj hi hvj hvi (hsj.trans hsi.symm)))
      (e := { c.cache_array i with r_bit := true, dirty := true, disk := sector_copy b })
      hvi hsi (fun h => absurd h (by simp)) rfl rfl rfl
  | none =>
    obtain ⟨i, c1, ha, p⟩ := cache_access_ok (cache_inv_misses inv ((c.misses + 1) % 4294967296))
    have e : cache_write c s b = .ok { c1 with
        cache_array := upd c1.cache_array i
          { valid := true, dirty := true, sector := s, r_bit := true, disk := sector_copy b } } := by
      simp only [cache_write, hl, ha]
    refine ⟨_, e, ?_⟩
    have hoth : ∀ j, j < MAX_CACHE_CAPACITY → j ≠ i → (c1.cache_array j).valid = true →
        (c1.cache_array j).sector ≠ s := by
      intro j hj hne hvj
      obtain ⟨a, b1, _, _⟩ := p.others j hne
      rw [a] at hvj; rw [b1]
      exact cache_lookup_none hl j hj hvj
    obtain ⟨inv2, h1, h2⟩ := slot_replace p.inv p.lt
      (fun h => absurd h (by rw [p.invalid]; simp)) hoth
      (e := { valid := true, dirty := true, sector := s, r_bit := true, disk := sector_copy b })
      (k := { c1 with
        cache_array := upd c1.cache_array i
          { valid := true, dirty := true, sector := s, r_bit := true, disk := sector_copy b } })
      rfl rfl (fun h => absurd h (by simp)) rfl rfl rfl
    exact ⟨inv2, h1, fun t ht => ((h2 t ht).trans (p.same t)).trans (logical_misses c _ t)⟩

/-- A read through the cache succeeds, returns the logical content of the sector, and
leaves the logical content of every sector alone. -/
theorem cache_read_ok {c : Cache} (inv : CacheInv c) (s : Nat) :
    ∃ c1, cache_read c s = .ok (logical c s, c1) ∧ CacheInv c1 ∧
      ∀ t, logical c1 t = logical c t := by
  cases hl : cache_lookup c s with
  | some i =>
    obtain ⟨hi, hvi, hsi⟩ := cache_lookup_some hl
    have e : cache_read c s = .ok (logical c s, { c with
        hits := (c.hits + 1) % 4294967296,
        cache_array := upd c.cache_array i { c.cache_array i with r_bit := true } }) := by
      simp only [cache_read, hl, logical_of_hit hl]
    refine ⟨_, e, ?_⟩
    obtain ⟨inv2, h1, h2⟩ := slot_replace inv hi (fun _ => hsi)
      (fun j hj hne hvj hsj => hne (inv.noalias j i hj hi hvj hvi (hsj.trans hsi.symm)))
      (e := { c.cache_array i with r_bit := true })
      (k := { c with hits := (c.hits + 1) % 4294967296,
                      cache_array := upd c.cache_array i { c.cache_array i with r_bit := true } })
      hvi hsi (fun h => by rw [← hsi]; exact inv.clean i hi hvi h) rfl rfl rfl
    refine ⟨inv2, fun t => ?_⟩
    by_cases ht : t = s
    · rw [ht, h1, logical_of_hit hl]
    · exact h2 t ht
  | none =>
    obtain ⟨i, c1, ha, p⟩ := cache_access_ok (cache_inv_misses inv ((c.misses + 1) % 4294967296))
    have hoth : ∀ j, j < MAX_CACHE_CAPACITY → j ≠ i → (c1.cache_array j).valid = true →
        (c1.cache_array j).sector ≠ s := by
      intro j hj hne hvj
      obtain ⟨a, b1, _, _⟩ := p.others j hne
      rw [a] at hvj; rw [b1]
      exact cache_lookup_none hl j hj hvj
    have hl1 : cache_lookup c1 s = none := by
      apply cache_lookup_none_of
      intro j hj hvj
      by_cases ej : j = i
      · rw [ej, p.invalid] at hvj; exact absurd hvj (by simp)
      · exact hoth j hj ej hvj
    have hval : c1.fs_device.data s = logical c s := by
      rw [← logical_of_miss hl1, p.same s]; rfl
    have e : cache_read c s = .ok (logical c s, { c1 with
        fs_device := { c1.fs_device with read_cnt := c1.fs_device.read_cnt + 1 },
        cache_array := upd c1.cache_array i
          { valid := true, dirty := false, sector := s, r_bit := true, disk := logical c s } }) := by
      simp only [cache_read, hl, ha, block_read, hval]
    refine ⟨_, e, ?_⟩
    obtain ⟨inv2, h1, h2⟩ := slot_replace p.inv p.lt
      (fun h => absurd h (by rw [p.invalid]; simp)) hoth
      (e := { valid := true, dirty := false, sector := s, r_bit := true, disk := logical c s })
      (k := { c1 with
        fs_device := { c1.fs_device with read_cnt := c1.fs_device.read_cnt + 1 },
        cache_array := upd c1.cache_array i
          { valid := true, dirty := false, sector := s, r_bit := true, disk := logical c s } })
      rfl rfl (fun _ => hval.symm) rfl rfl rfl
    refine ⟨inv2, fun t => ?_⟩
    by_cases ht : t = s
    · rw [ht, h1]
    · exact ((h2 t ht).trans (p.same t)).trans (logical_misses c _ t)

/-! ## Cache: flush, reset and the reachable states -/

theorem cache_flush_entry_ok {c : Cache} (inv : CacheInv c) {i : Nat}
    (hi : i < MAX_CACHE_CAPACITY) :
    CacheInv (cache_flush_entry c i) ∧ ∀ t, logical (cache_flush_entry c i) t = logical c t := by
  cases hv : (c.cache_array i).valid with
  | false =>
    have e : cache_flush_entry c i = c := by simp [cache_flush_entry, hv]
    rw [e]; exact ⟨inv, fun _ => rfl⟩
  | true =>
    cases hd : (c.cache_array i).dirty with
    | false =>
      have e : cache_flush_entry c i = c := by simp [cache_flush_entry, hd]
      rw [e]; exact ⟨inv, fun _ => rfl⟩
    | true =>
      have e : cache_flush_entry c i =
          { c with
            fs_device := block_write c.fs_device (c.cache_array i).sector (c.cache_array i).disk,
            cache_array := upd c.cache_array i { c.cache_array i with dirty := false } } := by
        simp [cache_flush_entry, hv, hd]
      rw [e]
      have hent : ∀ j, (upd c.cache_array i { c.cache_array i with dirty := false } j).valid =
            (c.cache_array j).valid ∧
          (upd c.cache_array i { c.cache_array i with dirty := false } j).sector =
            (c.cache_array j).sector ∧
          (upd c.cache_array i { c.cache_array i with dirty := false } j).disk =
            (c.cache_array j).disk := by
        intro j
        by_cases ej : j = i
        · subst ej; simp [upd]
        · simp [upd, ej]
      have inv2 : CacheInv { c with
            fs_device := block_write c.fs_device (c.cache_array i).sector (c.cache_array i).disk,
            cache_array := upd c.cache_array i { c.cache_array i with dirty := false } } := by
        refine ⟨inv.hand, ?_, ?_⟩
        · intro a b hA hB hva hvb hab
          simp only [(hent a).1, (hent a).2.1, (hent b).1, (hent b).2.1] at hva hvb hab
          exact inv.noalias a b hA hB hva hvb hab
        · intro a hA hva hda
          simp only [(hent a).1] at hva
          simp only [(hent a).2.1, (hent a).2.2, block_write]
          by_cases ea : a = i
          · subst ea; simp [upd]
          · have hne : (c.cache_array a).sector ≠ (c.cache_array i).sector :=
              fun e => ea (inv.noalias a i hA hi hva hv e)
            rw [upd_other _ _ _ _ hne]
            simp only [upd_other _ _ _ _ ea] at hda
            exact inv.clean a hA hva hda
      refine ⟨inv2, fun t => ?_⟩
      have hl : cache_lookup { c with
            fs_device := block_write c.fs_device (c.cache_array i).sector (c.cache_array i).disk,
            cache_array := upd c.cache_array i { c.cache_array i with dirty := false } } t =
          cache_lookup c t :=
        cache_lookup_congr (fun j _ => ⟨(hent j).1, (hent j).2.1⟩) t
      unfold logical
      rw [hl]
      cases hc : cache_lookup c t with
      | some j => exact (hent j).2.2
      | none =>
        simp only [block_write]
        have hne : t ≠ (c.cache_array i).sector :=
          fun e => cache_lookup_none hc i hi hv e.symm
        rw [upd_other _ _ _ _ hne]

theorem cache_flush_list_ok : ∀ (l : List Nat) {c : Cache}, CacheInv c →
    (∀ i ∈ l, i < MAX_CACHE_CAPACITY) →
    CacheInv (l.foldl cache_flush_entry c) ∧
      ∀ t, logical (l.foldl cache_flush_entry c) t = logical c t
  | [], _, inv, _ => ⟨inv, fun _ => rfl⟩
  | i :: l, c, inv, h => by
    obtain ⟨inv1, h1⟩ := cache_flush_entry_ok inv (h i (List.mem_cons_self i l))
    obtain ⟨inv2, h2⟩ := cache_flush_list_ok l inv1 (fun j hj => h j (List.mem_cons_of_mem i hj))
    exact ⟨inv2, fun t => (h2 t).trans (h1 t)⟩

/-- Flushing keeps the invariant and the logical content of every sector. -/
theorem cache_flush_ok {c : Cache} (inv : CacheInv c) :
    CacheInv (cache_flush c) ∧ ∀ t, logical (cache_flush c) t = logical c t :=
  cache_flush_list_ok _ inv (fun _ hi => List.mem_range.mp hi)

theorem cache_inv_of_invalid {c : Cache} (hh : c.clock_hand < MAX_CACHE_CAPACITY)
    (h : ∀ i, i < MAX_CACHE_CAPACITY → (c.cache_array i).valid = false) : CacheInv c :=
  ⟨hh, fun i _ hi _ hv _ _ => absurd hv (by rw [h i hi]; simp),
    fun i hi hv _ => absurd hv (by rw [h i hi]; simp)⟩

theorem cache_init_inv (c : Cache) : CacheInv (cache_init c) :=
  cache_inv_of_invalid (Nat.zero_lt_succ 63) (fun i hi => by simp [cache_init, hi])

theorem cache_reset_inv (c : Cache) : CacheInv (cache_reset c) :=
  cache_inv_of_invalid (Nat.zero_lt_succ 63) (fun i hi => by simp [cache_reset, hi])

/-- Every reachable cache state satisfies the invariant. -/
theorem reachable_inv {c : Cache} (h : Reachable c) : CacheInv c := by
  induction h with
  | init c => exact cache_init_inv c
  | @read c c1 s b _ e ih =>
    obtain ⟨c2, e2, inv2, _⟩ := cache_read_ok ih s
    rw [e2] at e
    cases e
    exact inv2
  | @write c c1 s b _ e ih =>
    obtain ⟨c2, e2, inv2, _⟩ := cache_write_ok ih s b
    rw [e2] at e
    cases e
    exact inv2
  | flush _ ih => exact (cache_flush_ok ih).1
  | reset _ _ => exact cache_reset_inv _

theorem sector_copy_of_length {b : Block} (h : b.length = BLOCK_SECTOR_SIZE) :
    sector_copy b = b := by
  unfold sector_copy
  exact List.take_of_length_le (Nat.le_of_eq h)

theorem demo_cache_reachable : Reachable demo_cache := by
  obtain ⟨c1, e, _⟩ := cache_write_ok (cache_init_inv (boot_cache (fun _ => zeros))) 7
    (List.replicate 512 1)
  have h : demo_cache = c1 := by
    unfold demo_cache
    rw [e]
    rfl
  rw [h]
  exact Reachable.write (Reachable.init _) e

/-! ## Claims about the cache -/

/-- C1 (cache transparency). With the logical content of a sector defined as the payload
of the valid entry tagged with it, or else the device content: in every cache state
reachable from `cache_init`, for every sector `s` and every 512-byte buffer `b`,
`cache_write (s, b)` returns, makes the logical content of `s` equal to `b` and changes
the logical content of no other sector; `cache_read (s)` returns the logical content of
`s` and changes the logical content of no sector, eviction of a dirty victim included. -/
theorem cache_transparency (c : Cache) (hr : Reachable c) (s : Nat) (b : Block)
    (hb : b.length = BLOCK_SECTOR_SIZE) :
    (∃ c1, cache_write c s b = .ok c1 ∧ logical c1 s = b ∧
      ∀ t, t ≠ s → logical c1 t = logical c t) ∧
    (∃ c1, cache_read c s = .ok (logical c s, c1) ∧ ∀ t, logical c1 t = logical c t) := by
  have inv := reachable_inv hr
  obtain ⟨c1, e1, _, h1, h2⟩ := cache_write_ok inv s b
  obtain ⟨c2, e2, _, h3⟩ := cache_read_ok inv s
  rw [sector_copy_of_length hb] at h1
  exact ⟨⟨c1, e1, h1, h2⟩, ⟨c2, e2, h3⟩⟩

/-- Witness for C1: from the state holding dirty sector 7, sector 9 is written and read;
both operations evict the dirty entry. -/
theorem cache_transparency_witness :
    Reachable demo_cache ∧ (List.replicate 512 2).length = BLOCK_SECTOR_SIZE ∧
    ((∃ c1, cache_write demo_cache 9 (List.replicate 512 2) = .ok c1 ∧
        logical c1 9 = List.replicate 512 2 ∧
        ∀ t, t ≠ 9 → logical c1 t = logical demo_cache t) ∧
      (∃ c1, cache_read demo_cache 9 = .ok (logical demo_cache 9, c1) ∧
        ∀ t, logical c1 t = logical demo_cache t)) :=
  ⟨demo_cache_reachable, List.length_replicate 512 2,
    cache_transparency demo_cache demo_cache_reachable 9 (List.replicate 512 2)
      (List.length_replicate 512 2)⟩

/-! ## Claims about offset translation, the byte counts and failures -/

/-- C7 (offset translation boundary), evaluated on the code: for the 1000-byte file of
`file_fs`, `byte_to_sector` at offset 1000, the length of the file, does not return the
"no data" value: it reads the doubly indirect and the indirect block through the cache
(two more misses) and returns sector 13, the second data block of the file. -/
theorem byte_to_sector_at_length_translates :
    file_handle.length = 1000 ∧
    (file_fs.cache.hits, file_fs.cache.misses) = (0, 5) ∧
    (byte_to_sector file_fs.cache file_handle 1000).toOption.map
      (fun r => (r.1, r.2.hits, r.2.misses)) = some (13, 0, 7) := by
  decide!

/-- At the end of a file of maximum length the translation indexes the doubly indirect
block at 128, outside the array. -/
theorem byte_to_sector_full_file {c : Cache} (inv : CacheInv c) (h : inode)
    (hlen : h.length = MAX_FILE_SIZE) :
    byte_to_sector c h MAX_FILE_SIZE = .error .out_of_bounds := by
  obtain ⟨c1, e, _, _⟩ := cache_read_ok inv h.data.dbl_sect
  have h1 : MAX_FILE_SIZE ≤ h.length := by rw [hlen]
  have h2 : MAX_FILE_SIZE.tdiv (512 * 128) = 128 := by decide
  simp only [byte_to_sector, h1, if_true, e, h2]
  simp

/-- Reading at the end of a file of maximum length does not return: the first iteration
of the loop translates the offset before it looks at the chunk size. -/
theorem inode_read_at_full_file {c : Cache} (inv : CacheInv c) (h : inode) (buffer : Block)
    (size : Int) (hs : h.sector ≠ FREE_MAP_SECTOR) (hlen : h.length = MAX_FILE_SIZE)
    (hsize : 0 < size) :
    inode_read_at c h buffer size MAX_FILE_SIZE = .error .out_of_bounds := by
  obtain ⟨n, hn⟩ : ∃ n, size.toNat = n + 1 :=
    ⟨size.toNat - 1, by omega⟩
  simp only [inode_read_at, hs, if_false, hn, inode_read_loop, gt_iff_lt, hsize, if_true,
    byte_to_sector_full_file inv h hlen]

/-- C3 (read byte count), evaluated on the code: for a handle of length `MAX_FILE_SIZE`
that is not the free-map inode, reading one byte at offset `MAX_FILE_SIZE` (at the end
of the file) does not return 0: the run ends in an access outside the doubly indirect
block. -/
theorem read_at_end_of_full_file_faults :
    full_handle.sector ≠ FREE_MAP_SECTOR ∧ full_handle.length = MAX_FILE_SIZE ∧
    fault_of (inode_read_at file_fs.cache full_handle [0] 1 MAX_FILE_SIZE) =
      some Fault.out_of_bounds := by
  decide!

/-- A write that would make the file longer than `MAX_FILE_SIZE` trips the assertion
`size <= MAX_FILE_SIZE` of `inode_resize`. -/
theorem inode_write_at_past_max {fs : FS} (inv : CacheInv fs.cache) (fuel : Nat) (h : inode)
    (buffer : Block) (size offset : Int) (hd : h.deny_write_cnt = 0)
    (hs : h.sector ≠ FREE_MAP_SECTOR) (hgt : offset + size > h.length)
    (hmax : offset + size > MAX_FILE_SIZE) :
    inode_write_at (fuel + 1) fs h buffer size offset = .error .assertion := by
  obtain ⟨c1, e, _, _⟩ := cache_read_ok inv h.sector
  have h1 : ¬ offset + size ≤ MAX_FILE_SIZE := not_le.mpr hmax
  simp [inode_write_at, hd, hs, e, hgt, inode_resize, h1]

/-- C8 (maximum file size), evaluated on the code: for a handle of length
`MAX_FILE_SIZE`, writing one byte at offset `MAX_FILE_SIZE` does not return 0: the run
ends in the failed assertion of `inode_resize`. -/
theorem write_past_max_trips_assertion :
    full_handle.length = MAX_FILE_SIZE ∧ full_handle.deny_write_cnt = 0 ∧
    fault_of (inode_write_at 2 file_fs full_handle [0] 1 MAX_FILE_SIZE) =
      some Fault.assertion := by
  decide!

/-- C9 (resize rolls back on failure), evaluated on the code: on an empty descriptor,
with an allocator that has two sectors left, `inode_resize (id, 1)` allocates the root
(sector 10) and a level-1 block (sector 11), fails to allocate the data block, and
returns false with length 0; nothing has been released and sectors 10 and 11, free
before the call, are still marked allocated. -/
theorem resize_failure_leaks :
    (tight_fs.free_map.bits 10, tight_fs.free_map.bits 11) = (false, false) ∧
    resize_flag (inode_resize 2 tight_fs inode_disk.zero 1) = some false ∧
    (resize_id inode_disk.zero (inode_resize 2 tight_fs inode_disk.zero 1)).length = 0 ∧
    (resize_fs tight_fs (inode_resize 2 tight_fs inode_disk.zero 1)).free_map.released = [] ∧
    ((resize_fs tight_fs (inode_resize 2 tight_fs inode_disk.zero 1)).free_map.bits 10,
     (resize_fs tight_fs (inode_resize 2 tight_fs inode_disk.zero 1)).free_map.bits 11) =
      (true, true) := by
  decide!

/-- C2 (write/read round trip), evaluated on the code: the empty file at sector 5 of
`stale_fs` is written with the one byte 7 at offset 0 (the allocator hands out the free,
non-zero sector 10, the write returns 1 and the length becomes 1); the read of one byte
at offset 0 that follows returns 1 byte, and that byte is 0, not 7. -/
theorem write_read_round_trip_fails :
    (handle_of stale_fs.cache 5).sector ≠ FREE_MAP_SECTOR ∧
    (handle_of stale_fs.cache 5).deny_write_cnt = 0 ∧
    (handle_of stale_fs.cache 5).length = 0 ∧
    (handle_of stale_fs.cache 5).data.dbl_sect = 0 ∧
    stale_fs.free_map.bits 10 = false ∧
    count_of (inode_write_at 2 stale_fs (handle_of stale_fs.cache 5) [7] 1 0) = some 1 ∧
    (after_write stale_fs (handle_of stale_fs.cache 5)
      (inode_write_at 2 stale_fs (handle_of stale_fs.cache 5) [7] 1 0)).1.length = 1 ∧
    (inode_read_at
      (after_write stale_fs (handle_of stale_fs.cache 5)
        (inode_write_at 2 stale_fs (handle_of stale_fs.cache 5) [7] 1 0)).2.cache
      (after_write stale_fs (handle_of stale_fs.cache 5)
        (inode_write_at 2 stale_fs (handle_of stale_fs.cache 5) [7] 1 0)).1
      [99] 1 0).toOption.map (fun r => (r.1, r.2.1)) = some (1, [0]) := by
  decide!

/-- The same write and read as in `write_read_round_trip_fails`, on a device whose free
sectors are zeroed: the read returns the byte written. -/
theorem write_read_round_trip_zeroed :
    count_of (inode_write_at 2 endless_fs (handle_of endless_fs.cache 5) [7] 1 0) = some 1 ∧
    (inode_read_at
      (after_write endless_fs (handle_of endless_fs.cache 5)
        (inode_write_at 2 endless_fs (handle_of endless_fs.cache 5) [7] 1 0)).2.cache
      (after_write endless_fs (handle_of endless_fs.cache 5)
        (inode_write_at 2 endless_fs (handle_of endless_fs.cache 5) [7] 1 0)).1
      [99] 1 0).toOption.map (fun r => (r.1, r.2.1)) = some (1, [7]) := by
  decide!

/-- C10 (a failed resize aborts the write). For a handle that is not the free-map inode
and has `deny_write_cnt = 0`, when the write must grow the file (`offset + size` exceeds
the length) and the resize it triggers returns false, `inode_write_at` returns 0 for
every buffer, the handle (its length and cached descriptor included) is as before the
call, and the state is the one the resize left: the loop that copies the buffer into
data blocks is not entered. -/
theorem write_aborts_when_resize_fails (fuel : Nat) (fs : FS) (h : inode) (buffer : Block)
    (size offset : Int) (hd : h.deny_write_cnt = 0) (hs : h.sector ≠ FREE_MAP_SECTOR)
    (hgt : offset + size > h.length)
    (hread : fault_of (cache_read fs.cache h.sector) = none)
    (hres : resize_flag (write_resize fuel fs h size offset) = some false) :
    inode_write_at fuel fs h buffer size offset =
      .ok (0, h, resize_fs fs (write_resize fuel fs h size offset)) := by
  unfold write_resize at hres ⊢
  cases hr : cache_read fs.cache h.sector with
  | error f => rw [hr] at hread; simp [fault_of] at hread
  | ok r =>
    obtain ⟨blk, c1⟩ := r
    rw [hr] at hres
    simp only [read_cache, read_block] at hres ⊢
    cases hz : inode_resize fuel { fs with cache := c1 } (inode_disk.decode blk) (offset + size) with
    | error f => rw [hz] at hres; simp [resize_flag] at hres
    | ok q =>
      obtain ⟨flag, id1, fs1⟩ := q
      rw [hz] at hres
      simp only [resize_flag, Option.some.injEq] at hres
      subst hres
      simp [inode_write_at, hd, hs, hr, hgt, hz, resize_fs]

/-- Witness for C10: the empty file of `tight_fs`, whose allocator fails at the third
request, is written with one byte; the resize allocates two sectors and fails. -/
theorem write_aborts_when_resize_fails_witness :
    (handle_of tight_fs.cache 5).deny_write_cnt = 0 ∧
    (handle_of tight_fs.cache 5).sector ≠ FREE_MAP_SECTOR ∧
    (0 : Int) + 1 > (handle_of tight_fs.cache 5).length ∧
    fault_of (cache_read tight_fs.cache (handle_of tight_fs.cache 5).sector) = none ∧
    resize_flag (write_resize 2 tight_fs (handle_of tight_fs.cache 5) 1 0) = some false ∧
    inode_write_at 2 tight_fs (handle_of tight_fs.cache 5) [7] 1 0 =
      .ok (0, handle_of tight_fs.cache 5,
        resize_fs tight_fs (write_resize 2 tight_fs (handle_of tight_fs.cache 5) 1 0)) :=
  ⟨by decide!, by decide!, by decide!, by decide!, by decide!,
    write_aborts_when_resize_fails 2 tight_fs (handle_of tight_fs.cache 5) [7] 1 0
      (by decide!) (by decide!) (by decide!) (by decide!) (by decide!)⟩

/-! ## Resize and write when every allocation succeeds -/

theorem free_map_allocate_ok {fm : FreeMap} (h : AllocOk fm) :
    ∃ s, fm.supply fm.calls = some s ∧
      free_map_allocate fm = (some s, fm_alloc fm s) := by
  have h1 := h fm.calls (Nat.le_refl _)
  cases hs : fm.supply fm.calls with
  | none => rw [hs] at h1; simp at h1
  | some s => exact ⟨s, rfl, by simp [free_map_allocate, hs, fm_alloc]⟩

theorem AllocOk.later {fm fm1 : FreeMap} (h : AllocOk fm) (hs : fm1.supply = fm.supply)
    (hc : fm.calls ≤ fm1.calls) : AllocOk fm1 := by
  intro k hk
  rw [hs]
  exact h k (Nat.le_trans hc hk)

theorem resize_direct_succ (size base : Int) (n j : Nat) (fm : FreeMap) (blk : List Nat) :
    resize_direct size base (n + 1) j fm blk =
      if size ≤ base + j * 512 ∧ word_at blk j ≠ 0 then
        resize_direct size base n (j + 1) (free_map_release fm (word_at blk j)) (blk.set j 0)
      else if size > base + j * 512 ∧ word_at blk j = 0 then
        match free_map_allocate fm with
        | (none, fm1) => (false, fm1, blk)
        | (some dir_sect, fm1) => resize_direct size base n (j + 1) fm1 (blk.set j dir_sect)
      else resize_direct size base n (j + 1) fm blk := rfl

theorem resize_direct_ok (size base : Int) :
    ∀ (n j : Nat) (fm : FreeMap) (blk : List Nat), AllocOk fm →
      ∃ fm1 blk1, resize_direct size base n j fm blk = (true, fm1, blk1) ∧
        fm1.supply = fm.supply ∧ fm.calls ≤ fm1.calls
  | 0, _, fm, blk, _ => ⟨fm, blk, rfl, rfl, Nat.le_refl _⟩
  | n + 1, j, fm, blk, h => by
    by_cases c1 : size ≤ base + j * 512 ∧ word_at blk j ≠ 0
    · obtain ⟨fm1, blk1, e, hs, hc⟩ := resize_direct_ok size base n (j + 1)
        (free_map_release fm (word_at blk j)) (blk.set j 0) (h.later rfl (Nat.le_refl _))
      exact ⟨fm1, blk1, by rw [resize_direct_succ, if_pos c1, e], hs, hc⟩
    · by_cases c2 : size > base + j * 512 ∧ word_at blk j = 0
      · obtain ⟨s, _, e0⟩ := free_map_allocate_ok h
        obtain ⟨fm1, blk1, e, hs, hc⟩ := resize_direct_ok size base n (j + 1)
          (fm_alloc fm s) (blk.set j s) (h.later rfl (Nat.le_succ _))
        refine ⟨fm1, blk1, ?_, hs, Nat.le_trans (Nat.le_succ _) hc⟩
        rw [resize_direct_succ, if_neg c1, if_pos c2, e0]
        exact e
      · obtain ⟨fm1, blk1, e, hs, hc⟩ := resize_direct_ok size base n (j + 1) fm blk h
        exact ⟨fm1, blk1, by rw [resize_direct_succ, if_neg c1, if_neg c2, e], hs, hc⟩

theorem resize_indirect_body_ok (size : Int) (i indir_sect : Nat) (fs : FS) (dbl : List Nat)
    (inv : CacheInv fs.cache) (h : AllocOk fs.free_map) :
    ∃ fs1 dbl1, resize_indirect_body size i indir_sect fs dbl = .ok (true, fs1, dbl1) ∧
      CacheInv fs1.cache ∧ fs1.free_map.supply = fs.free_map.supply ∧
      fs.free_map.calls ≤ fs1.free_map.calls := by
  unfold resize_indirect_body
  by_cases c1 : word_at dbl i ≠ 0
  · obtain ⟨c2, e2, inv2, _⟩ := cache_read_ok inv (word_at dbl i)
    obtain ⟨fm1, blk1, e3, hs, hc⟩ := resize_direct_ok size (i * 128 * 512) 128 0 fs.free_map
      (words_of_bytes (logical fs.cache (word_at dbl i))) h
    obtain ⟨c3, e4, inv3, _⟩ := cache_write_ok inv2 indir_sect (bytes_of_words blk1)
    simp only [c1, if_true, e2, e3, e4, ne_eq, not_false_eq_true]
    refine ⟨_, _, rfl, inv3, ?_, ?_⟩
    · by_cases c5 : size ≤ (i : Int) * 128 * 512 ∧ indir_sect ≠ 0
      · simp [c5, free_map_release, hs]
      · simp [c5, hs]
    · by_cases c5 : size ≤ (i : Int) * 128 * 512 ∧ indir_sect ≠ 0
      · simp [c5, free_map_release, hc]
      · simp [c5, hc]
  · simp only [c1, if_false]
    exact ⟨fs, dbl, rfl, inv, rfl, Nat.le_refl _⟩

theorem resize_indirect_step_ok (size : Int) (i : Nat) (fs : FS) (dbl : List Nat)
    (inv : CacheInv fs.cache) (h : AllocOk fs.free_map) :
    ∃ fs1 dbl1, resize_indirect_step size i fs dbl = .ok (true, fs1, dbl1) ∧
      CacheInv fs1.cache ∧ fs1.free_map.supply = fs.free_map.supply ∧
      fs.free_map.calls ≤ fs1.free_map.calls := by
  unfold resize_indirect_step
  by_cases c1 : size > (i : Int) * 128 * 512 ∧ word_at dbl i = 0
  · obtain ⟨s, _, e0⟩ := free_map_allocate_ok h
    obtain ⟨fs1, dbl1, e, inv1, hs, hc⟩ := resize_indirect_body_ok size i s
      { fs with free_map := fm_alloc fs.free_map s }
      (dbl.set i s) inv (h.later rfl (Nat.le_succ _))
    rw [if_pos c1, e0]
    exact ⟨fs1, dbl1, e, inv1, hs, Nat.le_trans (Nat.le_succ _) hc⟩
  · rw [if_neg c1]
    exact resize_indirect_body_ok size i _ fs dbl inv h

theorem resize_indirect_ok (size : Int) :
    ∀ (n i : Nat) (fs : FS) (dbl : List Nat), CacheInv fs.cache → AllocOk fs.free_map →
      ∃ fs1 dbl1, resize_indirect size n i fs dbl = .ok (true, fs1, dbl1) ∧
        CacheInv fs1.cache ∧ fs1.free_map.supply = fs.free_map.supply ∧
        fs.free_map.calls ≤ fs1.free_map.calls
  | 0, _, fs, dbl, inv, _ => ⟨fs, dbl, rfl, inv, rfl, Nat.le_refl _⟩
  | n + 1, i, fs, dbl, inv, h => by
    obtain ⟨fs1, dbl1, e1, inv1, hs1, hc1⟩ := resize_indirect_step_ok size i fs dbl inv h
    obtain ⟨fs2, dbl2, e2, inv2, hs2, hc2⟩ :=
      resize_indirect_ok size n (i + 1) fs1 dbl1 inv1 (h.later hs1 hc1)
    refine ⟨fs2, dbl2, ?_, inv2, hs2.trans hs1, Nat.le_trans hc1 hc2⟩
    simp only [resize_indirect, e1, e2]

/-- When no allocation fails a resize to at most `MAX_FILE_SIZE` returns true; unless
it is the no-op on an empty inode, the length of `*id` becomes the new size. -/
theorem inode_resize_ok (fuel : Nat) (fs : FS) (id : inode_disk) (size : Int)
    (inv : CacheInv fs.cache) (h : AllocOk fs.free_map) (hmax : size ≤ MAX_FILE_SIZE) :
    ∃ id1 fs1, inode_resize (fuel + 1) fs id size = .ok (true, id1, fs1) ∧
      CacheInv fs1.cache ∧ AllocOk fs1.free_map ∧
      (id1.length = size ∨ (id.dbl_sect = 0 ∧ size = 0 ∧ id1 = id)) := by
  have hm : ¬ ¬ size ≤ MAX_FILE_SIZE := not_not.mpr hmax
  by_cases c0 : id.dbl_sect = 0 ∧ size = 0
  · refine ⟨id, fs, ?_, inv, h, Or.inr ⟨c0.1, c0.2, rfl⟩⟩
    rw [inode_resize, if_neg hm, if_pos c0]
  · by_cases c1 : id.dbl_sect = 0
    · obtain ⟨s, _, e0⟩ := free_map_allocate_ok h
      obtain ⟨c2, e2, inv2, _⟩ := cache_read_ok inv s
      obtain ⟨fs3, dbl3, e3, inv3, hs3, hc3⟩ := resize_indirect_ok size 128 0
        { cache := c2, free_map := fm_alloc fs.free_map s }
        (words_of_bytes (logical fs.cache s)) inv2 (h.later rfl (Nat.le_succ _))
      obtain ⟨c4, e4, inv4, _⟩ := cache_write_ok inv3 s (bytes_of_words dbl3)
      refine ⟨{ id with dbl_sect := s, length := size }, { fs3 with cache := c4 }, ?_, inv4,
        h.later hs3 (Nat.le_trans (Nat.le_succ _) hc3), Or.inl rfl⟩
      rw [inode_resize, if_neg hm, if_neg c0]
      simp only [c1, if_true, e0, e2, e3, e4]
    · obtain ⟨c2, e2, inv2, _⟩ := cache_read_ok inv id.dbl_sect
      obtain ⟨fs3, dbl3, e3, inv3, hs3, hc3⟩ := resize_indirect_ok size 128 0
        { cache := c2, free_map := fs.free_map }
        (words_of_bytes (logical fs.cache id.dbl_sect)) inv2 h
      obtain ⟨c4, e4, inv4, _⟩ := cache_write_ok inv3 id.dbl_sect (bytes_of_words dbl3)
      refine ⟨{ id with length := size }, { fs3 with cache := c4 }, ?_, inv4,
        h.later hs3 hc3, Or.inl rfl⟩
      rw [inode_resize, if_neg hm, if_neg c0]
      simp only [c1, if_false, e2, e3, e4]

theorem chunk_of_bounds (len size offset : Int) (hs : 0 < size) (ho : 0 ≤ offset)
    (hl : offset + size ≤ len) :
    0 < chunk_of len size offset ∧ chunk_of len size offset ≤ size := by
  have h1 : offset.tmod 512 = offset % 512 := Int.tmod_eq_emod ho (by norm_num)
  unfold chunk_of
  rw [h1]
  split_ifs <;> omega

/-- For an offset inside the file and below `MAX_FILE_SIZE`, `byte_to_sector` returns the
entry of the tree that the offset selects and leaves the logical content alone. -/
theorem byte_to_sector_ok {c : Cache} (inv : CacheInv c) (h : inode) (pos : Int)
    (h0 : 0 ≤ pos) (hl : pos ≤ h.length) (hm : pos < MAX_FILE_SIZE) :
    ∃ c2, byte_to_sector c h pos =
        .ok (word_at (words_of_bytes (logical c
          (word_at (words_of_bytes (logical c h.data.dbl_sect)) (pos / 65536).toNat)))
          (pos % 65536 / 512).toNat, c2) ∧
      CacheInv c2 ∧ ∀ t, logical c2 t = logical c t := by
  obtain ⟨c1, e1, inv1, l1⟩ := cache_read_ok inv h.data.dbl_sect
  have hm2 : pos < 8388608 := hm
  have d1 : pos.tdiv (512 * 128) = pos / 65536 := Int.tdiv_eq_ediv h0 (by norm_num)
  have d2 : pos.tmod (512 * 128) = pos % 65536 := Int.tmod_eq_emod h0 (by norm_num)
  have d3 : (pos % 65536).tdiv 512 = pos % 65536 / 512 :=
    Int.tdiv_eq_ediv (by omega) (by norm_num)
  have b1 : ¬ (pos / 65536 < 0 ∨ 128 ≤ pos / 65536) := by omega
  have b2 : ¬ (pos % 65536 / 512 < 0 ∨ 128 ≤ pos % 65536 / 512) := by omega
  obtain ⟨c2, e2, inv2, l2⟩ := cache_read_ok inv1
    (word_at (words_of_bytes (logical c h.data.dbl_sect)) (pos / 65536).toNat)
  rw [l1] at e2
  refine ⟨c2, ?_, inv2, fun t => (l2 t).trans (l1 t)⟩
  simp only [byte_to_sector, hl, if_true, e1, d1, d2, d3, b1, b2, if_false, e2]

theorem inode_write_loop_succ (h : inode) (buffer : Block) (fuel : Nat) (c : Cache)
    (size offset bytes_written : Int) :
    inode_write_loop h buffer (fuel + 1) c size offset bytes_written =
      if size > 0 then
        match byte_to_sector c h offset with
        | .error f => .error f
        | .ok (sector_idx, c1) =>
          if chunk_of h.length size offset ≤ 0 then .ok (bytes_written, c1)
          else if offset.tmod 512 = 0 ∧ chunk_of h.length size offset = 512 then
            match cache_write c1 sector_idx (buffer.drop bytes_written.toNat) with
            | .error f => .error f
            | .ok c2 =>
              inode_write_loop h buffer fuel c2 (size - chunk_of h.length size offset)
                (offset + chunk_of h.length size offset)
                (bytes_written + chunk_of h.length size offset)
          else
            match (if offset.tmod 512 > 0 ∨
                chunk_of h.length size offset < 512 - offset.tmod 512 then
                  cache_read c1 sector_idx
                else (.ok (zeros, c1) : Except Fault (Block × Cache))) with
            | .error f => .error f
            | .ok (bounce, c2) =>
              match cache_write c2 sector_idx
                  (buf_copy bounce (offset.tmod 512).toNat (buffer.drop bytes_written.toNat)
                    (chunk_of h.length size offset).toNat) with
              | .error f => .error f
              | .ok c3 =>
                inode_write_loop h buffer fuel c3 (size - chunk_of h.length size offset)
                  (offset + chunk_of h.length size offset)
                  (bytes_written + chunk_of h.length size offset)
      else .ok (bytes_written, c) := rfl

/-- Inside the file and below `MAX_FILE_SIZE` the write loop transfers every byte. -/
theorem inode_write_loop_ok (h : inode) (buffer : Block) :
    ∀ (fuel : Nat) (c : Cache) (size offset bw : Int), CacheInv c → 0 ≤ size → 0 ≤ offset →
      offset + size ≤ h.length → offset + size ≤ MAX_FILE_SIZE → size.toNat ≤ fuel →
      ∃ c1, inode_write_loop h buffer fuel c size offset bw = .ok (bw + size, c1) ∧ CacheInv c1
  | 0, c, size, offset, bw, inv, hs, _, _, _, hf => by
    have h0 : size = 0 := by omega
    subst h0
    exact ⟨c, by simp [inode_write_loop], inv⟩
  | fuel + 1, c, size, offset, bw, inv, hs, ho, hl, hm, hf => by
    rw [inode_write_loop_succ]
    by_cases hpos : size > 0
    · obtain ⟨c1, e1, inv1, _⟩ := byte_to_sector_ok inv h offset ho (by omega) (by omega)
      generalize word_at (words_of_bytes (logical c
        (word_at (words_of_bytes (logical c h.data.dbl_sect)) (offset / 65536).toNat)))
        (offset % 65536 / 512).toNat = s at e1
      obtain ⟨hc1, hc2⟩ := chunk_of_bounds h.length size offset hpos ho hl
      generalize chunk_of h.length size offset = chunk at hc1 hc2
      rw [if_pos hpos, e1]
      simp only []
      rw [if_neg (by omega)]
      have hrec : ∀ c2, CacheInv c2 →
          ∃ c3, inode_write_loop h buffer fuel c2 (size - chunk) (offset + chunk) (bw + chunk) =
            .ok (bw + size, c3) ∧ CacheInv c3 := by
        intro c2 inv2
        obtain ⟨c3, e3, inv3⟩ := inode_write_loop_ok h buffer fuel c2 (size - chunk)
          (offset + chunk) (bw + chunk) inv2 (by omega) (by omega) (by omega) (by omega)
          (by omega)
        refine ⟨c3, ?_, inv3⟩
        rw [e3]
        congr 2
        omega
      by_cases hfull : offset.tmod 512 = 0 ∧ chunk = 512
      · rw [if_pos hfull]
        obtain ⟨c2, e2, inv2, _⟩ := cache_write_ok inv1 s (buffer.drop bw.toNat)
        rw [e2]
        exact hrec c2 inv2
      · rw [if_neg hfull]
        by_cases hb : offset.tmod 512 > 0 ∨ chunk < 512 - offset.tmod 512
        · rw [if_pos hb]
          obtain ⟨c2, e2, inv2, _⟩ := cache_read_ok inv1 s
          rw [e2]
          simp only []
          obtain ⟨c3, e3, inv3, _⟩ := cache_write_ok inv2 s
            (buf_copy (logical c1 s) (offset.tmod 512).toNat (buffer.drop bw.toNat) chunk.toNat)
          rw [e3]
          exact hrec c3 inv3
        · rw [if_neg hb]
          simp only []
          obtain ⟨c3, e3, inv3, _⟩ := cache_write_ok inv1 s
            (buf_copy zeros (offset.tmod 512).toNat (buffer.drop bw.toNat) chunk.toNat)
          rw [e3]
          exact hrec c3 inv3
    · have h0 : size = 0 := by omega
      subst h0
      rw [if_neg hpos]
      exact ⟨c, by simp, inv⟩

theorem endless_fs_inv : CacheInv endless_fs.cache := by
  obtain ⟨c1, e, inv1, _⟩ := cache_write_ok (cache_init_inv (boot_cache (fun _ => zeros))) 5
    ({ inode_disk.zero with magic := INODE_MAGIC, parent := 5 }).encode
  have h : endless_fs.cache = c1 := by
    unfold endless_fs
    simp only [e, state_or]
  rw [h]
  exact inv1

/-- C4 (write extends to offset + size). For every handle other than the free-map inode
with `deny_write_cnt = 0` and a length that is not negative, and every `size >= 0` and
`offset >= 0` with `offset + size <= MAX_FILE_SIZE`: when the allocator answers every
request with a sector, `inode_write_at` returns exactly `size` and afterwards the length
of the handle is `max (old length) (offset + size)`. The cache is in any state that
satisfies the invariant of the reachable states. -/
theorem write_extends_to_offset_plus_size (fuel : Nat) (fs : FS) (h : inode) (buffer : Block)
    (size offset : Int) (inv : CacheInv fs.cache) (hs : h.sector ≠ FREE_MAP_SECTOR)
    (hd : h.deny_write_cnt = 0) (hlen : 0 ≤ h.length) (hsize : 0 ≤ size) (hoff : 0 ≤ offset)
    (hmax : offset + size ≤ MAX_FILE_SIZE) (halloc : AllocOk fs.free_map) :
    ∃ h1 fs1, inode_write_at (fuel + 1) fs h buffer size offset = .ok (size, h1, fs1) ∧
      h1.length = max h.length (offset + size) := by
  obtain ⟨c1, e1, inv1, _⟩ := cache_read_ok inv h.sector
  have hd2 : ¬ h.deny_write_cnt ≠ 0 := not_not.mpr hd
  by_cases hgt : offset + size > h.length
  · obtain ⟨id1, fs1, e2, inv2, _, hl2⟩ := inode_resize_ok fuel { fs with cache := c1 }
      (inode_disk.decode (logical fs.cache h.sector)) (offset + size) inv1 halloc hmax
    have hl3 : id1.length = offset + size := by
      rcases hl2 with hl2 | ⟨_, h0, _⟩
      · exact hl2
      · omega
    obtain ⟨c3, e3, inv3, _⟩ := cache_write_ok inv2 h.sector id1.encode
    obtain ⟨c4, e4, _⟩ := inode_write_loop_ok
      { h with length := id1.length, data := id1 } buffer size.toNat c3 size offset 0 inv3 hsize
      hoff (by simp only [hl3]; omega) hmax (Nat.le_refl _)
    refine ⟨{ h with length := id1.length, data := id1 }, { fs1 with cache := c4 }, ?_, ?_⟩
    · simp only [inode_write_at, hd2, if_false, hs, e1, hgt, if_true, e2, e3, e4, zero_add]
    · simp only [hl3]; omega
  · obtain ⟨c4, e4, _⟩ := inode_write_loop_ok
      { h with data := inode_disk.decode (logical fs.cache h.sector) } buffer size.toNat c1 size
      offset 0 inv1 hsize hoff (by simp only []; omega) hmax (Nat.le_refl _)
    refine ⟨{ h with data := inode_disk.decode (logical fs.cache h.sector) },
      { fs with cache := c4 }, ?_, ?_⟩
    · simp only [inode_write_at, hd2, if_false, hs, e1, hgt, e4, zero_add]
    · simp only []; omega

/-- Witness for C4: seven bytes are written at offset 65530 of the empty file at sector
5, with an allocator that never fails. -/
theorem write_extends_to_offset_plus_size_witness :
    CacheInv endless_fs.cache ∧ (handle_of endless_fs.cache 5).sector ≠ FREE_MAP_SECTOR ∧
    (handle_of endless_fs.cache 5).deny_write_cnt = 0 ∧
    0 ≤ (handle_of endless_fs.cache 5).length ∧ (0 : Int) ≤ 7 ∧ (0 : Int) ≤ 65530 ∧
    (65530 : Int) + 7 ≤ MAX_FILE_SIZE ∧ AllocOk endless_fs.free_map ∧
    ∃ h1 fs1, inode_write_at 1 endless_fs (handle_of endless_fs.cache 5) [1, 2, 3, 4, 5, 6, 7]
        7 65530 = .ok (7, h1, fs1) ∧
      h1.length = max (handle_of endless_fs.cache 5).length (65530 + 7) :=
  ⟨endless_fs_inv, by decide!, by decide!, by decide!, by decide, by decide, by decide,
    fun _ _ => rfl,
    write_extends_to_offset_plus_size 0 endless_fs (handle_of endless_fs.cache 5)
      [1, 2, 3, 4, 5, 6, 7] 7 65530 endless_fs_inv (by decide!) (by decide!) (by decide!)
      (by decide) (by decide) (by decide) (fun _ _ => rfl)⟩

/-! ## Words and sector images -/

theorem word_at_set_same (l : List Nat) (i v : Nat) (h : i < l.length) :
    word_at (l.set i v) i = v := by
  simp [word_at, List.getD_eq_getElem?_getD, h]

theorem word_at_set_other (l : List Nat) (i j v : Nat) (h : i ≠ j) :
    word_at (l.set i v) j = word_at l j := by
  simp [word_at, List.getD_eq_getElem?_getD, List.getElem?_set_ne h]

theorem word_at_replicate (n i v : Nat) (h : i < n) : word_at (List.replicate n v) i = v := by
  simp [word_at, List.getD_eq_getElem?_getD, h]

theorem word_at_mem (l : List Nat) (i : Nat) (h : i < l.length) : word_at l i ∈ l := by
  have : word_at l i = l[i] := by simp [word_at, List.getD_eq_getElem?_getD, h]
  rw [this]
  exact List.getElem_mem h

theorem bytes_of_words_length (ws : List Nat) : (bytes_of_words ws).length = 4 * ws.length := by
  induction ws with
  | nil => rfl
  | cons w ws ih => simp [bytes_of_words, word_bytes, ih]; omega

theorem words_chunk_bytes_of_words (ws : List Nat) (h : ∀ w ∈ ws, w < 4294967296) :
    words_chunk (bytes_of_words ws) = ws := by
  induction ws with
  | nil => rfl
  | cons w ws ih =>
    have hw : w < 4294967296 := h w (List.mem_cons_self w ws)
    have ht := ih (fun x hx => h x (List.mem_cons_of_mem w hx))
    have e : bytes_of_words (w :: ws) =
        w % 256 :: w / 256 % 256 :: w / 65536 % 256 :: w / 16777216 % 256 :: bytes_of_words ws :=
      rfl
    rw [e, words_chunk, ht]
    congr 1
    omega

/-- An array of 128 words below `2 ^ 32` is read back from its sector image. -/
theorem words_of_bytes_of_words (ws : List Nat) (hl : ws.length = 128)
    (h : ∀ w ∈ ws, w < 4294967296) : words_of_bytes (bytes_of_words ws) = ws := by
  unfold words_of_bytes
  rw [words_chunk_bytes_of_words ws h, List.take_append_of_le_length (Nat.le_of_eq hl.symm)]
  exact List.take_of_length_le (Nat.le_of_eq hl)

theorem words_chunk_lt : ∀ (n : Nat) (b : List Nat), b.length ≤ n →
    ∀ w ∈ words_chunk b, w < 4294967296
  | 0, b, h => by
    have : b = [] := List.length_eq_zero.mp (Nat.le_zero.mp h)
    subst this
    simp [words_chunk]
  | n + 1, [], _ => by simp [words_chunk]
  | n + 1, [_], _ => by simp [words_chunk]
  | n + 1, [_, _], _ => by simp [words_chunk]
  | n + 1, [_, _, _], _ => by simp [words_chunk]
  | n + 1, a :: b :: c :: d :: rest, h => by
    intro w hw
    simp only [words_chunk, List.mem_cons] at hw
    rcases hw with hw | hw
    · rw [hw]; omega
    · exact words_chunk_lt n rest (by simp at h; omega) w hw

theorem words_of_bytes_length (b : Block) : (words_of_bytes b).length = 128 := by
  simp [words_of_bytes]

theorem words_of_bytes_lt (b : Block) : ∀ w ∈ words_of_bytes b, w < 4294967296 := by
  intro w hw
  unfold words_of_bytes at hw
  have h1 := List.mem_of_mem_take hw
  rcases List.mem_append.mp h1 with h2 | h2
  · exact words_chunk_lt b.length b (Nat.le_refl _) w h2
  · rw [(List.mem_replicate.mp h2).2]; decide

theorem words_of_bytes_zeros : words_of_bytes zeros = List.replicate 128 0 := by
  decide!

theorem sector_copy_bytes_of_words (ws : List Nat) (hl : ws.length = 128) :
    sector_copy (bytes_of_words ws) = bytes_of_words ws :=
  sector_copy_of_length (by rw [bytes_of_words_length, hl]; rfl)

theorem set_lt (l : List Nat) (i v : Nat) (hv : v < 4294967296)
    (h : ∀ w ∈ l, w < 4294967296) : ∀ w ∈ l.set i v, w < 4294967296 := by
  intro w hw
  rcases List.mem_or_eq_of_mem_set hw with h1 | h1
  · exact h w h1
  · rw [h1]; exact hv

theorem off_of_word_of_off (n : Int) (h0 : 0 ≤ n) (h1 : n < 2147483648) :
    off_of_word (word_of_off n) = n := by
  unfold off_of_word word_of_off
  have e : (n % 4294967296).toNat = n.toNat := by omega
  rw [e]
  have : n.toNat < 2147483648 := by omega
  rw [if_pos this]
  omega

theorem word_of_off_lt (n : Int) : word_of_off n < 4294967296 := by
  unfold word_of_off
  omega

theorem inode_disk.encode_length (d : inode_disk) (hu : d.unused.length = 123) :
    d.encode.length = BLOCK_SECTOR_SIZE := by
  unfold inode_disk.encode
  rw [bytes_of_words_length]
  simp [hu, BLOCK_SECTOR_SIZE]

/-- An on-disk inode whose fields fit their C types is read back from its sector image. -/
theorem inode_disk.decode_encode (d : inode_disk) (hu : d.unused.length = 123)
    (hul : ∀ w ∈ d.unused, w < 4294967296) (h1 : d.dbl_sect < 4294967296)
    (h2 : d.parent < 4294967296) (h3 : d.magic < 4294967296) (h4 : 0 ≤ d.length)
    (h5 : d.length < 2147483648) : inode_disk.decode d.encode = d := by
  have hw : words_of_bytes d.encode =
      [d.dbl_sect, word_of_off d.length, if d.isdir then 1 else 0, d.parent, d.magic] ++
        d.unused := by
    unfold inode_disk.encode
    apply words_of_bytes_of_words
    · simp [hu]
    · intro w hw
      simp only [List.cons_append, List.nil_append, List.mem_cons] at hw
      rcases hw with hw | hw | hw | hw | hw | hw
      · rw [hw]; exact h1
      · rw [hw]; exact word_of_off_lt _
      · rw [hw]; split_ifs <;> decide
      · rw [hw]; exact h2
      · rw [hw]; exact h3
      · exact hul w hw
  unfold inode_disk.decode
  simp only [hw]
  cases d with
  | mk a b c e f g =>
    simp only [word_at, List.cons_append, List.nil_append, List.getD_cons_zero,
      List.getD_cons_succ, List.drop_succ_cons, List.drop_zero, inode_disk.mk.injEq, true_and,
      and_true]
    refine ⟨off_of_word_of_off b h4 h5, ?_⟩
    cases c <;> simp

/-! ## Creation when every allocation succeeds -/

theorem supply_eq_answer {fm : FreeMap} (h : AllocOk fm) (k : Nat) (hk : fm.calls ≤ k) :
    fm.supply k = some (answer fm k) := by
  have h1 := h k hk
  unfold answer
  cases hs : fm.supply k with
  | none => rw [hs] at h1; simp at h1
  | some s => rfl

theorem free_map_allocate_answer {fm : FreeMap} (h : AllocOk fm) :
    free_map_allocate fm = (some (answer fm fm.calls), fm_alloc fm (answer fm fm.calls)) := by
  obtain ⟨s, hs, e⟩ := free_map_allocate_ok h
  have : answer fm fm.calls = s := by simp [answer, hs]
  rw [this]
  exact e

theorem FreshSupply.shrink {fm g : FreeMap} {last : Nat} {used : Nat → Prop}
    (h : FreshSupply fm last used) (hs : g.supply = fm.supply) (hc : fm.calls ≤ g.calls) :
    FreshSupply g last used where
  nz := fun k s hk hl e => h.nz k s (Nat.le_trans hc hk) hl (hs ▸ e)
  lt := fun k s hk hl e => h.lt k s (Nat.le_trans hc hk) hl (hs ▸ e)
  inj := fun a b s ha hla hb hlb ea eb =>
    h.inj a b s (Nat.le_trans hc ha) hla (Nat.le_trans hc hb) hlb (hs ▸ ea) (hs ▸ eb)
  unused := fun k s hk hl e => h.unused k s (Nat.le_trans hc hk) hl (hs ▸ e)

theorem answer_ne {fm : FreeMap} {last : Nat} {used : Nat → Prop} (h : AllocOk fm)
    (f : FreshSupply fm last used) (a b : Nat) (ha : fm.calls ≤ a) (hla : a < last)
    (hb : fm.calls ≤ b) (hlb : b < last) (hab : a ≠ b) : answer fm a ≠ answer fm b := by
  intro e
  have ea := supply_eq_answer h a ha
  have eb := supply_eq_answer h b hb
  rw [e] at ea
  exact hab (f.inj a b _ ha hla hb hlb ea eb)

theorem create_direct_succ (length base : Int) (n j : Nat) (fs : FS) (blk : List Nat) :
    create_direct length base (n + 1) j fs blk =
      if base + j * 512 < length then
        match free_map_allocate fs.free_map with
        | (none, fm1) => .ok (false, { fs with free_map := fm1 }, blk)
        | (some s, fm1) =>
          match cache_write fs.cache s zeros with
          | .error f => .error f
          | .ok c1 =>
            create_direct length base n (j + 1) { cache := c1, free_map := fm1 } (blk.set j s)
      else .ok (true, fs, blk) := rfl

theorem create_direct_ok {last : Nat} {used : Nat → Prop} (L base : Int) :
    ∀ (n j : Nat) (fs : FS) (blk : List Nat), CacheInv fs.cache → AllocOk fs.free_map →
      FreshSupply fs.free_map last used → fs.free_map.calls + n ≤ last → blk.length = 128 →
      j + n ≤ 128 →
      ∃ fs1 blk1 m, create_direct L base n j fs blk = .ok (true, fs1, blk1) ∧
        CacheInv fs1.cache ∧ fs1.free_map.supply = fs.free_map.supply ∧
        fs1.free_map.calls = fs.free_map.calls + m ∧ m ≤ n ∧
        (∀ k, k < n → (k < m ↔ base + ((j + k : Nat) : Int) * 512 < L)) ∧
        blk1.length = 128 ∧
        (∀ k, k < m → word_at blk1 (j + k) = answer fs.free_map (fs.free_map.calls + k)) ∧
        (∀ x, x < j ∨ j + m ≤ x → word_at blk1 x = word_at blk x) ∧
        (∀ k, k < m → logical fs1.cache (answer fs.free_map (fs.free_map.calls + k)) = zeros) ∧
        (∀ t, (∀ k, k < m → answer fs.free_map (fs.free_map.calls + k) ≠ t) →
          logical fs1.cache t = logical fs.cache t)
  | 0, j, fs, blk, inv, _, _, _, hl, _ =>
    ⟨fs, blk, 0, rfl, inv, rfl, rfl, Nat.le_refl _, fun k hk => absurd hk (Nat.not_lt_zero k),
      hl, fun k hk => absurd hk (Nat.not_lt_zero k), fun _ _ => rfl,
      fun k hk => absurd hk (Nat.not_lt_zero k), fun _ _ => rfl⟩
  | n + 1, j, fs, blk, inv, ha, hf, hlast, hl, hj => by
    rw [create_direct_succ]
    by_cases ht : base + (j : Int) * 512 < L
    · rw [if_pos ht, free_map_allocate_answer ha]
      simp only []
      obtain ⟨c1, e1, inv1, w1, w2⟩ := cache_write_ok inv (answer fs.free_map fs.free_map.calls)
        zeros
      rw [e1]
      simp only []
      have hz : sector_copy zeros = zeros := sector_copy_of_length (List.length_replicate _ _)
      rw [hz] at w1
      obtain ⟨fs1, blk1, m, e, inv2, hs, hc, hm, hiff, hl1, hw, hx, hzero, hframe⟩ :=
        create_direct_ok L base n (j + 1)
          { cache := c1, free_map := fm_alloc fs.free_map (answer fs.free_map fs.free_map.calls) }
          (blk.set j (answer fs.free_map fs.free_map.calls)) inv1
          (ha.later rfl (Nat.le_succ _)) (hf.shrink rfl (Nat.le_succ _))
          (by show fs.free_map.calls + 1 + n ≤ last; omega)
          (by rw [List.length_set]; exact hl) (by omega)
      have hcalls : (fm_alloc fs.free_map (answer fs.free_map fs.free_map.calls)).calls =
          fs.free_map.calls + 1 := rfl
      have hans : ∀ k, answer (fm_alloc fs.free_map (answer fs.free_map fs.free_map.calls)) k =
          answer fs.free_map k := fun _ => rfl
      simp only [hcalls, hans] at hc hw hzero hframe
      have hfirst : ∀ k, k < m → answer fs.free_map (fs.free_map.calls + 1 + k) ≠
          answer fs.free_map fs.free_map.calls :=
        fun k hk => answer_ne ha hf _ _ (by omega) (by omega) (Nat.le_refl _) (by omega)
          (by omega)
      refine ⟨fs1, blk1, m + 1, e, inv2, hs, by rw [hc]; omega, by omega, ?_, hl1, ?_, ?_, ?_, ?_⟩
      · intro k hk
        cases k with
        | zero => simp; exact ht
        | succ k =>
          have := hiff k (by omega)
          have e2 : ((j + 1 + k : Nat) : Int) = ((j + (k + 1) : Nat) : Int) := by omega
          rw [e2] at this
          constructor
          · intro h1; exact this.mp (by omega)
          · intro h1; have := this.mpr h1; omega
      · intro k hk
        cases k with
        | zero =>
          have := hx j (Or.inl (Nat.lt_succ_self j))
          rw [Nat.add_zero, Nat.add_zero, this]
          exact word_at_set_same _ _ _ (by omega)
        | succ k =>
          have := hw k (by omega)
          have e2 : j + (k + 1) = j + 1 + k := by omega
          have e3 : fs.free_map.calls + (k + 1) = fs.free_map.calls + 1 + k := by omega
          rw [e2, e3]; exact this
      · intro x hxx
        rw [hx x (by omega)]
        exact word_at_set_other _ _ _ _ (by omega)
      · intro k hk
        cases k with
        | zero =>
          rw [Nat.add_zero, hframe _ hfirst]
          exact w1
        | succ k =>
          have e3 : fs.free_map.calls + (k + 1) = fs.free_map.calls + 1 + k := by omega
          rw [e3]; exact hzero k (by omega)
      · intro t ht2
        have h1 : ∀ k, k < m → answer fs.free_map (fs.free_map.calls + 1 + k) ≠ t := by
          intro k hk
          have := ht2 (k + 1) (by omega)
          have e3 : fs.free_map.calls + (k + 1) = fs.free_map.calls + 1 + k := by omega
          rw [e3] at this; exact this
        rw [hframe t h1]
        exact w2 t (fun e => ht2 0 (by omega) (by rw [Nat.add_zero]; exact e.symm))
    · rw [if_neg ht]
      refine ⟨fs, blk, 0, rfl, inv, rfl, rfl, Nat.zero_le _, ?_, hl,
        fun k hk => absurd hk (Nat.not_lt_zero k), fun _ _ => rfl,
        fun k hk => absurd hk (Nat.not_lt_zero k), fun _ _ => rfl⟩
      intro k _
      constructor
      · intro h; exact absurd h (Nat.not_lt_zero k)
      · intro h; exfalso; push_cast at h; omega

theorem create_indirect_succ (length : Int) (n i : Nat) (fs : FS) (dbl : List Nat) :
    create_indirect length (n + 1) i true fs dbl =
      if (i : Int) * 128 * 512 < length then
        match free_map_allocate fs.free_map with
        | (none, fm1) => .ok (false, { fs with free_map := fm1 }, dbl)
        | (some s, fm1) =>
          match create_direct length ((i : Int) * 128 * 512) 128 0 { fs with free_map := fm1 }
              (List.replicate 128 0) with
          | .error f => .error f
          | .ok (inner, fs1, indir_block) =>
            match cache_write fs1.cache s (bytes_of_words indir_block) with
            | .error f => .error f
            | .ok c2 => create_indirect length n (i + 1) inner { fs1 with cache := c2 } (dbl.set i s)
      else .ok (true, fs, dbl) := rfl

theorem words_lt_of_word_at (l : List Nat) (h : ∀ x, x < l.length → word_at l x < 4294967296) :
    ∀ w ∈ l, w < 4294967296 := by
  intro w hw
  obtain ⟨x, hx, e⟩ := List.getElem_of_mem hw
  have := h x hx
  simp only [word_at, List.getD_eq_getElem?_getD, List.getElem?_eq_getElem hx,
    Option.getD_some] at this
  rw [← e]; exact this

theorem create_indirect_ok {last : Nat} {used : Nat → Prop} (L : Int)
    (hL : L ≤ MAX_FILE_SIZE) :
    ∀ (n i : Nat) (fs : FS) (dbl : List Nat), CacheInv fs.cache → AllocOk fs.free_map →
      FreshSupply fs.free_map last used → fs.free_map.calls + 129 * n ≤ last →
      dbl.length = 128 → i + n = 128 →
      ∃ fs1 dbl1 M, create_indirect L n i true fs dbl = .ok (true, fs1, dbl1) ∧
        CacheInv fs1.cache ∧ fs1.free_map.supply = fs.free_map.supply ∧
        fs1.free_map.calls = fs.free_map.calls + M ∧
        ((M : Int) = if (i : Int) * 65536 < L then
            ((L + 65535) / 65536 - i) + ((L + 511) / 512 - 128 * i) else 0) ∧
        dbl1.length = 128 ∧
        (∀ x, x < i → word_at dbl1 x = word_at dbl x) ∧
        (∀ y : Nat, i + y < 128 → ¬ ((i + y : Nat) : Int) * 65536 < L →
          word_at dbl1 (i + y) = word_at dbl (i + y)) ∧
        (∀ y : Nat, i + y < 128 → ((i + y : Nat) : Int) * 65536 < L →
          word_at dbl1 (i + y) = answer fs.free_map (fs.free_map.calls + 129 * y) ∧
          (∀ j : Nat, j < 128 →
            word_at (words_of_bytes (logical fs1.cache
              (answer fs.free_map (fs.free_map.calls + 129 * y)))) j =
              if ((i + y : Nat) : Int) * 65536 + (j : Int) * 512 < L then
                answer fs.free_map (fs.free_map.calls + 129 * y + 1 + j)
              else 0) ∧
          (∀ j : Nat, j < 128 → ((i + y : Nat) : Int) * 65536 + (j : Int) * 512 < L →
            logical fs1.cache (answer fs.free_map (fs.free_map.calls + 129 * y + 1 + j)) =
              zeros)) ∧
        (∀ t, (∀ k, k < M → answer fs.free_map (fs.free_map.calls + k) ≠ t) →
          logical fs1.cache t = logical fs.cache t)
  | 0, i, fs, dbl, inv, _, _, _, hl, hi => by
    have hi2 : i = 128 := by omega
    subst hi2
    have hL2 : L ≤ 8388608 := hL
    refine ⟨fs, dbl, 0, rfl, inv, rfl, rfl, ?_, hl, fun _ _ => rfl, fun _ _ _ => rfl, ?_,
      fun _ _ => rfl⟩
    · rw [if_neg (by push_cast; omega)]; rfl
    · intro y hy; omega
  | n + 1, i, fs, dbl, inv, ha, hf, hlast, hl, hi => by
    have hL2 : L ≤ 8388608 := hL
    rw [create_indirect_succ]
    by_cases ht : (i : Int) * 128 * 512 < L
    · rw [if_pos ht, free_map_allocate_answer ha]
      simp only []
      obtain ⟨fsb, blk, m, e1, invb, hsb, hcb, hmb, hiffb, hlb, hwb, hxb, hzb, hfb⟩ :=
        create_direct_ok L ((i : Int) * 128 * 512) 128 0
          { fs with free_map := fm_alloc fs.free_map (answer fs.free_map fs.free_map.calls) }
          (List.replicate 128 0) inv (ha.later rfl (Nat.le_succ _))
          (hf.shrink rfl (Nat.le_succ _)) (by show fs.free_map.calls + 1 + 128 ≤ last; omega)
          (List.length_replicate _ _) (by omega)
      rw [e1]
      simp only []
      have hcalls : (fm_alloc fs.free_map (answer fs.free_map fs.free_map.calls)).calls =
          fs.free_map.calls + 1 := rfl
      have hans : ∀ k, answer (fm_alloc fs.free_map (answer fs.free_map fs.free_map.calls)) k =
          answer fs.free_map k := fun _ => rfl
      have hsup : (fm_alloc fs.free_map (answer fs.free_map fs.free_map.calls)).supply =
          fs.free_map.supply := rfl
      simp only [hcalls, hans, hsup, Nat.zero_add] at hsb hcb hwb hzb hfb hiffb
      obtain ⟨c2, e2, inv2, w1, w2⟩ := cache_write_ok invb
        (answer fs.free_map fs.free_map.calls) (bytes_of_words blk)
      rw [e2]
      simp only []
      rw [sector_copy_bytes_of_words blk hlb] at w1
      have hsc : ({ fsb with cache := c2 } : FS).free_map.supply = fs.free_map.supply := hsb
      have hcc : fsb.free_map.calls = fs.free_map.calls + (1 + m) := by
        rw [hcb]; omega
      obtain ⟨fs1, dbl1, M, e3, inv3, hs3, hc3, hM3, hl3, hx3, hn3, hy3, hf3⟩ :=
        create_indirect_ok L hL n (i + 1) { fsb with cache := c2 }
          (dbl.set i (answer fs.free_map fs.free_map.calls)) inv2
          (ha.later hsc (by show _ ≤ fsb.free_map.calls; rw [hcc]; omega))
          (hf.shrink hsc (by show _ ≤ fsb.free_map.calls; rw [hcc]; omega))
          (by show fsb.free_map.calls + 129 * n ≤ last; rw [hcc]; omega)
          (by rw [List.length_set]; exact hl) (by omega)
      have hans3 : ∀ k, answer fsb.free_map k = answer fs.free_map k := by
        intro k; unfold answer; rw [hsb]
      simp only [hans3, hcc] at hc3 hy3 hf3
      -- the entries of the new indirect block
      have hblk : ∀ j, j < 128 → word_at blk j =
          if (i : Int) * 128 * 512 + (j : Int) * 512 < L then
            answer fs.free_map (fs.free_map.calls + 1 + j) else 0 := by
        intro j hj
        by_cases hjm : j < m
        · rw [if_pos ((hiffb j hj).mp hjm)]
          exact hwb j hjm
        · rw [if_neg (fun h => hjm ((hiffb j hj).mpr h)), hxb j (Or.inr (by omega))]
          exact word_at_replicate _ _ _ hj
      have hblk_lt : ∀ w ∈ blk, w < 4294967296 := by
        apply words_lt_of_word_at
        intro x hx
        rw [hlb] at hx
        rw [hblk x hx]
        split_ifs
        · exact hf.lt _ _ (by omega) (by omega) (supply_eq_answer ha _ (by omega))
        · decide
      have hMle : M ≤ 129 * n := by
        by_cases hnext : ((i + 1 : Nat) : Int) * 65536 < L
        · rw [if_pos hnext] at hM3
          push_cast at hM3
          omega
        · rw [if_neg hnext] at hM3
          omega
      have hfull : (i + 1 : Int) * 65536 < L → m = 128 := by
        intro h
        have := (hiffb 127 (by omega)).mpr (by push_cast; omega)
        omega
      have hm0 : 0 < m := (hiffb 0 (by omega)).mpr (by push_cast; omega)
      have hm1 : m < 128 → L ≤ (i : Int) * 128 * 512 + (m : Int) * 512 := by
        intro h
        have := (hiffb m h)
        by_contra hc
        have := this.mpr (by omega)
        omega
      have hm2 : (i : Int) * 128 * 512 + ((m : Int) - 1) * 512 < L := by
        have := (hiffb (m - 1) (by omega)).mp (by omega)
        have e : ((m - 1 : Nat) : Int) = (m : Int) - 1 := by omega
        rw [e] at this; exact this
      have hne : ∀ k, k ≠ 0 → fs.free_map.calls + k < last →
          answer fs.free_map (fs.free_map.calls + k) ≠ answer fs.free_map fs.free_map.calls :=
        fun k hk hkl => answer_ne ha hf _ _ (by omega) hkl (Nat.le_refl _) (by omega) (by omega)
      refine ⟨fs1, dbl1, 1 + m + M, e3, inv3, hs3.trans hsc, by rw [hc3]; omega, ?_, hl3, ?_, ?_,
        ?_, ?_⟩
      · rw [if_pos (by omega)]
        by_cases hnext : ((i + 1 : Nat) : Int) * 65536 < L
        · rw [if_pos hnext] at hM3
          have := hfull (by push_cast at hnext; omega)
          push_cast at hM3 ⊢
          omega
        · rw [if_neg hnext] at hM3
          push_cast at hM3 hnext ⊢
          omega
      · intro x hx
        rw [hx3 x (by omega)]
        exact word_at_set_other _ _ _ _ (by omega)
      · intro y hy hny
        cases y with
        | zero => exact absurd (by push_cast; omega) hny
        | succ y =>
          have e : i + (y + 1) = i + 1 + y := by omega
          rw [e] at hny ⊢
          rw [hn3 y (by omega) hny]
          exact word_at_set_other _ _ _ _ (by omega)
      · intro y hy hty
        cases y with
        | zero =>
          have hs1 : logical fs1.cache (answer fs.free_map fs.free_map.calls) =
              bytes_of_words blk := by
            rw [hf3 _ (fun k hk => by
              have := hne (1 + m + k) (by omega) (by omega)
              rw [← Nat.add_assoc] at this
              exact this)]
            exact w1
          refine ⟨?_, ?_, ?_⟩
          · rw [Nat.add_zero, Nat.mul_zero, Nat.add_zero, hx3 i (by omega)]
            exact word_at_set_same _ _ _ (by omega)
          · intro j hj
            rw [Nat.mul_zero, Nat.add_zero, hs1, words_of_bytes_of_words blk hlb hblk_lt,
              hblk j hj]
            have e : ((i + 0 : Nat) : Int) * 65536 = (i : Int) * 128 * 512 := by push_cast; omega
            rw [e]
          · intro j hj htj
            have hjm : j < m := (hiffb j hj).mpr (by push_cast at htj ⊢; omega)
            rw [Nat.mul_zero, Nat.add_zero]
            rw [hf3 _ (fun k hk => by
              have := answer_ne ha hf (fs.free_map.calls + (1 + m) + k) (fs.free_map.calls + 1 + j)
                (by omega) (by omega) (by omega) (by omega) (by omega)
              exact this)]
            rw [w2 _ (hne (1 + j) (by omega) (by omega) |> fun h => by
              rw [← Nat.add_assoc] at h; exact h)]
            exact hzb j hjm
        | succ y =>
          have e : i + (y + 1) = i + 1 + y := by omega
          rw [e] at hty ⊢
          have hm128 : m = 128 := hfull (by push_cast at hty ⊢; omega)
          obtain ⟨a1, a2, a3⟩ := hy3 y (by omega) hty
          have p : fs.free_map.calls + (1 + m) + 129 * y = fs.free_map.calls + 129 * (y + 1) := by
            omega
          rw [p] at a1 a2 a3
          exact ⟨a1, a2, a3⟩
      · intro t htt
        rw [hf3 t (fun k hk => by
          have := htt (1 + m + k) (by omega)
          rw [← Nat.add_assoc] at this
          exact this)]
        rw [w2 t (fun e => htt 0 (by omega) (by rw [Nat.add_zero]; exact e.symm))]
        exact hfb t (fun k hk => by
          have := htt (1 + k) (by omega)
          rw [← Nat.add_assoc] at this
          exact this)
    · rw [if_neg ht]
      refine ⟨fs, dbl, 0, rfl, inv, rfl, rfl, ?_, hl, fun _ _ => rfl, fun _ _ _ => rfl, ?_,
        fun _ _ => rfl⟩
      · rw [if_neg (by omega)]; rfl
      · intro y _ hty
        exfalso
        push_cast at hty
        omega


theorem inode_create_pos (fuel : Nat) (fs : FS) (sector : Nat) (L : Int) (dir : Bool)
    (hs : sector ≠ FREE_MAP_SECTOR) (h0 : 0 < L) :
    inode_create fuel fs sector L dir =
      match free_map_allocate fs.free_map with
      | (none, fm1) => .ok (false, { fs with free_map := fm1 })
      | (some s, fm1) =>
        match create_indirect L 128 0 true { fs with free_map := fm1 }
            (List.replicate 128 0) with
        | .error f => .error f
        | .ok (false, fs1, dbl_block) =>
          match create_revert fuel fs1 dbl_block with
          | .error f => .error f
          | .ok fs2 => .ok (false, { fs2 with free_map := free_map_release fs2.free_map s })
        | .ok (true, fs1, dbl_block) =>
          match cache_write fs1.cache s (bytes_of_words dbl_block) with
          | .error f => .error f
          | .ok c1 =>
            match cache_write c1 sector
                ({ inode_disk.zero with length := L, magic := INODE_MAGIC, parent := sector,
                                        isdir := dir, dbl_sect := s }).encode with
            | .error f => .error f
            | .ok c2 => .ok (true, { fs1 with cache := c2 }) := by
  have h1 : ¬ ¬ L ≥ 0 := by omega
  have h2 : ¬ L = 0 := by omega
  unfold inode_create
  rw [if_neg h1, if_neg hs, if_neg h2]

theorem inode_create_zero (fuel : Nat) (fs : FS) (sector : Nat) (dir : Bool)
    (hs : sector ≠ FREE_MAP_SECTOR) :
    inode_create fuel fs sector 0 dir =
      match cache_write fs.cache sector
          ({ inode_disk.zero with length := 0, magic := INODE_MAGIC, parent := sector,
                                  isdir := dir }).encode with
      | .error f => .error f
      | .ok c1 => .ok (true, { fs with cache := c1 }) := by
  unfold inode_create
  rw [if_neg (by decide), if_neg hs, if_pos rfl]

theorem new_inode_decode (sector : Nat) (L : Int) (dir : Bool) (s : Nat)
    (hs : sector < 4294967296) (h0 : 0 ≤ L) (hL : L ≤ MAX_FILE_SIZE) (h1 : s < 4294967296) :
    inode_disk.decode (sector_copy
      ({ inode_disk.zero with length := L, magic := INODE_MAGIC, parent := sector,
                              isdir := dir, dbl_sect := s }).encode) =
      { inode_disk.zero with length := L, magic := INODE_MAGIC, parent := sector,
                             isdir := dir, dbl_sect := s } := by
  have hL2 : L ≤ 8388608 := hL
  rw [sector_copy_of_length (inode_disk.encode_length _ (by simp [inode_disk.zero]))]
  apply inode_disk.decode_encode
  · simp [inode_disk.zero]
  · intro w hw
    simp only [inode_disk.zero] at hw
    rw [(List.mem_replicate.mp hw).2]; decide
  · exact h1
  · exact hs
  · show INODE_MAGIC < 4294967296
    decide
  · exact h0
  · show L < 2147483648
    omega


/-- Creation with an allocator that never fails: the lemma behind C6. -/
theorem inode_create_spec (fuel : Nat) (fs : FS) (sector : Nat) (L : Int) (dir : Bool)
    (inv : CacheInv fs.cache) (hs : sector ≠ FREE_MAP_SECTOR) (hs32 : sector < 4294967296)
    (h0 : 0 < L) (hL : L ≤ MAX_FILE_SIZE) (ha : AllocOk fs.free_map)
    (hf : FreshSupply fs.free_map (fs.free_map.calls + 16513) (fun s => s = sector)) :
    ∃ fs1, inode_create fuel fs sector L dir = .ok (true, fs1) ∧ CacheInv fs1.cache ∧
      fs1.free_map.supply = fs.free_map.supply ∧
      inode_disk.decode (logical fs1.cache sector) =
        { inode_disk.zero with length := L, magic := INODE_MAGIC, parent := sector,
                               isdir := dir,
                               dbl_sect := answer fs.free_map fs.free_map.calls } ∧
      (fs1.free_map.calls : Int) =
        fs.free_map.calls + (1 + (L + 65535) / 65536 + (L + 511) / 512) ∧
      (∀ i : Nat, i < 128 →
        root_entry fs1.cache (answer fs.free_map fs.free_map.calls) i =
          if (i : Int) * 65536 < L then answer fs.free_map (fs.free_map.calls + 1 + 129 * i)
          else 0) ∧
      (∀ i j : Nat, i < 128 → j < 128 →
        data_entry fs1.cache (answer fs.free_map fs.free_map.calls) i j =
          if (i : Int) * 65536 + (j : Int) * 512 < L then
            answer fs.free_map (fs.free_map.calls + 2 + 129 * i + j)
          else 0) ∧
      (∀ i j : Nat, i < 128 → j < 128 → (i : Int) * 65536 + (j : Int) * 512 < L →
        logical fs1.cache (answer fs.free_map (fs.free_map.calls + 2 + 129 * i + j)) = zeros) := by
  have hL2 : L ≤ 8388608 := hL
  rw [inode_create_pos fuel fs sector L dir hs h0, free_map_allocate_answer ha]
  simp only []
  obtain ⟨fsb, dbl, M, e1, invb, hsb, hcb, hMb, hlb, _, hnb, hyb, hfb⟩ :=
    create_indirect_ok L hL 128 0
      { fs with free_map := fm_alloc fs.free_map (answer fs.free_map fs.free_map.calls) }
      (List.replicate 128 0) inv (ha.later rfl (Nat.le_succ _)) (hf.shrink rfl (Nat.le_succ _))
      (by show fs.free_map.calls + 1 + 129 * 128 ≤ fs.free_map.calls + 16513; omega)
      (List.length_replicate _ _) (by omega)
  rw [e1]
  simp only []
  have hcalls : (fm_alloc fs.free_map (answer fs.free_map fs.free_map.calls)).calls =
      fs.free_map.calls + 1 := rfl
  have hans : ∀ k, answer (fm_alloc fs.free_map (answer fs.free_map fs.free_map.calls)) k =
      answer fs.free_map k := fun _ => rfl
  have hsup : (fm_alloc fs.free_map (answer fs.free_map fs.free_map.calls)).supply =
      fs.free_map.supply := rfl
  simp only [hcalls, hans, hsup, Nat.zero_add, Nat.cast_zero, zero_mul, h0, if_true, sub_zero,
    mul_zero] at hsb hcb hMb hnb hyb hfb
  have hne : ∀ k, k ≠ 0 → k < 16513 → answer fs.free_map (fs.free_map.calls + k) ≠
      answer fs.free_map fs.free_map.calls :=
    fun k hk hkl => answer_ne ha hf _ _ (by omega) (by omega) (Nat.le_refl _) (by omega)
      (by omega)
  have hnsec : ∀ k, k < 16513 → answer fs.free_map (fs.free_map.calls + k) ≠ sector :=
    fun k hkl => hf.unused _ _ (by omega) (by omega) (supply_eq_answer ha _ (by omega))
  have hlt : ∀ k, k < 16513 → answer fs.free_map (fs.free_map.calls + k) < 4294967296 :=
    fun k hkl => hf.lt _ _ (by omega) (by omega) (supply_eq_answer ha _ (by omega))
  have hnz : ∀ k, k < 16513 → answer fs.free_map (fs.free_map.calls + k) ≠ 0 :=
    fun k hkl => hf.nz _ _ (by omega) (by omega) (supply_eq_answer ha _ (by omega))
  -- the entries of the doubly indirect block
  have hdbl : ∀ i : Nat, i < 128 → word_at dbl i =
      if (i : Int) * 65536 < L then answer fs.free_map (fs.free_map.calls + 1 + 129 * i)
      else 0 := by
    intro i hi
    by_cases hti : (i : Int) * 65536 < L
    · rw [if_pos hti]
      exact (hyb i hi hti).1
    · rw [if_neg hti, hnb i hi hti]
      exact word_at_replicate _ _ _ hi
  have hdbl_lt : ∀ w ∈ dbl, w < 4294967296 := by
    apply words_lt_of_word_at
    intro x hx
    rw [hlb] at hx
    rw [hdbl x hx]
    split_ifs
    · have := hlt (1 + 129 * x) (by omega)
      rw [← Nat.add_assoc] at this
      exact this
    · decide
  obtain ⟨c1, e2, inv1, w1, w2⟩ := cache_write_ok invb
    (answer fs.free_map fs.free_map.calls) (bytes_of_words dbl)
  rw [e2]
  simp only []
  rw [sector_copy_bytes_of_words dbl hlb] at w1
  obtain ⟨c2, e3, inv2, v1, v2⟩ := cache_write_ok inv1 sector
    ({ inode_disk.zero with length := L, magic := INODE_MAGIC, parent := sector,
                            isdir := dir,
                            dbl_sect := answer fs.free_map fs.free_map.calls }).encode
  rw [e3]
  have hroot : logical c2 (answer fs.free_map fs.free_map.calls) = bytes_of_words dbl := by
    have := hnsec 0 (by omega)
    rw [Nat.add_zero] at this
    rw [v2 _ this]; exact w1
  have hkeep : ∀ k, k ≠ 0 → k < 16513 →
      logical c2 (answer fs.free_map (fs.free_map.calls + k)) =
        logical fsb.cache (answer fs.free_map (fs.free_map.calls + k)) := by
    intro k hk hkl
    rw [v2 _ (hnsec k hkl), w2 _ (hne k hk hkl)]
  refine ⟨{ fsb with cache := c2 }, rfl, inv2, hsb, ?_, ?_, ?_, ?_, ?_⟩
  · show inode_disk.decode (logical c2 sector) = _
    rw [v1]
    have := hlt 0 (by omega)
    rw [Nat.add_zero] at this
    exact new_inode_decode sector L dir _ hs32 (by omega) hL this
  · show (fsb.free_map.calls : Int) = _
    rw [hcb]
    push_cast
    omega
  · intro i hi
    unfold root_entry
    rw [hroot, words_of_bytes_of_words dbl hlb hdbl_lt]
    exact hdbl i hi
  · intro i j hi hj
    unfold data_entry root_entry
    rw [hroot, words_of_bytes_of_words dbl hlb hdbl_lt, hdbl i hi]
    by_cases hti : (i : Int) * 65536 < L
    · rw [if_pos hti]
      have hnz1 := hnz (1 + 129 * i) (by omega)
      rw [← Nat.add_assoc] at hnz1
      rw [if_neg hnz1]
      have hk := hkeep (1 + 129 * i) (by omega) (by omega)
      rw [← Nat.add_assoc] at hk
      rw [hk]
      have := (hyb i hi hti).2.1 j hj
      rw [this]
      have p : fs.free_map.calls + 1 + 129 * i + 1 + j = fs.free_map.calls + 2 + 129 * i + j := by
        omega
      rw [p]
    · rw [if_neg hti, if_pos rfl, if_neg (by omega)]
  · intro i j hi hj htj
    have hk := hkeep (2 + 129 * i + j) (by omega) (by omega)
    have p : fs.free_map.calls + (2 + 129 * i + j) = fs.free_map.calls + 2 + 129 * i + j := by
      omega
    rw [p] at hk
    rw [hk]
    have := (hyb i hi (by omega)).2.2 j hj htj
    have q : fs.free_map.calls + 1 + 129 * i + 1 + j = fs.free_map.calls + 2 + 129 * i + j := by
      omega
    rw [q] at this
    exact this

theorem endless_fresh (last : Nat) (used : Nat → Prop) (hl : last ≤ 4294967286)
    (hu : ∀ s, 10 ≤ s → ¬ used s) : FreshSupply endless_free_map last used where
  nz := fun k s _ _ e => by
    simp only [endless_free_map, Option.some.injEq] at e
    omega
  lt := fun k s _ hk e => by
    simp only [endless_free_map, Option.some.injEq] at e
    omega
  inj := fun a b s _ _ _ _ ea eb => by
    simp only [endless_free_map, Option.some.injEq] at ea eb
    omega
  unused := fun k s _ _ e => by
    simp only [endless_free_map, Option.some.injEq] at e
    exact hu s (by omega)

/-- C6 (create on success). For every sector other than the free-map sector and every
length `L` with `0 <= L <= MAX_FILE_SIZE`, when the allocator answers every request, and
with fresh sectors (non-zero, distinct, different from `sector`), `inode_create (sector,
L, dir)` returns true and the on-disk inode persisted at `sector` has
`magic = INODE_MAGIC`, `length = L`, `isdir = dir` and `parent = sector`. When `L = 0` no
allocation request is made and `dbl_sect = 0`. When `L > 0` exactly
`1 + ceil (L / 65536) + ceil (L / 512)` requests are made; the answer to the first is the
root, entry `i` of the root is the answer number `1 + 129 i` when `65536 i < L` and 0
otherwise, entry `j` of level-1 block `i` is the answer number `2 + 129 i + j` when
`65536 i + 512 j < L` and 0 otherwise, so that each answer is referenced at exactly one
place of the tree (every request number below the count is one of these numbers), and
every data block reads as 512 zero bytes. -/
theorem inode_create_on_success (fuel : Nat) (fs : FS) (sector : Nat) (L : Int) (dir : Bool)
    (inv : CacheInv fs.cache) (hs : sector ≠ FREE_MAP_SECTOR) (hs32 : sector < 4294967296)
    (h0 : 0 ≤ L) (hL : L ≤ MAX_FILE_SIZE) (ha : AllocOk fs.free_map)
    (hf : FreshSupply fs.free_map (fs.free_map.calls + 16513) (fun s => s = sector)) :
    ∃ fs1, inode_create fuel fs sector L dir = .ok (true, fs1) ∧
      (inode_disk.decode (logical fs1.cache sector)).magic = INODE_MAGIC ∧
      (inode_disk.decode (logical fs1.cache sector)).length = L ∧
      (inode_disk.decode (logical fs1.cache sector)).isdir = dir ∧
      (inode_disk.decode (logical fs1.cache sector)).parent = sector ∧
      (L = 0 → fs1.free_map.calls = fs.free_map.calls ∧
        (inode_disk.decode (logical fs1.cache sector)).dbl_sect = 0) ∧
      (0 < L →
        (fs1.free_map.calls : Int) =
          fs.free_map.calls + (1 + (L + 65535) / 65536 + (L + 511) / 512) ∧
        (inode_disk.decode (logical fs1.cache sector)).dbl_sect =
          answer fs.free_map fs.free_map.calls ∧
        (∀ i : Nat, i < 128 →
          root_entry fs1.cache (inode_disk.decode (logical fs1.cache sector)).dbl_sect i =
            if (i : Int) * 65536 < L then answer fs.free_map (fs.free_map.calls + 1 + 129 * i)
            else 0) ∧
        (∀ i j : Nat, i < 128 → j < 128 →
          data_entry fs1.cache (inode_disk.decode (logical fs1.cache sector)).dbl_sect i j =
            if (i : Int) * 65536 + (j : Int) * 512 < L then
              answer fs.free_map (fs.free_map.calls + 2 + 129 * i + j)
            else 0) ∧
        (∀ i j : Nat, i < 128 → j < 128 → (i : Int) * 65536 + (j : Int) * 512 < L →
          logical fs1.cache
            (data_entry fs1.cache (inode_disk.decode (logical fs1.cache sector)).dbl_sect i j) =
            zeros) ∧
        (∀ k : Nat, (k : Int) < 1 + (L + 65535) / 65536 + (L + 511) / 512 →
          k = 0 ∨ (∃ i : Nat, i < 128 ∧ (i : Int) * 65536 < L ∧ k = 1 + 129 * i) ∨
          (∃ i j : Nat, i < 128 ∧ j < 128 ∧ (i : Int) * 65536 + (j : Int) * 512 < L ∧
            k = 2 + 129 * i + j))) := by
  have hL2 : L ≤ 8388608 := hL
  by_cases hz : L = 0
  · subst hz
    rw [inode_create_zero fuel fs sector dir hs]
    obtain ⟨c1, e1, _, w1, _⟩ := cache_write_ok inv sector
      ({ inode_disk.zero with length := 0, magic := INODE_MAGIC, parent := sector,
                              isdir := dir }).encode
    rw [e1]
    have hd : inode_disk.decode (logical c1 sector) =
        { inode_disk.zero with length := 0, magic := INODE_MAGIC, parent := sector,
                               isdir := dir, dbl_sect := 0 } := by
      rw [w1]
      exact new_inode_decode sector 0 dir 0 hs32 (Int.le_refl 0) (by decide) (by decide)
    refine ⟨{ fs with cache := c1 }, rfl, ?_, ?_, ?_, ?_, fun _ => ⟨rfl, ?_⟩,
      fun h => absurd h (by decide)⟩
    · show (inode_disk.decode (logical c1 sector)).magic = _
      rw [hd]
    · show (inode_disk.decode (logical c1 sector)).length = _
      rw [hd]
    · show (inode_disk.decode (logical c1 sector)).isdir = _
      rw [hd]
    · show (inode_disk.decode (logical c1 sector)).parent = _
      rw [hd]
    · show (inode_disk.decode (logical c1 sector)).dbl_sect = _
      rw [hd]
  · have hpos : 0 < L := by omega
    obtain ⟨fs1, e, _, _, hd, hc, hr, hde, hzero⟩ :=
      inode_create_spec fuel fs sector L dir inv hs hs32 hpos hL ha hf
    refine ⟨fs1, e, by rw [hd], by rw [hd], by rw [hd], by rw [hd],
      fun h => absurd h hz, fun _ => ⟨hc, by rw [hd], ?_, ?_, ?_, ?_⟩⟩
    · rw [hd]; exact hr
    · rw [hd]; exact hde
    · intro i j hi hj ht
      rw [hd]
      show logical fs1.cache (data_entry fs1.cache (answer fs.free_map fs.free_map.calls) i j) = _
      rw [hde i j hi hj, if_pos ht]
      exact hzero i j hi hj ht
    · intro k hk
      by_cases hk0 : k = 0
      · exact Or.inl hk0
      · by_cases hr0 : (k - 1) % 129 = 0
        · refine Or.inr (Or.inl ⟨(k - 1) / 129, ?_, ?_, ?_⟩)
          · omega
          · omega
          · omega
        · refine Or.inr (Or.inr ⟨(k - 1) / 129, (k - 1) % 129 - 1, ?_, ?_, ?_, ?_⟩)
          · omega
          · omega
          · omega
          · omega

/-- Witness for C6: a 1000-byte file is created at sector 5 of a freshly initialised
file system whose allocator hands out sectors 10, 11, 12, ... and never fails. -/
theorem inode_create_on_success_witness :
    CacheInv blank_fs.cache ∧ 5 ≠ FREE_MAP_SECTOR ∧ 5 < 4294967296 ∧ (0 : Int) ≤ 1000 ∧
    (1000 : Int) ≤ MAX_FILE_SIZE ∧ AllocOk blank_fs.free_map ∧
    FreshSupply blank_fs.free_map (blank_fs.free_map.calls + 16513) (fun s => s = 5) ∧
    ∃ fs1, inode_create 0 blank_fs 5 1000 false = .ok (true, fs1) ∧
      (inode_disk.decode (logical fs1.cache 5)).magic = INODE_MAGIC ∧
      (inode_disk.decode (logical fs1.cache 5)).length = 1000 ∧
      (inode_disk.decode (logical fs1.cache 5)).isdir = false ∧
      (inode_disk.decode (logical fs1.cache 5)).parent = 5 ∧
      ((1000 : Int) = 0 → fs1.free_map.calls = blank_fs.free_map.calls ∧
        (inode_disk.decode (logical fs1.cache 5)).dbl_sect = 0) ∧
      ((0 : Int) < 1000 →
        (fs1.free_map.calls : Int) =
          blank_fs.free_map.calls + (1 + (1000 + 65535) / 65536 + (1000 + 511) / 512) ∧
        (inode_disk.decode (logical fs1.cache 5)).dbl_sect =
          answer blank_fs.free_map blank_fs.free_map.calls ∧
        (∀ i : Nat, i < 128 →
          root_entry fs1.cache (inode_disk.decode (logical fs1.cache 5)).dbl_sect i =
            if (i : Int) * 65536 < 1000 then
              answer blank_fs.free_map (blank_fs.free_map.calls + 1 + 129 * i)
            else 0) ∧
        (∀ i j : Nat, i < 128 → j < 128 →
          data_entry fs1.cache (inode_disk.decode (logical fs1.cache 5)).dbl_sect i j =
            if (i : Int) * 65536 + (j : Int) * 512 < 1000 then
              answer blank_fs.free_map (blank_fs.free_map.calls + 2 + 129 * i + j)
            else 0) ∧
        (∀ i j : Nat, i < 128 → j < 128 → (i : Int) * 65536 + (j : Int) * 512 < 1000 →
          logical fs1.cache
            (data_entry fs1.cache (inode_disk.decode (logical fs1.cache 5)).dbl_sect i j) =
            zeros) ∧
        (∀ k : Nat, (k : Int) < 1 + (1000 + 65535) / 65536 + (1000 + 511) / 512 →
          k = 0 ∨ (∃ i : Nat, i < 128 ∧ (i : Int) * 65536 < 1000 ∧ k = 1 + 129 * i) ∨
          (∃ i j : Nat, i < 128 ∧ j < 128 ∧ (i : Int) * 65536 + (j : Int) * 512 < 1000 ∧
            k = 2 + 129 * i + j))) :=
  ⟨cache_init_inv _, by decide, by decide, by decide, by decide, fun _ _ => rfl,
    endless_fresh _ _ (by decide) (fun s h e => by omega),
    inode_create_on_success 0 blank_fs 5 1000 false (cache_init_inv _) (by decide) (by decide)
      (by decide) (by decide) (fun _ _ => rfl) (endless_fresh _ _ (by decide) (fun s h e => by omega))⟩

/-! ## Resize: what a successful call leaves -/

theorem free_map_allocate_some {fm fm1 : FreeMap} {s : Nat}
    (h : free_map_allocate fm = (some s, fm1)) :
    fm.supply fm.calls = some s ∧ fm1 = fm_alloc fm s := by
  unfold free_map_allocate at h
  cases hs : fm.supply fm.calls with
  | none => rw [hs] at h; simp at h
  | some t =>
    rw [hs] at h
    simp only [Prod.mk.injEq, Option.some.injEq] at h
    obtain ⟨h1, h2⟩ := h
    subst h1
    exact ⟨rfl, h2.symm⟩

theorem free_map_allocate_cases (fm : FreeMap) :
    (∃ s, free_map_allocate fm = (some s, fm_alloc fm s) ∧ fm.supply fm.calls = some s) ∨
    (∃ fm1, free_map_allocate fm = (none, fm1)) := by
  unfold free_map_allocate
  cases hs : fm.supply fm.calls with
  | none => exact Or.inr ⟨_, rfl⟩
  | some t => exact Or.inl ⟨t, rfl, rfl⟩

/-- What the inner loop of `inode_resize` leaves when no allocation fails. -/
theorem resize_direct_spec (size base : Int) (last : Nat) :
    ∀ (n j : Nat) (fm fm1 : FreeMap) (blk blk1 : List Nat),
      resize_direct size base n j fm blk = (true, fm1, blk1) →
      (∀ k s, fm.calls ≤ k → k < last → fm.supply k = some s → s ≠ 0 ∧ s < 4294967296) →
      fm.calls + n ≤ last → blk.length = 128 → j + n ≤ 128 →
      (∀ w ∈ blk, w < 4294967296) →
      fm1.supply = fm.supply ∧ fm.calls ≤ fm1.calls ∧ fm1.calls ≤ fm.calls + n ∧
      blk1.length = 128 ∧ (∀ w ∈ blk1, w < 4294967296) ∧
      (∀ x, x < j ∨ j + n ≤ x → word_at blk1 x = word_at blk x) ∧
      (∀ x, j ≤ x → x < j + n → (word_at blk1 x ≠ 0 ↔ size > base + (x : Int) * 512)) ∧
      (∀ x, j ≤ x → x < j + n → word_at blk x ≠ 0 → size ≤ base + (x : Int) * 512 →
        word_at blk x ∈ fm1.released) ∧
      (∀ s, s ∈ fm.released → s ∈ fm1.released)
  | 0, j, fm, fm1, blk, blk1, h, _, _, hl, _, hlt => by
    simp only [resize_direct, Prod.mk.injEq, true_and] at h
    obtain ⟨h1, h2⟩ := h
    subst h1 h2
    exact ⟨rfl, Nat.le_refl _, Nat.le_refl _, hl, hlt, fun _ _ => rfl,
      fun x h1 h2 => by omega, fun x h1 h2 => by omega, fun _ h => h⟩
  | n + 1, j, fm, fm1, blk, blk1, h, hfresh, hlast, hl, hj, hlt => by
    rw [resize_direct_succ] at h
    by_cases c1 : size ≤ base + (j : Int) * 512 ∧ word_at blk j ≠ 0
    · rw [if_pos c1] at h
      obtain ⟨a1, a2, a3, a4, a5, a6, a7, a8, a9⟩ := resize_direct_spec size base last n (j + 1)
        (free_map_release fm (word_at blk j)) fm1 (blk.set j 0) blk1 h hfresh
        (by show fm.calls + n ≤ last; omega) (by rw [List.length_set]; exact hl) (by omega)
        (set_lt _ _ _ (by decide) hlt)
      refine ⟨a1, a2, by show fm1.calls ≤ fm.calls + (n + 1); have : fm1.calls ≤ fm.calls + n := a3
                         omega, a4, a5, ?_, ?_, ?_, ?_⟩
      · intro x hx
        rw [a6 x (by omega)]
        exact word_at_set_other _ _ _ _ (by omega)
      · intro x hx1 hx2
        by_cases hxj : x = j
        · subst hxj
          rw [a6 x (Or.inl (Nat.lt_succ_self x)), word_at_set_same _ _ _ (by omega)]
          constructor
          · intro h0; exact absurd rfl h0
          · intro h0; omega
        · exact a7 x (by omega) (by omega)
      · intro x hx1 hx2 hnz hsz
        by_cases hxj : x = j
        · subst hxj
          exact a9 _ (by simp [free_map_release])
        · have := a8 x (by omega) (by omega)
          rw [word_at_set_other _ _ _ _ (fun e => hxj e.symm)] at this
          exact this hnz hsz
      · intro s hs
        exact a9 s (by simp [free_map_release, hs])
    · rw [if_neg c1] at h
      by_cases c2 : size > base + (j : Int) * 512 ∧ word_at blk j = 0
      · rw [if_pos c2] at h
        rcases free_map_allocate_cases fm with ⟨s, e, hs⟩ | ⟨fm2, e⟩
        · rw [e] at h
          simp only [] at h
          obtain ⟨hs1, hs2⟩ := hfresh fm.calls s (Nat.le_refl _) (by omega) hs
          obtain ⟨a1, a2, a3, a4, a5, a6, a7, a8, a9⟩ := resize_direct_spec size base last n
            (j + 1) (fm_alloc fm s) fm1 (blk.set j s) blk1 h
            (fun k t hk => hfresh k t (by have : fm.calls + 1 ≤ k := hk
                                          omega))
            (by show fm.calls + 1 + n ≤ last; omega) (by rw [List.length_set]; exact hl)
            (by omega) (set_lt _ _ _ hs2 hlt)
          have b2 : fm.calls + 1 ≤ fm1.calls := a2
          have b3 : fm1.calls ≤ fm.calls + 1 + n := a3
          refine ⟨a1, by omega, by omega, a4, a5, ?_, ?_, ?_, a9⟩
          · intro x hx
            rw [a6 x (by omega)]
            exact word_at_set_other _ _ _ _ (by omega)
          · intro x hx1 hx2
            by_cases hxj : x = j
            · subst hxj
              rw [a6 x (Or.inl (Nat.lt_succ_self x)), word_at_set_same _ _ _ (by omega)]
              constructor
              · intro _; exact c2.1
              · intro _; exact hs1
            · exact a7 x (by omega) (by omega)
          · intro x hx1 hx2 hnz hsz
            by_cases hxj : x = j
            · subst hxj
              exact absurd c2.2 hnz
            · have := a8 x (by omega) (by omega)
              rw [word_at_set_other _ _ _ _ (fun e => hxj e.symm)] at this
              exact this hnz hsz
        · rw [e] at h
          simp at h
      · rw [if_neg c2] at h
        obtain ⟨a1, a2, a3, a4, a5, a6, a7, a8, a9⟩ := resize_direct_spec size base last n
          (j + 1) fm fm1 blk blk1 h hfresh (by omega) hl (by omega) hlt
        refine ⟨a1, a2, by omega, a4, a5, fun x hx => a6 x (by omega), ?_, ?_, a9⟩
        · intro x hx1 hx2
          by_cases hxj : x = j
          · subst hxj
            rw [a6 x (Or.inl (Nat.lt_succ_self x))]
            constructor
            · intro h0
              by_contra hc
              exact c1 ⟨by omega, h0⟩
            · intro h0 h1
              exact c2 ⟨h0, h1⟩
          · exact a7 x (by omega) (by omega)
        · intro x hx1 hx2 hnz hsz
          by_cases hxj : x = j
          · subst hxj
            exact absurd ⟨hsz, hnz⟩ c1
          · exact a8 x (by omega) (by omega) hnz hsz

theorem released_release (fm : FreeMap) (s t : Nat) (h : t ∈ fm.released) :
    t ∈ (free_map_release fm s).released := by
  simp [free_map_release, h]

theorem index_sector_of_entry (R : Nat) (dbl : List Nat) (x : Nat) (hx : x < 128) :
    IndexSector R dbl (word_at dbl x) := Or.inr ⟨x, hx, rfl⟩

/-- The body of the outer loop of `inode_resize` re-establishes the invariant for the
next entry when no allocation fails. -/
theorem resize_indirect_body_spec {size : Int} {R last : Nat} {orig : List Nat}
    {old : Nat → Block} {i S : Nat} {fs fs1 : FS} {dbl dbl1 : List Nat} (hi : i < 128)
    (pre : ResizeBody size R last orig old i S fs dbl)
    (e : resize_indirect_body size i S fs dbl = .ok (true, fs1, dbl1)) :
    ResizeInv size R last orig old (i + 1) fs1 dbl1 ∧
      ∀ s, s ∈ fs.free_map.released → s ∈ fs1.free_map.released := by
  unfold resize_indirect_body at e
  by_cases c1 : word_at dbl i ≠ 0
  · -- there is an indirect block
    have hS : S ≠ 0 := by rw [← pre.here]; exact c1
    rw [if_pos c1] at e
    obtain ⟨c2, e2, inv2, l2⟩ := cache_read_ok pre.inv (word_at dbl i)
    rw [e2] at e
    simp only [] at e
    cases hd : resize_direct size ((i : Int) * 128 * 512) 128 0 fs.free_map
        (words_of_bytes (logical fs.cache (word_at dbl i))) with
    | mk flag rest =>
      obtain ⟨fm2, blk⟩ := rest
      rw [hd] at e
      cases flag with
      | false => simp at e
      | true =>
        simp only [] at e
        obtain ⟨a1, a2, a3, a4, a5, _, a7, a8, a9⟩ := resize_direct_spec size
          ((i : Int) * 128 * 512) last 128 0 fs.free_map fm2 _ blk hd
          (fun k s hk hl hs => ⟨pre.fresh.nz k s hk hl hs, pre.fresh.lt k s hk hl hs⟩)
          (by have := pre.room; omega) (words_of_bytes_length _) (by omega)
          (words_of_bytes_lt _)
        obtain ⟨c3, e3, inv3, w1, w2⟩ := cache_write_ok inv2 S (bytes_of_words blk)
        rw [e3] at e
        simp only [Except.ok.injEq, Prod.mk.injEq, true_and] at e
        obtain ⟨efs, edbl⟩ := e
        rw [sector_copy_bytes_of_words blk a4] at w1
        -- logical content after the step
        have hkeep : ∀ t, t ≠ S → logical c3 t = logical fs.cache t :=
          fun t ht => (w2 t ht).trans (l2 t)
        have hrel : ∀ s, s ∈ fs.free_map.released → s ∈ fs1.free_map.released := by
          intro s hs
          rw [← efs]
          show s ∈ (if decide (size ≤ (i : Int) * 128 * 512 ∧ S ≠ 0) = true then
            free_map_release fm2 (word_at dbl i) else fm2).released
          split_ifs
          · exact released_release _ _ _ (a9 s hs)
          · exact a9 s hs
        have hsup : fs1.free_map.supply = fs.free_map.supply := by
          rw [← efs]
          show (if decide (size ≤ (i : Int) * 128 * 512 ∧ S ≠ 0) = true then
            free_map_release fm2 (word_at dbl i) else fm2).supply = _
          split_ifs
          · exact a1
          · exact a1
        have hcalls : fs1.free_map.calls = fm2.calls := by
          rw [← efs]
          show (if decide (size ≤ (i : Int) * 128 * 512 ∧ S ≠ 0) = true then
            free_map_release fm2 (word_at dbl i) else fm2).calls = _
          split_ifs <;> rfl
        have hcache : fs1.cache = c3 := by rw [← efs]
        have hentry : ∀ x, x < 128 → x ≠ i → word_at dbl1 x = word_at dbl x := by
          intro x _ hx
          rw [← edbl]
          split_ifs
          · exact word_at_set_other _ _ _ _ (fun h => hx h.symm)
          · rfl
        have hentry_i : word_at dbl1 i = if size ≤ (i : Int) * 128 * 512 then 0 else S := by
          rw [← edbl]
          by_cases hs : size ≤ (i : Int) * 128 * 512
          · rw [if_pos hs, if_pos (by simp [hs, hS])]
            exact word_at_set_same _ _ _ (by rw [pre.len]; exact hi)
          · rw [if_neg hs, if_neg (by simp [hs])]
            exact pre.here
        have hsub : ∀ x, x < 128 → word_at dbl1 x ≠ 0 → word_at dbl1 x = word_at dbl x := by
          intro x hx hnz
          by_cases hxi : x = i
          · subst hxi
            rw [hentry_i] at hnz ⊢
            split_ifs at hnz ⊢
            · exact absurd rfl hnz
            · exact pre.here.symm
          · exact hentry x hx hxi
        refine ⟨⟨?_, ?_, ?_, ?_, ?_, ?_, ?_, ?_, ?_, ?_, ?_, ?_⟩, hrel⟩
        · rw [hcache]; exact inv3
        · rw [← edbl]; split_ifs
          · rw [List.length_set]; exact pre.len
          · exact pre.len
        · rw [← edbl]; split_ifs
          · exact set_lt _ _ _ (by decide) pre.lt
          · exact pre.lt
        · intro x hx1 hx2
          rw [hentry x hx2 (by omega)]
          exact pre.rest x (by omega) hx2
        · intro x hx
          by_cases hxi : x = i
          · subst hxi
            rw [hentry_i]
            by_cases hs : size ≤ (x : Int) * 128 * 512
            · rw [if_pos hs]
              exact ⟨⟨fun h => absurd rfl h, fun h => by omega⟩, fun h => absurd rfl h⟩
            · rw [if_neg hs]
              refine ⟨⟨fun _ => by omega, fun _ => hS⟩, fun _ j hj => ?_⟩
              rw [hcache, w1, words_of_bytes_of_words blk a4 a5]
              have := a7 j (Nat.zero_le _) (by omega)
              rw [this]
              constructor <;> intro h <;> omega
          · have hx2 : x < i := by omega
            rw [hentry x (by omega) hxi]
            refine ⟨(pre.done x hx2).1, fun hnz j hj => ?_⟩
            have hne : word_at dbl x ≠ S := by
              rw [← pre.here]
              exact pre.distinct x i (by omega) hi hxi hnz
            rw [hcache, hkeep _ hne]
            exact (pre.done x hx2).2 hnz j hj
        · intro x hx hnz
          have e := hsub x hx hnz
          rw [e] at hnz ⊢
          exact pre.not_root x hx hnz
        · intro x y hx hy hxy hnz
          have e := hsub x hx hnz
          rw [e] at hnz ⊢
          by_cases hy0 : word_at dbl1 y = 0
          · rw [hy0]; exact hnz
          · rw [hsub y hy hy0]
            exact pre.distinct x y hx hy hxy hnz
        · have hf := pre.fresh.shrink (g := fs1.free_map) hsup (by rw [hcalls]; exact a2)
          refine ⟨hf.nz, hf.lt, hf.inj, fun k s hk hl hs hu => ?_⟩
          rcases hu with hu | ⟨x, hx, hu⟩
          · exact hf.unused k s hk hl hs (Or.inl hu)
          · by_cases h0 : word_at dbl1 x = 0
            · rw [h0] at hu
              exact hf.nz k s hk hl hs hu
            · rw [hsub x hx h0] at hu
              exact hf.unused k s hk hl hs (Or.inr ⟨x, hx, hu⟩)
        · intro k s hk hl hs
          rw [hcalls] at hk
          rw [hsup] at hs
          have hk2 : fs.free_map.calls ≤ k := Nat.le_trans a2 hk
          have hne : s ≠ S := by
            intro h
            apply pre.fresh.unused k s hk2 hl hs
            rw [h, ← pre.here]
            exact index_sector_of_entry R dbl i hi
          rw [hcache, hkeep s hne]
          exact pre.zero k s hk2 hl hs
        · rw [hcalls]
          have := pre.room
          omega
        · intro x hx1 hx2 hnz
          have hx3 : i < x := by omega
          have e1 := pre.rest x hx3 hx2
          have hne : word_at orig x ≠ S := by
            rw [← e1, ← pre.here]
            exact pre.distinct x i hx2 hi (by omega) (by rw [e1]; exact hnz)
          rw [hcache, hkeep _ hne]
          exact pre.kept x hx3 hx2 hnz
        · intro x hx hnz
          by_cases hxi : x = i
          · subst hxi
            rcases pre.block with ⟨b1, _, _⟩ | ⟨b1, _, b3⟩
            · exact absurd b1 hnz
            · rw [b1, ← b3, ← pre.here]
              refine ⟨fun hs => ?_, fun j hj hjn hs => ?_⟩
              · rw [← efs]
                show word_at dbl x ∈ (if decide (size ≤ (x : Int) * 128 * 512 ∧ S ≠ 0) = true
                  then free_map_release fm2 (word_at dbl x) else fm2).released
                rw [if_pos (by simp [hS]; omega)]
                simp [free_map_release]
              · have := a8 j (Nat.zero_le _) (by omega) hjn (by omega)
                rw [← efs]
                show _ ∈ (if decide (size ≤ (x : Int) * 128 * 512 ∧ S ≠ 0) = true
                  then free_map_release fm2 (word_at dbl x) else fm2).released
                split_ifs
                · exact released_release _ _ _ this
                · exact this
          · have hx2 : x < i := by omega
            obtain ⟨f1, f2⟩ := pre.freed x hx2 hnz
            exact ⟨fun hs => hrel _ (f1 hs), fun j hj hjn hs => hrel _ (f2 j hj hjn hs)⟩
  · -- the entry is a hole and stays one
    rw [if_neg c1] at e
    simp only [Except.ok.injEq, Prod.mk.injEq, true_and] at e
    obtain ⟨efs, edbl⟩ := e
    subst efs edbl
    have h0 : word_at dbl i = 0 := not_not.mp c1
    have hS : S = 0 := by rw [← pre.here]; exact h0
    have horig : word_at orig i = 0 := by
      rcases pre.block with ⟨b1, _, _⟩ | ⟨_, b2, _⟩
      · exact b1
      · exact absurd hS b2
    have hsize : size ≤ (i : Int) * 65536 := by
      rcases pre.block with ⟨_, b2, _⟩ | ⟨_, b2, _⟩
      · exact b2 hS
      · exact absurd hS b2
    refine ⟨⟨pre.inv, pre.len, pre.lt, fun x hx1 hx2 => pre.rest x (by omega) hx2, ?_,
      pre.not_root, pre.distinct, pre.fresh, pre.zero, by have := pre.room; omega,
      fun x hx1 hx2 => pre.kept x (by omega) hx2, ?_⟩, fun _ h => h⟩
    · intro x hx
      by_cases hxi : x = i
      · subst hxi
        rw [h0]
        exact ⟨⟨fun h => absurd rfl h, fun h => by omega⟩, fun h => absurd rfl h⟩
      · exact pre.done x (by omega)
    · intro x hx hnz
      by_cases hxi : x = i
      · subst hxi; exact absurd horig hnz
      · exact pre.freed x (by omega) hnz

/-- One iteration of the outer loop of `inode_resize` re-establishes the invariant for
the next entry when no allocation fails. -/
theorem resize_indirect_step_spec {size : Int} {R last : Nat} {orig : List Nat}
    {old : Nat → Block} {i : Nat} {fs fs1 : FS} {dbl dbl1 : List Nat} (hi : i < 128)
    (pre : ResizeInv size R last orig old i fs dbl)
    (e : resize_indirect_step size i fs dbl = .ok (true, fs1, dbl1)) :
    ResizeInv size R last orig old (i + 1) fs1 dbl1 ∧
      ∀ s, s ∈ fs.free_map.released → s ∈ fs1.free_map.released := by
  unfold resize_indirect_step at e
  have hroom := pre.room
  by_cases c : size > (i : Int) * 128 * 512 ∧ word_at dbl i = 0
  · rw [if_pos c] at e
    rcases free_map_allocate_cases fs.free_map with ⟨s, ea, hs⟩ | ⟨fm2, ea⟩
    · rw [ea] at e
      simp only [] at e
      have hk : fs.free_map.calls < last := by omega
      have hnz : s ≠ 0 := pre.fresh.nz _ s (Nat.le_refl _) hk hs
      have hunused := pre.fresh.unused _ s (Nat.le_refl _) hk hs
      have hset : ∀ x, x ≠ i → word_at (dbl.set i s) x = word_at dbl x :=
        fun x hx => word_at_set_other _ _ _ _ (fun h => hx h.symm)
      have hhere : word_at (dbl.set i s) i = s :=
        word_at_set_same _ _ _ (by rw [pre.len]; exact hi)
      have hne : ∀ x, x < 128 → word_at dbl x ≠ s :=
        fun x hx h => hunused (Or.inr ⟨x, hx, h.symm⟩)
      suffices hb : ResizeBody size R last orig old i s
          { fs with free_map := fm_alloc fs.free_map s } (dbl.set i s) by
        have hbody := resize_indirect_body_spec hi hb e
        exact hbody
      refine ⟨pre.inv, by rw [List.length_set]; exact pre.len,
        set_lt _ _ _ (pre.fresh.lt _ s (Nat.le_refl _) hk hs) pre.lt, hhere, ?_, ?_, ?_, ?_, ?_,
        ?_, ?_, ?_, pre.freed, ?_⟩
      · intro x hx1 hx2
        rw [hset x (by omega)]
        exact pre.rest x (by omega) hx2
      · intro x hx
        rw [hset x (by omega)]
        exact pre.done x hx
      · intro x hx hn
        by_cases hxi : x = i
        · subst hxi
          rw [hhere]
          exact fun h => hunused (Or.inl h)
        · rw [hset x hxi] at hn ⊢
          exact pre.not_root x hx hn
      · intro x y hx hy hxy hn
        by_cases hxi : x = i
        · subst hxi
          rw [hhere, hset y (fun h => hxy h.symm)]
          exact fun h => hne y hy h.symm
        · rw [hset x hxi] at hn ⊢
          by_cases hyi : y = i
          · subst hyi
            rw [hhere]
            exact hne x hx
          · rw [hset y hyi]
            exact pre.distinct x y hx hy hxy hn
      · have hf := pre.fresh.shrink (g := fm_alloc fs.free_map s) rfl (Nat.le_succ _)
        refine ⟨hf.nz, hf.lt, hf.inj, fun k t hk1 hl ht hu => ?_⟩
        rcases hu with hu | ⟨x, hx, hu⟩
        · exact hf.unused k t hk1 hl ht (Or.inl hu)
        · by_cases hxi : x = i
          · subst hxi
            rw [hhere] at hu
            subst hu
            have hk2 : fs.free_map.calls + 1 ≤ k := hk1
            have := pre.fresh.inj k fs.free_map.calls t (by omega) hl (Nat.le_refl _) hk ht hs
            omega
          · rw [hset x hxi] at hu
            exact hf.unused k t hk1 hl ht (Or.inr ⟨x, hx, hu⟩)
      · intro k t hk1 hl ht
        have hk2 : fs.free_map.calls + 1 ≤ k := hk1
        exact pre.zero k t (by omega) hl ht
      · show fs.free_map.calls + 1 + 128 + 129 * (127 - i) ≤ last
        omega
      · intro x hx1 hx2
        exact pre.kept x (by omega) hx2
      · refine Or.inl ⟨?_, fun h => absurd h hnz, fun _ => ⟨by omega, ?_⟩⟩
        · rw [← pre.rest i (Nat.le_refl _) hi]; exact c.2
        · exact pre.zero _ s (Nat.le_refl _) hk hs
    · rw [ea] at e
      simp at e
  · rw [if_neg c] at e
    suffices hb : ResizeBody size R last orig old i (word_at dbl i) fs dbl by
      have hbody := resize_indirect_body_spec hi hb e
      exact hbody
    refine ⟨pre.inv, pre.len, pre.lt, rfl, fun x hx1 hx2 => pre.rest x (by omega) hx2, pre.done,
      pre.not_root, pre.distinct, pre.fresh, pre.zero, by omega,
      fun x hx1 hx2 => pre.kept x (by omega) hx2, pre.freed, ?_⟩
    have hr := pre.rest i (Nat.le_refl _) hi
    by_cases h0 : word_at dbl i = 0
    · refine Or.inl ⟨by rw [← hr]; exact h0, fun _ => ?_, fun h => absurd h0 h⟩
      by_contra hc
      exact c ⟨by omega, h0⟩
    · refine Or.inr ⟨hr.symm, h0, ?_⟩
      have := pre.kept i (Nat.le_refl _) hi (by rw [← hr]; exact h0)
      rw [← hr] at this
      exact this

/-- The outer loop of `inode_resize` establishes the invariant for entry 128 when no
allocation fails. -/
theorem resize_indirect_spec {size : Int} {R last : Nat} {orig : List Nat}
    {old : Nat → Block} :
    ∀ (n i : Nat) (fs fs1 : FS) (dbl dbl1 : List Nat), i + n = 128 →
      ResizeInv size R last orig old i fs dbl →
      resize_indirect size n i fs dbl = .ok (true, fs1, dbl1) →
      ResizeInv size R last orig old 128 fs1 dbl1
  | 0, i, fs, fs1, dbl, dbl1, hi, pre, e => by
    simp only [resize_indirect, Except.ok.injEq, Prod.mk.injEq, true_and] at e
    obtain ⟨e1, e2⟩ := e
    subst e1 e2
    have : i = 128 := by omega
    subst this
    exact pre
  | n + 1, i, fs, fs1, dbl, dbl1, hi, pre, e => by
    rw [resize_indirect] at e
    cases hstep : resize_indirect_step size i fs dbl with
    | error f => rw [hstep] at e; simp at e
    | ok r =>
      obtain ⟨flag, fs2, dbl2⟩ := r
      rw [hstep] at e
      cases flag with
      | false => simp at e
      | true =>
        simp only [] at e
        obtain ⟨inv2, _⟩ := resize_indirect_step_spec (by omega) pre hstep
        exact resize_indirect_spec n (i + 1) fs2 fs1 dbl2 dbl1 (by omega) inv2 e

/-- After the last iteration, writing the doubly indirect block to the root sector gives
the tree of the new size. -/
theorem resize_finish {size : Int} {R last : Nat} {orig : List Nat} {old : Nat → Block}
    {fs2 : FS} {dbl : List Nat} {c3 : Cache}
    (post : ResizeInv size R last orig old 128 fs2 dbl)
    (hw : logical c3 R = sector_copy (bytes_of_words dbl))
    (hk : ∀ t, t ≠ R → logical c3 t = logical fs2.cache t) :
    (∀ i : Nat, i < 128 → (root_entry c3 R i ≠ 0 ↔ size > (i : Int) * 128 * 512)) ∧
    (∀ i j : Nat, i < 128 → j < 128 →
      (data_entry c3 R i j ≠ 0 ↔ size > (i : Int) * 128 * 512 + (j : Int) * 512)) := by
  have hroot : ∀ i, root_entry c3 R i = word_at dbl i := by
    intro i
    unfold root_entry
    rw [hw, sector_copy_bytes_of_words dbl post.len, words_of_bytes_of_words dbl post.len post.lt]
  refine ⟨fun i hi => ?_, fun i j hi hj => ?_⟩
  · rw [hroot]
    have := (post.done i hi).1
    rw [this]
    constructor <;> intro h <;> omega
  · unfold data_entry
    rw [hroot]
    by_cases h0 : word_at dbl i = 0
    · rw [if_pos h0]
      have := (post.done i hi).1
      rw [h0] at this
      have h1 : ¬ size > (i : Int) * 65536 := fun h => (this.mpr h) rfl
      constructor
      · intro h; exact absurd rfl h
      · intro h; omega
    · rw [if_neg h0, hk _ (post.not_root i hi h0)]
      have := (post.done i hi).2 h0 j hj
      rw [this]
      constructor <;> intro h <;> omega

theorem inode_resize_succ (fuel : Nat) (fs : FS) (id : inode_disk) (size : Int)
    (hmax : size ≤ MAX_FILE_SIZE) (h0 : 0 < size) :
    inode_resize (fuel + 1) fs id size =
      match (if id.dbl_sect = 0 then
          match free_map_allocate fs.free_map with
          | (none, fm1) => (false, id, fm1)
          | (some s, fm1) => (true, { id with dbl_sect := s }, fm1)
        else (true, id, fs.free_map) : Bool × inode_disk × FreeMap) with
      | (false, _, fm1) => .ok (false, id, { fs with free_map := fm1 })
      | (true, id1, fm1) =>
        match cache_read fs.cache id1.dbl_sect with
        | .error f => .error f
        | .ok (blk, c1) =>
          match resize_indirect size 128 0 { cache := c1, free_map := fm1 }
              (words_of_bytes blk) with
          | .error f => .error f
          | .ok (false, fs2, _) =>
            match inode_resize fuel fs2 id1 id1.length with
            | .error f => .error f
            | .ok (_, id2, fs3) => .ok (false, id2, fs3)
          | .ok (true, fs2, dbl_block) =>
            match cache_write fs2.cache id1.dbl_sect (bytes_of_words dbl_block) with
            | .error f => .error f
            | .ok c3 => .ok (true, { id1 with length := size }, { fs2 with cache := c3 }) := by
  have hm : ¬ ¬ size ≤ MAX_FILE_SIZE := not_not.mpr hmax
  have hz : ¬ (id.dbl_sect = 0 ∧ size = 0) := fun h => by omega
  rw [inode_resize, if_neg hm, if_neg hz]

/-- The tail of a successful `inode_resize`, once the root sector `R` is settled. -/
theorem resize_tail {fuel : Nat} {size : Int} {R last : Nat} {old : Nat → Block} {fs0 : FS}
    {d id1 : inode_disk} {fs1 : FS} {blk : Block} (hR : d.dbl_sect = R)
    (hinv : ResizeInv size R last (words_of_bytes blk) old 0 fs0 (words_of_bytes blk))
    (hres : (match resize_indirect size 128 0 fs0 (words_of_bytes blk) with
        | .error f => .error f
        | .ok (false, fs2, _) =>
          match inode_resize fuel fs2 d d.length with
          | .error f => .error f
          | .ok (_, id2, fs3) => .ok (false, id2, fs3)
        | .ok (true, fs2, dbl_block) =>
          match cache_write fs2.cache d.dbl_sect (bytes_of_words dbl_block) with
          | .error f => .error f
          | .ok c3 => .ok (true, { d with length := size }, { fs2 with cache := c3 })) =
      (.ok (true, id1, fs1) : Except Fault (Bool × inode_disk × FS))) :
    id1.length = size ∧ id1.dbl_sect = R ∧
    (∀ i : Nat, i < 128 → (root_entry fs1.cache R i ≠ 0 ↔ size > (i : Int) * 128 * 512)) ∧
    (∀ i j : Nat, i < 128 → j < 128 →
      (data_entry fs1.cache R i j ≠ 0 ↔ size > (i : Int) * 128 * 512 + (j : Int) * 512)) ∧
    (∀ i : Nat, i < 128 → word_at (words_of_bytes blk) i ≠ 0 →
      (size ≤ (i : Int) * 128 * 512 → word_at (words_of_bytes blk) i ∈ fs1.free_map.released) ∧
      (∀ j : Nat, j < 128 →
        word_at (words_of_bytes (old (word_at (words_of_bytes blk) i))) j ≠ 0 →
        size ≤ (i : Int) * 128 * 512 + (j : Int) * 512 →
        word_at (words_of_bytes (old (word_at (words_of_bytes blk) i))) j ∈
          fs1.free_map.released)) := by
  cases hloop : resize_indirect size 128 0 fs0 (words_of_bytes blk) with
  | error f => rw [hloop] at hres; simp at hres
  | ok r =>
    obtain ⟨flag, fs2, dbl⟩ := r
    rw [hloop] at hres
    cases flag with
    | false =>
      simp only [] at hres
      cases hrec : inode_resize fuel fs2 d d.length with
      | error f => rw [hrec] at hres; simp at hres
      | ok q => rw [hrec] at hres; simp at hres
    | true =>
      simp only [] at hres
      have post := resize_indirect_spec 128 0 fs0 fs2 _ dbl (by omega) hinv hloop
      obtain ⟨c3, e3, _, w1, w2⟩ := cache_write_ok post.inv d.dbl_sect (bytes_of_words dbl)
      rw [e3] at hres
      simp only [Except.ok.injEq, Prod.mk.injEq, true_and] at hres
      obtain ⟨eid, efs⟩ := hres
      subst eid efs
      rw [hR] at w1 w2
      obtain ⟨r1, r2⟩ := resize_finish post w1 w2
      refine ⟨rfl, hR, r1, r2, fun i hi hnz => ?_⟩
      obtain ⟨f1, f2⟩ := post.freed i hi hnz
      exact ⟨fun h => f1 (by omega), fun j hj hjn h => f2 j hj hjn (by omega)⟩


/-! ## Counting the data blocks of a tree -/

theorem count_below (m : Nat) : ∀ k : Nat,
    ((List.range k).filter (fun j => decide (j < m))).length = min k m
  | 0 => by simp
  | k + 1 => by
    rw [List.range_succ, List.filter_append, List.length_append, count_below m k]
    by_cases h : k < m
    · simp only [List.filter_cons, h, decide_True, if_true, List.filter_nil, List.length_singleton]
      omega
    · simp only [List.filter_cons, h, decide_False, List.filter_nil, List.length_nil]
      simp only [Bool.false_eq_true, if_false, List.length_nil]
      omega

theorem sum_blocks (N : Nat) : ∀ n : Nat,
    ((List.range n).map (fun i => min 128 (N - 128 * i))).sum = min N (128 * n)
  | 0 => by simp
  | n + 1 => by
    rw [List.range_succ, List.map_append, List.sum_append, sum_blocks N n]
    simp only [List.map_cons, List.map_nil, List.sum_cons, List.sum_nil]
    omega

/-- When the non-zero data entries are those below the length, the tree references
`ceil (size / 512)` data blocks. -/
theorem referenced_blocks_count (c : Cache) (R : Nat) (size : Int) (h0 : 0 < size)
    (hmax : size ≤ MAX_FILE_SIZE)
    (h : ∀ i j : Nat, i < 128 → j < 128 →
      (data_entry c R i j ≠ 0 ↔ size > (i : Int) * 128 * 512 + (j : Int) * 512)) :
    referenced_blocks c R = ((size + 511) / 512).toNat := by
  have hm : size ≤ 8388608 := hmax
  have inner : ∀ i ∈ List.range 128,
      ((List.range 128).filter (fun j => data_entry c R i j != 0)).length =
        min 128 (((size + 511) / 512).toNat - 128 * i) := by
    intro i hi
    have hi2 : i < 128 := List.mem_range.mp hi
    rw [← count_below]
    congr 1
    apply List.filter_congr
    intro j hj
    have hj2 : j < 128 := List.mem_range.mp hj
    have e := h i j hi2 hj2
    by_cases hz : data_entry c R i j = 0
    · have : ¬ size > (i : Int) * 128 * 512 + (j : Int) * 512 := fun hh => e.mpr hh hz
      have h2 : ¬ j < ((size + 511) / 512).toNat - 128 * i := by omega
      simp [hz, h2]
    · have : size > (i : Int) * 128 * 512 + (j : Int) * 512 := e.mp hz
      have h2 : j < ((size + 511) / 512).toNat - 128 * i := by omega
      simp [hz, h2]
  unfold referenced_blocks
  rw [List.map_congr_left inner, sum_blocks]
  omega

/-- What a successful resize leaves: the lemma behind C5. -/
theorem resize_post (fuel : Nat) (fs fs1 : FS) (id id1 : inode_disk) (size : Int)
    (inv : CacheInv fs.cache) (h0 : 0 < size) (hmax : size ≤ MAX_FILE_SIZE)
    (htree : id.dbl_sect ≠ 0 → TreeShape fs.cache id.dbl_sect)
    (hfresh : FreshSupply fs.free_map (fs.free_map.calls + 16513)
      (fun s => id.dbl_sect ≠ 0 ∧
        IndexSector id.dbl_sect (words_of_bytes (logical fs.cache id.dbl_sect)) s))
    (hzero : ∀ k s, fs.free_map.calls ≤ k → k < fs.free_map.calls + 16513 →
      fs.free_map.supply k = some s → logical fs.cache s = zeros)
    (hres : inode_resize (fuel + 1) fs id size = .ok (true, id1, fs1)) :
    id1.length = size ∧ id1.dbl_sect ≠ 0 ∧
    (∀ i : Nat, i < 128 →
      (root_entry fs1.cache id1.dbl_sect i ≠ 0 ↔ size > (i : Int) * 128 * 512)) ∧
    (∀ i j : Nat, i < 128 → j < 128 →
      (data_entry fs1.cache id1.dbl_sect i j ≠ 0 ↔
        size > (i : Int) * 128 * 512 + (j : Int) * 512)) ∧
    (id.dbl_sect ≠ 0 → ∀ i : Nat, i < 128 → root_entry fs.cache id.dbl_sect i ≠ 0 →
      (size ≤ (i : Int) * 128 * 512 →
        root_entry fs.cache id.dbl_sect i ∈ fs1.free_map.released) ∧
      (∀ j : Nat, j < 128 → data_entry fs.cache id.dbl_sect i j ≠ 0 →
        size ≤ (i : Int) * 128 * 512 + (j : Int) * 512 →
        data_entry fs.cache id.dbl_sect i j ∈ fs1.free_map.released)) := by
  rw [inode_resize_succ fuel fs id size hmax h0] at hres
  by_cases hR : id.dbl_sect = 0
  · -- the root is allocated by this call
    rw [if_pos hR] at hres
    rcases free_map_allocate_cases fs.free_map with ⟨s, ea, hs⟩ | ⟨fm2, ea⟩
    · rw [ea] at hres
      simp only [] at hres
      obtain ⟨c1, e1, inv1, l1⟩ := cache_read_ok inv s
      rw [e1] at hres
      simp only [] at hres
      have hk : fs.free_map.calls < fs.free_map.calls + 16513 := by omega
      have hsz : logical fs.cache s = zeros := hzero _ s (Nat.le_refl _) hk hs
      have hnz : s ≠ 0 := hfresh.nz _ s (Nat.le_refl _) hk hs
      rw [hsz] at hres
      have hw : ∀ x, x < 128 → word_at (words_of_bytes zeros) x = 0 := by
        intro x hx
        rw [words_of_bytes_zeros]
        exact word_at_replicate _ _ _ hx
      have hinv : ResizeInv size s (fs.free_map.calls + 16513) (words_of_bytes zeros)
          (logical fs.cache) 0 { cache := c1, free_map := fm_alloc fs.free_map s }
          (words_of_bytes zeros) := by
        refine ⟨inv1, words_of_bytes_length _, words_of_bytes_lt _, fun _ _ _ => rfl,
          fun x hx => absurd hx (Nat.not_lt_zero x), fun x hx h => absurd (hw x hx) h,
          fun x _ hx _ _ h => absurd (hw x hx) h, ?_, ?_, ?_, fun x _ hx h => absurd (hw x hx) h,
          fun x hx => absurd hx (Nat.not_lt_zero x)⟩
        · have hf := hfresh.shrink (g := fm_alloc fs.free_map s) rfl (Nat.le_succ _)
          refine ⟨hf.nz, hf.lt, hf.inj, fun k t hk1 hl ht hu => ?_⟩
          have hk2 : fs.free_map.calls + 1 ≤ k := hk1
          rcases hu with hu | ⟨x, hx, hu⟩
          · subst hu
            have := hfresh.inj k fs.free_map.calls t (by omega) hl (Nat.le_refl _) hk ht hs
            omega
          · rw [hw x hx] at hu
            exact hf.nz k t hk1 hl ht hu
        · intro k t hk1 hl ht
          have hk2 : fs.free_map.calls + 1 ≤ k := hk1
          show logical c1 t = zeros
          rw [l1]
          exact hzero k t (by omega) hl ht
        · show fs.free_map.calls + 1 + 129 * (128 - 0) ≤ fs.free_map.calls + 16513
          omega
      obtain ⟨r1, r2, r3, r4, _⟩ := resize_tail (d := { id with dbl_sect := s }) rfl hinv hres
      rw [r2]
      exact ⟨r1, hnz, r3, r4, fun h => absurd hR h⟩
    · rw [ea] at hres
      simp at hres
  · -- the root exists
    rw [if_neg hR] at hres
    simp only [] at hres
    obtain ⟨c1, e1, inv1, l1⟩ := cache_read_ok inv id.dbl_sect
    rw [e1] at hres
    simp only [] at hres
    obtain ⟨t1, t2⟩ := htree hR
    have hinv : ResizeInv size id.dbl_sect (fs.free_map.calls + 16513)
        (words_of_bytes (logical fs.cache id.dbl_sect)) (logical fs.cache) 0
        { cache := c1, free_map := fs.free_map }
        (words_of_bytes (logical fs.cache id.dbl_sect)) := by
      refine ⟨inv1, words_of_bytes_length _, words_of_bytes_lt _, fun _ _ _ => rfl,
        fun x hx => absurd hx (Nat.not_lt_zero x), t1, t2, ?_, ?_, ?_, fun x _ _ _ => l1 _,
        fun x hx => absurd hx (Nat.not_lt_zero x)⟩
      · exact ⟨hfresh.nz, hfresh.lt, hfresh.inj,
          fun k t hk hl ht hu => hfresh.unused k t hk hl ht ⟨hR, hu⟩⟩
      · intro k t hk hl ht
        show logical c1 t = zeros
        rw [l1]
        exact hzero k t hk hl ht
      · show fs.free_map.calls + 129 * (128 - 0) ≤ fs.free_map.calls + 16513
        omega
    obtain ⟨r1, r2, r3, r4, r5⟩ := resize_tail (d := id) rfl hinv hres
    rw [r2]
    refine ⟨r1, hR, r3, r4, fun _ i hi hnz => ?_⟩
    obtain ⟨f1, f2⟩ := r5 i hi hnz
    refine ⟨f1, fun j hj hjn h => ?_⟩
    unfold data_entry at hjn ⊢
    rw [if_neg hnz] at hjn ⊢
    exact f2 j hj hjn h

theorem logical_cache_init (c : Cache) (s : Nat) :
    logical (cache_init c) s = c.fs_device.data s := by
  have h : cache_lookup (cache_init c) s = none := by
    apply cache_lookup_none_of
    intro i hi hv
    simp [cache_init, hi] at hv
  rw [logical_of_miss h]
  rfl

theorem tree_root_words :
    words_of_bytes (logical tree_fs.cache 3) = 4 :: List.replicate 127 0 := by
  have h : logical tree_fs.cache 3 = tree_device 3 := logical_cache_init _ 3
  rw [h]
  decide!

theorem word_at_replicate_zero (n i : Nat) : word_at (List.replicate n 0) i = 0 := by
  unfold word_at
  rw [List.getD_eq_getElem?_getD, List.getElem?_replicate]
  split_ifs <;> rfl

theorem tree_root_entry (i : Nat) :
    root_entry tree_fs.cache 3 i = if i = 0 then 4 else 0 := by
  unfold root_entry
  rw [tree_root_words]
  cases i with
  | zero => rfl
  | succ k =>
    rw [if_neg (Nat.succ_ne_zero k)]
    exact word_at_replicate_zero 127 k

theorem tree_shape : TreeShape tree_fs.cache 3 := by
  constructor
  · intro i _ hnz
    rw [tree_root_entry] at hnz ⊢
    split_ifs at hnz ⊢
    · decide
    · exact absurd rfl hnz
  · intro i j _ _ hij hnz
    rw [tree_root_entry] at hnz
    rw [tree_root_entry, tree_root_entry]
    split_ifs at hnz ⊢ <;> omega

/-- C5 (resize postcondition). For a descriptor whose index sectors form a tree and are
never handed out by the allocator, and every new length with
`0 < new_length <= MAX_FILE_SIZE`, assuming that the sectors the allocator hands out are
fresh and read back as all zeros: if `inode_resize` returns true then the length of the
descriptor is the new length, its root sector is not 0, entry `i` of the root is
non-zero exactly when `new_length > i * 128 * 512`, and entry `j` of level-1 block `i` is
non-zero exactly when `new_length > i * 128 * 512 + j * 512`, so that exactly
`ceil (new_length / 512)` data entries are non-zero; every level-1 block and every data
block of the old tree that lies outside the new length has been released. -/
theorem resize_postcondition (fuel : Nat) (fs fs1 : FS) (id id1 : inode_disk) (size : Int)
    (inv : CacheInv fs.cache) (h0 : 0 < size) (hmax : size ≤ MAX_FILE_SIZE)
    (htree : id.dbl_sect ≠ 0 → TreeShape fs.cache id.dbl_sect)
    (hfresh : FreshSupply fs.free_map (fs.free_map.calls + 16513)
      (fun s => id.dbl_sect ≠ 0 ∧
        IndexSector id.dbl_sect (words_of_bytes (logical fs.cache id.dbl_sect)) s))
    (hzero : ∀ k s, fs.free_map.calls ≤ k → k < fs.free_map.calls + 16513 →
      fs.free_map.supply k = some s → logical fs.cache s = zeros)
    (hres : inode_resize (fuel + 1) fs id size = .ok (true, id1, fs1)) :
    id1.length = size ∧ id1.dbl_sect ≠ 0 ∧
    (∀ i : Nat, i < 128 →
      (root_entry fs1.cache id1.dbl_sect i ≠ 0 ↔ size > (i : Int) * 128 * 512)) ∧
    (∀ i j : Nat, i < 128 → j < 128 →
      (data_entry fs1.cache id1.dbl_sect i j ≠ 0 ↔
        size > (i : Int) * 128 * 512 + (j : Int) * 512)) ∧
    referenced_blocks fs1.cache id1.dbl_sect = ((size + 511) / 512).toNat ∧
    (id.dbl_sect ≠ 0 → ∀ i : Nat, i < 128 → root_entry fs.cache id.dbl_sect i ≠ 0 →
      (size ≤ (i : Int) * 128 * 512 →
        root_entry fs.cache id.dbl_sect i ∈ fs1.free_map.released) ∧
      (∀ j : Nat, j < 128 → data_entry fs.cache id.dbl_sect i j ≠ 0 →
        size ≤ (i : Int) * 128 * 512 + (j : Int) * 512 →
        data_entry fs.cache id.dbl_sect i j ∈ fs1.free_map.released)) := by
  obtain ⟨r1, r2, r3, r4, r5⟩ :=
    resize_post fuel fs fs1 id id1 size inv h0 hmax htree hfresh hzero hres
  exact ⟨r1, r2, r3, r4, referenced_blocks_count fs1.cache id1.dbl_sect size h0 hmax r4, r5⟩

/-- Witness for C5: the 1000-byte file whose tree `tree_device` holds is cut to 100
bytes, with an allocator that hands out sectors 10, 11, 12, ... and never fails. -/
theorem resize_postcondition_witness :
    CacheInv tree_fs.cache ∧ (0 : Int) < 100 ∧ (100 : Int) ≤ MAX_FILE_SIZE ∧
    (tree_id.dbl_sect ≠ 0 → TreeShape tree_fs.cache tree_id.dbl_sect) ∧
    ∃ id1 fs1, inode_resize 1 tree_fs tree_id 100 = .ok (true, id1, fs1) ∧
      id1.length = 100 ∧ id1.dbl_sect ≠ 0 ∧
      (∀ i : Nat, i < 128 →
        (root_entry fs1.cache id1.dbl_sect i ≠ 0 ↔ (100 : Int) > (i : Int) * 128 * 512)) ∧
      (∀ i j : Nat, i < 128 → j < 128 →
        (data_entry fs1.cache id1.dbl_sect i j ≠ 0 ↔
          (100 : Int) > (i : Int) * 128 * 512 + (j : Int) * 512)) ∧
      referenced_blocks fs1.cache id1.dbl_sect = (((100 : Int) + 511) / 512).toNat ∧
      (tree_id.dbl_sect ≠ 0 → ∀ i : Nat, i < 128 →
        root_entry tree_fs.cache tree_id.dbl_sect i ≠ 0 →
        ((100 : Int) ≤ (i : Int) * 128 * 512 →
          root_entry tree_fs.cache tree_id.dbl_sect i ∈ fs1.free_map.released) ∧
        (∀ j : Nat, j < 128 → data_entry tree_fs.cache tree_id.dbl_sect i j ≠ 0 →
          (100 : Int) ≤ (i : Int) * 128 * 512 + (j : Int) * 512 →
          data_entry tree_fs.cache tree_id.dbl_sect i j ∈ fs1.free_map.released)) := by
  have inv : CacheInv tree_fs.cache := cache_init_inv _
  obtain ⟨id1, fs1, e, _⟩ := inode_resize_ok 0 tree_fs tree_id 100 inv
    (fun _ _ => rfl) (by decide)
  have hused : ∀ s, 10 ≤ s → ¬ (tree_id.dbl_sect ≠ 0 ∧
      IndexSector tree_id.dbl_sect (words_of_bytes (logical tree_fs.cache tree_id.dbl_sect))
        s) := by
    rintro s hs ⟨_, h | ⟨x, _, h⟩⟩
    · have : tree_id.dbl_sect = 3 := rfl
      omega
    · have hx : word_at (words_of_bytes (logical tree_fs.cache tree_id.dbl_sect)) x =
          if x = 0 then 4 else 0 := tree_root_entry x
      rw [hx] at h
      split_ifs at h <;> omega
  have hzero : ∀ k s, tree_fs.free_map.calls ≤ k → k < tree_fs.free_map.calls + 16513 →
      tree_fs.free_map.supply k = some s → logical tree_fs.cache s = zeros := by
    intro k s _ _ hk
    have h1 : s = 10 + k := by
      simp only [tree_fs, endless_free_map, Option.some.injEq] at hk
      omega
    have h2 : logical tree_fs.cache s = tree_device s := logical_cache_init _ s
    rw [h2]
    unfold tree_device
    rw [if_neg (by omega), if_neg (by omega)]
  exact ⟨inv, by decide, by decide, fun _ => tree_shape, id1, fs1, e,
    resize_postcondition 0 tree_fs fs1 tree_id id1 100 inv (by decide) (by decide)
      (fun _ => tree_shape) (endless_fresh _ _ (by decide) hused) hzero e⟩

/-- Cutting the 1000-byte file of `tree_device` to 100 bytes releases its second data
block, sector 7, and nothing else; no allocation is requested. -/
theorem resize_shrink_example :
    (resize_fs tree_fs (inode_resize 1 tree_fs tree_id 100)).free_map.released = [7] ∧
    (resize_fs tree_fs (inode_resize 1 tree_fs tree_id 100)).free_map.calls = 0 ∧
    resize_flag (inode_resize 1 tree_fs tree_id 100) = some true := by
  decide!

/-! ## The byte count of a read below the maximum length -/

theorem chunk_of_inside (len size offset : Int) (hs : 0 < size) (ho : 0 ≤ offset)
    (hl : offset < len) :
    0 < chunk_of len size offset ∧ chunk_of len size offset ≤ size ∧
      chunk_of len size offset ≤ len - offset := by
  have h1 : offset.tmod 512 = offset % 512 := Int.tmod_eq_emod ho (by norm_num)
  unfold chunk_of
  rw [h1]
  split_ifs <;> omega

theorem chunk_of_outside (len size offset : Int) (hl : len ≤ offset) :
    chunk_of len size offset ≤ 0 := by
  unfold chunk_of
  split_ifs <;> omega

theorem inode_read_loop_succ (h : inode) (fuel : Nat) (c : Cache) (buffer : Block)
    (size offset bytes_read : Int) :
    inode_read_loop h (fuel + 1) c buffer size offset bytes_read =
      if size > 0 then
        match byte_to_sector c h offset with
        | .error f => .error f
        | .ok (sector_idx, c1) =>
          if chunk_of h.length size offset ≤ 0 then .ok (bytes_read, buffer, c1)
          else
            match cache_read c1 sector_idx with
            | .error f => .error f
            | .ok (blk, c2) =>
              inode_read_loop h fuel c2
                (if offset.tmod 512 = 0 ∧ chunk_of h.length size offset = 512 then
                  buf_copy buffer bytes_read.toNat blk BLOCK_SECTOR_SIZE
                else buf_copy buffer bytes_read.toNat (blk.drop (offset.tmod 512).toNat)
                  (chunk_of h.length size offset).toNat)
                (size - chunk_of h.length size offset) (offset + chunk_of h.length size offset)
                (bytes_read + chunk_of h.length size offset)
      else .ok (bytes_read, buffer, c) := rfl

/-- For a file shorter than `MAX_FILE_SIZE` the read loop returns the number of bytes
between the offset and the end of the file, at most `size`. -/
theorem inode_read_loop_count (h : inode) (hmax : h.length < MAX_FILE_SIZE) :
    ∀ (fuel : Nat) (c : Cache) (buffer : Block) (size offset br : Int), CacheInv c →
      0 ≤ offset → size.toNat ≤ fuel →
      ∃ buf1 c1, inode_read_loop h fuel c buffer size offset br =
          .ok (br + (if 0 < size ∧ offset < h.length then
            (if size < h.length - offset then size else h.length - offset) else 0), buf1, c1) ∧
        CacheInv c1
  | 0, c, buffer, size, offset, br, inv, _, hf => by
    have h0 : ¬ size > 0 := by omega
    refine ⟨buffer, c, ?_, inv⟩
    rw [inode_read_loop, if_neg h0, if_neg (fun h => h0 h.1), add_zero]
  | fuel + 1, c, buffer, size, offset, br, inv, ho, hf => by
    rw [inode_read_loop_succ]
    by_cases hpos : size > 0
    · rw [if_pos hpos]
      by_cases hin : offset < h.length
      · obtain ⟨c1, e1, inv1, _⟩ := byte_to_sector_ok inv h offset ho (by omega) (by omega)
        rw [e1]
        simp only []
        obtain ⟨k1, k2, k3⟩ := chunk_of_inside h.length size offset hpos ho hin
        generalize chunk_of h.length size offset = chunk at k1 k2 k3
        rw [if_neg (by omega)]
        obtain ⟨c2, e2, inv2, _⟩ := cache_read_ok inv1 (word_at (words_of_bytes (logical c
          (word_at (words_of_bytes (logical c h.data.dbl_sect)) (offset / 65536).toNat)))
          (offset % 65536 / 512).toNat)
        rw [e2]
        simp only []
        obtain ⟨buf1, c3, e3, inv3⟩ := inode_read_loop_count h hmax fuel c2
          (if offset.tmod 512 = 0 ∧ chunk = 512 then
            buf_copy buffer br.toNat (logical c1 (word_at (words_of_bytes (logical c
              (word_at (words_of_bytes (logical c h.data.dbl_sect)) (offset / 65536).toNat)))
              (offset % 65536 / 512).toNat)) BLOCK_SECTOR_SIZE
          else buf_copy buffer br.toNat ((logical c1 (word_at (words_of_bytes (logical c
              (word_at (words_of_bytes (logical c h.data.dbl_sect)) (offset / 65536).toNat)))
              (offset % 65536 / 512).toNat)).drop (offset.tmod 512).toNat) chunk.toNat)
          (size - chunk) (offset + chunk) (br + chunk) inv2 (by omega) (by omega)
        refine ⟨buf1, c3, ?_, inv3⟩
        rw [e3]
        congr 2
        rw [if_pos (⟨hpos, hin⟩ : 0 < size ∧ offset < h.length)]
        split_ifs <;> omega
      · obtain ⟨s, c1, e1, inv1⟩ : ∃ s c1, byte_to_sector c h offset = .ok (s, c1) ∧
            CacheInv c1 := by
          by_cases hle : offset ≤ h.length
          · obtain ⟨c3, e3, inv3, _⟩ := byte_to_sector_ok inv h offset ho hle (by omega)
            exact ⟨_, c3, e3, inv3⟩
          · exact ⟨NO_SECTOR, c, by simp only [byte_to_sector, hle, if_false], inv⟩
        rw [e1]
        simp only []
        rw [if_pos (chunk_of_outside h.length size offset (by omega))]
        refine ⟨buffer, c1, ?_, inv1⟩
        rw [if_neg (fun hh => hin hh.2), add_zero]
    · rw [if_neg hpos]
      refine ⟨buffer, c, ?_, inv⟩
      rw [if_neg (fun h => hpos h.1), add_zero]


/-- A read of `size ≥ 0` bytes at `offset ≥ 0` from a file shorter than `MAX_FILE_SIZE`
returns `min size (length - offset)` when the offset is inside the file and 0 otherwise. -/
theorem inode_read_at_count (c : Cache) (h : inode) (buffer : Block) (size offset : Int)
    (inv : CacheInv c) (hs : h.sector ≠ FREE_MAP_SECTOR) (hmax : h.length < MAX_FILE_SIZE)
    (ho : 0 ≤ offset) :
    ∃ buf1 c1, inode_read_at c h buffer size offset =
        .ok ((if 0 < size ∧ offset < h.length then min size (h.length - offset) else 0),
          buf1, c1) ∧ CacheInv c1 := by
  obtain ⟨buf1, c1, e, inv1⟩ := inode_read_loop_count h hmax size.toNat c buffer size offset 0
    inv ho le_rfl
  refine ⟨buf1, c1, ?_, inv1⟩
  unfold inode_read_at
  rw [if_neg hs, e, zero_add]
  congr 2
  split_ifs with h1 h2
  · rw [min_eq_left (le_of_lt h2)]
  · rw [min_eq_right (by omega)]
  · rfl

/-- The two reads of the test `seek-simple` on its 10-byte file: reading 10 bytes at
offset 5 returns 5, and reading 5 bytes at offset 15 returns 0. -/
theorem seek_simple_read_counts :
    count_of (inode_read_at seek_fs.cache (handle_of seek_fs.cache 5) (List.replicate 20 0)
      10 5) = some 5 ∧
    count_of (inode_read_at seek_fs.cache (handle_of seek_fs.cache 5) (List.replicate 20 0)
      5 15) = some 0 := by
  decide!

/-! ## Creation: the loops never fault -/

/-- The inner loop of `inode_create` returns and keeps the cache invariant, whatever the
allocator answers. -/
theorem create_direct_total (L base : Int) :
    ∀ (n j : Nat) (fs : FS) (blk : List Nat), CacheInv fs.cache →
      ∃ flag fs1 blk1, create_direct L base n j fs blk = .ok (flag, fs1, blk1) ∧
        CacheInv fs1.cache
  | 0, _, fs, blk, inv => ⟨true, fs, blk, rfl, inv⟩
  | n + 1, j, fs, blk, inv => by
    rw [create_direct_succ]
    by_cases ht : base + (j : Int) * 512 < L
    · rw [if_pos ht]
      rcases free_map_allocate_cases fs.free_map with ⟨s, ea, _⟩ | ⟨fm2, ea⟩
      · rw [ea]
        simp only []
        obtain ⟨c1, e1, inv1, _⟩ := cache_write_ok inv s zeros
        rw [e1]
        simp only []
        exact create_direct_total L base n (j + 1) _ _ inv1
      · rw [ea]
        exact ⟨false, _, blk, rfl, inv⟩
    · rw [if_neg ht]
      exact ⟨true, fs, blk, rfl, inv⟩

/-- The outer loop of `inode_create` returns and keeps the cache invariant, whatever the
allocator answers. -/
theorem create_indirect_total (L : Int) :
    ∀ (n i : Nat) (inner : Bool) (fs : FS) (dbl : List Nat), CacheInv fs.cache →
      ∃ flag fs1 dbl1, create_indirect L n i inner fs dbl = .ok (flag, fs1, dbl1) ∧
        CacheInv fs1.cache
  | 0, _, _, fs, dbl, inv => ⟨true, fs, dbl, rfl, inv⟩
  | n + 1, i, false, fs, dbl, inv => ⟨false, fs, dbl, rfl, inv⟩
  | n + 1, i, true, fs, dbl, inv => by
    rw [create_indirect_succ]
    by_cases ht : (i : Int) * 128 * 512 < L
    · rw [if_pos ht]
      rcases free_map_allocate_cases fs.free_map with ⟨s, ea, _⟩ | ⟨fm2, ea⟩
      · rw [ea]
        simp only []
        obtain ⟨inner, fs1, blk1, e1, inv1⟩ := create_direct_total L ((i : Int) * 128 * 512)
          128 0 { fs with free_map := fm_alloc fs.free_map s } (List.replicate 128 0) inv
        rw [e1]
        simp only []
        obtain ⟨c2, e2, inv2, _⟩ := cache_write_ok inv1 s (bytes_of_words blk1)
        rw [e2]
        simp only []
        exact create_indirect_total L n (i + 1) inner _ _ inv2
      · rw [ea]
        exact ⟨false, _, dbl, rfl, inv⟩
    · rw [if_neg ht]
      exact ⟨true, fs, dbl, rfl, inv⟩

/-- The failure path of `inode_create` does not return when the first entry of the doubly
indirect block is set: the loop `while (dbl_block[i] != 0)` never changes `i` or the
block. -/
theorem create_revert_stuck : ∀ (fuel : Nat) (fs : FS) (dbl : List Nat), CacheInv fs.cache →
    word_at dbl 0 ≠ 0 → ∃ f, create_revert fuel fs dbl = .error f
  | 0, _, _, _, _ => ⟨.timeout, rfl⟩
  | fuel + 1, fs, dbl, inv, h0 => by
    obtain ⟨c1, e1, inv1, _⟩ := cache_read_ok inv (word_at dbl 0)
    rw [create_revert, if_pos h0, e1]
    simp only []
    cases hd : create_revert_direct 128 0 fs.free_map
        (words_of_bytes (logical fs.cache (word_at dbl 0))) with
    | error f => exact ⟨f, rfl⟩
    | ok fm1 =>
      simp only []
      exact create_revert_stuck fuel _ dbl inv1 h0

/-- With an indirect block that has a free entry, the failure path ends in a timeout for
every amount of fuel. -/
theorem create_revert_timeout : ∀ (fuel : Nat) (fs : FS) (dbl : List Nat), CacheInv fs.cache →
    word_at dbl 0 ≠ 0 →
    (∃ j, j < 128 ∧ word_at (words_of_bytes (logical fs.cache (word_at dbl 0))) j = 0) →
    create_revert fuel fs dbl = .error .timeout
  | 0, _, _, _, _, _ => rfl
  | fuel + 1, fs, dbl, inv, h0, hz => by
    obtain ⟨c1, e1, inv1, l1⟩ := cache_read_ok inv (word_at dbl 0)
    rw [create_revert, if_pos h0, e1]
    simp only []
    have hrev : ∀ (n j : Nat) (fm : FreeMap) (blk : List Nat), (∃ x, j ≤ x ∧ x < j + n ∧
        word_at blk x = 0) → ∃ fm1, create_revert_direct n j fm blk = .ok fm1 := by
      intro n
      induction n with
      | zero => rintro j fm blk ⟨x, h1, h2, _⟩; omega
      | succ n ih =>
        rintro j fm blk ⟨x, h1, h2, h3⟩
        rw [create_revert_direct]
        by_cases hj : word_at blk j ≠ 0
        · rw [if_pos hj]
          apply ih
          refine ⟨x, ?_, by omega, h3⟩
          by_contra hlt
          have : x = j := by omega
          subst this
          exact hj h3
        · rw [if_neg hj]
          exact ⟨fm, rfl⟩
    obtain ⟨j, hj, hjz⟩ := hz
    obtain ⟨fm1, e2⟩ := hrev 128 0 fs.free_map
      (words_of_bytes (logical fs.cache (word_at dbl 0))) ⟨j, Nat.zero_le _, by omega, hjz⟩
    rw [e2]
    simp only []
    apply create_revert_timeout fuel _ dbl inv1 h0
    exact ⟨j, hj, by show word_at (words_of_bytes (logical c1 (word_at dbl 0))) j = 0; rw [l1]; exact hjz⟩

/-- When the population loop fails after entry 0 of the doubly indirect block was set,
`inode_create` does not return, whatever the fuel. -/
theorem inode_create_failure_stuck (fuel : Nat) (fs : FS) (sector : Nat) (L : Int)
    (dir : Bool) (inv : CacheInv fs.cache) (hs : sector ≠ FREE_MAP_SECTOR) (h0 : 0 < L)
    {s : Nat} {fm1 : FreeMap} {fs1 : FS} {dbl : List Nat}
    (ha : free_map_allocate fs.free_map = (some s, fm1))
    (hc : create_indirect L 128 0 true { fs with free_map := fm1 } (List.replicate 128 0) =
      .ok (false, fs1, dbl))
    (hd : word_at dbl 0 ≠ 0) : ∃ f, inode_create fuel fs sector L dir = .error f := by
  obtain ⟨_, _, _, e, inv1⟩ := create_indirect_total L 128 0 true { fs with free_map := fm1 }
    (List.replicate 128 0) inv
  rw [hc] at e
  simp only [Except.ok.injEq, Prod.mk.injEq] at e
  obtain ⟨_, e1, _⟩ := e
  subst e1
  obtain ⟨f, ef⟩ := create_revert_stuck fuel fs1 dbl inv1 hd
  rw [inode_create_pos fuel fs sector L dir hs h0, ha]
  simp only []
  rw [hc]
  simp only []
  rw [ef]
  exact ⟨f, rfl⟩

theorem scarce_run_facts :
    scarce_run.toOption.map (fun r => (r.1, word_at r.2.2 0,
      word_at (words_of_bytes (logical r.2.1.cache (word_at r.2.2 0))) 0)) =
      some (false, 11, 0) := by
  decide!

/-- C11 (create releases everything on failure), evaluated on the code: on a zeroed
device whose allocator has two free sectors left, `inode_create (5, 1, false)` allocates
the root (sector 10) and a level-1 block (sector 11), fails to allocate the data block,
and then does not return, whatever the fuel: the loop of the failure path never leaves
entry 0 of the doubly indirect block. -/
theorem create_failure_never_returns (fuel : Nat) :
    inode_create fuel (demo_fs (fun _ => zeros) 2) 5 1 false = .error .timeout := by
  have inv : CacheInv (demo_fs (fun _ => zeros) 2).cache := cache_init_inv _
  have hfacts := scarce_run_facts
  obtain ⟨flag, fs1, dbl, e, inv1⟩ := create_indirect_total 1 128 0 true
    { demo_fs (fun _ => zeros) 2 with free_map := fm_alloc (demo_free_map 2) 10 }
    (List.replicate 128 0) inv
  have e2 : scarce_run = .ok (flag, fs1, dbl) := e
  rw [e2] at hfacts
  simp only [Except.toOption, Option.map_some', Option.some.injEq, Prod.mk.injEq] at hfacts
  obtain ⟨hflag, hd, hz⟩ := hfacts
  subst hflag
  have ha : free_map_allocate (demo_fs (fun _ => zeros) 2).free_map =
      (some 10, fm_alloc (demo_free_map 2) 10) := rfl
  rw [inode_create_pos fuel _ 5 1 false (by decide) (by decide), ha]
  simp only []
  rw [e]
  simp only []
  rw [create_revert_timeout fuel fs1 dbl inv1 (by rw [hd]; decide) ⟨0, by decide, hz⟩]

/-! ## Creation: a run of full indirect blocks -/

theorem free_map_allocate_until {fm : FreeMap} {last : Nat} (h : AllocUntil fm last)
    (hk : fm.calls < last) :
    ∃ s, s < 4294967296 ∧ fm.supply fm.calls = some s ∧
      free_map_allocate fm = (some s, fm_alloc fm s) := by
  obtain ⟨s, hs, hlt⟩ := h fm.calls (Nat.le_refl _) hk
  exact ⟨s, hlt, hs, by simp [free_map_allocate, hs, fm_alloc]⟩

theorem AllocUntil.after {fm g : FreeMap} {last : Nat} (h : AllocUntil fm last)
    (hs : g.supply = fm.supply) (hc : fm.calls ≤ g.calls) : AllocUntil g last := by
  intro k hk hl
  rw [hs]
  exact h k (Nat.le_trans hc hk) hl

theorem AllocUntil.upto {fm : FreeMap} {last n : Nat} (h : AllocUntil fm last)
    (hn : n ≤ last) : AllocUntil fm n :=
  fun k hk hl => h k hk (Nat.lt_of_lt_of_le hl hn)

/-- The inner loop of `inode_create` on `n` entries that all lie below the length, with an
allocator that answers the next `n` requests. -/
theorem create_direct_full (L base : Int) :
    ∀ (n j : Nat) (fs : FS) (blk : List Nat), CacheInv fs.cache →
      AllocUntil fs.free_map (fs.free_map.calls + n) →
      (∀ k, k < n → base + ((j + k : Nat) : Int) * 512 < L) →
      ∃ fs1 blk1, create_direct L base n j fs blk = .ok (true, fs1, blk1) ∧
        CacheInv fs1.cache ∧ fs1.free_map.supply = fs.free_map.supply ∧
        fs1.free_map.calls = fs.free_map.calls + n
  | 0, _, fs, blk, inv, _, _ => ⟨fs, blk, rfl, inv, rfl, rfl⟩
  | n + 1, j, fs, blk, inv, ha, hb => by
    rw [create_direct_succ]
    have ht : base + (j : Int) * 512 < L := by
      have := hb 0 (Nat.succ_pos n)
      simpa using this
    obtain ⟨s, _, _, ea⟩ := free_map_allocate_until ha (by omega)
    rw [if_pos ht, ea]
    simp only []
    obtain ⟨c1, e1, inv1, _⟩ := cache_write_ok inv s zeros
    rw [e1]
    simp only []
    obtain ⟨fs1, blk1, e2, inv2, hs2, hc2⟩ := create_direct_full L base n (j + 1)
      { cache := c1, free_map := fm_alloc fs.free_map s } (blk.set j s) inv1
      (by
        have := ha.after (g := fm_alloc fs.free_map s) rfl (Nat.le_succ _)
        have e : (fm_alloc fs.free_map s).calls + n = fs.free_map.calls + (n + 1) := by
          show fs.free_map.calls + 1 + n = _
          omega
        rw [e]
        exact this)
      (by
        intro k hk
        have := hb (k + 1) (by omega)
        have e : j + 1 + k = j + (k + 1) := by omega
        rw [e]
        exact this)
    refine ⟨fs1, blk1, e2, inv2, hs2, ?_⟩
    rw [hc2]
    show fs.free_map.calls + 1 + n = _
    omega

/-- The outer loop of `inode_create` on `n` indirect blocks that lie below the length
entirely, with an allocator that answers the next `129 * n` requests: `m` iterations
remain. -/
theorem create_indirect_prefix (L : Int) (m : Nat) :
    ∀ (n i : Nat) (fs : FS) (dbl : List Nat), CacheInv fs.cache →
      AllocUntil fs.free_map (fs.free_map.calls + 129 * n) →
      ((i + n : Nat) : Int) * 65536 ≤ L → dbl.length = 128 →
      (∀ w ∈ dbl, w < 4294967296) →
      ∃ fs1 dbl1, create_indirect L (n + m) i true fs dbl =
          create_indirect L m (i + n) true fs1 dbl1 ∧
        CacheInv fs1.cache ∧ fs1.free_map.supply = fs.free_map.supply ∧
        fs1.free_map.calls = fs.free_map.calls + 129 * n ∧ dbl1.length = 128 ∧
        (∀ w ∈ dbl1, w < 4294967296)
  | 0, i, fs, dbl, inv, _, _, hl, hlt => by
    refine ⟨fs, dbl, ?_, inv, rfl, rfl, hl, hlt⟩
    rw [Nat.zero_add, Nat.add_zero]
  | n + 1, i, fs, dbl, inv, ha, hL, hl, hlt => by
    have e0 : n + 1 + m = (n + m) + 1 := by omega
    rw [e0, create_indirect_succ]
    have hL2 : (i : Int) * 65536 + (n : Int) * 65536 + 65536 ≤ L := by
      push_cast at hL
      omega
    have ht : (i : Int) * 128 * 512 < L := by omega
    obtain ⟨s, hs32, _, ea⟩ := free_map_allocate_until ha (by omega)
    rw [if_pos ht, ea]
    simp only []
    have ha1 : AllocUntil (fm_alloc fs.free_map s) (fs.free_map.calls + 129 * (n + 1)) :=
      ha.after rfl (Nat.le_succ _)
    obtain ⟨fs1, blk1, e1, inv1, hs1, hc1⟩ := create_direct_full L ((i : Int) * 128 * 512)
      128 0 { fs with free_map := fm_alloc fs.free_map s } (List.replicate 128 0) inv
      (ha1.upto (by show fs.free_map.calls + 1 + 128 ≤ _; omega))
      (by
        intro k hk
        have : ((0 + k : Nat) : Int) = k := by simp
        rw [this]
        omega)
    rw [e1]
    simp only []
    obtain ⟨c2, e2, inv2, _⟩ := cache_write_ok inv1 s (bytes_of_words blk1)
    rw [e2]
    simp only []
    have hc1b : fs1.free_map.calls = fs.free_map.calls + 129 := by
      rw [hc1]
      show fs.free_map.calls + 1 + 128 = _
      omega
    obtain ⟨fs3, dbl3, e3, inv3, hs3, hc3, hl3, hlt3⟩ := create_indirect_prefix L m n (i + 1)
      { fs1 with cache := c2 } (dbl.set i s) inv2
      (by
        have := ha1.after (g := fs1.free_map) hs1 (by rw [hc1]; exact Nat.le_add_right _ _)
        have e : fs1.free_map.calls + 129 * n = fs.free_map.calls + 129 * (n + 1) := by
          rw [hc1b]; omega
        show AllocUntil fs1.free_map (fs1.free_map.calls + 129 * n)
        rw [e]
        exact this)
      (by push_cast; omega) (by rw [List.length_set]; exact hl) (set_lt dbl i s hs32 hlt)
    refine ⟨fs3, dbl3, ?_, inv3, ?_, ?_, hl3, hlt3⟩
    · rw [e3]
      have : i + 1 + n = i + (n + 1) := by omega
      rw [this]
    · rw [hs3]; exact hs1
    · rw [hc3]
      show fs1.free_map.calls + 129 * n = _
      rw [hc1b]; omega

/-! ## Creation: lengths the tree cannot hold, and an allocator that runs out late -/

theorem new_inode_decode_off (sector : Nat) (L : Int) (dir : Bool) (s : Nat)
    (hs : sector < 4294967296) (h0 : 0 ≤ L) (hL : L < 2147483648) (h1 : s < 4294967296) :
    inode_disk.decode (sector_copy
      ({ inode_disk.zero with length := L, magic := INODE_MAGIC, parent := sector,
                              isdir := dir, dbl_sect := s }).encode) =
      { inode_disk.zero with length := L, magic := INODE_MAGIC, parent := sector,
                             isdir := dir, dbl_sect := s } := by
  rw [sector_copy_of_length (inode_disk.encode_length _ (by simp [inode_disk.zero]))]
  apply inode_disk.decode_encode
  · simp [inode_disk.zero]
  · intro w hw
    simp only [inode_disk.zero, List.mem_replicate] at hw
    omega
  · exact h1
  · exact hs
  · show INODE_MAGIC < 4294967296
    decide
  · exact h0
  · exact hL

/-- Creation with a length of at least `MAX_FILE_SIZE`: every entry of the tree is
populated and the length is persisted as given. -/
theorem inode_create_any_length (fuel : Nat) (fs : FS) (sector : Nat) (L : Int) (dir : Bool)
    (inv : CacheInv fs.cache) (hs : sector ≠ FREE_MAP_SECTOR) (hs32 : sector < 4294967296)
    (hL : MAX_FILE_SIZE ≤ L) (h31 : L < 2147483648)
    (ha : AllocUntil fs.free_map (fs.free_map.calls + 16513)) :
    ∃ fs1, inode_create fuel fs sector L dir = .ok (true, fs1) ∧
      (inode_disk.decode (logical fs1.cache sector)).length = L ∧
      fs1.free_map.calls = fs.free_map.calls + 16513 := by
  have hL2 : (8388608 : Int) ≤ L := hL
  obtain ⟨s, hs32b, _, ea⟩ := free_map_allocate_until ha (by omega)
  rw [inode_create_pos fuel fs sector L dir hs (by omega), ea]
  simp only []
  obtain ⟨fs1, dbl1, e1, inv1, _, hc1, _, _⟩ := create_indirect_prefix L 0 128 0
    { fs with free_map := fm_alloc fs.free_map s } (List.replicate 128 0) inv
    ((ha.after (g := fm_alloc fs.free_map s) rfl (Nat.le_succ _)).upto
      (by show fs.free_map.calls + 1 + 129 * 128 ≤ _; omega))
    (by norm_num; omega) (List.length_replicate _ _)
    (by intro w hw; rw [List.mem_replicate] at hw; omega)
  have e2 : create_indirect L 128 0 true { fs with free_map := fm_alloc fs.free_map s }
      (List.replicate 128 0) = .ok (true, fs1, dbl1) := by
    have : create_indirect L 0 (0 + 128) true fs1 dbl1 = .ok (true, fs1, dbl1) := rfl
    rw [← this, ← e1]
  rw [e2]
  simp only []
  obtain ⟨c3, e3, inv3, _⟩ := cache_write_ok inv1 s (bytes_of_words dbl1)
  rw [e3]
  simp only []
  obtain ⟨c4, e4, _, w4, _⟩ := cache_write_ok inv3 sector
    ({ inode_disk.zero with length := L, magic := INODE_MAGIC, parent := sector,
                            isdir := dir, dbl_sect := s }).encode
  rw [e4]
  refine ⟨{ fs1 with cache := c4 }, rfl, ?_, ?_⟩
  · show (inode_disk.decode (logical c4 sector)).length = L
    rw [w4, new_inode_decode_off sector L dir s hs32 (by omega) h31 hs32b]
  · show fs1.free_map.calls = _
    rw [hc1]
    show fs.free_map.calls + 1 + 129 * 128 = _
    omega

theorem free_map_allocate_none {fm : FreeMap} (h : fm.supply fm.calls = none) :
    free_map_allocate fm = (none, { fm with calls := fm.calls + 1 }) := by
  simp [free_map_allocate, h]

/-- Creation with an allocator that fails at the first data block of the last indirect
block: the failure goes unnoticed, the call returns true and the tree has a hole. -/
theorem inode_create_hole (fuel : Nat) (fs : FS) (sector : Nat) (L : Int) (dir : Bool)
    (inv : CacheInv fs.cache) (hs : sector ≠ FREE_MAP_SECTOR) (hs32 : sector < 4294967296)
    (hL : 127 * 65536 < L) (hmax : L ≤ MAX_FILE_SIZE)
    (ha : AllocUntil fs.free_map (fs.free_map.calls + 16385))
    (hn : fs.free_map.supply (fs.free_map.calls + 16385) = none)
    (h1 : answer fs.free_map fs.free_map.calls ≠ sector)
    (h2 : answer fs.free_map (fs.free_map.calls + 16384) ≠ sector)
    (h3 : answer fs.free_map (fs.free_map.calls + 16384) ≠ answer fs.free_map fs.free_map.calls) :
    ∃ fs1, inode_create fuel fs sector L dir = .ok (true, fs1) ∧
      (inode_disk.decode (logical fs1.cache sector)).length = L ∧
      fs1.free_map.calls = fs.free_map.calls + 16386 ∧
      data_entry fs1.cache (inode_disk.decode (logical fs1.cache sector)).dbl_sect 127 0 = 0 := by
  have hmax2 : L ≤ 8388608 := hmax
  obtain ⟨s, hs32b, hsup, ea⟩ := free_map_allocate_until ha (by omega)
  have hs0 : answer fs.free_map fs.free_map.calls = s := by simp [answer, hsup]
  rw [inode_create_pos fuel fs sector L dir hs (by omega), ea]
  simp only []
  have ha1 : AllocUntil (fm_alloc fs.free_map s) (fs.free_map.calls + 16385) :=
    ha.after rfl (Nat.le_succ _)
  obtain ⟨fs1, dbl1, e1, inv1, hs1, hc1, hl1, hlt1⟩ := create_indirect_prefix L 1 127 0
    { fs with free_map := fm_alloc fs.free_map s } (List.replicate 128 0) inv
    (ha1.upto (by show fs.free_map.calls + 1 + 129 * 127 ≤ _; omega))
    (by norm_num; omega) (List.length_replicate _ _)
    (by intro w hw; rw [List.mem_replicate] at hw; omega)
  have hc1b : fs1.free_map.calls = fs.free_map.calls + 16384 := by
    rw [hc1]
    show fs.free_map.calls + 1 + 129 * 127 = _
    omega
  have hs1b : fs1.free_map.supply = fs.free_map.supply := hs1
  -- the last iteration
  obtain ⟨t, ht32, htsup, et⟩ := free_map_allocate_until
    (ha1.after (g := fs1.free_map) hs1 (by rw [hc1]; exact Nat.le_add_right _ _))
    (by rw [hc1b]; omega)
  have ht0 : answer fs.free_map (fs.free_map.calls + 16384) = t := by
    rw [hs1b, hc1b] at htsup
    simp [answer, htsup]
  have en : free_map_allocate (fm_alloc fs1.free_map t) =
      (none, { fm_alloc fs1.free_map t with calls := (fm_alloc fs1.free_map t).calls + 1 }) := by
    apply free_map_allocate_none
    show fs1.free_map.supply (fs1.free_map.calls + 1) = none
    rw [hs1b, hc1b]
    exact hn
  obtain ⟨c2, e2, inv2, w2, k2⟩ := cache_write_ok inv1 t (bytes_of_words (List.replicate 128 0))
  have e5 : create_indirect L 128 0 true { fs with free_map := fm_alloc fs.free_map s }
      (List.replicate 128 0) =
      .ok (true, { cache := c2, free_map := { fm_alloc fs1.free_map t with
        calls := (fm_alloc fs1.free_map t).calls + 1 } }, dbl1.set 127 t) := by
    rw [e1, create_indirect_succ, if_pos (by norm_num; omega), et]
    simp only []
    rw [create_direct_succ, if_pos (by norm_num; omega), en]
    simp only []
    rw [e2]
    rfl
  rw [e5]
  simp only []
  obtain ⟨c3, e3, inv3, w3, k3⟩ := cache_write_ok inv2 s (bytes_of_words (dbl1.set 127 t))
  rw [e3]
  simp only []
  obtain ⟨c4, e4, _, w4, k4⟩ := cache_write_ok inv3 sector
    ({ inode_disk.zero with length := L, magic := INODE_MAGIC, parent := sector,
                            isdir := dir, dbl_sect := s }).encode
  rw [e4]
  have hdec : inode_disk.decode (logical c4 sector) =
      { inode_disk.zero with length := L, magic := INODE_MAGIC, parent := sector,
                             isdir := dir, dbl_sect := s } := by
    rw [w4, new_inode_decode_off sector L dir s hs32 (by omega) (by omega) hs32b]
  refine ⟨_, rfl, ?_, ?_, ?_⟩
  · show (inode_disk.decode (logical c4 sector)).length = L
    rw [hdec]
  · show fs1.free_map.calls + 1 + 1 = _
    rw [hc1b]
  · show data_entry c4 (inode_disk.decode (logical c4 sector)).dbl_sect 127 0 = 0
    rw [hdec]
    show data_entry c4 s 127 0 = 0
    have hss : s ≠ sector := by rw [← hs0]; exact h1
    have hts : t ≠ sector := by rw [← ht0]; exact h2
    have hts0 : t ≠ s := by rw [← ht0, ← hs0]; exact h3
    have hlen : (dbl1.set 127 t).length = 128 := by rw [List.length_set]; exact hl1
    have hroot : root_entry c4 s 127 = t := by
      unfold root_entry
      rw [k4 s hss, w3, sector_copy_bytes_of_words _ hlen,
        words_of_bytes_of_words _ hlen (set_lt dbl1 127 t ht32 hlt1)]
      exact word_at_set_same dbl1 127 t (by omega)
    unfold data_entry
    rw [hroot]
    split_ifs with hz
    · rfl
    · rw [k4 t hts, k3 t hts0, w2,
        sector_copy_bytes_of_words _ (List.length_replicate _ _),
        words_of_bytes_of_words _ (List.length_replicate _ _)
          (by intro w hw; rw [List.mem_replicate] at hw; omega)]
      exact word_at_replicate 128 0 0 (by decide)

/-- C12 (create reports exhaustion), evaluated on the code: on a zeroed device whose
allocator has 16385 free sectors (the root, 127 full level-1 blocks and the last level-1
block), `inode_create (5, MAX_FILE_SIZE, false)` makes 16386 requests, the last of which
fails, and returns true all the same: the persisted length is `MAX_FILE_SIZE`, but data
entry 0 of level-1 block 127 (block index 16256 of 16384) is zero. -/
theorem create_hides_exhaustion :
    (demo_fs (fun _ => zeros) 16385).free_map.supply 16385 = none ∧
    ∃ fs1, inode_create 0 (demo_fs (fun _ => zeros) 16385) 5 MAX_FILE_SIZE false =
        .ok (true, fs1) ∧
      (inode_disk.decode (logical fs1.cache 5)).length = MAX_FILE_SIZE ∧
      fs1.free_map.calls = 16386 ∧
      data_entry fs1.cache (inode_disk.decode (logical fs1.cache 5)).dbl_sect 127 0 = 0 := by
  refine ⟨by decide, ?_⟩
  have h := inode_create_hole 0 (demo_fs (fun _ => zeros) 16385) 5 MAX_FILE_SIZE false
    (cache_init_inv _) (by decide) (by decide) (by decide) (Int.le_refl _)
    (by
      intro k _ hk
      have hk2 : k < 16385 := by
        have : (demo_fs (fun _ => zeros) 16385).free_map.calls = 0 := rfl
        omega
      refine ⟨10 + k, ?_, by omega⟩
      show (if k < 16385 then some (10 + k) else none) = some (10 + k)
      rw [if_pos hk2])
    (by decide) (by decide) (by decide) (by decide)
  exact h

/-- C14 (length bound invariant), evaluated on the code: on a zeroed device with an
allocator that never fails, `inode_create (5, MAX_FILE_SIZE + 1, false)` returns true and
the on-disk inode it persists at sector 5 has length `MAX_FILE_SIZE + 1`. -/
theorem create_persists_length_past_max :
    ∃ fs1, inode_create 0 blank_fs 5 (MAX_FILE_SIZE + 1) false = .ok (true, fs1) ∧
      (inode_disk.decode (logical fs1.cache 5)).length = MAX_FILE_SIZE + 1 ∧
      ¬ (inode_disk.decode (logical fs1.cache 5)).length ≤ MAX_FILE_SIZE := by
  obtain ⟨fs1, e, hl, _⟩ := inode_create_any_length 0 blank_fs 5 (MAX_FILE_SIZE + 1) false
    (cache_init_inv _) (by decide) (by decide) (by decide) (by decide)
    (by
      intro k _ hk
      have hk2 : k < 16513 := by
        have : blank_fs.free_map.calls = 0 := rfl
        omega
      exact ⟨10 + k, rfl, by omega⟩)
  refine ⟨fs1, e, hl, ?_⟩
  rw [hl]
  decide

/-! ## The list of open inodes -/

theorem inode_at_mem {sys : Sys} {a : Nat} {h : inode} (e : inode_at sys a = some h) :
    (a, h) ∈ sys.open_inodes := by
  unfold inode_at at e
  cases hf : sys.open_inodes.find? (fun e => e.1 == a) with
  | none => rw [hf] at e; simp at e
  | some x =>
    rw [hf] at e
    simp only [Option.map_some', Option.some.injEq] at e
    have h1 := List.mem_of_find?_eq_some hf
    have h2 := List.find?_some hf
    simp only [beq_iff_eq] at h2
    obtain ⟨x1, x2⟩ := x
    simp only at e h2
    subst e h2
    exact h1

theorem inode_at_none {sys : Sys} {a : Nat} (e : inode_at sys a = none) :
    a ∉ sys.open_inodes.map (fun e => e.1) := by
  unfold inode_at at e
  simp only [Option.map_eq_none', List.find?_eq_none, beq_iff_eq] at e
  intro hm
  obtain ⟨x, hx, hxa⟩ := List.mem_map.mp hm
  exact e x hx hxa

theorem inode_at_of_mem {sys : Sys} {a : Nat} {h : inode}
    (hn : (sys.open_inodes.map (fun e => e.1)).Nodup) (hm : (a, h) ∈ sys.open_inodes) :
    inode_at sys a = some h := by
  cases e : inode_at sys a with
  | none =>
    exact absurd (List.mem_map.mpr ⟨(a, h), hm, rfl⟩) (inode_at_none e)
  | some h1 =>
    have hm1 := inode_at_mem e
    have := List.inj_on_of_nodup_map hn hm1 hm rfl
    simp only [Prod.mk.injEq, true_and] at this
    rw [this]

theorem set_inode_addrs (l : List (Nat × inode)) (a : Nat) (v : inode) :
    (set_inode l a v).map (fun e => e.1) = l.map (fun e => e.1) := by
  unfold set_inode
  rw [List.map_map]
  apply List.map_congr_left
  intro e _
  simp only [Function.comp]
  split_ifs with h
  · exact h.symm
  · rfl

theorem set_inode_sectors (l : List (Nat × inode)) (a : Nat) (v : inode)
    (h : ∀ e ∈ l, e.1 = a → e.2.sector = v.sector) :
    (set_inode l a v).map (fun e => e.2.sector) = l.map (fun e => e.2.sector) := by
  unfold set_inode
  rw [List.map_map]
  apply List.map_congr_left
  intro e he
  simp only [Function.comp]
  split_ifs with h1
  · exact (h e he h1).symm
  · rfl

theorem find_set_same (a : Nat) (v : inode) : ∀ (l : List (Nat × inode)),
    (l.find? (fun e => e.1 == a)).isSome = true →
    (set_inode l a v).find? (fun e => e.1 == a) = some (a, v)
  | [], h => by simp at h
  | x :: l, h => by
    unfold set_inode
    rw [List.map_cons]
    by_cases hx : x.1 = a
    · rw [if_pos hx, List.find?_cons_of_pos]
      simp
    · rw [if_neg hx, List.find?_cons_of_neg]
      · rw [List.find?_cons_of_neg] at h
        · exact find_set_same a v l h
        · simpa using hx
      · simpa using hx

theorem find_set_other (a b : Nat) (v : inode) (hb : b ≠ a) : ∀ (l : List (Nat × inode)),
    (set_inode l a v).find? (fun e => e.1 == b) = l.find? (fun e => e.1 == b)
  | [] => rfl
  | x :: l => by
    unfold set_inode
    rw [List.map_cons]
    by_cases hx : x.1 = a
    · rw [if_pos hx, List.find?_cons_of_neg, List.find?_cons_of_neg]
      · exact find_set_other a b v hb l
      · simp only [beq_iff_eq]; omega
      · simp only [beq_iff_eq]; omega
    · rw [if_neg hx]
      by_cases hxb : x.1 = b
      · rw [List.find?_cons_of_pos, List.find?_cons_of_pos] <;> simpa using hxb
      · rw [List.find?_cons_of_neg, List.find?_cons_of_neg]
        · exact find_set_other a b v hb l
        · simpa using hxb
        · simpa using hxb

theorem inode_at_set_same {sys : Sys} {a : Nat} {h : inode} (v : inode) (fs1 : FS)
    (e : inode_at sys a = some h) :
    inode_at { fs := fs1, open_inodes := set_inode sys.open_inodes a v } a = some v := by
  unfold inode_at at e ⊢
  rw [find_set_same a v sys.open_inodes]
  · rfl
  · cases hf : sys.open_inodes.find? (fun e => e.1 == a) with
    | none => rw [hf] at e; simp at e
    | some x => rfl

theorem inode_at_set_other {sys : Sys} {a b : Nat} (v : inode) (fs1 : FS) (hb : b ≠ a) :
    inode_at { fs := fs1, open_inodes := set_inode sys.open_inodes a v } b = inode_at sys b := by
  unfold inode_at
  rw [find_set_other a b v hb]

theorem inode_at_drop_same (sys : Sys) (a : Nat) (fs1 : FS) :
    inode_at { fs := fs1, open_inodes := drop_inode sys.open_inodes a } a = none := by
  unfold inode_at drop_inode
  simp only [Option.map_eq_none', List.find?_eq_none, List.mem_filter, bne_iff_ne, ne_eq,
    beq_iff_eq, and_imp]
  intro x _ hx
  exact hx

theorem inode_at_drop_other (sys : Sys) {a b : Nat} (fs1 : FS) (hb : b ≠ a) :
    inode_at { fs := fs1, open_inodes := drop_inode sys.open_inodes a } b = inode_at sys b := by
  unfold inode_at drop_inode
  congr 1
  induction sys.open_inodes with
  | nil => rfl
  | cons x l ih =>
    by_cases hx : x.1 = a
    · rw [List.filter_cons_of_neg (by simpa using hx), ih, List.find?_cons_of_neg]
      simp only [beq_iff_eq]; omega
    · rw [List.filter_cons_of_pos (by simpa using hx)]
      by_cases hxb : x.1 = b
      · rw [List.find?_cons_of_pos, List.find?_cons_of_pos] <;> simpa using hxb
      · rw [List.find?_cons_of_neg, List.find?_cons_of_neg, ih] <;> simpa using hxb

theorem open_inv_set {sys : Sys} {a : Nat} {h : inode} (inv : OpenInv sys)
    (e : inode_at sys a = some h) (v : inode) (hv : v.sector = h.sector) :
    OpenInv { sys with open_inodes := set_inode sys.open_inodes a v } := by
  refine ⟨?_, ?_, inv.cache⟩
  · show ((set_inode sys.open_inodes a v).map (fun e => e.1)).Nodup
    rw [set_inode_addrs]
    exact inv.addrs
  · show ((set_inode sys.open_inodes a v).map (fun e => e.2.sector)).Nodup
    rw [set_inode_sectors]
    · exact inv.sectors
    · intro x hx hxa
      have hm := inode_at_mem e
      have := List.inj_on_of_nodup_map inv.addrs hx hm hxa
      rw [this, hv]

theorem open_inv_drop {sys : Sys} (inv : OpenInv sys) (a : Nat) (fs1 : FS)
    (hc : CacheInv fs1.cache) :
    OpenInv { fs := fs1, open_inodes := drop_inode sys.open_inodes a } := by
  refine ⟨?_, ?_, hc⟩
  · exact inv.addrs.sublist ((List.filter_sublist _).map _)
  · exact inv.sectors.sublist ((List.filter_sublist _).map _)

/-- The outer loop of `inode_free` returns and keeps the cache invariant. -/
theorem free_indirect_total : ∀ (n i : Nat) (fs : FS) (dbl : List Nat), CacheInv fs.cache →
    ∃ fs1, free_indirect n i fs dbl = .ok fs1 ∧ CacheInv fs1.cache
  | 0, _, fs, _, inv => ⟨fs, rfl, inv⟩
  | n + 1, i, fs, dbl, inv => by
    rw [free_indirect]
    by_cases h : word_at dbl i ≠ 0
    · rw [if_pos h]
      obtain ⟨c1, e1, inv1, _⟩ := cache_read_ok inv (word_at dbl i)
      rw [e1]
      simp only []
      exact free_indirect_total n (i + 1) _ dbl inv1
    · rw [if_neg h]
      exact free_indirect_total n (i + 1) fs dbl inv

theorem inode_free_total (fs : FS) (h : inode) (inv : CacheInv fs.cache) :
    ∃ fs1, inode_free fs h = .ok fs1 ∧ CacheInv fs1.cache := by
  obtain ⟨c1, e1, inv1, _⟩ := cache_read_ok inv h.data.dbl_sect
  obtain ⟨fs2, e2, inv2⟩ := free_indirect_total 128 0 { fs with cache := c1 }
    (words_of_bytes (logical fs.cache h.data.dbl_sect)) inv1
  unfold inode_free
  rw [e1]
  simp only []
  rw [e2]
  exact ⟨_, rfl, inv2⟩

theorem inode_reopen_inv {sys sys1 : Sys} {p : Option Nat} (inv : OpenInv sys)
    (e : inode_reopen sys p = .ok sys1) : OpenInv sys1 := by
  unfold inode_reopen at e
  cases p with
  | none =>
    simp only [Except.ok.injEq] at e
    subst e
    exact inv
  | some a =>
    simp only at e
    cases hat : inode_at sys a with
    | none => rw [hat] at e; simp at e
    | some h =>
      rw [hat] at e
      simp only [Except.ok.injEq] at e
      subst e
      exact open_inv_set inv hat _ rfl

theorem inode_open_inv {sys sys1 : Sys} {sector : Nat} {mem p : Option Nat} (inv : OpenInv sys)
    (hm : ∀ a, mem = some a → inode_at sys a = none)
    (e : inode_open sys sector mem = .ok (p, sys1)) : OpenInv sys1 := by
  unfold inode_open at e
  cases hf : sys.open_inodes.find? (fun e => e.2.sector == sector) with
  | some x =>
    rw [hf] at e
    simp only at e
    cases hr : inode_reopen sys (some x.1) with
    | error f => rw [hr] at e; simp at e
    | ok sys2 =>
      rw [hr] at e
      simp only [Except.ok.injEq, Prod.mk.injEq] at e
      rw [← e.2]
      exact inode_reopen_inv inv hr
  | none =>
    rw [hf] at e
    simp only at e
    cases mem with
    | none =>
      simp only [Except.ok.injEq, Prod.mk.injEq] at e
      rw [← e.2]
      exact inv
    | some a =>
      simp only at e
      obtain ⟨c1, e1, inv1, _⟩ := cache_read_ok inv.cache sector
      rw [e1] at e
      simp only [Except.ok.injEq, Prod.mk.injEq] at e
      rw [← e.2]
      refine ⟨?_, ?_, inv1⟩
      · show ((_ :: sys.open_inodes).map (fun e => e.1)).Nodup
        rw [List.map_cons, List.nodup_cons]
        exact ⟨inode_at_none (hm a rfl), inv.addrs⟩
      · show ((_ :: sys.open_inodes).map (fun e => e.2.sector)).Nodup
        rw [List.map_cons, List.nodup_cons]
        refine ⟨?_, inv.sectors⟩
        intro hmem
        obtain ⟨y, hy, hys⟩ := List.mem_map.mp hmem
        rw [List.find?_eq_none] at hf
        have := hf y hy
        simp only [beq_iff_eq] at this
        exact this hys

theorem inode_close_inv {sys sys1 : Sys} {p : Option Nat} (inv : OpenInv sys)
    (e : inode_close sys p = .ok sys1) : OpenInv sys1 := by
  unfold inode_close at e
  cases p with
  | none =>
    simp only [Except.ok.injEq] at e
    subst e
    exact inv
  | some a =>
    simp only at e
    cases hat : inode_at sys a with
    | none => rw [hat] at e; simp at e
    | some h =>
      rw [hat] at e
      simp only at e
      split_ifs at e with h1 h2
      · obtain ⟨fs1, e1, inv1⟩ := inode_free_total
          { sys.fs with free_map := free_map_release sys.fs.free_map h.sector }
          { h with open_cnt := h.open_cnt - 1 } inv.cache
        rw [e1] at e
        simp only [Except.ok.injEq] at e
        subst e
        exact open_inv_drop inv a fs1 inv1
      · simp only [Except.ok.injEq] at e
        subst e
        exact open_inv_drop inv a sys.fs inv.cache
      · simp only [Except.ok.injEq] at e
        subst e
        exact open_inv_set inv hat _ rfl

theorem inode_remove_inv {sys sys1 : Sys} {p : Option Nat} (inv : OpenInv sys)
    (e : inode_remove sys p = .ok sys1) : OpenInv sys1 := by
  unfold inode_remove at e
  cases p with
  | none => simp at e
  | some a =>
    simp only at e
    cases hat : inode_at sys a with
    | none => rw [hat] at e; simp at e
    | some h =>
      rw [hat] at e
      simp only [Except.ok.injEq] at e
      subst e
      exact open_inv_set inv hat _ rfl

theorem inode_deny_write_inv {sys sys1 : Sys} {p : Option Nat} (inv : OpenInv sys)
    (e : inode_deny_write sys p = .ok sys1) : OpenInv sys1 := by
  unfold inode_deny_write at e
  cases p with
  | none => simp at e
  | some a =>
    simp only at e
    cases hat : inode_at sys a with
    | none => rw [hat] at e; simp at e
    | some h =>
      rw [hat] at e
      simp only at e
      split_ifs at e
      simp only [Except.ok.injEq] at e
      subst e
      exact open_inv_set inv hat _ rfl

theorem inode_allow_write_inv {sys sys1 : Sys} {p : Option Nat} (inv : OpenInv sys)
    (e : inode_allow_write sys p = .ok sys1) : OpenInv sys1 := by
  unfold inode_allow_write at e
  cases p with
  | none => simp at e
  | some a =>
    simp only at e
    cases hat : inode_at sys a with
    | none => rw [hat] at e; simp at e
    | some h =>
      rw [hat] at e
      simp only at e
      split_ifs at e
      simp only [Except.ok.injEq] at e
      subst e
      exact open_inv_set inv hat _ rfl

/-- Every reachable state satisfies the invariant of the list of open inodes. -/
theorem sys_reach_inv {sys : Sys} (hr : SysReach sys) : OpenInv sys := by
  induction hr with
  | init fs inv => exact ⟨List.nodup_nil, List.nodup_nil, inv⟩
  | opened _ hm e ih => exact inode_open_inv ih hm e
  | reopened _ e ih => exact inode_reopen_inv ih e
  | closed _ e ih => exact inode_close_inv ih e
  | removed _ e ih => exact inode_remove_inv ih e
  | denied _ e ih => exact inode_deny_write_inv ih e
  | allowed _ e ih => exact inode_allow_write_inv ih e

theorem sys_of_ok {α : Type} (sys : Sys) (r : Except Fault (α × Sys))
    (h : fault_of r = none) : ∃ p, r = .ok (p, sys_of sys r) := by
  cases r with
  | error f => simp [fault_of] at h
  | ok x => exact ⟨x.1, rfl⟩

theorem st_of_ok (sys : Sys) (r : Except Fault Sys) (h : fault_of r = none) :
    r = .ok (st_of sys r) := by
  cases r with
  | error f => simp [fault_of] at h
  | ok x => rfl

theorem inode_at_cons_same (fs1 : FS) (l : List (Nat × inode)) (a : Nat) (h : inode) :
    inode_at { fs := fs1, open_inodes := (a, h) :: l } a = some h := by
  unfold inode_at
  rw [List.find?_cons_of_pos]
  · rfl
  · simp

theorem inode_at_cons_other (sys : Sys) (fs1 : FS) (a b : Nat) (h : inode) (hb : b ≠ a) :
    inode_at { fs := fs1, open_inodes := (a, h) :: sys.open_inodes } b = inode_at sys b := by
  unfold inode_at
  rw [List.find?_cons_of_neg]
  simp only [beq_iff_eq]
  omega

/-- Opening a sector that is open already: the pointer returned is that of the element of
the list, whose count of openers grows by one. -/
theorem inode_open_again {sys : Sys} (inv : OpenInv sys) {a : Nat} {h : inode}
    (hat : inode_at sys a = some h) (mem : Option Nat) :
    inode_open sys h.sector mem =
      .ok (some a,
        { sys with
          open_inodes := set_inode sys.open_inodes a { h with open_cnt := h.open_cnt + 1 } }) := by
  have hm := inode_at_mem hat
  unfold inode_open
  cases hf : sys.open_inodes.find? (fun e => e.2.sector == h.sector) with
  | none =>
    rw [List.find?_eq_none] at hf
    have := hf (a, h) hm
    simp at this
  | some x =>
    have h1 := List.mem_of_find?_eq_some hf
    have h2 := List.find?_some hf
    simp only [beq_iff_eq] at h2
    have hx : x = (a, h) := List.inj_on_of_nodup_map inv.sectors h1 hm h2
    subst hx
    simp only [inode_reopen, hat]

/-- Opening a sector that is not open: a new element is put in front of the list. -/
theorem inode_open_new {sys : Sys} (inv : OpenInv sys) (sector a : Nat)
    (hnew : ∀ b h, inode_at sys b = some h → h.sector ≠ sector) :
    ∃ c1, cache_read sys.fs.cache sector = .ok (logical sys.fs.cache sector, c1) ∧
      CacheInv c1 ∧ (∀ t, logical c1 t = logical sys.fs.cache t) ∧
      inode_open sys sector (some a) =
        .ok (some a,
          { fs := { sys.fs with cache := c1 }
            open_inodes := (a, handle_of sys.fs.cache sector) :: sys.open_inodes }) := by
  obtain ⟨c1, e1, inv1, l1⟩ := cache_read_ok inv.cache sector
  refine ⟨c1, e1, inv1, l1, ?_⟩
  have hf : sys.open_inodes.find? (fun e => e.2.sector == sector) = none := by
    rw [List.find?_eq_none]
    intro x hx
    simp only [beq_iff_eq]
    exact hnew x.1 x.2 (inode_at_of_mem inv.addrs hx)
  unfold inode_open
  rw [hf]
  simp only []
  rw [e1]
  rfl

/-- C15 (single shared handle per sector). In every state reachable from `inode_init`
through `inode_open`, `inode_reopen`, `inode_close` (and `inode_remove`,
`inode_deny_write`, `inode_allow_write`), no two elements of the list of open inodes have
the same sector; `inode_open` on the sector of an open inode returns the pointer to that
inode, whose `open_cnt` has grown by exactly one, and changes nothing else; `inode_open`
on a sector that is not open returns a new inode, which is in the list, with
`open_cnt = 1`, `deny_write_cnt = 0`, `removed = false` and the length of the on-disk
inode read from the sector. -/
theorem single_shared_handle (sys : Sys) (hr : SysReach sys) :
    (sys.open_inodes.map (fun e => e.2.sector)).Nodup ∧
    (∀ (a : Nat) (h : inode) (mem : Option Nat), inode_at sys a = some h →
      ∃ sys1, inode_open sys h.sector mem = .ok (some a, sys1) ∧
        inode_at sys1 a = some { h with open_cnt := h.open_cnt + 1 } ∧
        (∀ b, b ≠ a → inode_at sys1 b = inode_at sys b) ∧ sys1.fs = sys.fs) ∧
    (∀ (sector a : Nat), (∀ b h, inode_at sys b = some h → h.sector ≠ sector) →
      inode_at sys a = none →
      ∃ sys1 h1, inode_open sys sector (some a) = .ok (some a, sys1) ∧
        inode_at sys1 a = some h1 ∧ (a, h1) ∈ sys1.open_inodes ∧ h1.sector = sector ∧
        h1.open_cnt = 1 ∧ h1.deny_write_cnt = 0 ∧ h1.removed = false ∧
        h1.length = (inode_disk.decode (logical sys.fs.cache sector)).length ∧
        h1.data = inode_disk.decode (logical sys.fs.cache sector) ∧
        (∀ b, b ≠ a → inode_at sys1 b = inode_at sys b)) := by
  have inv := sys_reach_inv hr
  refine ⟨inv.sectors, ?_, ?_⟩
  · intro a h mem hat
    exact ⟨_, inode_open_again inv hat mem, inode_at_set_same _ _ hat,
      fun b hb => inode_at_set_other _ _ hb, rfl⟩
  · intro sector a hnew _
    obtain ⟨c1, _, _, _, e⟩ := inode_open_new inv sector a hnew
    exact ⟨_, handle_of sys.fs.cache sector, e, inode_at_cons_same _ _ _ _,
      List.mem_cons_self _ _, rfl, rfl, rfl, rfl, rfl, rfl,
      fun b hb => inode_at_cons_other sys _ a b _ hb⟩

theorem open_sys_reach : SysReach open_sys := by
  obtain ⟨p, e⟩ := sys_of_ok (inode_init endless_fs)
    (inode_open (inode_init endless_fs) 5 (some 100)) (by decide!)
  exact SysReach.opened (SysReach.init endless_fs endless_fs_inv) (fun _ _ => rfl) e

/-- Witness for C15: the state in which the file at sector 5 has been opened once. -/
theorem single_shared_handle_witness :
    SysReach open_sys ∧
    ((open_sys.open_inodes.map (fun e => e.2.sector)).Nodup ∧
    (∀ (a : Nat) (h : inode) (mem : Option Nat), inode_at open_sys a = some h →
      ∃ sys1, inode_open open_sys h.sector mem = .ok (some a, sys1) ∧
        inode_at sys1 a = some { h with open_cnt := h.open_cnt + 1 } ∧
        (∀ b, b ≠ a → inode_at sys1 b = inode_at open_sys b) ∧ sys1.fs = open_sys.fs) ∧
    (∀ (sector a : Nat), (∀ b h, inode_at open_sys b = some h → h.sector ≠ sector) →
      inode_at open_sys a = none →
      ∃ sys1 h1, inode_open open_sys sector (some a) = .ok (some a, sys1) ∧
        inode_at sys1 a = some h1 ∧ (a, h1) ∈ sys1.open_inodes ∧ h1.sector = sector ∧
        h1.open_cnt = 1 ∧ h1.deny_write_cnt = 0 ∧ h1.removed = false ∧
        h1.length = (inode_disk.decode (logical open_sys.fs.cache sector)).length ∧
        h1.data = inode_disk.decode (logical open_sys.fs.cache sector) ∧
        (∀ b, b ≠ a → inode_at sys1 b = inode_at open_sys b))) :=
  ⟨open_sys_reach, single_shared_handle open_sys open_sys_reach⟩

/-! ## Closing, removing and denying writes -/

/-- C16 (last close of a removed file reclaims its sectors), evaluated on the code: the
1000-byte file at sector 5 (root 10, level-1 block 11, data blocks 12 and 13) is open
once and removed; `inode_close` returns and empties the list of open inodes, and the
calls of `free_map_release` it has made are, the most recent first, for the sectors 5,
10, 11, 13, 12 and 5: the sector of the inode is released twice. -/
theorem close_releases_inode_sector_twice :
    (inode_at removed_sys 100).map
      (fun h => (h.sector, h.open_cnt, h.removed, h.data.dbl_sect)) = some (5, 1, true, 10) ∧
    (root_entry removed_sys.fs.cache 10 0, data_entry removed_sys.fs.cache 10 0 0,
      data_entry removed_sys.fs.cache 10 0 1) = (11, 12, 13) ∧
    removed_sys.fs.free_map.released = [] ∧
    fault_of (inode_close removed_sys (some 100)) = none ∧
    (st_of removed_sys (inode_close removed_sys (some 100))).open_inodes.length = 0 ∧
    (st_of removed_sys (inode_close removed_sys (some 100))).fs.free_map.released =
      [5, 10, 11, 13, 12, 5] ∧
    (st_of removed_sys (inode_close removed_sys (some 100))).fs.free_map.released.count 5 = 2 := by
  decide!

/-- C17 (close releases nothing unless it is the last close of a removed file). For every
open inode, unless the call is the last close (`open_cnt` reaches 0) of a removed inode,
`inode_close` returns, leaves the file system state, the allocator included, as it was
(no sector is released) and leaves every other open inode as it was; when `open_cnt`
reaches 0 the inode is no longer in the list of open inodes, and otherwise it is still in
the list with `open_cnt` decremented by one and every other field unchanged, whether or
not `removed` is set. -/
theorem close_releases_nothing (sys : Sys) (a : Nat) (h : inode)
    (hat : inode_at sys a = some h) (hnot : ¬ (h.open_cnt - 1 = 0 ∧ h.removed = true)) :
    ∃ sys1, inode_close sys (some a) = .ok sys1 ∧ sys1.fs = sys.fs ∧
      (∀ b, b ≠ a → inode_at sys1 b = inode_at sys b) ∧
      inode_at sys1 a =
        if h.open_cnt - 1 = 0 then none else some { h with open_cnt := h.open_cnt - 1 } := by
  unfold inode_close
  simp only [hat]
  by_cases h1 : h.open_cnt - 1 = 0
  · have h2 : h.removed = false := by
      cases hr : h.removed with
      | false => rfl
      | true => exact absurd ⟨h1, hr⟩ hnot
    rw [if_pos h1, h2]
    simp only [Bool.false_eq_true, if_false]
    exact ⟨_, rfl, rfl, fun b hb => inode_at_drop_other sys _ hb,
      by rw [if_pos h1]; exact inode_at_drop_same sys a _⟩
  · rw [if_neg h1]
    exact ⟨_, rfl, rfl, fun b hb => inode_at_set_other _ _ hb,
      by rw [if_neg h1]; exact inode_at_set_same _ _ hat⟩

theorem open_sys_eq : ∃ c1, open_sys =
    { fs := { endless_fs with cache := c1 }
      open_inodes := [(100, handle_of endless_fs.cache 5)] } := by
  obtain ⟨c1, _, _, _, e⟩ := @inode_open_new (inode_init endless_fs)
    ⟨List.nodup_nil, List.nodup_nil, endless_fs_inv⟩ 5 100
    (fun b h hb => by simp [inode_at, inode_init] at hb)
  refine ⟨c1, ?_⟩
  unfold open_sys
  rw [e]
  rfl

/-- Witness for C17: one of the two openers of a removed file closes it. -/
theorem close_releases_nothing_witness :
    inode_at shared_sys 100 = some shared_handle ∧
    ¬ (shared_handle.open_cnt - 1 = 0 ∧ shared_handle.removed = true) ∧
    ∃ sys1, inode_close shared_sys (some 100) = .ok sys1 ∧ sys1.fs = shared_sys.fs ∧
      (∀ b, b ≠ 100 → inode_at sys1 b = inode_at shared_sys b) ∧
      inode_at sys1 100 =
        if shared_handle.open_cnt - 1 = 0 then none
        else some { shared_handle with open_cnt := shared_handle.open_cnt - 1 } := by
  have hat : inode_at shared_sys 100 = some shared_handle := by
    obtain ⟨c1, e1⟩ := open_sys_eq
    unfold shared_sys shared_handle
    rw [e1]
    simp [st_of, inode_reopen, inode_remove, inode_at, set_inode]
    rfl
  have hnot : ¬ (shared_handle.open_cnt - 1 = 0 ∧ shared_handle.removed = true) :=
    fun hh => absurd hh.1 (by decide)
  exact ⟨hat, hnot, close_releases_nothing shared_sys 100 shared_handle hat hnot⟩

/-- The only opener of a file that is not removed closes it: the list of open inodes
becomes empty and no sector is released. -/
theorem close_last_opener_example :
    fault_of (inode_close open_sys (some 100)) = none ∧
    (st_of open_sys (inode_close open_sys (some 100))).open_inodes.length = 0 ∧
    (st_of open_sys (inode_close open_sys (some 100))).fs.free_map.released = [] := by
  decide!

theorem byte_to_sector_removed (c : Cache) (h : inode) (pos : Int) :
    byte_to_sector c { h with removed := true } pos = byte_to_sector c h pos := rfl

theorem inode_read_loop_removed (h : inode) : ∀ (fuel : Nat) (c : Cache) (buffer : Block)
    (size offset bytes_read : Int),
    inode_read_loop { h with removed := true } fuel c buffer size offset bytes_read =
      inode_read_loop h fuel c buffer size offset bytes_read
  | 0, _, _, _, _, _ => rfl
  | fuel + 1, c, buffer, size, offset, bytes_read => by
    have ih := inode_read_loop_removed h fuel
    rw [inode_read_loop_succ, inode_read_loop_succ, byte_to_sector_removed]
    dsimp only
    simp only [ih]

theorem inode_write_loop_removed (h : inode) (buffer : Block) : ∀ (fuel : Nat) (c : Cache)
    (size offset bytes_written : Int),
    inode_write_loop { h with removed := true } buffer fuel c size offset bytes_written =
      inode_write_loop h buffer fuel c size offset bytes_written
  | 0, _, _, _, _ => rfl
  | fuel + 1, c, size, offset, bytes_written => by
    have ih := inode_write_loop_removed h buffer fuel
    rw [inode_write_loop_succ, inode_write_loop_succ, byte_to_sector_removed]
    dsimp only
    simp only [ih]

/-- Removal `inode_remove` on an open inode sets its flag `removed` and changes nothing
else. -/
theorem inode_remove_ok (sys : Sys) (a : Nat) (h : inode) (hat : inode_at sys a = some h) :
    inode_remove sys (some a) =
      .ok { sys with open_inodes := set_inode sys.open_inodes a { h with removed := true } } := by
  unfold inode_remove
  simp only [hat]

/-- C18 (removal is deferred). For every open inode, `inode_remove` returns and changes
only the flag `removed` of that inode: the file system state, the allocator included, and
every other open inode are as before, and so are the sector, length, counts and cached
on-disk inode of the inode itself. For every cache or file system state, buffer, size and
offset, `inode_read_at` on the removed inode returns what it returns on the inode before
the removal (byte count, data and state), and so does `inode_write_at`, whose resulting
inode differs in the flag `removed` only. -/
theorem removal_is_deferred (sys : Sys) (a : Nat) (h : inode) (hat : inode_at sys a = some h) :
    (∃ sys1, inode_remove sys (some a) = .ok sys1 ∧ sys1.fs = sys.fs ∧
      inode_at sys1 a = some { h with removed := true } ∧
      (∀ b, b ≠ a → inode_at sys1 b = inode_at sys b)) ∧
    (∀ (c : Cache) (buffer : Block) (size offset : Int),
      inode_read_at c { h with removed := true } buffer size offset =
        inode_read_at c h buffer size offset) ∧
    (∀ (fuel : Nat) (fs : FS) (buffer : Block) (size offset : Int),
      inode_write_at fuel fs { h with removed := true } buffer size offset =
        (inode_write_at fuel fs h buffer size offset).map
          (fun r => (r.1, { r.2.1 with removed := true }, r.2.2))) := by
  refine ⟨⟨_, inode_remove_ok sys a h hat, rfl, inode_at_set_same _ _ hat,
    fun b hb => inode_at_set_other _ _ hb⟩, ?_, ?_⟩
  · intro c buffer size offset
    unfold inode_read_at
    dsimp only
    rw [inode_read_loop_removed]
  · intro fuel fs buffer size offset
    unfold inode_write_at
    dsimp only
    by_cases hd : h.deny_write_cnt ≠ 0
    · rw [if_pos hd, if_pos hd]
      rfl
    · rw [if_neg hd, if_neg hd]
      by_cases hs : h.sector = FREE_MAP_SECTOR
      · rw [if_pos hs, if_pos hs]
        cases cache_write fs.cache h.data.dbl_sect buffer <;> rfl
      · rw [if_neg hs, if_neg hs]
        cases cache_read fs.cache h.sector with
        | error f => rfl
        | ok r =>
          obtain ⟨blk, c1⟩ := r
          dsimp only
          by_cases hg : offset + size > h.length
          · rw [if_pos hg, if_pos hg]
            cases inode_resize fuel { fs with cache := c1 } (inode_disk.decode blk)
                (offset + size) with
            | error f => rfl
            | ok q =>
              obtain ⟨flag, id1, fs1⟩ := q
              cases flag with
              | false => rfl
              | true =>
                dsimp only
                cases cache_write fs1.cache h.sector id1.encode with
                | error f => rfl
                | ok c2 =>
                  dsimp only
                  have := inode_write_loop_removed { h with length := id1.length, data := id1 }
                    buffer size.toNat c2 size offset 0
                  dsimp only at this
                  rw [this]
                  cases inode_write_loop { h with length := id1.length, data := id1 } buffer
                    size.toNat c2 size offset 0 <;> rfl
          · rw [if_neg hg, if_neg hg]
            dsimp only
            have := inode_write_loop_removed { h with data := inode_disk.decode blk }
              buffer size.toNat c1 size offset 0
            dsimp only at this
            rw [this]
            cases inode_write_loop { h with data := inode_disk.decode blk } buffer
              size.toNat c1 size offset 0 <;> rfl

theorem open_sys_at : inode_at open_sys 100 = some (handle_of endless_fs.cache 5) := by
  obtain ⟨c1, e1⟩ := open_sys_eq
  rw [e1]
  exact inode_at_cons_same _ _ _ _

/-- Witness for C18: the file at sector 5, opened once. -/
theorem removal_is_deferred_witness :
    inode_at open_sys 100 = some (handle_of endless_fs.cache 5) ∧
    ((∃ sys1, inode_remove open_sys (some 100) = .ok sys1 ∧ sys1.fs = open_sys.fs ∧
      inode_at sys1 100 = some { handle_of endless_fs.cache 5 with removed := true } ∧
      (∀ b, b ≠ 100 → inode_at sys1 b = inode_at open_sys b)) ∧
    (∀ (c : Cache) (buffer : Block) (size offset : Int),
      inode_read_at c { handle_of endless_fs.cache 5 with removed := true } buffer size offset =
        inode_read_at c (handle_of endless_fs.cache 5) buffer size offset) ∧
    (∀ (fuel : Nat) (fs : FS) (buffer : Block) (size offset : Int),
      inode_write_at fuel fs { handle_of endless_fs.cache 5 with removed := true } buffer size
          offset =
        (inode_write_at fuel fs (handle_of endless_fs.cache 5) buffer size offset).map
          (fun r => (r.1, { r.2.1 with removed := true }, r.2.2)))) :=
  ⟨open_sys_at, removal_is_deferred open_sys 100 (handle_of endless_fs.cache 5) open_sys_at⟩

/-- The test `read-removed`: the 10-byte file is opened and then removed; reading 10
bytes through the open inode still returns 10. -/
theorem read_removed_reads_ten :
    (inode_at read_removed_sys 100).map (fun h => (h.removed, h.length)) = some (true, 10) ∧
    (inode_at read_removed_sys 100).bind
      (fun h => count_of (inode_read_at read_removed_sys.fs.cache h (List.replicate 20 0) 10 0)) =
      some 10 := by
  decide!

/-- C20 (writes are rejected while denied). For every inode with `deny_write_cnt > 0` and
every buffer, size and offset, `inode_write_at` returns 0 and the inode (its length and
cached on-disk inode included) and the file system state (cache, device and allocator)
are as before the call. -/
theorem write_rejected_while_denied (fuel : Nat) (fs : FS) (h : inode) (buffer : Block)
    (size offset : Int) (hd : h.deny_write_cnt > 0) :
    inode_write_at fuel fs h buffer size offset = .ok (0, h, fs) := by
  have hd2 : h.deny_write_cnt ≠ 0 := by omega
  unfold inode_write_at
  rw [if_pos hd2]

/-- Witness for C20: a write of one byte that would grow the empty file at sector 5. -/
theorem write_rejected_while_denied_witness :
    ({ handle_of endless_fs.cache 5 with deny_write_cnt := 1 } : inode).deny_write_cnt > 0 ∧
    inode_write_at 1 endless_fs { handle_of endless_fs.cache 5 with deny_write_cnt := 1 } [7] 1 0 =
      .ok (0, { handle_of endless_fs.cache 5 with deny_write_cnt := 1 }, endless_fs) :=
  ⟨by decide, write_rejected_while_denied 1 endless_fs _ [7] 1 0 (by decide)⟩

/-! ## The count of write denials -/

theorem reopen_step {a : Nat} {sys sys1 : Sys} (P : inode → Prop)
    (hP : ∀ h, inode_at sys a = some h → P h) (e : inode_reopen sys (some a) = .ok sys1)
    (hre : ∀ h, P h → P { h with open_cnt := h.open_cnt + 1 }) :
    ∀ h, inode_at sys1 a = some h → P h := by
  intro h hat1
  unfold inode_reopen at e
  simp only at e
  cases hat : inode_at sys a with
  | none => rw [hat] at e; simp at e
  | some h0 =>
    rw [hat] at e
    simp only [Except.ok.injEq] at e
    subst e
    rw [inode_at_set_same _ _ hat] at hat1
    simp only [Option.some.injEq] at hat1
    subst hat1
    exact hre h0 (hP h0 hat)

theorem close_step {a : Nat} {sys sys1 : Sys} {h0 : inode} (P : inode → Prop)
    (hat : inode_at sys a = some h0) (e : inode_close sys (some a) = .ok sys1)
    (hclose : h0.open_cnt - 1 ≠ 0 → P { h0 with open_cnt := h0.open_cnt - 1 }) :
    ∀ h, inode_at sys1 a = some h → P h := by
  intro h hat1
  unfold inode_close at e
  simp only [hat] at e
  split_ifs at e with h1 h2
  · cases hf : inode_free { sys.fs with free_map := free_map_release sys.fs.free_map h0.sector }
        { h0 with open_cnt := h0.open_cnt - 1 } with
    | error f => rw [hf] at e; simp at e
    | ok fs1 =>
      rw [hf] at e
      simp only [Except.ok.injEq] at e
      subst e
      rw [inode_at_drop_same] at hat1
      simp at hat1
  · simp only [Except.ok.injEq] at e
    subst e
    rw [inode_at_drop_same] at hat1
    simp at hat1
  · simp only [Except.ok.injEq] at e
    subst e
    rw [inode_at_set_same _ _ hat] at hat1
    simp only [Option.some.injEq] at hat1
    subst hat1
    exact hclose h1

/-- C19 (deny-write count invariant), as the code has it: in every state reachable from a
freshly opened inode (`open_cnt = 1`, `deny_write_cnt = 0`) through calls of
`inode_reopen`, `inode_close`, `inode_deny_write` and `inode_allow_write` whose
assertions pass, and in which `inode_close` is called only while
`deny_write_cnt < open_cnt` or by the last opener (`open_cnt = 1`),
`0 <= deny_write_cnt <= open_cnt` holds of the inode as long as it is open. -/
theorem deny_write_count_invariant (sys0 sys : Sys) (a : Nat) (h0 h : inode)
    (hstart : inode_at sys0 a = some h0) (hopen : h0.open_cnt = 1)
    (hdeny : h0.deny_write_cnt = 0)
    (hr : HandleReach (fun x => x.deny_write_cnt < x.open_cnt ∨ x.open_cnt = 1) a sys0 sys)
    (hat : inode_at sys a = some h) :
    0 ≤ h.deny_write_cnt ∧ h.deny_write_cnt ≤ h.open_cnt := by
  induction hr generalizing h with
  | start =>
    rw [hstart] at hat
    simp only [Option.some.injEq] at hat
    subst hat
    omega
  | reopened _ e ih =>
    refine reopen_step (fun x => 0 ≤ x.deny_write_cnt ∧ x.deny_write_cnt ≤ x.open_cnt) ih e
      (fun x hx => ?_) h hat
    exact ⟨hx.1, by show x.deny_write_cnt ≤ x.open_cnt + 1; omega⟩
  | @closed sysa sysb x _ hat0 hm e ih =>
    refine close_step (fun x => 0 ≤ x.deny_write_cnt ∧ x.deny_write_cnt ≤ x.open_cnt) hat0 e
      (fun hne => ?_) h hat
    have hp := ih x hat0
    have hm2 : x.deny_write_cnt < x.open_cnt ∨ x.open_cnt = 1 := hm
    exact ⟨hp.1, by show x.deny_write_cnt ≤ x.open_cnt - 1; omega⟩
  | @denied sysa sysb _ e ih =>
    unfold inode_deny_write at e
    simp only at e
    cases hata : inode_at sysa a with
    | none => rw [hata] at e; simp at e
    | some x =>
      rw [hata] at e
      simp only at e
      split_ifs at e with hle
      simp only [Except.ok.injEq] at e
      subst e
      rw [inode_at_set_same _ _ hata] at hat
      simp only [Option.some.injEq] at hat
      subst hat
      have := ih x hata
      exact ⟨by show 0 ≤ x.deny_write_cnt + 1; omega, hle⟩
  | @allowed sysa sysb _ e ih =>
    unfold inode_allow_write at e
    simp only at e
    cases hata : inode_at sysa a with
    | none => rw [hata] at e; simp at e
    | some x =>
      rw [hata] at e
      simp only at e
      split_ifs at e with hgt hle
      simp only [Except.ok.injEq] at e
      subst e
      rw [inode_at_set_same _ _ hata] at hat
      simp only [Option.some.injEq] at hat
      subst hat
      exact ⟨by show 0 ≤ x.deny_write_cnt - 1; omega,
        by show x.deny_write_cnt - 1 ≤ x.open_cnt; omega⟩

/-- C19 as stated fails on the code: from the freshly opened inode of `open_sys`, the
calls `inode_reopen`, `inode_deny_write`, `inode_deny_write`, `inode_close` all return
(every assertion passes), and they leave the inode with `open_cnt = 1` and
`deny_write_cnt = 2`. -/
theorem deny_write_invariant_fails :
    ¬ ∀ (sys0 sys : Sys) (a : Nat) (h0 h : inode), inode_at sys0 a = some h0 →
        h0.open_cnt = 1 → h0.deny_write_cnt = 0 →
        HandleReach (fun _ => True) a sys0 sys → inode_at sys a = some h →
        0 ≤ h.deny_write_cnt ∧ h.deny_write_cnt ≤ h.open_cnt := by
  intro H
  have e1 : inode_reopen open_sys (some 100) = .ok reopened_sys :=
    st_of_ok open_sys _ (by decide!)
  have e2 : inode_deny_write reopened_sys (some 100) = .ok denied_once_sys :=
    st_of_ok reopened_sys _ (by decide!)
  have e3 : inode_deny_write denied_once_sys (some 100) = .ok denied_sys :=
    st_of_ok denied_once_sys _ (by decide!)
  have e4 : inode_close denied_sys (some 100) = .ok closed_sys :=
    st_of_ok denied_sys _ (by decide!)
  have f3 : (inode_at denied_sys 100).isSome = true := by decide!
  have f4 : (inode_at closed_sys 100).map (fun h => (h.open_cnt, h.deny_write_cnt)) =
      some (1, 2) := by decide!
  cases h3 : inode_at denied_sys 100 with
  | none => rw [h3] at f3; simp at f3
  | some x3 =>
    cases h4 : inode_at closed_sys 100 with
    | none => rw [h4] at f4; simp at f4
    | some x4 =>
      rw [h4] at f4
      simp only [Option.map_some', Option.some.injEq, Prod.mk.injEq] at f4
      have hr : HandleReach (fun _ => True) 100 open_sys closed_sys :=
        .closed (.denied (.denied (.reopened .start e1) e2) e3) h3 trivial e4
      have := H open_sys closed_sys 100 (handle_of endless_fs.cache 5) x4 open_sys_at rfl rfl
        hr h4
      omega

theorem kept_sys_at : inode_at kept_sys 100 =
    some { handle_of endless_fs.cache 5 with open_cnt := 1, deny_write_cnt := 1 } := by
  obtain ⟨c1, e1⟩ := open_sys_eq
  unfold kept_sys denied_once_sys reopened_sys
  rw [e1]
  simp [st_of, inode_reopen, inode_deny_write, inode_close, inode_at, set_inode, handle_of]

/-- Witness for C19 as amended: a second opener reopens the inode, one opener denies
writes, and the other one closes the inode. -/
theorem deny_write_count_invariant_witness :
    inode_at open_sys 100 = some (handle_of endless_fs.cache 5) ∧
    (handle_of endless_fs.cache 5).open_cnt = 1 ∧
    (handle_of endless_fs.cache 5).deny_write_cnt = 0 ∧
    HandleReach (fun x => x.deny_write_cnt < x.open_cnt ∨ x.open_cnt = 1) 100 open_sys
      kept_sys ∧
    inode_at kept_sys 100 =
      some { handle_of endless_fs.cache 5 with open_cnt := 1, deny_write_cnt := 1 } ∧
    0 ≤ ({ handle_of endless_fs.cache 5 with open_cnt := 1, deny_write_cnt := 1 } :
      inode).deny_write_cnt ∧
    ({ handle_of endless_fs.cache 5 with open_cnt := 1, deny_write_cnt := 1 } :
      inode).deny_write_cnt ≤
    ({ handle_of endless_fs.cache 5 with open_cnt := 1, deny_write_cnt := 1 } :
      inode).open_cnt := by
  have e1 : inode_reopen open_sys (some 100) = .ok reopened_sys :=
    st_of_ok open_sys _ (by decide!)
  have e2 : inode_deny_write reopened_sys (some 100) = .ok denied_once_sys :=
    st_of_ok reopened_sys _ (by decide!)
  have e3 : inode_close denied_once_sys (some 100) = .ok kept_sys :=
    st_of_ok denied_once_sys _ (by decide!)
  have f2 : (inode_at denied_once_sys 100).map (fun h => (h.open_cnt, h.deny_write_cnt)) =
      some (2, 1) := by decide!
  cases h2 : inode_at denied_once_sys 100 with
  | none => rw [h2] at f2; simp at f2
  | some x2 =>
    rw [h2] at f2
    simp only [Option.map_some', Option.some.injEq, Prod.mk.injEq] at f2
    have hr : HandleReach (fun x => x.deny_write_cnt < x.open_cnt ∨ x.open_cnt = 1) 100
        open_sys kept_sys :=
      .closed (.denied (.reopened .start e1) e2) h2 (Or.inl (by omega)) e3
    exact ⟨open_sys_at, rfl, rfl, hr, kept_sys_at,
      deny_write_count_invariant open_sys kept_sys 100 (handle_of endless_fs.cache 5) _
        open_sys_at rfl rfl hr kept_sys_at⟩

/-! ## Resize after resize -/

theorem inode_resize_go (fuel : Nat) (fs : FS) (id : inode_disk) (size : Int)
    (hmax : size ≤ MAX_FILE_SIZE) (hz : ¬ (id.dbl_sect = 0 ∧ size = 0)) :
    inode_resize (fuel + 1) fs id size =
      match (if id.dbl_sect = 0 then
          match free_map_allocate fs.free_map with
          | (none, fm1) => (false, id, fm1)
          | (some s, fm1) => (true, { id with dbl_sect := s }, fm1)
        else (true, id, fs.free_map) : Bool × inode_disk × FreeMap) with
      | (false, _, fm1) => .ok (false, id, { fs with free_map := fm1 })
      | (true, id1, fm1) =>
        match cache_read fs.cache id1.dbl_sect with
        | .error f => .error f
        | .ok (blk, c1) =>
          match resize_indirect size 128 0 { cache := c1, free_map := fm1 }
              (words_of_bytes blk) with
          | .error f => .error f
          | .ok (false, fs2, _) =>
            match inode_resize fuel fs2 id1 id1.length with
            | .error f => .error f
            | .ok (_, id2, fs3) => .ok (false, id2, fs3)
          | .ok (true, fs2, dbl_block) =>
            match cache_write fs2.cache id1.dbl_sect (bytes_of_words dbl_block) with
            | .error f => .error f
            | .ok c3 => .ok (true, { id1 with length := size }, { fs2 with cache := c3 }) := by
  have hm : ¬ ¬ size ≤ MAX_FILE_SIZE := not_not.mpr hmax
  rw [inode_resize, if_neg hm, if_neg hz]

theorem FreshSupply.fewer {fm : FreeMap} {last n : Nat} {used : Nat → Prop}
    (h : FreshSupply fm last used) (hn : n ≤ last) : FreshSupply fm n used where
  nz := fun k s hk hl e => h.nz k s hk (Nat.lt_of_lt_of_le hl hn) e
  lt := fun k s hk hl e => h.lt k s hk (Nat.lt_of_lt_of_le hl hn) e
  inj := fun a b s ha hla hb hlb ea eb =>
    h.inj a b s ha (Nat.lt_of_lt_of_le hla hn) hb (Nat.lt_of_lt_of_le hlb hn) ea eb
  unused := fun k s hk hl e => h.unused k s hk (Nat.lt_of_lt_of_le hl hn) e

/-- The tail of a successful `inode_resize`, once the root sector `R` is settled: what
the next resize can rely on. -/
theorem resize_tail_ok {fuel : Nat} {size : Int} {R last : Nat} {old : Nat → Block} {fs0 : FS}
    {d id1 : inode_disk} {fs1 : FS} {blk : Block} (hR : d.dbl_sect = R) (hRnz : R ≠ 0)
    (hinv : ResizeInv size R last (words_of_bytes blk) old 0 fs0 (words_of_bytes blk))
    (hres : (match resize_indirect size 128 0 fs0 (words_of_bytes blk) with
        | .error f => .error f
        | .ok (false, fs2, _) =>
          match inode_resize fuel fs2 d d.length with
          | .error f => .error f
          | .ok (_, id2, fs3) => .ok (false, id2, fs3)
        | .ok (true, fs2, dbl_block) =>
          match cache_write fs2.cache d.dbl_sect (bytes_of_words dbl_block) with
          | .error f => .error f
          | .ok c3 => .ok (true, { d with length := size }, { fs2 with cache := c3 })) =
      (.ok (true, id1, fs1) : Except Fault (Bool × inode_disk × FS))) :
    id1 = { d with length := size } ∧ TreeOk last fs1 R size := by
  cases hloop : resize_indirect size 128 0 fs0 (words_of_bytes blk) with
  | error f => rw [hloop] at hres; simp at hres
  | ok r =>
    obtain ⟨flag, fs2, dbl⟩ := r
    rw [hloop] at hres
    cases flag with
    | false =>
      simp only [] at hres
      cases hrec : inode_resize fuel fs2 d d.length with
      | error f => rw [hrec] at hres; simp at hres
      | ok q => rw [hrec] at hres; simp at hres
    | true =>
      simp only [] at hres
      have post := resize_indirect_spec 128 0 fs0 fs2 _ dbl (by omega) hinv hloop
      obtain ⟨c3, e3, inv3, w1, w2⟩ := cache_write_ok post.inv d.dbl_sect (bytes_of_words dbl)
      rw [e3] at hres
      simp only [Except.ok.injEq, Prod.mk.injEq, true_and] at hres
      obtain ⟨eid, efs⟩ := hres
      subst eid efs
      rw [hR] at w1 w2
      obtain ⟨r1, r2⟩ := resize_finish post w1 w2
      have hwords : words_of_bytes (logical c3 R) = dbl := by
        rw [w1, sector_copy_bytes_of_words dbl post.len,
          words_of_bytes_of_words dbl post.len post.lt]
      have hroot : ∀ i, root_entry c3 R i = word_at dbl i := by
        intro i
        unfold root_entry
        rw [hwords]
      refine ⟨rfl, inv3, hRnz, ⟨?_, ?_⟩, r1, r2, ?_, ?_, ?_⟩
      · intro i hi hnz
        rw [hroot] at hnz ⊢
        exact post.not_root i hi hnz
      · intro i j hi hj hij hnz
        rw [hroot] at hnz
        rw [hroot, hroot]
        exact post.distinct i j hi hj hij hnz
      · show FreshSupply fs2.free_map last (IndexSector R (words_of_bytes (logical c3 R)))
        rw [hwords]
        exact post.fresh
      · intro k s hk hl hs
        show logical c3 s = zeros
        have hne : s ≠ R := fun h => post.fresh.unused k s hk hl hs (Or.inl h)
        rw [w2 s hne]
        exact post.zero k s hk hl hs
      · have := post.room
        show fs2.free_map.calls ≤ last
        omega

/-- A successful resize of an inode without a tree, or with a tree as a successful
resize leaves it, leaves such a tree. -/
theorem resize_end (fuel : Nat) (fs fs1 : FS) (id id1 : inode_disk) (size : Int) (last : Nat)
    (old_size : Int) (hmax : size ≤ MAX_FILE_SIZE) (hgo : ¬ (id.dbl_sect = 0 ∧ size = 0))
    (hpre : (id.dbl_sect = 0 ∧ CacheInv fs.cache ∧
        FreshSupply fs.free_map last (fun _ => False) ∧
        (∀ k s, fs.free_map.calls ≤ k → k < last → fs.free_map.supply k = some s →
          logical fs.cache s = zeros)) ∨
      TreeOk last fs id.dbl_sect old_size)
    (hroom : fs.free_map.calls + 16513 ≤ last)
    (hres : inode_resize (fuel + 1) fs id size = .ok (true, id1, fs1)) :
    id1.length = size ∧ (id.dbl_sect ≠ 0 → id1.dbl_sect = id.dbl_sect) ∧
      TreeOk last fs1 id1.dbl_sect size := by
  rw [inode_resize_go fuel fs id size hmax hgo] at hres
  rcases hpre with ⟨hR, inv, hfresh, hzero⟩ | pre
  · -- the root is allocated by this call
    rw [if_pos hR] at hres
    rcases free_map_allocate_cases fs.free_map with ⟨s, ea, hs⟩ | ⟨fm2, ea⟩
    · rw [ea] at hres
      simp only [] at hres
      obtain ⟨c1, e1, inv1, l1⟩ := cache_read_ok inv s
      rw [e1] at hres
      simp only [] at hres
      have hk : fs.free_map.calls < last := by omega
      have hsz : logical fs.cache s = zeros := hzero _ s (Nat.le_refl _) hk hs
      have hnz : s ≠ 0 := hfresh.nz _ s (Nat.le_refl _) hk hs
      rw [hsz] at hres
      have hw : ∀ x, x < 128 → word_at (words_of_bytes zeros) x = 0 := by
        intro x hx
        rw [words_of_bytes_zeros]
        exact word_at_replicate _ _ _ hx
      have hinv : ResizeInv size s last (words_of_bytes zeros)
          (logical fs.cache) 0 { cache := c1, free_map := fm_alloc fs.free_map s }
          (words_of_bytes zeros) := by
        refine ⟨inv1, words_of_bytes_length _, words_of_bytes_lt _, fun _ _ _ => rfl,
          fun x hx => absurd hx (Nat.not_lt_zero x), fun x hx h => absurd (hw x hx) h,
          fun x _ hx _ _ h => absurd (hw x hx) h, ?_, ?_, ?_, fun x _ hx h => absurd (hw x hx) h,
          fun x hx => absurd hx (Nat.not_lt_zero x)⟩
        · have hf := hfresh.shrink (g := fm_alloc fs.free_map s) rfl (Nat.le_succ _)
          refine ⟨hf.nz, hf.lt, hf.inj, fun k t hk1 hl ht hu => ?_⟩
          have hk2 : fs.free_map.calls + 1 ≤ k := hk1
          rcases hu with hu | ⟨x, hx, hu⟩
          · subst hu
            have := hfresh.inj k fs.free_map.calls t (by omega) hl (Nat.le_refl _) hk ht hs
            omega
          · rw [hw x hx] at hu
            exact hf.nz k t hk1 hl ht hu
        · intro k t hk1 hl ht
          have hk2 : fs.free_map.calls + 1 ≤ k := hk1
          show logical c1 t = zeros
          rw [l1]
          exact hzero k t (by omega) hl ht
        · show fs.free_map.calls + 1 + 129 * (128 - 0) ≤ last
          omega
      obtain ⟨r1, r2⟩ := resize_tail_ok (d := { id with dbl_sect := s }) rfl hnz hinv hres
      rw [r1]
      exact ⟨rfl, fun h => absurd hR h, r2⟩
    · rw [ea] at hres
      simp at hres
  · -- the root exists
    have hR : id.dbl_sect ≠ 0 := pre.root
    rw [if_neg hR] at hres
    simp only [] at hres
    obtain ⟨c1, e1, inv1, l1⟩ := cache_read_ok pre.inv id.dbl_sect
    rw [e1] at hres
    simp only [] at hres
    obtain ⟨t1, t2⟩ := pre.shape
    have hinv : ResizeInv size id.dbl_sect last
        (words_of_bytes (logical fs.cache id.dbl_sect)) (logical fs.cache) 0
        { cache := c1, free_map := fs.free_map }
        (words_of_bytes (logical fs.cache id.dbl_sect)) := by
      refine ⟨inv1, words_of_bytes_length _, words_of_bytes_lt _, fun _ _ _ => rfl,
        fun x hx => absurd hx (Nat.not_lt_zero x), t1, t2, pre.fresh, ?_, ?_,
        fun x _ _ _ => l1 _, fun x hx => absurd hx (Nat.not_lt_zero x)⟩
      · intro k t hk hl ht
        show logical c1 t = zeros
        rw [l1]
        exact pre.zero k t hk hl ht
      · show fs.free_map.calls + 129 * (128 - 0) ≤ last
        omega
    obtain ⟨r1, r2⟩ := resize_tail_ok (d := id) rfl hR hinv hres
    rw [r1]
    exact ⟨rfl, fun _ => rfl, r2⟩

theorem TreeOk.narrow {last n : Nat} {fs : FS} {R : Nat} {size : Int}
    (h : TreeOk last fs R size) (hn : n ≤ last) (hc : fs.free_map.calls ≤ n) :
    TreeOk n fs R size :=
  ⟨h.inv, h.root, h.shape, h.roots, h.datas, h.fresh.fewer hn,
    fun k s hk hl e => h.zero k s hk (Nat.lt_of_lt_of_le hl hn) e, hc⟩

/-- Three successful resizes to `L1`, `L2` and `L1` again, of an inode without a tree and
with `0 < L1`, leave the tree of a single resize to `L1`. -/
theorem resize_thrice (fuel : Nat) (fs fs1 fs2 fs3 : FS) (d id1 id2 id3 : inode_disk)
    (L1 L2 : Int) (hd : d.dbl_sect = 0) (h0 : 0 < L1) (h1m : L1 ≤ MAX_FILE_SIZE)
    (h2m : L2 ≤ MAX_FILE_SIZE) (inv : CacheInv fs.cache)
    (hfresh : FreshSupply fs.free_map (fs.free_map.calls + 49539) (fun _ => False))
    (hzero : ∀ k s, fs.free_map.calls ≤ k → k < fs.free_map.calls + 49539 →
      fs.free_map.supply k = some s → logical fs.cache s = zeros)
    (e1 : inode_resize (fuel + 1) fs d L1 = .ok (true, id1, fs1))
    (e2 : inode_resize (fuel + 1) fs1 id1 L2 = .ok (true, id2, fs2))
    (e3 : inode_resize (fuel + 1) fs2 id2 L1 = .ok (true, id3, fs3)) :
    id3.length = L1 ∧ TreeOk (fs.free_map.calls + 49539) fs3 id3.dbl_sect L1 := by
  obtain ⟨_, _, t1⟩ := resize_end fuel fs fs1 d id1 L1 (fs.free_map.calls + 49539) 0 h1m
    (fun h => by omega) (Or.inl ⟨hd, inv, hfresh, hzero⟩) (by omega) e1
  obtain ⟨_, _, t1s⟩ := resize_end fuel fs fs1 d id1 L1 (fs.free_map.calls + 16513) 0 h1m
    (fun h => by omega)
    (Or.inl ⟨hd, inv, hfresh.fewer (by omega), fun k s hk hl => hzero k s hk (by omega)⟩)
    (Nat.le_refl _) e1
  have c1 := t1s.calls
  obtain ⟨_, _, t2⟩ := resize_end fuel fs1 fs2 id1 id2 L2 (fs.free_map.calls + 49539) L1 h2m
    (fun h => t1.root h.1) (Or.inr t1) (by omega) e2
  obtain ⟨_, _, t2s⟩ := resize_end fuel fs1 fs2 id1 id2 L2 (fs1.free_map.calls + 16513) L1 h2m
    (fun h => t1.root h.1) (Or.inr (t1.narrow (by omega) (by omega))) (Nat.le_refl _) e2
  have c2 := t2s.calls
  obtain ⟨l3, _, t3⟩ := resize_end fuel fs2 fs3 id2 id3 L1 (fs.free_map.calls + 49539) L2 h1m
    (fun h => t2.root h.1) (Or.inr t2) (by omega) e3
  exact ⟨l3, t3⟩

/-- A failure at the first level-1 block is undone: with one free sector, `inode_create
(5, 1, false)` allocates the root (sector 10), fails to allocate the level-1 block,
releases the root and returns false. -/
theorem create_failure_first_block_example :
    (inode_create 1 (demo_fs (fun _ => zeros) 1) 5 1 false).toOption.map (fun r => r.1) =
      some false ∧
    (fs_after (demo_fs (fun _ => zeros) 1)
      (inode_create 1 (demo_fs (fun _ => zeros) 1) 5 1 false)).free_map.released = [10] ∧
    (fs_after (demo_fs (fun _ => zeros) 1)
      (inode_create 1 (demo_fs (fun _ => zeros) 1) 5 1 false)).free_map.bits 10 = false := by
  decide!

theorem scan_post_refl {c : Cache} (hh : c.clock_hand < MAX_CACHE_CAPACITY)
    (hv : (c.cache_array c.clock_hand).valid = false) : ScanPost c c.clock_hand c where
  lt := hh
  invalid := hv
  others := fun _ _ => ⟨rfl, rfl, rfl, rfl⟩
  dirty := fun hd => ⟨hv, hd⟩
  device := Or.inl rfl
  hand := hh
  index := rfl
  moved := Or.inl rfl
  hits := rfl
  misses := rfl

theorem clock_evict_clean (c : Cache) :
    ((clock_evict c).cache_array c.clock_hand).dirty = false := by
  cases hd : (c.cache_array c.clock_hand).dirty <;> simp [clock_evict, hd, upd]

theorem clock_evict_device (c : Cache) :
    (clock_evict c).fs_device =
      if (c.cache_array c.clock_hand).dirty then
        block_write c.fs_device (c.cache_array c.clock_hand).sector
          (c.cache_array c.clock_hand).disk
      else c.fs_device := by
  cases hd : (c.cache_array c.clock_hand).dirty <;> simp [clock_evict, hd]

theorem scan_post_evict {c : Cache} (hh : c.clock_hand < MAX_CACHE_CAPACITY)
    (hv : (c.cache_array c.clock_hand).valid = true) :
    ScanPost c c.clock_hand (clock_evict c) where
  lt := hh
  invalid := clock_evict_hand c
  others := fun j hj => by rw [clock_evict_other c j hj]; exact ⟨rfl, rfl, rfl, rfl⟩
  dirty := fun hd => by rw [clock_evict_clean] at hd; exact absurd hd (by simp)
  device := by
    rw [clock_evict_device]
    cases hd : (c.cache_array c.clock_hand).dirty
    · exact Or.inl (by simp)
    · exact Or.inr ⟨hv, rfl, by simp⟩
  hand := by rw [(clock_evict_fields c).1]; exact hh
  index := (clock_evict_fields c).1.symm
  moved := Or.inl (clock_evict_fields c).1
  hits := (clock_evict_fields c).2.1
  misses := (clock_evict_fields c).2.2.1

theorem clock_clear_fields (c : Cache) :
    (clock_clear c).fs_device = c.fs_device ∧ (clock_clear c).hits = c.hits ∧
    (clock_clear c).misses = c.misses := by
  simp [clock_clear]

theorem ScanPost.after_clear {c c1 : Cache} {i : Nat} (hh : c.clock_hand < MAX_CACHE_CAPACITY)
    (h : ScanPost (clock_clear c) i c1) : ScanPost c i c1 where
  lt := h.lt
  invalid := h.invalid
  others := fun j hj => by
    obtain ⟨a, b, d, e⟩ := h.others j hj
    obtain ⟨a1, b1, d1, e1⟩ := clock_clear_entry c j
    exact ⟨a.trans a1, b.trans b1, d.trans d1, e.trans e1⟩
  dirty := fun hd => by
    obtain ⟨a, b⟩ := h.dirty hd
    rw [(clock_clear_entry c i).1] at a
    rw [(clock_clear_entry c i).2.2.2] at b
    exact ⟨a, b⟩
  device := by
    have hd := h.device
    rw [(clock_clear_entry c i).1, (clock_clear_entry c i).2.1, (clock_clear_entry c i).2.2.1,
      (clock_clear_entry c i).2.2.2, (clock_clear_fields c).1] at hd
    exact hd
  hand := h.hand
  index := h.index
  moved := Or.inr (by
    rcases h.moved with e | e
    · rw [e, clock_clear_hand c hh]
    · exact e)
  hits := h.hits.trans (clock_clear_fields c).2.1
  misses := h.misses.trans (clock_clear_fields c).2.2

/-- When the entry under the hand is invalid or not recently used the scan returns after
examining that one position. -/
theorem cache_access_loop_one (n : Nat) {c : Cache} (hh : c.clock_hand < MAX_CACHE_CAPACITY)
    (h : (c.cache_array c.clock_hand).valid = false ∨ (c.cache_array c.clock_hand).r_bit = false) :
    ∃ c1, cache_access_loop (n + 1) c = .ok (c.clock_hand, c1) ∧ ScanPost c c.clock_hand c1 := by
  have h1 : ¬ MAX_CACHE_CAPACITY ≤ c.clock_hand := Nat.not_le.mpr hh
  cases hv : (c.cache_array c.clock_hand).valid with
  | false =>
    exact ⟨c, by simp [cache_access_loop, h1, hv], scan_post_refl hh hv⟩
  | true =>
    have hr : (c.cache_array c.clock_hand).r_bit = false := by
      rcases h with h | h
      · rw [hv] at h; exact absurd h (by simp)
      · exact h
    refine ⟨clock_evict c, ?_, scan_post_evict hh hv⟩
    simp [cache_access_loop, h1, hv, hr, clock_evict]

/-- More fuel does not change the result of a scan that returns. -/
theorem cache_access_loop_mono : ∀ (n k : Nat) (c : Cache) (r : Nat × Cache),
    cache_access_loop n c = .ok r → cache_access_loop (n + k) c = .ok r
  | 0, _, _, _, h => by simp [cache_access_loop] at h
  | n + 1, k, c, r, h => by
    rw [Nat.add_right_comm]
    unfold cache_access_loop at h ⊢
    by_cases h1 : MAX_CACHE_CAPACITY ≤ c.clock_hand
    · rw [if_pos h1] at h; cases h
    · rw [if_neg h1] at h ⊢
      cases hv : (c.cache_array c.clock_hand).valid with
      | false => simpa [hv] using h
      | true =>
        cases hr : (c.cache_array c.clock_hand).r_bit with
        | false => simpa [hv, hr] using h
        | true =>
          simp only [hv, hr, Bool.not_true, Bool.false_eq_true, if_false, if_true] at h ⊢
          exact cache_access_loop_mono n k _ r h

/-- From every state whose hand is in range the scan returns after examining at most three
positions. -/
theorem cache_access_loop_three {c : Cache} (hh : c.clock_hand < MAX_CACHE_CAPACITY) :
    ∃ i c1, cache_access_loop 3 c = .ok (i, c1) ∧ ScanPost c i c1 := by
  by_cases h : (c.cache_array c.clock_hand).valid = false ∨
      (c.cache_array c.clock_hand).r_bit = false
  · obtain ⟨c1, e, p⟩ := cache_access_loop_one 2 hh h
    exact ⟨_, c1, e, p⟩
  · have hv : (c.cache_array c.clock_hand).valid = true := by
      cases hb : (c.cache_array c.clock_hand).valid
      · exact absurd (Or.inl hb) h
      · rfl
    have hr : (c.cache_array c.clock_hand).r_bit = true := by
      cases hb : (c.cache_array c.clock_hand).r_bit
      · exact absurd (Or.inr hb) h
      · rfl
    rw [cache_access_loop_clear 2 c hh hv hr]
    have hh1 : (clock_clear c).clock_hand < MAX_CACHE_CAPACITY := by
      rw [clock_clear_hand c hh]; decide
    by_cases h2 : ((clock_clear c).cache_array (clock_clear c).clock_hand).valid = false ∨
        ((clock_clear c).cache_array (clock_clear c).clock_hand).r_bit = false
    · obtain ⟨c1, e, p⟩ := cache_access_loop_one 1 hh1 h2
      exact ⟨_, c1, e, p.after_clear hh⟩
    · have hv2 : ((clock_clear c).cache_array (clock_clear c).clock_hand).valid = true := by
        cases hb : ((clock_clear c).cache_array (clock_clear c).clock_hand).valid
        · exact absurd (Or.inl hb) h2
        · rfl
      have hr2 : ((clock_clear c).cache_array (clock_clear c).clock_hand).r_bit = true := by
        cases hb : ((clock_clear c).cache_array (clock_clear c).clock_hand).r_bit
        · exact absurd (Or.inr hb) h2
        · rfl
      rw [cache_access_loop_clear 1 _ hh1 hv2 hr2]
      have hh2 : (clock_clear (clock_clear c)).clock_hand < MAX_CACHE_CAPACITY := by
        rw [clock_clear_hand _ hh1]; decide
      have h0 : (clock_clear c).clock_hand = 0 := clock_clear_hand c hh
      have h00 : (clock_clear (clock_clear c)).clock_hand = 0 := clock_clear_hand _ hh1
      have hr3 : ((clock_clear (clock_clear c)).cache_array
          (clock_clear (clock_clear c)).clock_hand).r_bit = false := by
        rw [h00]; exact clock_clear_rbit _ h0
      obtain ⟨c1, e, p⟩ := cache_access_loop_one 0 hh2 (Or.inr hr3)
      exact ⟨_, c1, e, (p.after_clear hh1).after_clear hh⟩

/-- The scan `cache_access`, from every state whose hand is in range. -/
theorem cache_access_any {c : Cache} (hh : c.clock_hand < MAX_CACHE_CAPACITY) :
    ∃ i c1, cache_access_loop 3 c = .ok (i, c1) ∧ cache_access c = .ok (i, c1) ∧
      ScanPost c i c1 := by
  obtain ⟨i, c1, e, p⟩ := cache_access_loop_three hh
  exact ⟨i, c1, e, cache_access_loop_mono 3 125 c (i, c1) e, p⟩

theorem cache_lookup_unique {c : Cache} {s i : Nat} (hi : i < MAX_CACHE_CAPACITY)
    (hv : (c.cache_array i).valid = true) (hs : (c.cache_array i).sector = s)
    (ho : ∀ j, j < MAX_CACHE_CAPACITY → j ≠ i → (c.cache_array j).valid = true →
      (c.cache_array j).sector ≠ s) : cache_lookup c s = some i := by
  cases hl : cache_lookup c s with
  | none => exact absurd hs (cache_lookup_none hl i hi hv)
  | some j =>
    obtain ⟨hj, hjv, hjs⟩ := cache_lookup_some hl
    by_cases e : j = i
    · rw [e]
    · exact absurd hjs (ho j hj e hjv)

/-- A hit exists exactly when some valid entry of the array carries the tag. -/
theorem cache_lookup_isSome_iff (c : Cache) (s : Nat) :
    (∃ i, cache_lookup c s = some i) ↔
      ∃ i, i < MAX_CACHE_CAPACITY ∧ (c.cache_array i).valid = true ∧
        (c.cache_array i).sector = s := by
  constructor
  · rintro ⟨i, h⟩
    exact ⟨i, cache_lookup_some h⟩
  · rintro ⟨i, hi, hv, hs⟩
    cases hl : cache_lookup c s with
    | none => exact absurd hs (cache_lookup_none hl i hi hv)
    | some j => exact ⟨j, rfl⟩

theorem cache_write_hit {c : Cache} {s i : Nat} (b : Block) (h : cache_lookup c s = some i) :
    cache_write c s b = .ok { c with
      hits := (c.hits + 1) % 4294967296,
      cache_array := upd c.cache_array i
        { c.cache_array i with r_bit := true, dirty := true, disk := sector_copy b } } := by
  simp [cache_write, h]

theorem cache_read_hit {c : Cache} {s i : Nat} (h : cache_lookup c s = some i) :
    cache_read c s = .ok ((c.cache_array i).disk, { c with
      hits := (c.hits + 1) % 4294967296,
      cache_array := upd c.cache_array i { c.cache_array i with r_bit := true } }) := by
  simp [cache_read, h]

/-- A write that misses: the scan hands out an entry, which receives the buffer. -/
theorem cache_write_miss {c : Cache} {s : Nat} (b : Block)
    (hh : c.clock_hand < MAX_CACHE_CAPACITY) (h : cache_lookup c s = none) :
    ∃ i c0, ScanPost { c with misses := (c.misses + 1) % 4294967296 } i c0 ∧
      cache_write c s b = .ok { c0 with
        cache_array := upd c0.cache_array i
          { valid := true, dirty := true, sector := s, r_bit := true,
            disk := sector_copy b } } := by
  obtain ⟨i, c0, _, e, p⟩ :=
    @cache_access_any { c with misses := (c.misses + 1) % 4294967296 } hh
  exact ⟨i, c0, p, by simp [cache_write, h, e]⟩

/-- A read that misses: the scan hands out an entry, which is filled from the device. -/
theorem cache_read_miss {c : Cache} {s : Nat}
    (hh : c.clock_hand < MAX_CACHE_CAPACITY) (h : cache_lookup c s = none) :
    ∃ i c0, ScanPost { c with misses := (c.misses + 1) % 4294967296 } i c0 ∧
      cache_read c s = .ok (c0.fs_device.data s, { c0 with
        fs_device := { c0.fs_device with read_cnt := c0.fs_device.read_cnt + 1 },
        cache_array := upd c0.cache_array i
          { valid := true, dirty := false, sector := s, r_bit := true,
            disk := c0.fs_device.data s } }) := by
  obtain ⟨i, c0, _, e, p⟩ :=
    @cache_access_any { c with misses := (c.misses + 1) % 4294967296 } hh
  exact ⟨i, c0, p, by simp [cache_read, h, e, block_read]⟩

/-! ## Claims about cache writes, aliasing and the eviction scan -/

/-- C25 (write-allocate without read). From every cache state whose clock hand is in range,
`cache_write (s, b)` returns; the device read count is unchanged whether `s` was cached or
not; on a hit the device is not touched at all; on a miss the device is either untouched
or has received exactly one write, the payload of the entry `i` handed out by the scan,
which was valid and dirty, at that entry's own tag; afterwards entry `i` is the entry that
holds `s`: it is valid, dirty, recently used and its payload is the first 512 bytes of `b`
(`b` itself for a sector-sized buffer). -/
theorem write_allocate_without_read (c : Cache) (hh : c.clock_hand < MAX_CACHE_CAPACITY)
    (s : Nat) (b : Block) :
    ∃ i c1, cache_write c s b = .ok c1 ∧
      c1.fs_device.read_cnt = c.fs_device.read_cnt ∧
      c1.fs_device.write_cnt ≤ c.fs_device.write_cnt + 1 ∧
      ((∃ j, cache_lookup c s = some j) → c1.fs_device = c.fs_device) ∧
      (c1.fs_device = c.fs_device ∨
        (cache_lookup c s = none ∧ (c.cache_array i).valid = true ∧
          (c.cache_array i).dirty = true ∧
          c1.fs_device =
            block_write c.fs_device (c.cache_array i).sector (c.cache_array i).disk)) ∧
      i < MAX_CACHE_CAPACITY ∧ cache_lookup c1 s = some i ∧
      (c1.cache_array i).valid = true ∧ (c1.cache_array i).sector = s ∧
      (c1.cache_array i).dirty = true ∧ (c1.cache_array i).r_bit = true ∧
      (c1.cache_array i).disk = sector_copy b ∧
      (b.length = BLOCK_SECTOR_SIZE → (c1.cache_array i).disk = b) := by
  cases hl : cache_lookup c s with
  | some i =>
    obtain ⟨hi, hvi, hsi⟩ := cache_lookup_some hl
    refine ⟨i, _, cache_write_hit b hl, rfl, Nat.le_succ _, fun _ => rfl, Or.inl rfl, hi, ?_,
      ?_, ?_, ?_, ?_, ?_, ?_⟩
    · rw [← hl]
      apply cache_lookup_congr
      intro j _
      by_cases e : j = i
      · subst e; simp [upd]
      · simp [upd, e]
    · simp [upd, hvi]
    · simp [upd, hsi]
    · simp [upd]
    · simp [upd]
    · simp [upd]
    · intro hb; simp [upd, sector_copy_of_length hb]
  | none =>
    obtain ⟨i, c0, p, e⟩ := cache_write_miss b hh hl
    have hdev : c0.fs_device = c.fs_device ∨
        ((c.cache_array i).valid = true ∧ (c.cache_array i).dirty = true ∧
          c0.fs_device =
            block_write c.fs_device (c.cache_array i).sector (c.cache_array i).disk) :=
      p.device
    refine ⟨i, _, e, ?_, ?_, ?_, ?_, p.lt, ?_, ?_, ?_, ?_, ?_, ?_, ?_⟩
    · show c0.fs_device.read_cnt = c.fs_device.read_cnt
      rcases hdev with h | ⟨_, _, h⟩
      · rw [h]
      · rw [h]; rfl
    · show c0.fs_device.write_cnt ≤ c.fs_device.write_cnt + 1
      rcases hdev with h | ⟨_, _, h⟩ <;> rw [h]
      · exact Nat.le_succ _
      · exact Nat.le_refl _
    · rintro ⟨j, hj⟩; cases hj
    · rcases hdev with h | ⟨h1, h2, h3⟩
      · exact Or.inl h
      · exact Or.inr ⟨rfl, h1, h2, h3⟩
    · apply cache_lookup_unique p.lt
      · simp [upd]
      · simp [upd]
      · intro j hj hne hv
        have ho := p.others j hne
        simp only [upd, if_neg hne] at hv ⊢
        rw [ho.1] at hv
        rw [ho.2.1]
        exact cache_lookup_none hl j hj hv
    · simp [upd]
    · simp [upd]
    · simp [upd]
    · simp [upd]
    · simp [upd]
    · intro hb; simp [upd, sector_copy_of_length hb]

/-- Witness for C25: writing sector 9 to the state whose only valid entry holds the dirty
sector 7; the write misses and the scan writes sector 7 back. -/
theorem write_allocate_without_read_witness :
    demo_cache.clock_hand < MAX_CACHE_CAPACITY ∧
    ∃ i c1, cache_write demo_cache 9 (List.replicate 512 2) = .ok c1 ∧
      c1.fs_device.read_cnt = demo_cache.fs_device.read_cnt ∧
      c1.fs_device.write_cnt ≤ demo_cache.fs_device.write_cnt + 1 ∧
      ((∃ j, cache_lookup demo_cache 9 = some j) → c1.fs_device = demo_cache.fs_device) ∧
      (c1.fs_device = demo_cache.fs_device ∨
        (cache_lookup demo_cache 9 = none ∧ (demo_cache.cache_array i).valid = true ∧
          (demo_cache.cache_array i).dirty = true ∧
          c1.fs_device =
            block_write demo_cache.fs_device (demo_cache.cache_array i).sector
              (demo_cache.cache_array i).disk)) ∧
      i < MAX_CACHE_CAPACITY ∧ cache_lookup c1 9 = some i ∧
      (c1.cache_array i).valid = true ∧ (c1.cache_array i).sector = 9 ∧
      (c1.cache_array i).dirty = true ∧ (c1.cache_array i).r_bit = true ∧
      (c1.cache_array i).disk = sector_copy (List.replicate 512 2) ∧
      ((List.replicate 512 2).length = BLOCK_SECTOR_SIZE →
        (c1.cache_array i).disk = List.replicate 512 2) :=
  ⟨(reachable_inv demo_cache_reachable).hand,
    write_allocate_without_read demo_cache (reachable_inv demo_cache_reachable).hand 9
      (List.replicate 512 2)⟩

/-- C26 (no aliasing). In every state reachable from `cache_init` through `cache_read`,
`cache_write`, `cache_flush` and `cache_reset`, each sector number is the tag of at most
one valid entry. -/
theorem no_aliasing_reachable (c : Cache) (h : Reachable c) : NoAlias c :=
  (reachable_inv h).noalias

/-- Witness for C26: the state reached by one write after initialisation. -/
theorem no_aliasing_reachable_witness : Reachable demo_cache ∧ NoAlias demo_cache :=
  ⟨demo_cache_reachable, no_aliasing_reachable demo_cache demo_cache_reachable⟩

theorem cache_flush_entry_fields (c : Cache) (i : Nat) :
    (cache_flush_entry c i).clock_hand = c.clock_hand ∧
    (cache_flush_entry c i).hits = c.hits ∧ (cache_flush_entry c i).misses = c.misses ∧
    (cache_flush_entry c i).fs_device.read_cnt = c.fs_device.read_cnt := by
  cases hv : (c.cache_array i).valid <;> cases hd : (c.cache_array i).dirty <;>
    simp [cache_flush_entry, hv, hd, block_write]

/-- Flushing one entry keeps the valid bit, tag, payload and recency bit of every entry; a
dirty bit is only ever cleared. -/
theorem cache_flush_entry_entry (c : Cache) (i j : Nat) :
    ((cache_flush_entry c i).cache_array j).valid = (c.cache_array j).valid ∧
    ((cache_flush_entry c i).cache_array j).sector = (c.cache_array j).sector ∧
    ((cache_flush_entry c i).cache_array j).disk = (c.cache_array j).disk ∧
    ((cache_flush_entry c i).cache_array j).r_bit = (c.cache_array j).r_bit ∧
    (((cache_flush_entry c i).cache_array j).dirty = true → (c.cache_array j).dirty = true) := by
  cases hv : (c.cache_array i).valid <;> cases hd : (c.cache_array i).dirty <;>
    simp [cache_flush_entry, hv, hd]
  by_cases e : j = i
  · subst e; simp [upd, hv]
  · simp [upd, e]

theorem cache_flush_entry_other (c : Cache) (i j : Nat) (h : j ≠ i) :
    (cache_flush_entry c i).cache_array j = c.cache_array j := by
  cases hv : (c.cache_array i).valid <;> cases hd : (c.cache_array i).dirty <;>
    simp [cache_flush_entry, hv, hd, upd, h]

theorem cache_flush_entry_self (c : Cache) (i : Nat)
    (hv : (c.cache_array i).valid = true) :
    ((cache_flush_entry c i).cache_array i).dirty = false := by
  cases hd : (c.cache_array i).dirty <;> simp [cache_flush_entry, hv, hd, upd]

/-! ## Cache: what a flush changes -/

theorem cache_flush_entry_writes (c : Cache) (i : Nat) :
    (cache_flush_entry c i).fs_device.write_cnt =
      c.fs_device.write_cnt +
        (if ((c.cache_array i).valid && (c.cache_array i).dirty) = true then 1 else 0) := by
  cases hv : (c.cache_array i).valid <;> cases hd : (c.cache_array i).dirty <;>
    simp [cache_flush_entry, hv, hd, block_write]

theorem cache_flush_entry_data (c : Cache) (i : Nat) :
    (cache_flush_entry c i).fs_device.data =
      if ((c.cache_array i).valid && (c.cache_array i).dirty) = true then
        upd c.fs_device.data (c.cache_array i).sector (c.cache_array i).disk
      else c.fs_device.data := by
  cases hv : (c.cache_array i).valid <;> cases hd : (c.cache_array i).dirty <;>
    simp [cache_flush_entry, hv, hd, block_write]

/-- Flushing a list of entries keeps the hand, the counters and the device read count. -/
theorem flush_list_fields : ∀ (l : List Nat) (c : Cache),
    (l.foldl cache_flush_entry c).clock_hand = c.clock_hand ∧
    (l.foldl cache_flush_entry c).hits = c.hits ∧
    (l.foldl cache_flush_entry c).misses = c.misses ∧
    (l.foldl cache_flush_entry c).fs_device.read_cnt = c.fs_device.read_cnt
  | [], _ => ⟨rfl, rfl, rfl, rfl⟩
  | a :: l, c => by
    obtain ⟨h1, h2, h3, h4⟩ := flush_list_fields l (cache_flush_entry c a)
    obtain ⟨k1, k2, k3, k4⟩ := cache_flush_entry_fields c a
    exact ⟨h1.trans k1, h2.trans k2, h3.trans k3, h4.trans k4⟩

/-- Flushing a list of entries keeps every valid bit, tag, payload and recency bit, and
sets no dirty bit. -/
theorem flush_list_entry : ∀ (l : List Nat) (c : Cache) (j : Nat),
    ((l.foldl cache_flush_entry c).cache_array j).valid = (c.cache_array j).valid ∧
    ((l.foldl cache_flush_entry c).cache_array j).sector = (c.cache_array j).sector ∧
    ((l.foldl cache_flush_entry c).cache_array j).disk = (c.cache_array j).disk ∧
    ((l.foldl cache_flush_entry c).cache_array j).r_bit = (c.cache_array j).r_bit ∧
    (((l.foldl cache_flush_entry c).cache_array j).dirty = true → (c.cache_array j).dirty = true)
  | [], _, _ => ⟨rfl, rfl, rfl, rfl, id⟩
  | a :: l, c, j => by
    obtain ⟨h1, h2, h3, h4, h5⟩ := flush_list_entry l (cache_flush_entry c a) j
    obtain ⟨k1, k2, k3, k4, k5⟩ := cache_flush_entry_entry c a j
    exact ⟨h1.trans k1, h2.trans k2, h3.trans k3, h4.trans k4, fun h => k5 (h5 h)⟩

/-- An entry outside the list is not touched. -/
theorem flush_list_other : ∀ (l : List Nat) (c : Cache) (j : Nat), j ∉ l →
    (l.foldl cache_flush_entry c).cache_array j = c.cache_array j
  | [], _, _, _ => rfl
  | a :: l, c, j, h => by
    have hja : j ≠ a := fun e => h (e ▸ List.mem_cons_self _ _)
    have hjl : j ∉ l := fun e => h (List.mem_cons_of_mem _ e)
    exact (flush_list_other l (cache_flush_entry c a) j hjl).trans
      (cache_flush_entry_other c a j hja)

/-- A valid entry of the list is clean afterwards. -/
theorem flush_list_clean : ∀ (l : List Nat) (c : Cache) (j : Nat), j ∈ l →
    (c.cache_array j).valid = true → ((l.foldl cache_flush_entry c).cache_array j).dirty = false
  | [], _, _, h, _ => absurd h (List.not_mem_nil _)
  | a :: l, c, j, h, hv => by
    by_cases hjl : j ∈ l
    · exact flush_list_clean l (cache_flush_entry c a) j hjl
        (by rw [(cache_flush_entry_entry c a j).1]; exact hv)
    · have hja : j = a := by
        rcases List.mem_cons.mp h with e | e
        · exact e
        · exact absurd e hjl
      subst hja
      show ((l.foldl cache_flush_entry (cache_flush_entry c j)).cache_array j).dirty = false
      rw [flush_list_other l _ j hjl]
      exact cache_flush_entry_self c j hv

/-- One device write is issued for each valid dirty entry of a duplicate-free list. -/
theorem flush_list_writes : ∀ (l : List Nat) (c : Cache), l.Nodup →
    (l.foldl cache_flush_entry c).fs_device.write_cnt =
      c.fs_device.write_cnt +
        (l.filter (fun i => (c.cache_array i).valid && (c.cache_array i).dirty)).length
  | [], _, _ => rfl
  | a :: l, c, h => by
    obtain ⟨ha, hl⟩ := List.nodup_cons.mp h
    have ih := flush_list_writes l (cache_flush_entry c a) hl
    have hf : l.filter (fun i => ((cache_flush_entry c a).cache_array i).valid &&
          ((cache_flush_entry c a).cache_array i).dirty) =
        l.filter (fun i => (c.cache_array i).valid && (c.cache_array i).dirty) := by
      apply List.filter_congr
      intro i hi
      have hia : i ≠ a := fun e => ha (e ▸ hi)
      rw [cache_flush_entry_other c a i hia]
    show (l.foldl cache_flush_entry (cache_flush_entry c a)).fs_device.write_cnt = _
    rw [ih, hf, cache_flush_entry_writes, List.filter_cons]
    by_cases hp : ((c.cache_array a).valid && (c.cache_array a).dirty) = true
    · rw [if_pos hp, if_pos hp, List.length_cons]; omega
    · rw [if_neg hp, if_neg hp]; omega

/-- A sector that is the tag of no valid dirty entry of the list keeps its device content. -/
theorem flush_list_data_other : ∀ (l : List Nat) (c : Cache) (t : Nat),
    (∀ j ∈ l, (c.cache_array j).valid = true → (c.cache_array j).dirty = true →
      (c.cache_array j).sector ≠ t) →
    (l.foldl cache_flush_entry c).fs_device.data t = c.fs_device.data t
  | [], _, _, _ => rfl
  | a :: l, c, t, h => by
    have ih := flush_list_data_other l (cache_flush_entry c a) t (by
      intro j hj hv hd
      obtain ⟨k1, k2, _, _, k5⟩ := cache_flush_entry_entry c a j
      rw [k2]
      exact h j (List.mem_cons_of_mem _ hj) (k1 ▸ hv) (k5 hd))
    show (l.foldl cache_flush_entry (cache_flush_entry c a)).fs_device.data t = _
    rw [ih, cache_flush_entry_data]
    by_cases hp : ((c.cache_array a).valid && (c.cache_array a).dirty) = true
    · rw [if_pos hp]
      have hp2 := Bool.and_eq_true_iff.mp hp
      exact upd_other _ _ _ _ (fun e => h a (List.mem_cons_self _ _) hp2.1 hp2.2 e.symm)
    · rw [if_neg hp]

/-- When the valid dirty entries of the list carry distinct tags, the device holds the
payload of each of them at its tag afterwards. -/
theorem flush_list_data : ∀ (l : List Nat) (c : Cache),
    (∀ i ∈ l, ∀ j ∈ l, (c.cache_array i).valid = true → (c.cache_array i).dirty = true →
      (c.cache_array j).valid = true → (c.cache_array j).dirty = true →
      (c.cache_array i).sector = (c.cache_array j).sector → i = j) →
    ∀ i ∈ l, (c.cache_array i).valid = true → (c.cache_array i).dirty = true →
      (l.foldl cache_flush_entry c).fs_device.data (c.cache_array i).sector =
        (c.cache_array i).disk
  | [], _, _, i, hi, _, _ => absurd hi (List.not_mem_nil _)
  | a :: l, c, h, i, hi, hv, hd => by
    show (l.foldl cache_flush_entry (cache_flush_entry c a)).fs_device.data _ = _
    by_cases hia : i = a
    · subst hia
      rw [flush_list_data_other l (cache_flush_entry c i) (c.cache_array i).sector]
      · rw [cache_flush_entry_data, if_pos (by rw [hv, hd]; rfl), upd_same]
      · intro j hj hvj hdj hs
        obtain ⟨k1, k2, _, _, k5⟩ := cache_flush_entry_entry c i j
        have hji : j = i := h j (List.mem_cons_of_mem _ hj) i (List.mem_cons_self _ _)
          (k1 ▸ hvj) (k5 hdj) hv hd (k2 ▸ hs)
        subst hji
        rw [cache_flush_entry_self c j hv] at hdj
        exact absurd hdj (by simp)
    · have hil : i ∈ l := by
        rcases List.mem_cons.mp hi with e | e
        · exact absurd e hia
        · exact e
      have e := cache_flush_entry_other c a i hia
      have ih := flush_list_data l (cache_flush_entry c a) (by
        intro x hx y hy hvx hdx hvy hdy hs
        obtain ⟨x1, x2, _, _, x5⟩ := cache_flush_entry_entry c a x
        obtain ⟨y1, y2, _, _, y5⟩ := cache_flush_entry_entry c a y
        exact h x (List.mem_cons_of_mem _ hx) y (List.mem_cons_of_mem _ hy)
          (x1 ▸ hvx) (x5 hdx) (y1 ▸ hvy) (y5 hdy) (by rw [← x2, ← y2]; exact hs))
        i hil (by rw [e]; exact hv) (by rw [e]; exact hd)
      rw [e] at ih
      exact ih

/-! ## Claims about flush and reset -/

/-- C27 (flush persists and does nothing else). For every cache state in which no sector
is the tag of two valid entries: after `cache_flush` no valid entry is dirty; the device
holds, at the tag of every entry that was valid and dirty, that entry's payload; the
device write count has grown by exactly the number of valid dirty entries, a sector that
was the tag of no such entry keeps its device content and nothing is read; every entry
keeps its valid bit, tag, payload and recency bit, and the clock hand and both counters
are unchanged. Only the second fact uses the assumption on the tags. -/
theorem flush_persists_only (c : Cache) (h : NoAlias c) :
    (∀ i, i < MAX_CACHE_CAPACITY → ((cache_flush c).cache_array i).valid = true →
      ((cache_flush c).cache_array i).dirty = false) ∧
    (∀ i, i < MAX_CACHE_CAPACITY → (c.cache_array i).valid = true →
      (c.cache_array i).dirty = true →
      (cache_flush c).fs_device.data (c.cache_array i).sector = (c.cache_array i).disk) ∧
    (cache_flush c).fs_device.write_cnt = c.fs_device.write_cnt + (dirty_slots c).length ∧
    (∀ t, (∀ i, i < MAX_CACHE_CAPACITY → (c.cache_array i).valid = true →
        (c.cache_array i).dirty = true → (c.cache_array i).sector ≠ t) →
      (cache_flush c).fs_device.data t = c.fs_device.data t) ∧
    (cache_flush c).fs_device.read_cnt = c.fs_device.read_cnt ∧
    (∀ i, ((cache_flush c).cache_array i).valid = (c.cache_array i).valid ∧
      ((cache_flush c).cache_array i).sector = (c.cache_array i).sector ∧
      ((cache_flush c).cache_array i).disk = (c.cache_array i).disk ∧
      ((cache_flush c).cache_array i).r_bit = (c.cache_array i).r_bit) ∧
    (cache_flush c).clock_hand = c.clock_hand ∧ (cache_flush c).hits = c.hits ∧
    (cache_flush c).misses = c.misses := by
  unfold cache_flush
  obtain ⟨f1, f2, f3, f4⟩ := flush_list_fields (List.range MAX_CACHE_CAPACITY) c
  refine ⟨?_, ?_, ?_, ?_, f4, ?_, f1, f2, f3⟩
  · intro i hi hv
    apply flush_list_clean _ c i (List.mem_range.mpr hi)
    rw [← (flush_list_entry (List.range MAX_CACHE_CAPACITY) c i).1]
    exact hv
  · intro i hi hv hd
    exact flush_list_data _ c
      (fun x hx y hy hvx _ hvy _ hs =>
        h x y (List.mem_range.mp hx) (List.mem_range.mp hy) hvx hvy hs)
      i (List.mem_range.mpr hi) hv hd
  · exact flush_list_writes _ c (List.nodup_range _)
  · intro t ht
    exact flush_list_data_other _ c t (fun j hj => ht j (List.mem_range.mp hj))
  · intro i
    obtain ⟨e1, e2, e3, e4, _⟩ := flush_list_entry (List.range MAX_CACHE_CAPACITY) c i
    exact ⟨e1, e2, e3, e4⟩

/-- Witness for C27: the state whose entry 0 holds the dirty sector 7; the flush issues
one device write. -/
theorem flush_persists_only_witness :
    NoAlias demo_cache ∧ dirty_slots demo_cache = [0] ∧
    ((∀ i, i < MAX_CACHE_CAPACITY → ((cache_flush demo_cache).cache_array i).valid = true →
      ((cache_flush demo_cache).cache_array i).dirty = false) ∧
    (∀ i, i < MAX_CACHE_CAPACITY → (demo_cache.cache_array i).valid = true →
      (demo_cache.cache_array i).dirty = true →
      (cache_flush demo_cache).fs_device.data (demo_cache.cache_array i).sector =
        (demo_cache.cache_array i).disk) ∧
    (cache_flush demo_cache).fs_device.write_cnt =
      demo_cache.fs_device.write_cnt + (dirty_slots demo_cache).length ∧
    (∀ t, (∀ i, i < MAX_CACHE_CAPACITY → (demo_cache.cache_array i).valid = true →
        (demo_cache.cache_array i).dirty = true → (demo_cache.cache_array i).sector ≠ t) →
      (cache_flush demo_cache).fs_device.data t = demo_cache.fs_device.data t) ∧
    (cache_flush demo_cache).fs_device.read_cnt = demo_cache.fs_device.read_cnt ∧
    (∀ i, ((cache_flush demo_cache).cache_array i).valid = (demo_cache.cache_array i).valid ∧
      ((cache_flush demo_cache).cache_array i).sector = (demo_cache.cache_array i).sector ∧
      ((cache_flush demo_cache).cache_array i).disk = (demo_cache.cache_array i).disk ∧
      ((cache_flush demo_cache).cache_array i).r_bit = (demo_cache.cache_array i).r_bit) ∧
    (cache_flush demo_cache).clock_hand = demo_cache.clock_hand ∧
    (cache_flush demo_cache).hits = demo_cache.hits ∧
    (cache_flush demo_cache).misses = demo_cache.misses) :=
  ⟨(reachable_inv demo_cache_reachable).noalias, by decide!,
    flush_persists_only demo_cache (reachable_inv demo_cache_reachable).noalias⟩

theorem cache_reset_entry (c : Cache) (i : Nat) (hi : i < MAX_CACHE_CAPACITY) :
    ((cache_reset c).cache_array i).valid = false := by
  simp [cache_reset, hi]

theorem cache_reset_lookup (c : Cache) (s : Nat) : cache_lookup (cache_reset c) s = none :=
  cache_lookup_none_of (fun i hi hv => by
    rw [cache_reset_entry c i hi] at hv; exact absurd hv (by simp))

theorem cache_reset_fields (c : Cache) :
    (cache_reset c).fs_device = (cache_flush c).fs_device ∧ (cache_reset c).hits = 0 ∧
    (cache_reset c).misses = 0 ∧ (cache_reset c).clock_hand = 0 := by
  simp [cache_reset]

/-- A read from a state without valid entries misses, issues one device read and returns
the device content. -/
theorem cache_read_cold {k : Cache} (hh : k.clock_hand < MAX_CACHE_CAPACITY)
    (hinv : ∀ i, i < MAX_CACHE_CAPACITY → (k.cache_array i).valid = false) (s : Nat) :
    ∃ c1, cache_read k s = .ok (k.fs_device.data s, c1) ∧
      c1.misses = (k.misses + 1) % 4294967296 ∧ c1.hits = k.hits ∧
      c1.fs_device.read_cnt = k.fs_device.read_cnt + 1 ∧
      c1.fs_device.write_cnt = k.fs_device.write_cnt ∧
      c1.fs_device.data = k.fs_device.data := by
  have hl : cache_lookup k s = none :=
    cache_lookup_none_of (fun i hi hv => by rw [hinv i hi] at hv; exact absurd hv (by simp))
  obtain ⟨i, c0, p, e⟩ := cache_read_miss hh hl
  have hdev : c0.fs_device = k.fs_device := by
    rcases p.device with h | ⟨hv, _, _⟩
    · exact h
    · exact absurd (show (k.cache_array i).valid = true from hv) (by rw [hinv i p.lt]; simp)
  rw [hdev] at e
  exact ⟨_, e, p.misses, p.hits, rfl, rfl, rfl⟩

/-- A write to a state without valid entries misses and leaves the device alone. -/
theorem cache_write_cold {k : Cache} (hh : k.clock_hand < MAX_CACHE_CAPACITY)
    (hinv : ∀ i, i < MAX_CACHE_CAPACITY → (k.cache_array i).valid = false) (s : Nat)
    (b : Block) :
    ∃ c1, cache_write k s b = .ok c1 ∧ c1.misses = (k.misses + 1) % 4294967296 ∧
      c1.hits = k.hits ∧ c1.fs_device = k.fs_device := by
  have hl : cache_lookup k s = none :=
    cache_lookup_none_of (fun i hi hv => by rw [hinv i hi] at hv; exact absurd hv (by simp))
  obtain ⟨i, c0, p, e⟩ := cache_write_miss b hh hl
  have hdev : c0.fs_device = k.fs_device := by
    rcases p.device with h | ⟨hv, _, _⟩
    · exact h
    · exact absurd (show (k.cache_array i).valid = true from hv) (by rw [hinv i p.lt]; simp)
  exact ⟨_, e, p.misses, p.hits, hdev⟩

/-- C28 (reset equals flush plus clear). For every cache state, `cache_reset` leaves the
device exactly as `cache_flush` would, every entry of the array invalid, both counters and
the clock hand at zero; hence the next access to any sector finds no entry: a read is a
miss that issues one device read and returns the flushed device content of the sector, and
a write is a miss as well. -/
theorem reset_is_flush_then_clear (c : Cache) (s : Nat) (b : Block) :
    (cache_reset c).fs_device = (cache_flush c).fs_device ∧
    (∀ i, i < MAX_CACHE_CAPACITY → ((cache_reset c).cache_array i).valid = false) ∧
    (cache_reset c).hits = 0 ∧ (cache_reset c).misses = 0 ∧ (cache_reset c).clock_hand = 0 ∧
    cache_lookup (cache_reset c) s = none ∧
    (∃ c1, cache_read (cache_reset c) s = .ok ((cache_flush c).fs_device.data s, c1) ∧
      c1.misses = 1 ∧ c1.hits = 0 ∧
      c1.fs_device.read_cnt = (cache_flush c).fs_device.read_cnt + 1 ∧
      c1.fs_device.write_cnt = (cache_flush c).fs_device.write_cnt ∧
      c1.fs_device.data = (cache_flush c).fs_device.data) ∧
    (∃ c1, cache_write (cache_reset c) s b = .ok c1 ∧ c1.misses = 1 ∧ c1.hits = 0 ∧
      c1.fs_device = (cache_flush c).fs_device) := by
  obtain ⟨r1, r2, r3, r4⟩ := cache_reset_fields c
  have hh : (cache_reset c).clock_hand < MAX_CACHE_CAPACITY := by rw [r4]; decide
  refine ⟨r1, cache_reset_entry c, r2, r3, r4, cache_reset_lookup c s, ?_, ?_⟩
  · obtain ⟨c1, e, h1, h2, h3, h4, h5⟩ := cache_read_cold hh (cache_reset_entry c) s
    rw [r1] at e h3 h4 h5
    rw [r3] at h1
    rw [r2] at h2
    exact ⟨c1, e, h1, h2, h3, h4, h5⟩
  · obtain ⟨c1, e, h1, h2, h3⟩ := cache_write_cold hh (cache_reset_entry c) s b
    rw [r3] at h1
    rw [r2] at h2
    rw [r1] at h3
    exact ⟨c1, e, h1, h2, h3⟩

/-! ## Claims about the counters -/

theorem hit_iff_lookup (c : Cache) (s : Nat) : Hit c s ↔ ∃ i, cache_lookup c s = some i :=
  (cache_lookup_isSome_iff c s).symm

/-- A read returns from every state whose hand is in range, keeps the hand in range and
increments one counter. -/
theorem cache_read_counters {c : Cache} (hh : c.clock_hand < MAX_CACHE_CAPACITY) (s : Nat) :
    ∃ r c1, cache_read c s = .ok (r, c1) ∧ c1.clock_hand < MAX_CACHE_CAPACITY ∧
      CounterStep c s c1 := by
  cases hl : cache_lookup c s with
  | some i =>
    have hit : Hit c s := (hit_iff_lookup c s).mpr ⟨i, hl⟩
    exact ⟨_, _, cache_read_hit hl, hh, fun _ => ⟨rfl, rfl⟩, fun h => absurd hit h⟩
  | none =>
    have nohit : ¬ Hit c s := fun h => by
      obtain ⟨i, hi⟩ := (hit_iff_lookup c s).mp h
      rw [hl] at hi; cases hi
    obtain ⟨i, c0, p, e⟩ := cache_read_miss hh hl
    exact ⟨_, _, e, p.hand, fun h => absurd h nohit, fun _ => ⟨p.hits, p.misses⟩⟩

/-- A write returns from every state whose hand is in range, keeps the hand in range and
increments one counter. -/
theorem cache_write_counters {c : Cache} (hh : c.clock_hand < MAX_CACHE_CAPACITY) (s : Nat)
    (b : Block) :
    ∃ c1, cache_write c s b = .ok c1 ∧ c1.clock_hand < MAX_CACHE_CAPACITY ∧
      CounterStep c s c1 := by
  cases hl : cache_lookup c s with
  | some i =>
    have hit : Hit c s := (hit_iff_lookup c s).mpr ⟨i, hl⟩
    exact ⟨_, cache_write_hit b hl, hh, fun _ => ⟨rfl, rfl⟩, fun h => absurd hit h⟩
  | none =>
    have nohit : ¬ Hit c s := fun h => by
      obtain ⟨i, hi⟩ := (hit_iff_lookup c s).mp h
      rw [hl] at hi; cases hi
    obtain ⟨i, c0, p, e⟩ := cache_write_miss b hh hl
    exact ⟨_, e, p.hand, fun h => absurd h nohit, fun _ => ⟨p.hits, p.misses⟩⟩

theorem cache_flush_counters (c : Cache) :
    (cache_flush c).clock_hand = c.clock_hand ∧ (cache_flush c).hits = c.hits ∧
    (cache_flush c).misses = c.misses := by
  unfold cache_flush
  obtain ⟨f1, f2, f3, _⟩ := flush_list_fields (List.range MAX_CACHE_CAPACITY) c
  exact ⟨f1, f2, f3⟩

/-- While the counters stay below `2 ^ 32`, one access adds one to their sum and lowers
neither. -/
theorem CounterStep.sum {c c1 : Cache} {s : Nat} (h : CounterStep c s c1)
    (hb : c.hits + c.misses + 1 < 4294967296) :
    c.hits ≤ c1.hits ∧ c.misses ≤ c1.misses ∧ c1.hits + c1.misses = c.hits + c.misses + 1 := by
  by_cases hit : Hit c s
  · obtain ⟨h1, h2⟩ := h.1 hit
    rw [h1, h2, Nat.mod_eq_of_lt (by omega)]
    omega
  · obtain ⟨h1, h2⟩ := h.2 hit
    rw [h1, h2, Nat.mod_eq_of_lt (by omega)]
    omega

/-- Every sequence of calls returns from a state whose hand is in range; while the counters
stay below `2 ^ 32` neither decreases and their sum grows by the number of reads and
writes. -/
theorem run_ops_counters : ∀ (ops : List CacheOp) (c : Cache),
    c.clock_hand < MAX_CACHE_CAPACITY →
    ∃ c1, run_ops c ops = .ok c1 ∧ c1.clock_hand < MAX_CACHE_CAPACITY ∧
      (c.hits + c.misses + access_count ops < 4294967296 →
        c.hits ≤ c1.hits ∧ c.misses ≤ c1.misses ∧
        c1.hits + c1.misses = c.hits + c.misses + access_count ops)
  | [], c, hh => ⟨c, rfl, hh, fun _ => ⟨Nat.le_refl _, Nat.le_refl _, rfl⟩⟩
  | .flush :: ops, c, hh => by
    obtain ⟨f1, f2, f3⟩ := cache_flush_counters c
    obtain ⟨c1, e, h1, h2⟩ := run_ops_counters ops (cache_flush c) (by rw [f1]; exact hh)
    refine ⟨c1, by simp [run_ops, run_op, e], h1, ?_⟩
    intro hb
    rw [f2, f3] at h2
    exact h2 hb
  | .read s :: ops, c, hh => by
    obtain ⟨r, k, e0, hk, st⟩ := cache_read_counters hh s
    obtain ⟨c1, e, h1, h2⟩ := run_ops_counters ops k hk
    refine ⟨c1, by simp [run_ops, run_op, e0, e], h1, ?_⟩
    intro hb
    have hb1 : c.hits + c.misses + 1 < 4294967296 := by
      simp only [access_count] at hb; omega
    obtain ⟨a1, a2, a3⟩ := st.sum hb1
    obtain ⟨b1, b2, b3⟩ := h2 (by simp only [access_count] at hb; omega)
    simp only [access_count]
    omega
  | .write s b :: ops, c, hh => by
    obtain ⟨k, e0, hk, st⟩ := cache_write_counters hh s b
    obtain ⟨c1, e, h1, h2⟩ := run_ops_counters ops k hk
    refine ⟨c1, by simp [run_ops, run_op, e0, e], h1, ?_⟩
    intro hb
    have hb1 : c.hits + c.misses + 1 < 4294967296 := by
      simp only [access_count] at hb; omega
    obtain ⟨a1, a2, a3⟩ := st.sum hb1
    obtain ⟨b1, b2, b3⟩ := h2 (by simp only [access_count] at hb; omega)
    simp only [access_count]
    omega

/-- C29 (exact hit and miss counters). From every cache state whose hand is in range, and
as long as the 32-bit counters do not wrap: a `cache_read` or `cache_write` call returns
and adds one to the hit counter, leaving the miss counter alone, when some valid entry was
tagged with the requested sector before the call, and adds one to the miss counter,
leaving the hit counter alone, otherwise; `cache_flush` changes neither counter; hence over
every sequence of reads, writes and flushes neither counter decreases and their sum grows
by the number of reads and writes, and after a reset the sum equals that number. -/
theorem exact_hit_miss_counters (c : Cache) (hh : c.clock_hand < MAX_CACHE_CAPACITY)
    (s : Nat) (b : Block) (ops : List CacheOp)
    (hb : c.hits + c.misses + access_count ops + 1 < 4294967296) :
    (∃ r c1, cache_read c s = .ok (r, c1) ∧
      (Hit c s → c1.hits = c.hits + 1 ∧ c1.misses = c.misses) ∧
      (¬ Hit c s → c1.hits = c.hits ∧ c1.misses = c.misses + 1)) ∧
    (∃ c1, cache_write c s b = .ok c1 ∧
      (Hit c s → c1.hits = c.hits + 1 ∧ c1.misses = c.misses) ∧
      (¬ Hit c s → c1.hits = c.hits ∧ c1.misses = c.misses + 1)) ∧
    ((cache_flush c).hits = c.hits ∧ (cache_flush c).misses = c.misses) ∧
    (∃ c1, run_ops c ops = .ok c1 ∧ c.hits ≤ c1.hits ∧ c.misses ≤ c1.misses ∧
      c1.hits + c1.misses = c.hits + c.misses + access_count ops) ∧
    (∃ c1, run_ops (cache_reset c) ops = .ok c1 ∧
      c1.hits + c1.misses = access_count ops) := by
  have m1 : (c.hits + 1) % 4294967296 = c.hits + 1 := Nat.mod_eq_of_lt (by omega)
  have m2 : (c.misses + 1) % 4294967296 = c.misses + 1 := Nat.mod_eq_of_lt (by omega)
  refine ⟨?_, ?_, ⟨(cache_flush_counters c).2.1, (cache_flush_counters c).2.2⟩, ?_, ?_⟩
  · obtain ⟨r, c1, e, _, st⟩ := cache_read_counters hh s
    refine ⟨r, c1, e, fun h => ?_, fun h => ?_⟩
    · rw [← m1]; exact st.1 h
    · rw [← m2]; exact st.2 h
  · obtain ⟨c1, e, _, st⟩ := cache_write_counters hh s b
    refine ⟨c1, e, fun h => ?_, fun h => ?_⟩
    · rw [← m1]; exact st.1 h
    · rw [← m2]; exact st.2 h
  · obtain ⟨c1, e, _, h⟩ := run_ops_counters ops c hh
    exact ⟨c1, e, h (by omega)⟩
  · obtain ⟨r1, r2, r3, r4⟩ := cache_reset_fields c
    obtain ⟨c1, e, _, h⟩ := run_ops_counters ops (cache_reset c) (by rw [r4]; decide)
    rw [r2, r3] at h
    obtain ⟨_, _, h3⟩ := h (by omega)
    exact ⟨c1, e, by omega⟩

/-- Witness for C29: the state holding the dirty sector 7, an access to sector 9, and a
sequence of five calls of which four are reads or writes. -/
theorem exact_hit_miss_counters_witness :
    demo_cache.clock_hand < MAX_CACHE_CAPACITY ∧
    demo_cache.hits + demo_cache.misses + access_count demo_ops + 1 < 4294967296 ∧
    access_count demo_ops = 4 ∧
    ((∃ r c1, cache_read demo_cache 9 = .ok (r, c1) ∧
      (Hit demo_cache 9 → c1.hits = demo_cache.hits + 1 ∧ c1.misses = demo_cache.misses) ∧
      (¬ Hit demo_cache 9 → c1.hits = demo_cache.hits ∧ c1.misses = demo_cache.misses + 1)) ∧
    (∃ c1, cache_write demo_cache 9 (List.replicate 512 2) = .ok c1 ∧
      (Hit demo_cache 9 → c1.hits = demo_cache.hits + 1 ∧ c1.misses = demo_cache.misses) ∧
      (¬ Hit demo_cache 9 → c1.hits = demo_cache.hits ∧ c1.misses = demo_cache.misses + 1)) ∧
    ((cache_flush demo_cache).hits = demo_cache.hits ∧
      (cache_flush demo_cache).misses = demo_cache.misses) ∧
    (∃ c1, run_ops demo_cache demo_ops = .ok c1 ∧ demo_cache.hits ≤ c1.hits ∧
      demo_cache.misses ≤ c1.misses ∧
      c1.hits + c1.misses = demo_cache.hits + demo_cache.misses + access_count demo_ops) ∧
    (∃ c1, run_ops (cache_reset demo_cache) demo_ops = .ok c1 ∧
      c1.hits + c1.misses = access_count demo_ops)) :=
  ⟨by decide!, by decide!, by decide,
    exact_hit_miss_counters demo_cache (by decide!) 9 (List.replicate 512 2) demo_ops
      (by decide!)⟩

/-! ## Claims about the eviction scan -/

/-- Outside the reachable states the scan can hand out a dirty entry: from the state whose
entry 0 is invalid and dirty, with the hand on it, `cache_access` returns entry 0
unchanged. By `reachable_invalid_clean` no run reaches such a state. -/
theorem scan_keeps_invalid_entry :
    stale_cache.clock_hand < MAX_CACHE_CAPACITY ∧
    ∃ c1, cache_access stale_cache = .ok (0, c1) ∧ (c1.cache_array 0).valid = false ∧
      (c1.cache_array 0).dirty = true :=
  ⟨by decide, stale_cache, rfl, rfl, rfl⟩

theorem single_of_cold {c : Cache} (hh : c.clock_hand = 0)
    (h : ∀ i, i < MAX_CACHE_CAPACITY → (c.cache_array i).valid = false) :
    Single c ∧ last_tag c = none :=
  ⟨⟨hh, fun i _ hi => h i hi⟩, by simp [last_tag, h 0 (by decide)]⟩

/-- From a state in which only entry 0 may be valid, a read of a sector other than the tag
of entry 0 misses and leaves the sector in entry 0, the only valid entry. -/
theorem cache_read_single {c : Cache} (h : Single c) {s : Nat} (hs : last_tag c ≠ some s) :
    ∃ r c1, cache_read c s = .ok (r, c1) ∧ Single c1 ∧ last_tag c1 = some s ∧
      c1.hits = c.hits ∧ c1.misses = (c.misses + 1) % 4294967296 := by
  have hh : c.clock_hand < MAX_CACHE_CAPACITY := by rw [h.1]; decide
  have hl : cache_lookup c s = none := by
    apply cache_lookup_none_of
    intro i hi hv e
    by_cases h0 : i = 0
    · subst h0
      exact hs (by simp [last_tag, hv, e])
    · rw [h.2 i (Nat.pos_of_ne_zero h0) hi] at hv
      exact absurd hv (by simp)
  obtain ⟨i, c0, p, e⟩ := cache_read_miss hh hl
  have h0 : c0.clock_hand = 0 := by
    rcases p.moved with m | m
    · exact m.trans h.1
    · exact m
  have hi : i = 0 := p.index.trans h0
  subst hi
  refine ⟨_, _, e, ⟨h0, ?_⟩, by simp [last_tag, upd], p.hits, p.misses⟩
  intro j hj hj64
  have hne : j ≠ 0 := Nat.pos_iff_ne_zero.mp hj
  simp only [upd, if_neg hne]
  rw [(p.others j hne).1]
  exact h.2 j hj hj64

/-- Reads in which no sector equals the one read just before never hit. -/
theorem read_all_single : ∀ (l : List Nat) (c : Cache), Single c →
    List.Chain' (fun a b => a ≠ b) ((last_tag c).toList ++ l) →
    ∃ c1, read_all c l = .ok c1 ∧ Single c1 ∧ c1.hits = c.hits ∧
      (∀ x, l.getLast? = some x → last_tag c1 = some x)
  | [], c, h, _ => ⟨c, rfl, h, rfl, fun x hx => by simp at hx⟩
  | s :: l, c, h, hc => by
    have hs : last_tag c ≠ some s := by
      intro e
      rw [e] at hc
      simp at hc
    obtain ⟨r, k, e0, hk, tk, hits, _⟩ := cache_read_single h hs
    have hc1 : List.Chain' (fun a b => a ≠ b) ((last_tag k).toList ++ l) := by
      rw [tk]
      exact List.Chain'.right_of_append hc
    obtain ⟨c1, e1, h1, hits1, last1⟩ := read_all_single l k hk hc1
    refine ⟨c1, ?_, h1, hits1.trans hits, ?_⟩
    · unfold read_all at e1 ⊢
      simp [run_ops, run_op, e0, e1]
    · intro x hx
      cases l with
      | nil =>
        simp at hx
        subst hx
        simp [read_all, run_ops] at e1
        rw [← e1]; exact tk
      | cons a l2 =>
        rw [List.getLast?_cons_cons] at hx
        exact last1 x hx

theorem cache_init_cold (c : Cache) :
    Single (cache_init c) ∧ last_tag (cache_init c) = none ∧ (cache_init c).hits = 0 := by
  obtain ⟨h1, h2⟩ := @single_of_cold (cache_init c) rfl
    (fun i hi => by simp [cache_init, hi])
  exact ⟨h1, h2, rfl⟩

theorem cache_reset_cold (c : Cache) :
    Single (cache_reset c) ∧ last_tag (cache_reset c) = none ∧ (cache_reset c).hits = 0 := by
  obtain ⟨_, r2, _, r4⟩ := cache_reset_fields c
  obtain ⟨h1, h2⟩ := single_of_cold r4 (cache_reset_entry c)
  exact ⟨h1, h2, r2⟩

/-- From a state without valid entries, reads in which no sector equals the one read just
before never hit. -/
theorem read_all_cold {c : Cache} (h : Single c) (ht : last_tag c = none) (l : List Nat)
    (hl : List.Chain' (fun a b => a ≠ b) l) :
    ∃ c1, read_all c l = .ok c1 ∧ Single c1 ∧ c1.hits = c.hits ∧
      (∀ x, l.getLast? = some x → last_tag c1 = some x) :=
  read_all_single l c h (by rw [ht]; exact hl)

/-- The last element of a duplicate-free list of two or more elements differs from the
first, so the list may follow its own last element without an immediate repetition. -/
theorem chain_after_last {l : List Nat} (hn : l.Nodup) (hk : 2 ≤ l.length) {x : Nat}
    (hx : l.getLast? = some x) : List.Chain' (fun a b => a ≠ b) (x :: l) := by
  match l, hn, hk, hx with
  | a :: b :: l2, hn, _, hx =>
    rw [List.getLast?_cons_cons] at hx
    have hmem : x ∈ b :: l2 := List.mem_of_getLast?_eq_some hx
    have ha : a ∉ b :: l2 := (List.nodup_cons.mp hn).1
    refine List.chain'_cons.mpr ⟨fun e => ha (e ▸ hmem), ?_⟩
    exact List.Pairwise.chain' hn

/-! ## Claims about hits -/

/-- C23 (hit accounting): the code does not meet the bound. From a freshly reset and from a
freshly initialised cache, every sequence of `cache_read` calls in which no sector equals
the one read just before returns with the hit counter at 0; when the sequence revisits a
sector, so that its number of distinct sectors is below its length, the hit counter is
below the difference of the two. The scan never moves the hand off entry 0, so each miss
replaces the only cached sector. -/
theorem reads_without_repeat_never_hit (c : Cache) (l : List Nat)
    (h : List.Chain' (fun a b => a ≠ b) l) :
    (∃ c1, read_all (cache_reset c) l = .ok c1 ∧ c1.hits = 0 ∧
      (l.dedup.length < l.length → c1.hits < l.length - l.dedup.length)) ∧
    (∃ c1, read_all (cache_init c) l = .ok c1 ∧ c1.hits = 0 ∧
      (l.dedup.length < l.length → c1.hits < l.length - l.dedup.length)) := by
  obtain ⟨s1, t1, z1⟩ := cache_reset_cold c
  obtain ⟨s2, t2, z2⟩ := cache_init_cold c
  obtain ⟨c1, e1, _, h1, _⟩ := read_all_cold s1 t1 l h
  obtain ⟨c2, e2, _, h2, _⟩ := read_all_cold s2 t2 l h
  refine ⟨⟨c1, e1, h1.trans z1, fun hlt => ?_⟩, ⟨c2, e2, h2.trans z2, fun hlt => ?_⟩⟩
  · rw [h1.trans z1]; omega
  · rw [h2.trans z2]; omega

/-- Witness for C23: four reads of the two sectors 1 and 2, alternating; two hits are
required, none is counted. -/
theorem reads_without_repeat_never_hit_witness :
    List.Chain' (fun a b => a ≠ b) [1, 2, 1, 2] ∧
    [1, 2, 1, 2].length - [1, 2, 1, 2].dedup.length = 2 ∧
    ((∃ c1, read_all (cache_reset (boot_cache (fun _ => zeros))) [1, 2, 1, 2] = .ok c1 ∧
      c1.hits = 0 ∧
      ([1, 2, 1, 2].dedup.length < [1, 2, 1, 2].length →
        c1.hits < [1, 2, 1, 2].length - [1, 2, 1, 2].dedup.length)) ∧
    (∃ c1, read_all (cache_init (boot_cache (fun _ => zeros))) [1, 2, 1, 2] = .ok c1 ∧
      c1.hits = 0 ∧
      ([1, 2, 1, 2].dedup.length < [1, 2, 1, 2].length →
        c1.hits < [1, 2, 1, 2].length - [1, 2, 1, 2].dedup.length))) :=
  ⟨by simp, by decide,
    reads_without_repeat_never_hit (boot_cache (fun _ => zeros)) [1, 2, 1, 2] (by simp)⟩

/-- C24 (cold versus warm cache): the code does not make the second pass warmer. For every
list of two or more distinct sectors, reading the list after `cache_reset` and then reading
it again without a reset gains no hit in the first pass and none in the second: both hit
rates are 0. Each read evicts the sector read just before it. -/
theorem second_pass_never_hits (c : Cache) (l : List Nat) (hn : l.Nodup)
    (hk : 2 ≤ l.length) :
    ∃ c1 c2, read_all (cache_reset c) l = .ok c1 ∧ read_all c1 l = .ok c2 ∧
      c1.hits = 0 ∧ c2.hits = c1.hits := by
  obtain ⟨s1, t1, z1⟩ := cache_reset_cold c
  obtain ⟨c1, e1, k1, h1, last1⟩ := read_all_cold s1 t1 l (List.Pairwise.chain' hn)
  have hne : l ≠ [] := by
    intro e; rw [e] at hk; simp at hk
  have hx : l.getLast? = some (l.getLast hne) := List.getLast?_eq_getLast l hne
  have hc : List.Chain' (fun a b => a ≠ b) ((last_tag c1).toList ++ l) := by
    rw [last1 _ hx]
    exact chain_after_last hn hk hx
  obtain ⟨c2, e2, _, h2, _⟩ := read_all_single l c1 k1 hc
  exact ⟨c1, c2, e1, e2, h1.trans z1, h2⟩

/-- Witness for C24: the 50 sectors 100 to 149, read twice after a reset. -/
theorem second_pass_never_hits_witness :
    pass_sectors.Nodup ∧ 2 ≤ pass_sectors.length ∧ pass_sectors.length ≤ MAX_CACHE_CAPACITY ∧
    ∃ c1 c2, read_all (cache_reset demo_cache) pass_sectors = .ok c1 ∧
      read_all c1 pass_sectors = .ok c2 ∧ c1.hits = 0 ∧ c2.hits = c1.hits :=
  ⟨List.nodup_range' 100 50, by decide, by decide,
    second_pass_never_hits demo_cache pass_sectors (List.nodup_range' 100 50) (by decide)⟩

/-- The alternating reads evaluated: four misses and no hit. -/
theorem alternating_reads_example :
    fault_of (read_all (cache_init (boot_cache (fun _ => zeros))) [1, 2, 1, 2]) = none ∧
    (state_or (boot_cache (fun _ => zeros))
      (read_all (cache_init (boot_cache (fun _ => zeros))) [1, 2, 1, 2])).hits = 0 ∧
    (state_or (boot_cache (fun _ => zeros))
      (read_all (cache_init (boot_cache (fun _ => zeros))) [1, 2, 1, 2])).misses = 4 := by
  decide!

/-! ## Claims about the magic number and holes -/

/-- C21, as stated, fails: sector 9 of a zeroed device holds no inode (its magic field is
0), yet `inode_open` returns a handle for it and registers it in the list of open
inodes. -/
theorem open_accepts_wrong_magic :
    (inode_disk.decode (logical blank_fs.cache 9)).magic = 0 ∧ INODE_MAGIC ≠ 0 ∧
    ∃ sys1, inode_open (inode_init blank_fs) 9 (some 100) = .ok (some 100, sys1) ∧
      inode_at sys1 100 = some (handle_of blank_fs.cache 9) ∧
      (handle_of blank_fs.cache 9).data.magic = 0 := by
  obtain ⟨c1, _, _, _, e⟩ := @inode_open_new (inode_init blank_fs)
    (sys_reach_inv (SysReach.init blank_fs (cache_init_inv _))) 9 100
    (fun b h hb => by simp [inode_at, inode_init] at hb)
  exact ⟨by decide!, by decide, _, e, inode_at_cons_same _ _ _ _, by decide!⟩

/-- C21 (magic on load), amended. `inode_open` does not examine the magic field: for every
sector that is not open yet, when memory is available, it returns a new handle, registered
in the list of open inodes with `open_cnt = 1`, whose cached descriptor and length are
decoded from the current content of the sector, whatever its magic field holds. -/
theorem open_ignores_magic (sys : Sys) (inv : OpenInv sys) (sector a : Nat)
    (hnew : ∀ b h, inode_at sys b = some h → h.sector ≠ sector) :
    ∃ sys1 h, inode_open sys sector (some a) = .ok (some a, sys1) ∧
      inode_at sys1 a = some h ∧ h.sector = sector ∧ h.open_cnt = 1 ∧
      h.data = inode_disk.decode (logical sys.fs.cache sector) ∧
      h.length = (inode_disk.decode (logical sys.fs.cache sector)).length ∧
      h.data.magic = word_at (words_of_bytes (logical sys.fs.cache sector)) 4 := by
  obtain ⟨c1, _, _, _, e⟩ := inode_open_new inv sector a hnew
  exact ⟨_, handle_of sys.fs.cache sector, e, inode_at_cons_same _ _ _ _, rfl, rfl, rfl, rfl,
    rfl⟩

/-- Witness for C21: sector 4 of `tree_fs` is an indirect block, not an inode; it is opened
all the same. -/
theorem open_ignores_magic_witness :
    OpenInv (inode_init tree_fs) ∧
    (∀ b h, inode_at (inode_init tree_fs) b = some h → h.sector ≠ 4) ∧
    (inode_disk.decode (logical (inode_init tree_fs).fs.cache 4)).magic ≠ INODE_MAGIC ∧
    ∃ sys1 h, inode_open (inode_init tree_fs) 4 (some 100) = .ok (some 100, sys1) ∧
      inode_at sys1 100 = some h ∧ h.sector = 4 ∧ h.open_cnt = 1 ∧
      h.data = inode_disk.decode (logical (inode_init tree_fs).fs.cache 4) ∧
      h.length = (inode_disk.decode (logical (inode_init tree_fs).fs.cache 4)).length ∧
      h.data.magic = word_at (words_of_bytes (logical (inode_init tree_fs).fs.cache 4)) 4 :=
  ⟨sys_reach_inv (SysReach.init tree_fs (cache_init_inv _)),
    fun b h hb => by simp [inode_at, inode_init] at hb,
    by decide!,
    open_ignores_magic (inode_init tree_fs)
      (sys_reach_inv (SysReach.init tree_fs (cache_init_inv _))) 4 100
      (fun b h hb => by simp [inode_at, inode_init] at hb)⟩
/-- A read that stays inside one sector of the file: the bytes come from the logical
content of the sector that the selected entry of the tree names, whatever that entry is. -/
theorem inode_read_at_one_sector {c : Cache} (inv : CacheInv c) (h : inode) (buffer : Block)
    (size offset : Int) (hs : h.sector ≠ FREE_MAP_SECTOR) (h1 : 0 < size) (h0 : 0 ≤ offset)
    (hin : offset + size ≤ h.length) (hsec : offset % 512 + size ≤ 512)
    (hm : offset < MAX_FILE_SIZE) :
    ∃ c1, inode_read_at c h buffer size offset =
        .ok (size,
          buf_copy buffer 0
            ((logical c (word_at (words_of_bytes (logical c
              (root_entry c h.data.dbl_sect (offset / 65536).toNat)))
              (offset % 65536 / 512).toNat)).drop (offset % 512).toNat) size.toNat, c1) ∧
      CacheInv c1 ∧ ∀ t, logical c1 t = logical c t := by
  obtain ⟨c2, e2, inv2, l2⟩ := byte_to_sector_ok inv h offset h0 (by omega) hm
  obtain ⟨c3, e3, inv3, l3⟩ := cache_read_ok inv2
    (word_at (words_of_bytes (logical c
      (word_at (words_of_bytes (logical c h.data.dbl_sect)) (offset / 65536).toNat)))
      (offset % 65536 / 512).toNat)
  rw [l2] at e3
  have hmod : offset.tmod 512 = offset % 512 := Int.tmod_eq_emod h0 (by norm_num)
  have hchunk : chunk_of h.length size offset = size := by
    unfold chunk_of
    rw [hmod]
    split_ifs <;> omega
  obtain ⟨n, hn⟩ : ∃ n, size.toNat = n + 1 := ⟨size.toNat - 1, by omega⟩
  have hend : ∀ (k : Cache) (b : Block) (o r : Int),
      inode_read_loop h n k b 0 o r = .ok (r, b, k) := by
    intro k b o r
    cases n with
    | zero => simp [inode_read_loop]
    | succ m => simp [inode_read_loop]
  have key : ∀ m, m = n + 1 → inode_read_loop h m c buffer size offset 0 =
      .ok (size,
        buf_copy buffer 0
          ((logical c (word_at (words_of_bytes (logical c
            (root_entry c h.data.dbl_sect (offset / 65536).toNat)))
            (offset % 65536 / 512).toNat)).drop (offset % 512).toNat) size.toNat, c3) := by
    intro m hm
    subst hm
    rw [inode_read_loop_succ, if_pos h1, e2]
    simp only []
    rw [hchunk, if_neg (by omega), e3]
    simp only []
    rw [sub_self, hend, zero_add, hmod]
    unfold root_entry
    by_cases hfull : offset % 512 = 0 ∧ size = 512
    · rw [if_pos hfull, hfull.1, hfull.2]
      rfl
    · rw [if_neg hfull]
      rfl
  refine ⟨c3, ?_, inv3, fun t => (l3 t).trans (l2 t)⟩
  unfold inode_read_at
  rw [if_neg hs]
  exact key _ hn
/-- C22, as stated, fails: on `hole_device` the data entry for offset 0 of the 1000-byte
file is zero, and reading four bytes at offset 0 returns the bytes of device sector 0,
not zeros. -/
theorem hole_reads_sector_zero :
    data_entry hole_cache hole_handle.data.dbl_sect 0 0 = 0 ∧ (0 : Int) < hole_handle.length ∧
    (inode_read_at hole_cache hole_handle [0, 0, 0, 0] 4 0).toOption.map
      (fun r => (r.1, r.2.1)) = some (4, [9, 9, 9, 9]) := by
  decide!

/-- C22 (holes), amended. The code has no notion of a hole. For a handle other than the
free-map inode and a read that stays inside one sector of the file: when the level-1 data
entry selected by the offset is zero, `inode_read_at` returns the bytes of sector 0, the
zero entry being used as the sector number; when the root entry selected by the offset is
zero, it takes sector 0 for the indirect block and returns the bytes of the sector that
the selected entry of sector 0 names. -/
theorem hole_reads_follow_entry (c : Cache) (inv : CacheInv c) (h : inode) (buffer : Block)
    (size offset : Int) (hs : h.sector ≠ FREE_MAP_SECTOR) (h1 : 0 < size) (h0 : 0 ≤ offset)
    (hin : offset + size ≤ h.length) (hsec : offset % 512 + size ≤ 512)
    (hm : offset < MAX_FILE_SIZE) :
    (word_at (words_of_bytes (logical c
        (root_entry c h.data.dbl_sect (offset / 65536).toNat)))
        (offset % 65536 / 512).toNat = 0 →
      ∃ c1, inode_read_at c h buffer size offset =
        .ok (size,
          buf_copy buffer 0 ((logical c 0).drop (offset % 512).toNat) size.toNat, c1)) ∧
    (root_entry c h.data.dbl_sect (offset / 65536).toNat = 0 →
      ∃ c1, inode_read_at c h buffer size offset =
        .ok (size,
          buf_copy buffer 0
            ((logical c (word_at (words_of_bytes (logical c 0))
              (offset % 65536 / 512).toNat)).drop (offset % 512).toNat) size.toNat, c1)) := by
  obtain ⟨c1, e, _, _⟩ := inode_read_at_one_sector inv h buffer size offset hs h1 h0 hin hsec hm
  constructor
  · intro hz
    rw [hz] at e
    exact ⟨c1, e⟩
  · intro hz
    rw [hz] at e
    exact ⟨c1, e⟩

/-- Witness for C22: the four bytes at offset 0 of the file on `hole_device`, whose data
entry is zero. -/
theorem hole_reads_follow_entry_witness :
    CacheInv hole_cache ∧ hole_handle.sector ≠ FREE_MAP_SECTOR ∧ (0 : Int) < 4 ∧
    (0 : Int) ≤ 0 ∧ (0 : Int) + 4 ≤ hole_handle.length ∧ (0 : Int) % 512 + 4 ≤ 512 ∧
    (0 : Int) < MAX_FILE_SIZE ∧
    word_at (words_of_bytes (logical hole_cache
        (root_entry hole_cache hole_handle.data.dbl_sect ((0 : Int) / 65536).toNat)))
        ((0 : Int) % 65536 / 512).toNat = 0 ∧
    ((word_at (words_of_bytes (logical hole_cache
        (root_entry hole_cache hole_handle.data.dbl_sect ((0 : Int) / 65536).toNat)))
        ((0 : Int) % 65536 / 512).toNat = 0 →
      ∃ c1, inode_read_at hole_cache hole_handle [0, 0, 0, 0] 4 0 =
        .ok (4,
          buf_copy [0, 0, 0, 0] 0
            ((logical hole_cache 0).drop ((0 : Int) % 512).toNat) (4 : Int).toNat, c1)) ∧
    (root_entry hole_cache hole_handle.data.dbl_sect ((0 : Int) / 65536).toNat = 0 →
      ∃ c1, inode_read_at hole_cache hole_handle [0, 0, 0, 0] 4 0 =
        .ok (4,
          buf_copy [0, 0, 0, 0] 0
            ((logical hole_cache (word_at (words_of_bytes (logical hole_cache 0))
              ((0 : Int) % 65536 / 512).toNat)).drop ((0 : Int) % 512).toNat)
            (4 : Int).toNat, c1))) :=
  ⟨cache_init_inv _, by decide, by decide, by decide, by decide, by decide, by decide,
    by decide!,
    hole_reads_follow_entry hole_cache (cache_init_inv _) hole_handle [0, 0, 0, 0] 4 0
      (by decide) (by decide) (by decide) (by decide) (by decide) (by decide)⟩

/-! ## Claims about the clock hand -/

theorem cache_init_fields (c : Cache) :
    (cache_init c).clock_hand = 0 ∧
    ∀ i, i < MAX_CACHE_CAPACITY → ((cache_init c).cache_array i).valid = false :=
  ⟨rfl, fun i hi => by simp [cache_init, hi]⟩

theorem lookup_of_single {c : Cache} (h : Single c) {s : Nat} (ht : last_tag c = some s) :
    cache_lookup c s = some 0 ∧ ∀ t, t ≠ s → cache_lookup c t = none := by
  have hv : (c.cache_array 0).valid = true := by
    cases hb : (c.cache_array 0).valid
    · simp [last_tag, hb] at ht
    · rfl
  have hs : (c.cache_array 0).sector = s := by
    simpa [last_tag, hv] using ht
  constructor
  · apply cache_lookup_unique (by decide) hv hs
    intro j hj hne hvj
    rw [h.2 j (Nat.pos_of_ne_zero hne) hj] at hvj
    exact absurd hvj (by simp)
  · intro t ht2
    apply cache_lookup_none_of
    intro i hi hvi e
    by_cases h0 : i = 0
    · subst h0
      exact ht2 (e.symm.trans hs)
    · rw [h.2 i (Nat.pos_of_ne_zero h0) hi] at hvi
      exact absurd hvi (by simp)

/-- C31 (the clock hand advances): the code does not advance the hand. From every cache
state whose hand is in range, the hand rests on the entry `i` that `cache_access` returns,
which is never `(i + 1) mod 64`; when the scan clears the recency bit of the entry under
the hand it continues at position 0, whatever the position of the hand was; and two
consecutive read misses on different sectors in a freshly initialised cache are both
placed in entry 0, the second evicting the first. -/
theorem hand_does_not_advance (c : Cache) (hh : c.clock_hand < MAX_CACHE_CAPACITY)
    (s t : Nat) (hst : s ≠ t) :
    (∃ i c1, cache_access c = .ok (i, c1) ∧ c1.clock_hand = i ∧
      c1.clock_hand ≠ (i + 1) % MAX_CACHE_CAPACITY) ∧
    (clock_clear c).clock_hand = 0 ∧
    (∃ r1 c1 r2 c2, cache_read (cache_init c) s = .ok (r1, c1) ∧
      cache_read c1 t = .ok (r2, c2) ∧ cache_lookup c1 s = some 0 ∧
      cache_lookup c2 t = some 0 ∧ cache_lookup c2 s = none ∧
      c1.clock_hand = 0 ∧ c2.clock_hand = 0) := by
  refine ⟨?_, clock_clear_hand c hh, ?_⟩
  · obtain ⟨i, c1, _, e, p⟩ := cache_access_any hh
    refine ⟨i, c1, e, p.index.symm, ?_⟩
    rw [← p.index]
    have := p.lt
    unfold MAX_CACHE_CAPACITY at this ⊢
    omega
  · obtain ⟨h1, h2⟩ := cache_init_fields c
    obtain ⟨k1, t1⟩ := single_of_cold h1 h2
    obtain ⟨r1, c1, e1, k2, t2, _, _⟩ := cache_read_single k1 (s := s) (by rw [t1]; simp)
    obtain ⟨r2, c2, e2, k3, t3, _, _⟩ := cache_read_single k2 (s := t)
      (by rw [t2]; intro e; exact hst (Option.some.inj e))
    exact ⟨r1, c1, r2, c2, e1, e2, (lookup_of_single k2 t2).1, (lookup_of_single k3 t3).1,
      (lookup_of_single k3 t3).2 s hst, k2.1, k3.1⟩

/-- Witness for C31: the scan from the state whose entry 0 holds sector 7, and reads of the
sectors 1 and 2 after an initialisation. -/
theorem hand_does_not_advance_witness :
    demo_cache.clock_hand < MAX_CACHE_CAPACITY ∧ (1 : Nat) ≠ 2 ∧
    ((∃ i c1, cache_access demo_cache = .ok (i, c1) ∧ c1.clock_hand = i ∧
      c1.clock_hand ≠ (i + 1) % MAX_CACHE_CAPACITY) ∧
    (clock_clear demo_cache).clock_hand = 0 ∧
    (∃ r1 c1 r2 c2, cache_read (cache_init demo_cache) 1 = .ok (r1, c1) ∧
      cache_read c1 2 = .ok (r2, c2) ∧ cache_lookup c1 1 = some 0 ∧
      cache_lookup c2 2 = some 0 ∧ cache_lookup c2 1 = none ∧
      c1.clock_hand = 0 ∧ c2.clock_hand = 0)) :=
  ⟨(reachable_inv demo_cache_reachable).hand, by decide,
    hand_does_not_advance demo_cache (reachable_inv demo_cache_reachable).hand 1 2
      (by decide)⟩

/-! ## Claims about the bounds of the index lookups -/

/-- C33 (index lookups stay in bounds): the code indexes outside the root block. For every
handle and every offset with `0 ≤ offset ≤ length` below `MAX_FILE_SIZE` the translation
returns, both indices being below 128; but for every handle of length `MAX_FILE_SIZE` the
offset `MAX_FILE_SIZE` is accepted (`pos <= inode->length`), the root index it computes is
128, and `byte_to_sector` reads `dbl_block[128]`, as does every read of one or more bytes
that starts at the end of such a file. -/
theorem root_index_out_of_range (c : Cache) (inv : CacheInv c) (h : inode) (buffer : Block)
    (size : Int) (hs : h.sector ≠ FREE_MAP_SECTOR) (hlen : h.length = MAX_FILE_SIZE)
    (hsize : 0 < size) :
    (∀ pos : Int, 0 ≤ pos → pos < MAX_FILE_SIZE →
      pos / (512 * 128) < 128 ∧ pos % (512 * 128) / 512 < 128 ∧
      ∃ r, byte_to_sector c h pos = .ok r) ∧
    MAX_FILE_SIZE ≤ h.length ∧ MAX_FILE_SIZE.tdiv (512 * 128) = 128 ∧
    byte_to_sector c h MAX_FILE_SIZE = .error .out_of_bounds ∧
    inode_read_at c h buffer size MAX_FILE_SIZE = .error .out_of_bounds := by
  refine ⟨?_, by rw [hlen], by decide, byte_to_sector_full_file inv h hlen,
    inode_read_at_full_file inv h buffer size hs hlen hsize⟩
  intro pos h0 hm
  have hm2 : pos < 8388608 := hm
  obtain ⟨c2, e, _, _⟩ := byte_to_sector_ok inv h pos h0 (by rw [hlen]; exact le_of_lt hm) hm
  exact ⟨by omega, by omega, _, e⟩

/-- Witness for C33: the handle of maximum length and a read of one byte at its end. -/
theorem root_index_out_of_range_witness :
    CacheInv tree_fs.cache ∧ full_handle.sector ≠ FREE_MAP_SECTOR ∧
    full_handle.length = MAX_FILE_SIZE ∧ (0 : Int) < 1 ∧
    ((∀ pos : Int, 0 ≤ pos → pos < MAX_FILE_SIZE →
      pos / (512 * 128) < 128 ∧ pos % (512 * 128) / 512 < 128 ∧
      ∃ r, byte_to_sector tree_fs.cache full_handle pos = .ok r) ∧
    MAX_FILE_SIZE ≤ full_handle.length ∧ MAX_FILE_SIZE.tdiv (512 * 128) = 128 ∧
    byte_to_sector tree_fs.cache full_handle MAX_FILE_SIZE = .error .out_of_bounds ∧
    inode_read_at tree_fs.cache full_handle [0] 1 MAX_FILE_SIZE = .error .out_of_bounds) :=
  ⟨cache_init_inv _, by decide, rfl, by decide,
    root_index_out_of_range tree_fs.cache (cache_init_inv _) full_handle [0] 1 (by decide) rfl
      (by decide)⟩

/-! ## Claims about stale sectors and the reclaiming of an empty file -/

/-- C35 (new index blocks are zero-filled), evaluated on the code: two devices that differ
only in the content of the free sector 10, which the allocator hands out as the root index
block when the empty on-disk inode is resized to 1 byte. On the zeroed device the resize
makes three allocation requests and builds the tree 10, 11, 12; on the device whose
sector 10 holds `0A 00 00 00 ...` it makes one request and the stale entry is taken for
the level-1 block and for the data block. -/
theorem stale_index_block_changes_run :
    (∀ s, s ≠ 10 → stale_device s = zeros) ∧
    (demo_fs stale_device 100).free_map.supply = (demo_fs (fun _ => zeros) 100).free_map.supply ∧
    (resize_flag (inode_resize 2 (demo_fs (fun _ => zeros) 100) inode_disk.zero 1),
      resize_flag (inode_resize 2 (demo_fs stale_device 100) inode_disk.zero 1)) =
      (some true, some true) ∧
    ((resize_fs (demo_fs (fun _ => zeros) 100)
        (inode_resize 2 (demo_fs (fun _ => zeros) 100) inode_disk.zero 1)).free_map.calls,
      (resize_fs (demo_fs stale_device 100)
        (inode_resize 2 (demo_fs stale_device 100) inode_disk.zero 1)).free_map.calls) =
      (3, 1) ∧
    (root_entry (resize_fs (demo_fs (fun _ => zeros) 100)
        (inode_resize 2 (demo_fs (fun _ => zeros) 100) inode_disk.zero 1)).cache 10 0,
      root_entry (resize_fs (demo_fs stale_device 100)
        (inode_resize 2 (demo_fs stale_device 100) inode_disk.zero 1)).cache 10 0) =
      (11, 10) ∧
    (data_entry (resize_fs (demo_fs (fun _ => zeros) 100)
        (inode_resize 2 (demo_fs (fun _ => zeros) 100) inode_disk.zero 1)).cache 10 0 0,
      data_entry (resize_fs (demo_fs stale_device 100)
        (inode_resize 2 (demo_fs stale_device 100) inode_disk.zero 1)).cache 10 0 0) =
      (12, 10) := by
  refine ⟨fun s hs => by simp [stale_device, hs], rfl, ?_, ?_, ?_, ?_⟩ <;> decide!

/-- C36 (the gap reads as zeros), evaluated on the code: the empty file at sector 5 of
`gap_fs` is written with the one byte 7 at offset 5; the write returns 1, the length
becomes 6 and the data block is the free sector 12, which still holds the byte 9; reading
the six bytes of the file returns `9 9 9 9 9 7`: the gap holds the old content of the
sector. -/
theorem gap_reads_stale_bytes :
    (handle_of gap_fs.cache 5).sector ≠ FREE_MAP_SECTOR ∧
    (handle_of gap_fs.cache 5).deny_write_cnt = 0 ∧
    (handle_of gap_fs.cache 5).length = 0 ∧
    gap_fs.free_map.bits 12 = false ∧
    count_of (inode_write_at 2 gap_fs (handle_of gap_fs.cache 5) [7] 1 5) = some 1 ∧
    gap_written.1.length = 6 ∧
    (gap_written.1.data.dbl_sect, root_entry gap_written.2.cache 10 0,
      data_entry gap_written.2.cache 10 0 0) = (10, 11, 12) ∧
    (inode_read_at gap_written.2.cache gap_written.1 [0, 0, 0, 0, 0, 0] 6 0).toOption.map
      (fun r => (r.1, r.2.1)) = some (6, [9, 9, 9, 9, 9, 7]) := by
  decide!

/-- C37 (reclaiming a removed empty file), evaluated on the code: the empty file at sector
5 of `busy_device` (root index sector 0, length 0) is open once and removed; `inode_close`
returns after two device reads, of sector 0 and of the sector 4 that sector 0 names, and
the calls of `free_map_release` it has made are, the most recent first, for the sectors 5,
0, 4, 7, 6 and 5: sector 0 is read as an index block, the entries found through it are
released, and sector 0 itself is released. -/
theorem close_of_empty_file_releases_sector_zero :
    (inode_at busy_sys 100).map
      (fun h => (h.sector, h.open_cnt, h.removed, h.data.dbl_sect, h.length)) =
      some (5, 1, true, 0, 0) ∧
    busy_sys.fs.free_map.released = [] ∧
    fault_of (inode_close busy_sys (some 100)) = none ∧
    (st_of busy_sys (inode_close busy_sys (some 100))).fs.free_map.released =
      [5, 0, 4, 7, 6, 5] ∧
    (busy_sys.fs.cache.fs_device.read_cnt,
      (st_of busy_sys (inode_close busy_sys (some 100))).fs.cache.fs_device.read_cnt) =
      (1, 3) := by
  decide!

/-! ## Index blocks as they are written and read back -/

theorem words_chunk_encode (ws : List Nat) :
    words_chunk (bytes_of_words ws) = ws.map (fun w => w % 4294967296) := by
  induction ws with
  | nil => rfl
  | cons w ws ih =>
    have e : bytes_of_words (w :: ws) =
        w % 256 :: w / 256 % 256 :: w / 65536 % 256 :: w / 16777216 % 256 :: bytes_of_words ws :=
      rfl
    rw [e, words_chunk, ih, List.map_cons]
    congr 1
    omega

/-- Entry `x` of an array of 128 words, written to a sector and read back, is the entry
truncated to 32 bits. -/
theorem word_at_encode (ws : List Nat) (hl : ws.length = 128) (x : Nat) :
    word_at (words_of_bytes (bytes_of_words ws)) x = word_at ws x % 4294967296 := by
  have e : words_of_bytes (bytes_of_words ws) = ws.map (fun w => w % 4294967296) := by
    unfold words_of_bytes
    rw [words_chunk_encode, List.take_append_of_le_length (by rw [List.length_map, hl])]
    exact List.take_of_length_le (by rw [List.length_map, hl])
  rw [e]
  unfold word_at
  rw [List.getD_eq_getElem?_getD, List.getD_eq_getElem?_getD, List.getElem?_map]
  cases ws[x]? <;> rfl

theorem block_entry_lt (c : Cache) (t x : Nat) : block_entry c t x < 4294967296 := by
  unfold block_entry
  by_cases hx : x < 128
  · exact words_of_bytes_lt _ _ (word_at_mem _ x (by rw [words_of_bytes_length]; exact hx))
  · have : word_at (words_of_bytes (logical c t)) x = 0 := by
      unfold word_at
      rw [List.getD_eq_getElem?_getD, List.getElem?_eq_none (by
        rw [words_of_bytes_length]; omega)]
      rfl
    rw [this]; decide

theorem NoHoles.below {c : Cache} {R : Nat} {size size1 : Int} (h : NoHoles c R size)
    (hle : size1 ≤ size) : NoHoles c R size1 where
  root := fun h0 => h.root (by omega)
  roots := fun i hi hs => h.roots i hi (by omega)
  datas := fun i j hi hj hs => h.datas i j hi hj (by omega)

/-! ## Resize: the loops for every answer of the allocator -/

/-- The inner loop of `inode_resize`, whatever the allocator answers: it leaves the supply
alone, a false flag means that the last request made has failed, a non-zero entry that a
byte below `size` needs is kept, and when every such entry is non-zero no request is
made. -/
theorem resize_direct_any (size base : Int) :
    ∀ (n j : Nat) (fm : FreeMap) (blk : List Nat), blk.length = 128 → j + n ≤ 128 →
      ∃ flag fm1 blk1, resize_direct size base n j fm blk = (flag, fm1, blk1) ∧
        fm1.supply = fm.supply ∧ fm.calls ≤ fm1.calls ∧ blk1.length = 128 ∧
        (flag = false → fm.calls < fm1.calls ∧ fm1.supply (fm1.calls - 1) = none) ∧
        (∀ x : Nat, word_at blk x ≠ 0 → size > base + (x : Int) * 512 →
          word_at blk1 x = word_at blk x) ∧
        ((∀ x : Nat, j ≤ x → x < j + n → size > base + (x : Int) * 512 → word_at blk x ≠ 0) →
          flag = true ∧ fm1.calls = fm.calls)
  | 0, _, fm, blk, hl, _ =>
    ⟨true, fm, blk, rfl, rfl, Nat.le_refl _, hl, (fun h => by cases h), fun _ _ _ => rfl,
      fun _ => ⟨rfl, rfl⟩⟩
  | n + 1, j, fm, blk, hl, hj => by
    rw [resize_direct_succ]
    by_cases c1 : size ≤ base + (j : Int) * 512 ∧ word_at blk j ≠ 0
    · rw [if_pos c1]
      obtain ⟨flag, fm1, blk1, e, hs, hc, hl1, hf, hk, hfill⟩ :=
        resize_direct_any size base n (j + 1) (free_map_release fm (word_at blk j))
          (blk.set j 0) (by rw [List.length_set]; exact hl) (by omega)
      have hother : ∀ x, x ≠ j → word_at (blk.set j 0) x = word_at blk x :=
        fun x hx => word_at_set_other _ _ _ _ (fun h => hx h.symm)
      refine ⟨flag, fm1, blk1, e, hs, hc, hl1, hf, ?_, ?_⟩
      · intro x hnz hsz
        have hxj : x ≠ j := by
          intro e1; subst e1; omega
        rw [← hother x hxj]
        exact hk x (by rw [hother x hxj]; exact hnz) hsz
      · intro hall
        exact hfill (fun x h1 h2 h3 => by
          rw [hother x (by omega)]
          exact hall x (by omega) (by omega) h3)
    · rw [if_neg c1]
      by_cases c2 : size > base + (j : Int) * 512 ∧ word_at blk j = 0
      · rw [if_pos c2]
        rcases free_map_allocate_cases fm with ⟨s, ea, hsup⟩ | ⟨fm2, ea⟩
        · rw [ea]
          obtain ⟨flag, fm1, blk1, e, hs, hc, hl1, hf, hk, _⟩ :=
            resize_direct_any size base n (j + 1) (fm_alloc fm s) (blk.set j s)
              (by rw [List.length_set]; exact hl) (by omega)
          have hother : ∀ x, x ≠ j → word_at (blk.set j s) x = word_at blk x :=
            fun x hx => word_at_set_other _ _ _ _ (fun h => hx h.symm)
          have hc2 : fm.calls + 1 ≤ fm1.calls := hc
          refine ⟨flag, fm1, blk1, e, hs, by omega, hl1, ?_, ?_, ?_⟩
          · intro h
            obtain ⟨f1, f2⟩ := hf h
            have f3 : fm.calls + 1 < fm1.calls := f1
            exact ⟨by omega, f2⟩
          · intro x hnz hsz
            have hxj : x ≠ j := by
              intro e1; subst e1; exact hnz c2.2
            rw [← hother x hxj]
            exact hk x (by rw [hother x hxj]; exact hnz) hsz
          · intro hall
            exact absurd c2.2 (hall j (Nat.le_refl _) (by omega) c2.1)
        · rw [ea]
          have hfm : fm2 = { fm with calls := fm.calls + 1 } ∧ fm.supply fm.calls = none := by
            unfold free_map_allocate at ea
            cases hsup : fm.supply fm.calls with
            | none =>
              rw [hsup] at ea
              simp only [Prod.mk.injEq, true_and] at ea
              exact ⟨ea.symm, rfl⟩
            | some t => rw [hsup] at ea; simp at ea
          obtain ⟨h1, h2⟩ := hfm
          subst h1
          refine ⟨false, _, blk, rfl, rfl, Nat.le_succ _, hl, fun _ => ⟨Nat.lt_succ_self _, ?_⟩,
            fun _ _ _ => rfl, ?_⟩
          · exact h2
          · intro hall
            exact absurd c2.2 (hall j (Nat.le_refl _) (by omega) c2.1)
      · rw [if_neg c2]
        obtain ⟨flag, fm1, blk1, e, hs, hc, hl1, hf, hk, hfill⟩ :=
          resize_direct_any size base n (j + 1) fm blk hl (by omega)
        exact ⟨flag, fm1, blk1, e, hs, hc, hl1, hf, hk,
          fun hall => hfill (fun x h1 h2 h3 => hall x (by omega) (by omega) h3)⟩

/-- The body of the outer loop of `inode_resize` for entry `i`, whatever the allocator
answers: it returns; only the indirect block `S` is written, and in it every non-zero
entry that a byte below `size` needs is kept; when every such entry is non-zero no
allocation request is made. -/
theorem resize_body_any (size : Int) (i S : Nat) (fs : FS) (dbl : List Nat)
    (inv : CacheInv fs.cache) (len : dbl.length = 128) (here : word_at dbl i = S) :
    ∃ flag fs1 dbl1, resize_indirect_body size i S fs dbl = .ok (flag, fs1, dbl1) ∧
      CacheInv fs1.cache ∧ fs1.free_map.supply = fs.free_map.supply ∧
      fs.free_map.calls ≤ fs1.free_map.calls ∧ dbl1.length = 128 ∧
      (∀ x, x ≠ i → word_at dbl1 x = word_at dbl x) ∧
      (flag = false → fs.free_map.calls < fs1.free_map.calls ∧
        fs1.free_map.supply (fs1.free_map.calls - 1) = none) ∧
      (∀ t x : Nat, (t ≠ S ∨ (block_entry fs.cache t x ≠ 0 ∧
          size > (i : Int) * 128 * 512 + (x : Int) * 512)) →
        block_entry fs1.cache t x = block_entry fs.cache t x) ∧
      (S = 0 → ∀ t x : Nat, block_entry fs1.cache t x = block_entry fs.cache t x) ∧
      ((∀ x : Nat, x < 128 → size > (i : Int) * 128 * 512 + (x : Int) * 512 →
          block_entry fs.cache S x ≠ 0) →
        flag = true ∧ fs1.free_map.calls = fs.free_map.calls) := by
  have hS : word_at dbl i ≠ 0 → S = 0 → False := fun h1 h2 => h1 (here.trans h2)
  unfold resize_indirect_body
  by_cases c1 : word_at dbl i ≠ 0
  · rw [if_pos c1]
    obtain ⟨c2, e2, inv2, l2⟩ := cache_read_ok inv (word_at dbl i)
    obtain ⟨flag, fm2, blk1, ed, hs, hc, hl1, hf, hk, hfill⟩ :=
      resize_direct_any size ((i : Int) * 128 * 512) 128 0 fs.free_map
        (words_of_bytes (logical fs.cache (word_at dbl i))) (words_of_bytes_length _)
        (by omega)
    rw [e2]
    simp only []
    rw [ed]
    have hfill2 : (∀ x : Nat, x < 128 → size > (i : Int) * 128 * 512 + (x : Int) * 512 →
        block_entry fs.cache S x ≠ 0) → flag = true ∧ fm2.calls = fs.free_map.calls := by
      intro hall
      apply hfill
      intro x _ hx hsz
      have := hall x (by omega) hsz
      rw [← here] at this
      exact this
    cases flag with
    | false =>
      refine ⟨false, _, dbl, rfl, inv2, hs, hc, len, fun _ _ => rfl, hf, ?_,
        fun h0 => absurd h0 (hS c1), hfill2⟩
      intro t x _
      show word_at (words_of_bytes (logical c2 t)) x = _
      rw [l2]
      rfl
    | true =>
      obtain ⟨c3, e3, inv3, hw, hkeep⟩ := cache_write_ok inv2 S (bytes_of_words blk1)
      simp only []
      rw [e3]
      refine ⟨true, _, _, rfl, inv3, ?_, ?_, ?_, ?_, (fun h => by cases h), ?_,
        fun h0 => absurd h0 (hS c1), ?_⟩
      · show (if decide (size ≤ (i : Int) * 128 * 512 ∧ S ≠ 0) = true
          then free_map_release fm2 (word_at dbl i) else fm2).supply = _
        split_ifs
        · exact hs
        · exact hs
      · show _ ≤ (if decide (size ≤ (i : Int) * 128 * 512 ∧ S ≠ 0) = true
          then free_map_release fm2 (word_at dbl i) else fm2).calls
        split_ifs
        · exact hc
        · exact hc
      · show (if decide (size ≤ (i : Int) * 128 * 512 ∧ S ≠ 0) = true
          then dbl.set i 0 else dbl).length = 128
        split_ifs
        · rw [List.length_set]; exact len
        · exact len
      · intro x hx
        show word_at (if decide (size ≤ (i : Int) * 128 * 512 ∧ S ≠ 0) = true
          then dbl.set i 0 else dbl) x = _
        split_ifs
        · exact word_at_set_other _ _ _ _ (fun h => hx h.symm)
        · rfl
      · intro t x ht
        show word_at (words_of_bytes (logical c3 t)) x = block_entry fs.cache t x
        by_cases hts : t = S
        · subst hts
          rcases ht with ht | ⟨hnz, hsz⟩
          · exact absurd rfl ht
          · rw [hw, sector_copy_bytes_of_words blk1 hl1, word_at_encode blk1 hl1]
            have hb : word_at (words_of_bytes (logical fs.cache (word_at dbl i))) x =
                block_entry fs.cache t x := by rw [here]; rfl
            rw [hk x (by rw [hb]; exact hnz) hsz, hb]
            exact Nat.mod_eq_of_lt (block_entry_lt _ _ _)
        · rw [hkeep t hts, l2]
          rfl
      · intro hall
        obtain ⟨_, h2⟩ := hfill2 hall
        refine ⟨rfl, ?_⟩
        show (if decide (size ≤ (i : Int) * 128 * 512 ∧ S ≠ 0) = true
          then free_map_release fm2 (word_at dbl i) else fm2).calls = _
        split_ifs
        · exact h2
        · exact h2
  · rw [if_neg c1]
    exact ⟨true, fs, dbl, rfl, inv, rfl, Nat.le_refl _, len, fun _ _ => rfl,
      (fun h => by cases h), fun _ _ _ => rfl, fun _ _ _ => rfl, fun _ => ⟨rfl, rfl⟩⟩

theorem free_map_allocate_failed {fm fm1 : FreeMap} (h : free_map_allocate fm = (none, fm1)) :
    fm1.supply = fm.supply ∧ fm1.calls = fm.calls + 1 ∧ fm.supply fm.calls = none := by
  unfold free_map_allocate at h
  cases hsup : fm.supply fm.calls with
  | none =>
    rw [hsup] at h
    simp only [Prod.mk.injEq, true_and] at h
    subst h
    exact ⟨rfl, rfl, rfl⟩
  | some t => rw [hsup] at h; simp at h

/-- One iteration of the outer loop of `inode_resize`, whatever the allocator answers. -/
theorem resize_step_any (size : Int) (i : Nat) (fs : FS) (dbl : List Nat)
    (inv : CacheInv fs.cache) (len : dbl.length = 128) (hi : i < 128) :
    ∃ flag fs1 dbl1, resize_indirect_step size i fs dbl = .ok (flag, fs1, dbl1) ∧
      CacheInv fs1.cache ∧ fs1.free_map.supply = fs.free_map.supply ∧
      fs.free_map.calls ≤ fs1.free_map.calls ∧ dbl1.length = 128 ∧
      (∀ x, x ≠ i → word_at dbl1 x = word_at dbl x) ∧
      (flag = false → fs.free_map.calls < fs1.free_map.calls ∧
        fs1.free_map.supply (fs1.free_map.calls - 1) = none) ∧
      (word_at dbl i ≠ 0 → ∀ t x : Nat, (t ≠ word_at dbl i ∨ (block_entry fs.cache t x ≠ 0 ∧
          size > (i : Int) * 128 * 512 + (x : Int) * 512)) →
        block_entry fs1.cache t x = block_entry fs.cache t x) ∧
      (word_at dbl i = 0 → ∀ t x : Nat,
        (size > (i : Int) * 128 * 512 →
          ∀ s, fs.free_map.supply fs.free_map.calls = some s → t ≠ s) →
        block_entry fs1.cache t x = block_entry fs.cache t x) ∧
      ((size > (i : Int) * 128 * 512 → word_at dbl i ≠ 0) →
        (∀ x : Nat, x < 128 → size > (i : Int) * 128 * 512 + (x : Int) * 512 →
          block_entry fs.cache (word_at dbl i) x ≠ 0) →
        flag = true ∧ fs1.free_map.calls = fs.free_map.calls) := by
  unfold resize_indirect_step
  by_cases c : size > (i : Int) * 128 * 512 ∧ word_at dbl i = 0
  · rw [if_pos c]
    rcases free_map_allocate_cases fs.free_map with ⟨s, ea, hsup⟩ | ⟨fm2, ea⟩
    · rw [ea]
      simp only []
      obtain ⟨flag, fs1, dbl1, e, inv1, hs, hc, hl1, hd, hf, hk, _, _⟩ :=
        resize_body_any size i s { fs with free_map := fm_alloc fs.free_map s } (dbl.set i s)
          inv (by rw [List.length_set]; exact len)
          (word_at_set_same _ _ _ (by rw [len]; exact hi))
      have hc2 : fs.free_map.calls + 1 ≤ fs1.free_map.calls := hc
      refine ⟨flag, fs1, dbl1, e, inv1, hs, by omega, hl1, ?_, ?_, ?_, ?_, ?_⟩
      · intro x hx
        rw [hd x hx]
        exact word_at_set_other _ _ _ _ (fun h => hx h.symm)
      · intro h
        obtain ⟨f1, f2⟩ := hf h
        have f3 : fs.free_map.calls + 1 < fs1.free_map.calls := f1
        exact ⟨by omega, f2⟩
      · intro hnz
        exact absurd c.2 hnz
      · intro _ t x ht
        exact hk t x (Or.inl (ht c.1 s hsup))
      · intro h1
        exact absurd c.2 (h1 c.1)
    · rw [ea]
      obtain ⟨a1, a2, a3⟩ := free_map_allocate_failed ea
      refine ⟨false, _, dbl, rfl, inv, a1, ?_, len, fun _ _ => rfl, fun _ => ⟨?_, ?_⟩,
        fun _ _ _ _ => rfl, fun _ _ _ _ => rfl, fun h1 => absurd c.2 (h1 c.1)⟩
      · show fs.free_map.calls ≤ fm2.calls
        omega
      · show fs.free_map.calls < fm2.calls
        omega
      · show fm2.supply (fm2.calls - 1) = none
        rw [a1, a2]
        exact a3
  · rw [if_neg c]
    obtain ⟨flag, fs1, dbl1, e, inv1, hs, hc, hl1, hd, hf, hk, hz, hfill⟩ :=
      resize_body_any size i (word_at dbl i) fs dbl inv len rfl
    exact ⟨flag, fs1, dbl1, e, inv1, hs, hc, hl1, hd, hf, fun _ => hk,
      fun h0 t x _ => hz h0 t x, fun _ => hfill⟩

/-- The outer loop of `inode_resize` returns, whatever the allocator answers; a false flag
means that the last allocation request made has failed. -/
theorem resize_indirect_any (size : Int) :
    ∀ (n i : Nat) (fs : FS) (dbl : List Nat), CacheInv fs.cache → dbl.length = 128 →
      i + n ≤ 128 →
      ∃ flag fs1 dbl1, resize_indirect size n i fs dbl = .ok (flag, fs1, dbl1) ∧
        CacheInv fs1.cache ∧ fs1.free_map.supply = fs.free_map.supply ∧
        fs.free_map.calls ≤ fs1.free_map.calls ∧
        (flag = false → fs.free_map.calls < fs1.free_map.calls ∧
          fs1.free_map.supply (fs1.free_map.calls - 1) = none)
  | 0, _, fs, dbl, inv, _, _ =>
    ⟨true, fs, dbl, rfl, inv, rfl, Nat.le_refl _, fun h => by cases h⟩
  | n + 1, i, fs, dbl, inv, len, hi => by
    obtain ⟨flag, fs1, dbl1, e, inv1, hs, hc, hl1, _, hf, _, _, _⟩ :=
      resize_step_any size i fs dbl inv len (by omega)
    rw [resize_indirect, e]
    cases flag with
    | false => exact ⟨false, fs1, dbl1, rfl, inv1, hs, hc, hf⟩
    | true =>
      obtain ⟨flag2, fs2, dbl2, e2, inv2, hs2, hc2, hf2⟩ :=
        resize_indirect_any size n (i + 1) fs1 dbl1 inv1 hl1 (by omega)
      refine ⟨flag2, fs2, dbl2, e2, inv2, hs2.trans hs, Nat.le_trans hc hc2, fun h => ?_⟩
      obtain ⟨f1, f2⟩ := hf2 h
      exact ⟨by omega, f2⟩

/-- When every entry that a byte below `size` needs is non-zero, the outer loop of
`inode_resize` makes no allocation request and does not fail. -/
theorem resize_indirect_filled (size : Int) :
    ∀ (n i : Nat) (fs : FS) (dbl : List Nat), CacheInv fs.cache → dbl.length = 128 →
      i + n ≤ 128 →
      (∀ x : Nat, i ≤ x → x < 128 →
        (size > (x : Int) * 128 * 512 → word_at dbl x ≠ 0) ∧
        ∀ j : Nat, j < 128 → size > (x : Int) * 128 * 512 + (j : Int) * 512 →
          block_entry fs.cache (word_at dbl x) j ≠ 0) →
      ∃ fs1 dbl1, resize_indirect size n i fs dbl = .ok (true, fs1, dbl1) ∧
        CacheInv fs1.cache ∧ fs1.free_map.supply = fs.free_map.supply ∧
        fs1.free_map.calls = fs.free_map.calls
  | 0, _, fs, dbl, inv, _, _, _ => ⟨fs, dbl, rfl, inv, rfl, rfl⟩
  | n + 1, i, fs, dbl, inv, len, hi, hfull => by
    obtain ⟨flag, fs1, dbl1, e, inv1, hs, _, hl1, hd, _, hk1, hk2, hfill⟩ :=
      resize_step_any size i fs dbl inv len (by omega)
    obtain ⟨h1, h2⟩ := hfull i (Nat.le_refl _) (by omega)
    obtain ⟨hflag, hcalls⟩ := hfill h1 h2
    subst hflag
    have hnext : ∀ x : Nat, i + 1 ≤ x → x < 128 →
        (size > (x : Int) * 128 * 512 → word_at dbl1 x ≠ 0) ∧
        ∀ j : Nat, j < 128 → size > (x : Int) * 128 * 512 + (j : Int) * 512 →
          block_entry fs1.cache (word_at dbl1 x) j ≠ 0 := by
      intro x hx hx2
      obtain ⟨g1, g2⟩ := hfull x (by omega) hx2
      rw [hd x (by omega)]
      refine ⟨g1, fun j hj hsz => ?_⟩
      have hsame : block_entry fs1.cache (word_at dbl x) j =
          block_entry fs.cache (word_at dbl x) j := by
        by_cases hz : word_at dbl i = 0
        · exact hk2 hz _ _ (fun hgt => absurd hz (h1 hgt))
        · exact hk1 hz _ _ (Or.inr ⟨g2 j hj hsz, by omega⟩)
      rw [hsame]
      exact g2 j hj hsz
    obtain ⟨fs2, dbl2, e2, inv2, hs2, hc2⟩ :=
      resize_indirect_filled size n (i + 1) fs1 dbl1 inv1 hl1 (by omega) hnext
    refine ⟨fs2, dbl2, ?_, inv2, hs2.trans hs, hc2.trans hcalls⟩
    rw [resize_indirect, e]
    exact e2

/-- While a resize to `size` runs on a tree without holes below `len0 ≤ size`, whose
indirect blocks are distinct and which the allocator never hands out, the root block on
the device and the entries below `len0` of its indirect blocks stay as they are, whether
the loop completes or an allocation fails. -/
theorem resize_indirect_keeps (size len0 : Int) (R : Nat) (orig : List Nat)
    (hle : len0 ≤ size)
    (shape1 : ∀ x, x < 128 → word_at orig x ≠ 0 → word_at orig x ≠ R)
    (shape2 : ∀ x y, x < 128 → y < 128 → x ≠ y → word_at orig x ≠ 0 →
      word_at orig x ≠ word_at orig y) :
    ∀ (n i : Nat) (fs : FS) (dbl : List Nat) (flag : Bool) (fs1 : FS) (dbl1 : List Nat),
      CacheInv fs.cache → dbl.length = 128 → i + n ≤ 128 →
      (∀ x, i ≤ x → x < 128 → word_at dbl x = word_at orig x) →
      (∀ x, block_entry fs.cache R x = word_at orig x) →
      (∀ x j : Nat, x < 128 → j < 128 → word_at orig x ≠ 0 →
        len0 > (x : Int) * 128 * 512 + (j : Int) * 512 →
        block_entry fs.cache (word_at orig x) j ≠ 0) →
      (∀ k s, fs.free_map.calls ≤ k → fs.free_map.supply k = some s →
        ¬ IndexSector R orig s) →
      resize_indirect size n i fs dbl = .ok (flag, fs1, dbl1) →
      (∀ x, block_entry fs1.cache R x = word_at orig x) ∧
      (∀ x j : Nat, x < 128 → j < 128 → word_at orig x ≠ 0 →
        len0 > (x : Int) * 128 * 512 + (j : Int) * 512 →
        block_entry fs1.cache (word_at orig x) j ≠ 0)
  | 0, _, fs, dbl, flag, fs1, dbl1, _, _, _, _, hroot, hkept, _, e => by
    simp only [resize_indirect, Except.ok.injEq, Prod.mk.injEq] at e
    obtain ⟨_, e1, _⟩ := e
    subst e1
    exact ⟨hroot, hkept⟩
  | n + 1, i, fs, dbl, flag, fs1, dbl1, inv, len, hi, hrest, hroot, hkept, hfresh, e => by
    obtain ⟨flag2, fs2, dbl2, e2, inv2, hs, hc, hl2, hd, _, hk1, hk2, _⟩ :=
      resize_step_any size i fs dbl inv len (by omega)
    have hi2 : i < 128 := by omega
    have hdi : word_at dbl i = word_at orig i := hrest i (Nat.le_refl _) hi2
    -- every entry of the root and every entry below `len0` is as before the step
    have hsame : ∀ t x : Nat, (t = R ∨ ∃ y, y < 128 ∧ word_at orig y ≠ 0 ∧ t = word_at orig y ∧
          x < 128 ∧ len0 > (y : Int) * 128 * 512 + (x : Int) * 512) →
        block_entry fs2.cache t x = block_entry fs.cache t x := by
      intro t x ht
      by_cases hz : word_at dbl i = 0
      · apply hk2 hz
        intro _ s hsup hts
        have hidx := hfresh _ s (Nat.le_refl _) hsup
        rcases ht with ht | ⟨y, hy, _, hty, _, _⟩
        · exact hidx (Or.inl (hts.symm.trans ht))
        · exact hidx (Or.inr ⟨y, hy, hts.symm.trans hty⟩)
      · apply hk1 hz
        have hoi : word_at orig i ≠ 0 := by rw [← hdi]; exact hz
        rcases ht with ht | ⟨y, hy, hnz, hty, hx, hlen⟩
        · left
          rw [ht, hdi]
          exact (shape1 i hi2 hoi).symm
        · by_cases hyi : y = i
          · subst hyi
            right
            refine ⟨?_, by omega⟩
            rw [hty]
            exact hkept y x hy hx hnz hlen
          · left
            rw [hty, hdi]
            exact shape2 y i hy hi2 hyi hnz
    have hroot2 : ∀ x, block_entry fs2.cache R x = word_at orig x := by
      intro x
      rw [hsame R x (Or.inl rfl)]
      exact hroot x
    have hkept2 : ∀ x j : Nat, x < 128 → j < 128 → word_at orig x ≠ 0 →
        len0 > (x : Int) * 128 * 512 + (j : Int) * 512 →
        block_entry fs2.cache (word_at orig x) j ≠ 0 := by
      intro x j hx hj hnz hlen
      rw [hsame _ j (Or.inr ⟨x, hx, hnz, rfl, hj, hlen⟩)]
      exact hkept x j hx hj hnz hlen
    rw [resize_indirect, e2] at e
    cases flag2 with
    | false =>
      simp only [Except.ok.injEq, Prod.mk.injEq] at e
      obtain ⟨_, e1, _⟩ := e
      subst e1
      exact ⟨hroot2, hkept2⟩
    | true =>
      exact resize_indirect_keeps size len0 R orig hle shape1 shape2 n (i + 1) fs2 dbl2 flag
        fs1 dbl1 inv2 hl2 (by omega)
        (fun x hx hx2 => by rw [hd x (by omega)]; exact hrest x (by omega) hx2)
        hroot2 hkept2
        (fun k s hk hsup => hfresh k s (Nat.le_trans hc hk) (by rw [← hs]; exact hsup)) e

/-! ## Resize on a tree without holes -/

/-- A resize to a size below which the tree has no hole makes no allocation request and
returns true. -/
theorem inode_resize_filled (fuel : Nat) (fs : FS) (id : inode_disk) (size : Int)
    (inv : CacheInv fs.cache) (h0 : 0 ≤ size) (hmax : size ≤ MAX_FILE_SIZE)
    (tree : NoHoles fs.cache id.dbl_sect size) :
    ∃ id1 fs1, inode_resize (fuel + 1) fs id size = .ok (true, id1, fs1) ∧
      CacheInv fs1.cache ∧ fs1.free_map.calls = fs.free_map.calls ∧
      fs1.free_map.supply = fs.free_map.supply := by
  by_cases c0 : id.dbl_sect = 0 ∧ size = 0
  · refine ⟨id, fs, ?_, inv, rfl, rfl⟩
    rw [inode_resize, if_neg (not_not.mpr hmax), if_pos c0]
  · have hR : id.dbl_sect ≠ 0 := by
      intro e
      have hs : size ≠ 0 := fun e2 => c0 ⟨e, e2⟩
      exact tree.root (by omega) e
    obtain ⟨c2, e2, inv2, l2⟩ := cache_read_ok inv id.dbl_sect
    obtain ⟨fs3, dbl3, e3, inv3, hs3, hc3⟩ := resize_indirect_filled size 128 0
      { cache := c2, free_map := fs.free_map } (words_of_bytes (logical fs.cache id.dbl_sect))
      inv2 (words_of_bytes_length _) (by omega)
      (fun x _ hx => ⟨fun hsz => tree.roots x hx hsz, fun j hj hsz => by
        have := tree.datas x j hx hj hsz
        unfold block_entry at this ⊢
        rw [l2]
        exact this⟩)
    obtain ⟨c4, e4, inv4, _⟩ := cache_write_ok inv3 id.dbl_sect (bytes_of_words dbl3)
    refine ⟨{ id with length := size }, { fs3 with cache := c4 }, ?_, inv4, hc3, hs3⟩
    rw [inode_resize_go fuel fs id size hmax c0]
    simp only [if_neg hR, e2, e3, e4]

theorem no_holes_zero (c : Cache) (R : Nat) : NoHoles c R 0 where
  root := fun h => absurd h (by omega)
  roots := fun i _ h => absurd h (by omega)
  datas := fun i j _ _ h => absurd h (by omega)

/-- A resize of a tree without holes below its length to a greater size returns within one
level of recursion, whatever the allocator answers as long as it never hands out an index
sector of the tree: when it returns false, the last allocation request made is the one
that failed, so the compensating call has made none. -/
theorem inode_resize_compensated (fs : FS) (id : inode_disk) (size : Int)
    (inv : CacheInv fs.cache) (tree : NoHoles fs.cache id.dbl_sect id.length)
    (h0 : 0 ≤ id.length) (hlen : id.length ≤ size) (hmax : size ≤ MAX_FILE_SIZE)
    (shape : TreeShape fs.cache id.dbl_sect)
    (fresh : ∀ k s, fs.free_map.calls ≤ k → fs.free_map.supply k = some s →
      ¬ IndexSector id.dbl_sect (words_of_bytes (logical fs.cache id.dbl_sect)) s) :
    ∃ b id1 fs1, inode_resize 2 fs id size = .ok (b, id1, fs1) ∧
      (b = false → fs.free_map.calls < fs1.free_map.calls ∧
        fs1.free_map.supply (fs1.free_map.calls - 1) = none) := by
  by_cases c0 : id.dbl_sect = 0 ∧ size = 0
  · refine ⟨true, id, fs, ?_, fun h => by cases h⟩
    rw [inode_resize, if_neg (not_not.mpr hmax), if_pos c0]
  · rw [inode_resize_go 1 fs id size hmax c0]
    by_cases hR : id.dbl_sect = 0
    · have hzero : id.length = 0 := by
        by_contra hne
        exact tree.root (by omega) hR
      rcases free_map_allocate_cases fs.free_map with ⟨s, ea, hsup⟩ | ⟨fm2, ea⟩
      · obtain ⟨c2, e2, inv2, l2⟩ := cache_read_ok inv s
        obtain ⟨flag, fs3, dbl3, e3, inv3, hs3, hc3, hf3⟩ := resize_indirect_any size 128 0
          { cache := c2, free_map := fm_alloc fs.free_map s }
          (words_of_bytes (logical fs.cache s)) inv2 (words_of_bytes_length _) (by omega)
        have hc : fs.free_map.calls + 1 ≤ fs3.free_map.calls := hc3
        cases flag with
        | true =>
          obtain ⟨c4, e4, _, _⟩ := cache_write_ok inv3 s (bytes_of_words dbl3)
          simp only [if_pos hR, ea, e2, e3, e4]
          exact ⟨true, _, _, rfl, fun h => by cases h⟩
        | false =>
          obtain ⟨id4, fs4, e4, _, hc4, hs4⟩ := inode_resize_filled 0 fs3
            { id with dbl_sect := s } id.length inv3 h0 (le_trans hlen hmax)
            (by rw [hzero]; exact no_holes_zero _ _)
          obtain ⟨f1, f2⟩ := hf3 rfl
          have f3 : fs.free_map.calls + 1 < fs3.free_map.calls := f1
          simp only [if_pos hR, ea, e2, e3]
          rw [e4]
          exact ⟨false, id4, fs4, rfl, fun _ => ⟨by omega, by rw [hs4, hc4]; exact f2⟩⟩
      · obtain ⟨a1, a2, a3⟩ := free_map_allocate_failed ea
        simp only [if_pos hR, ea]
        refine ⟨false, id, { fs with free_map := fm2 }, rfl, fun _ => ⟨?_, ?_⟩⟩
        · show fs.free_map.calls < fm2.calls
          omega
        · show fm2.supply (fm2.calls - 1) = none
          rw [a1, a2]
          exact a3
    · obtain ⟨c2, e2, inv2, l2⟩ := cache_read_ok inv id.dbl_sect
      obtain ⟨flag, fs3, dbl3, e3, inv3, hs3, hc3, hf3⟩ := resize_indirect_any size 128 0
        { cache := c2, free_map := fs.free_map }
        (words_of_bytes (logical fs.cache id.dbl_sect)) inv2 (words_of_bytes_length _)
        (by omega)
      cases flag with
      | true =>
        obtain ⟨c4, e4, _, _⟩ := cache_write_ok inv3 id.dbl_sect (bytes_of_words dbl3)
        simp only [if_neg hR, e2, e3, e4]
        exact ⟨true, _, _, rfl, fun h => by cases h⟩
      | false =>
        have hb : ∀ t x, block_entry c2 t x = block_entry fs.cache t x := by
          intro t x
          unfold block_entry
          rw [l2]
        obtain ⟨k1, k2⟩ := resize_indirect_keeps size id.length id.dbl_sect
          (words_of_bytes (logical fs.cache id.dbl_sect)) hlen
          (fun x hx hnz => shape.1 x hx hnz)
          (fun x y hx hy hxy hnz => shape.2 x y hx hy hxy hnz)
          128 0 { cache := c2, free_map := fs.free_map }
          (words_of_bytes (logical fs.cache id.dbl_sect)) false fs3 dbl3 inv2
          (words_of_bytes_length _) (by omega) (fun _ _ _ => rfl)
          (fun x => hb _ x)
          (fun x j hx hj _ hsz => by
            have := tree.datas x j hx hj hsz
            rw [hb]
            exact this)
          fresh e3
        have tree3 : NoHoles fs3.cache id.dbl_sect id.length := by
          refine ⟨fun _ => hR, fun i hi hsz => ?_, fun i j hi hj hsz => ?_⟩
          · rw [k1]
            exact tree.roots i hi hsz
          · rw [k1]
            exact k2 i j hi hj (tree.roots i hi (by omega)) hsz
        obtain ⟨id4, fs4, e4, _, hc4, hs4⟩ := inode_resize_filled 0 fs3 id id.length inv3 h0
          (le_trans hlen hmax) tree3
        obtain ⟨f1, f2⟩ := hf3 rfl
        have f3 : fs.free_map.calls < fs3.free_map.calls := f1
        simp only [if_neg hR, e2, e3]
        rw [e4]
        exact ⟨false, id4, fs4, rfl, fun _ => ⟨by omega, by rw [hs4, hc4]; exact f2⟩⟩

theorem tree_no_holes : NoHoles tree_fs.cache 3 1000 := by
  have e0 : block_entry tree_fs.cache 3 0 = 4 := tree_root_entry 0
  refine ⟨fun _ => by decide, fun i _ hsz => ?_, fun i j _ _ hsz => ?_⟩
  · have hi : i = 0 := by omega
    subst hi
    rw [e0]
    decide
  · have hi : i = 0 := by omega
    subst hi
    rw [e0]
    have hj : j = 0 ∨ j = 1 := by omega
    rcases hj with hj | hj <;> subst hj <;> decide!

theorem scarce_tree_fresh : ∀ k s, scarce_tree_fs.free_map.calls ≤ k →
    scarce_tree_fs.free_map.supply k = some s →
    ¬ IndexSector tree_id.dbl_sect
      (words_of_bytes (logical scarce_tree_fs.cache tree_id.dbl_sect)) s := by
  intro k s _ hsup
  have hs : s = 10 := by
    have : (if k < 1 then some (10 + k) else none) = some s := hsup
    split_ifs at this with hk
    · have hk0 : k = 0 := by omega
      subst hk0
      exact (Option.some.inj this).symm
  subst hs
  have hw : words_of_bytes (logical scarce_tree_fs.cache tree_id.dbl_sect) =
      4 :: List.replicate 127 0 := tree_root_words
  rw [hw]
  rintro (h | ⟨x, _, hx⟩)
  · exact absurd h (by decide)
  · cases x with
    | zero => exact absurd hx (by decide)
    | succ y =>
      have : word_at (4 :: List.replicate 127 0) (y + 1) = 0 := word_at_replicate_zero 127 y
      rw [this] at hx
      exact absurd hx (by decide)

/-! ## Claims about offset translation and shrinking -/

/-- C32 (index arithmetic of offset translation). For every handle whose tree has no hole
below its length and every offset with `0 ≤ offset < length ≤ MAX_FILE_SIZE`,
`byte_to_sector` returns entry `j` of the level-1 block named by entry `i` of the root
index block, where `i = offset / (128 * 512)` and `j = (offset mod (128 * 512)) / 512`;
both are below 128 and `128 * i + j = offset / 512`, so that block `k` of the file is at
position `(k / 128, k mod 128)`; the sector returned is non-zero. -/
theorem offset_translation_indices (c : Cache) (inv : CacheInv c) (h : inode) (offset : Int)
    (tree : NoHoles c h.data.dbl_sect h.length) (h0 : 0 ≤ offset) (hlt : offset < h.length)
    (hmax : h.length ≤ MAX_FILE_SIZE) :
    ∃ c1, byte_to_sector c h offset =
        .ok (block_entry c (block_entry c h.data.dbl_sect (offset / (128 * 512)).toNat)
          (offset % (128 * 512) / 512).toNat, c1) ∧
      (offset / (128 * 512)).toNat < 128 ∧ (offset % (128 * 512) / 512).toNat < 128 ∧
      128 * (offset / (128 * 512)).toNat + (offset % (128 * 512) / 512).toNat =
        (offset / 512).toNat ∧
      (offset / (128 * 512)).toNat = (offset / 512).toNat / 128 ∧
      (offset % (128 * 512) / 512).toNat = (offset / 512).toNat % 128 ∧
      block_entry c (block_entry c h.data.dbl_sect (offset / (128 * 512)).toNat)
        (offset % (128 * 512) / 512).toNat ≠ 0 ∧
      data_entry c h.data.dbl_sect (offset / (128 * 512)).toNat
          (offset % (128 * 512) / 512).toNat =
        block_entry c (block_entry c h.data.dbl_sect (offset / (128 * 512)).toNat)
          (offset % (128 * 512) / 512).toNat ∧
      ∀ t, logical c1 t = logical c t := by
  have hm : h.length ≤ 8388608 := hmax
  have e : (128 : Int) * 512 = 65536 := by norm_num
  rw [e]
  obtain ⟨c1, e1, _, l1⟩ := byte_to_sector_ok inv h offset h0 (le_of_lt hlt)
    (lt_of_lt_of_le hlt hmax)
  have hi : ((offset / 65536).toNat : Int) = offset / 65536 :=
    Int.toNat_of_nonneg (by omega)
  have hj : ((offset % 65536 / 512).toNat : Int) = offset % 65536 / 512 :=
    Int.toNat_of_nonneg (by omega)
  have hk : ((offset / 512).toNat : Int) = offset / 512 := Int.toNat_of_nonneg (by omega)
  have hi2 : (offset / 65536).toNat < 128 := by omega
  have hj2 : (offset % 65536 / 512).toNat < 128 := by omega
  have hroot : block_entry c h.data.dbl_sect (offset / 65536).toNat ≠ 0 :=
    tree.roots _ hi2 (by omega)
  refine ⟨c1, e1, hi2, hj2, by omega, by omega, by omega,
    tree.datas _ _ hi2 hj2 (by omega), ?_, l1⟩
  have hroot2 : root_entry c h.data.dbl_sect (offset / 65536).toNat ≠ 0 := hroot
  unfold data_entry
  rw [if_neg hroot2]
  rfl

/-- Witness for C32: offset 600 of the 1000-byte file on `tree_device` is in block 1, found
at position (0, 1) of the tree. -/
theorem offset_translation_indices_witness :
    CacheInv tree_fs.cache ∧ NoHoles tree_fs.cache tree_handle.data.dbl_sect tree_handle.length ∧
    (0 : Int) ≤ 600 ∧ (600 : Int) < tree_handle.length ∧
    tree_handle.length ≤ MAX_FILE_SIZE ∧
    block_entry tree_fs.cache (block_entry tree_fs.cache tree_handle.data.dbl_sect 0) 1 = 7 ∧
    ∃ c1, byte_to_sector tree_fs.cache tree_handle 600 =
        .ok (block_entry tree_fs.cache
          (block_entry tree_fs.cache tree_handle.data.dbl_sect ((600 : Int) / (128 * 512)).toNat)
          ((600 : Int) % (128 * 512) / 512).toNat, c1) ∧
      ((600 : Int) / (128 * 512)).toNat < 128 ∧ ((600 : Int) % (128 * 512) / 512).toNat < 128 ∧
      128 * ((600 : Int) / (128 * 512)).toNat + ((600 : Int) % (128 * 512) / 512).toNat =
        ((600 : Int) / 512).toNat ∧
      ((600 : Int) / (128 * 512)).toNat = ((600 : Int) / 512).toNat / 128 ∧
      ((600 : Int) % (128 * 512) / 512).toNat = ((600 : Int) / 512).toNat % 128 ∧
      block_entry tree_fs.cache
        (block_entry tree_fs.cache tree_handle.data.dbl_sect ((600 : Int) / (128 * 512)).toNat)
        ((600 : Int) % (128 * 512) / 512).toNat ≠ 0 ∧
      data_entry tree_fs.cache tree_handle.data.dbl_sect ((600 : Int) / (128 * 512)).toNat
          ((600 : Int) % (128 * 512) / 512).toNat =
        block_entry tree_fs.cache
          (block_entry tree_fs.cache tree_handle.data.dbl_sect
            ((600 : Int) / (128 * 512)).toNat)
          ((600 : Int) % (128 * 512) / 512).toNat ∧
      ∀ t, logical c1 t = logical tree_fs.cache t :=
  ⟨cache_init_inv _, tree_no_holes, by decide, by decide, by decide, by decide!,
    offset_translation_indices tree_fs.cache (cache_init_inv _) tree_handle 600 tree_no_holes
      (by decide) (by decide) (by decide)⟩

/-- C34 (shrinking never allocates). For every on-disk inode whose tree has no hole below
its length, with `length ≤ MAX_FILE_SIZE`: `inode_resize` to any `new_length` with
`0 ≤ new_length ≤ length` returns true without a call of the allocator's allocate
operation, whatever the allocator would answer. In particular, when the index sectors of the
tree are distinct and the allocator never hands one of them out, a resize to a greater size
returns within one level of recursion, and when it returns false the last allocation
request made is the one that failed: the compensating call has made none and has not
failed. -/
theorem shrinking_never_allocates (fs : FS) (id : inode_disk) (new_length size : Int)
    (inv : CacheInv fs.cache) (tree : NoHoles fs.cache id.dbl_sect id.length)
    (h0 : 0 ≤ new_length) (hle : new_length ≤ id.length) (hmax : id.length ≤ MAX_FILE_SIZE)
    (shape : TreeShape fs.cache id.dbl_sect)
    (fresh : ∀ k s, fs.free_map.calls ≤ k → fs.free_map.supply k = some s →
      ¬ IndexSector id.dbl_sect (words_of_bytes (logical fs.cache id.dbl_sect)) s)
    (hgrow : id.length ≤ size) (hsize : size ≤ MAX_FILE_SIZE) :
    (∀ fuel, ∃ id1 fs1, inode_resize (fuel + 1) fs id new_length = .ok (true, id1, fs1) ∧
      fs1.free_map.calls = fs.free_map.calls) ∧
    (∃ b id1 fs1, inode_resize 2 fs id size = .ok (b, id1, fs1) ∧
      (b = false → fs.free_map.calls < fs1.free_map.calls ∧
        fs1.free_map.supply (fs1.free_map.calls - 1) = none)) := by
  constructor
  · intro fuel
    obtain ⟨id1, fs1, e, _, hc, _⟩ := inode_resize_filled fuel fs id new_length inv h0
      (le_trans hle hmax) (tree.below hle)
    exact ⟨id1, fs1, e, hc⟩
  · exact inode_resize_compensated fs id size inv tree (le_trans h0 hle) hgrow hsize shape fresh

/-- Witness for C34: the 1000-byte file on `tree_device` with one free sector left is cut
to 100 bytes, and grown to 2000 bytes, which fails at the second of the two data blocks it
needs. -/
theorem shrinking_never_allocates_witness :
    CacheInv scarce_tree_fs.cache ∧
    NoHoles scarce_tree_fs.cache tree_id.dbl_sect tree_id.length ∧
    (0 : Int) ≤ 100 ∧ (100 : Int) ≤ tree_id.length ∧ tree_id.length ≤ MAX_FILE_SIZE ∧
    TreeShape scarce_tree_fs.cache tree_id.dbl_sect ∧
    tree_id.length ≤ 2000 ∧ (2000 : Int) ≤ MAX_FILE_SIZE ∧
    resize_flag (inode_resize 2 scarce_tree_fs tree_id 2000) = some false ∧
    (resize_fs scarce_tree_fs (inode_resize 2 scarce_tree_fs tree_id 2000)).free_map.calls = 2 ∧
    ((∀ fuel, ∃ id1 fs1, inode_resize (fuel + 1) scarce_tree_fs tree_id 100 =
        .ok (true, id1, fs1) ∧ fs1.free_map.calls = scarce_tree_fs.free_map.calls) ∧
    (∃ b id1 fs1, inode_resize 2 scarce_tree_fs tree_id 2000 = .ok (b, id1, fs1) ∧
      (b = false → scarce_tree_fs.free_map.calls < fs1.free_map.calls ∧
        fs1.free_map.supply (fs1.free_map.calls - 1) = none))) :=
  ⟨cache_init_inv _, tree_no_holes, by decide, by decide, by decide, tree_shape, by decide,
    by decide, by decide!, by decide!,
    shrinking_never_allocates scarce_tree_fs tree_id 100 2000 (cache_init_inv _)
      tree_no_holes (by decide) (by decide) (by decide) tree_shape scarce_tree_fresh
      (by decide) (by decide)⟩

/-! ## Resize: a run depends on the answers to its own requests only -/

end PintOS
